import Mathlib

/-!
# Serializer: a shallow embedding of `Serializer.h`

The header is a C++ template library: every operation is selected at compile time from the
*type* of the value (`priority_type<T>()`), and then runs on the value.  The embedding
represents C++ types by the codes of `Ty`, values by `Val`, and every template by a Lean
function taking the type code as an argument.

Platform assumptions (LP64): `size_t` and every container `size_type` are 8 bytes wide,
`PTRDIFF_MAX = 2^63 - 1`.  The host byte order is a field of `Config`.

Arithmetic scalars are the integral types (width 1, 2, 4 or 8 bytes, signed or unsigned).
Floating-point scalars are outside the embedding: the source classifies them as `Arithmetic` and
copies them like integers under the host byte order; under the other byte order `reorder`
applies `<<`, `&` and `>>` to them, so neither `serialize` nor `deserialize` compiles for them.

Of the associative containers the type codes have `std::set`.  `std::multiset`, `std::map`,
`std::multimap` and the unordered containers are `Iterable` as well and run the same
`byte_size`, `append` and `take` specialisations, each with its own `insert`; the decoders of
`std::multiset` and `std::map` are given as instances of that specialisation (`take_multiset`,
`take_map`), the unordered containers, whose iteration order is unspecified, are not.
-/

namespace Serializer

/-! ## Configuration -/

/-- Byte order of serialized variables (`enum ByteOrder`).  `Host` and `Network` are aliases in
the source; `Host` is the field `Config.Host`, `Network` is `BigEndian`. -/
inductive ByteOrder where
  | LittleEndian
  | BigEndian
deriving DecidableEq, Repr

/-- Alias `Network = BigEndian` of the source. -/
def Network : ByteOrder := ByteOrder.BigEndian

/-- An integral type: signedness and `sizeof`. -/
structure IntType where
  signed : Bool
  bytes : Nat
deriving DecidableEq, Repr

/-- The template parameters of `Serializer<order, sizeT>` together with the platform's host byte
order.  `sizeT = none` is `void`. -/
structure Config where
  Host : ByteOrder
  order : ByteOrder
  sizeT : Option IntType
deriving DecidableEq, Repr

/-- The `sizeof` of `size_t` and of every container's `size_type` (LP64). -/
def size_t_bytes : Nat := 8

/-- Largest object size, `PTRDIFF_MAX` (LP64). -/
def PTRDIFF_MAX : Nat := 2 ^ 63 - 1

/-- Modulus of `size_t` arithmetic. -/
def SIZE_MOD : Nat := 2 ^ (8 * size_t_bytes)

/-- The `static_assert`s of `size_type<T, sizeT1>` for a container whose natural size type is
`size_t`: with `sizeT = void` the specialisation without assertions is chosen; otherwise
`sizeof(sizeT1) >= sizeof(T)` is required (the integrality assertions hold for every
`IntType`). -/
def size_type_ok (cfg : Config) : Bool :=
  match cfg.sizeT with
  | none => true
  | some t => decide (size_t_bytes ≤ t.bytes)

/-- The type `size_type_t<T>` for a container whose natural size type is `size_t`. -/
def size_type_t (cfg : Config) : IntType :=
  match cfg.sizeT with
  | none => ⟨false, size_t_bytes⟩
  | some t => t

/-! ## Types and values -/

/-- Type of values recognized by serializer (`enum ValueType`). -/
inductive ValueType where
  | Optimized
  | Arithmetic
  | Enum
  | ArithmeticArray
  | ArithmeticContiguous
  | Array
  | Tuple
  | Iterable
  | NonSerializable
deriving DecidableEq, Repr

/-- Codes of the C++ types the embedding covers.

* `arith s w`: an integral arithmetic type of `w` bytes;
* `enum s w`: an enumeration whose underlying type is `arith s w`;
* `carray e n`: the C array `e[n]`;
* `stdarray e n`: `std::array<e, n>`;
* `forward_list e`: `std::forward_list<e>`;
* `vector e`: a resizable contiguous container (`std::vector<e>` with `e` not `bool`,
  `std::basic_string<e>`);
* `list e`: a resizable container without `data()` (`std::list<e>`, `std::deque<e>`);
* `set e`: `std::set<e>` ordered by `operator<` (insertion only, no `resize`);
* `tuple c fs`: `std::tuple<fs...>` / `std::pair`; `c` tells whether some element type is
  `const`-qualified (`tuple_has_const_v`);
* `aggregate fs`: a class registered with `CUSTOM_SERIALIZABLE(T, f1, ..., fn)`, `fs` being the
  declared types of `f1 ... fn` in registration order;
* `vector_bool`: `std::vector<bool>`;
* `pointer`, `bitset`, `initializer_list`: raw pointers, `std::bitset<N>`,
  `std::initializer_list<e>`. -/
inductive Ty where
  | arith (signed : Bool) (w : Nat)
  | enum (signed : Bool) (w : Nat)
  | carray (elem : Ty) (n : Nat)
  | stdarray (elem : Ty) (n : Nat)
  | forward_list (elem : Ty)
  | vector (elem : Ty)
  | list (elem : Ty)
  | set (elem : Ty)
  | tuple (hasConst : Bool) (fields : List Ty)
  | aggregate (fields : List Ty)
  | vector_bool
  | pointer
  | bitset
  | initializer_list
deriving Repr

/-- Values: an integer scalar (arithmetic or enumeration value), or the sequence of the elements
of an array / container (in iteration order) or of the fields of a tuple (in index order). -/
inductive Val where
  | int (x : Int)
  | seq (xs : List Val)
deriving Repr

/-- The elements of a sequence value (none for a scalar). -/
def Val.elems : Val → List Val
  | .seq xs => xs
  | .int _ => []

/-! ## Classification -/

/-- Priority list `typePriority[]`. -/
def typePriority : List ValueType :=
  [ValueType.Optimized, ValueType.Arithmetic, ValueType.Enum, ValueType.ArithmeticArray,
   ValueType.ArithmeticContiguous, ValueType.Array, ValueType.Tuple, ValueType.Iterable,
   ValueType.NonSerializable]

/-- Trait `is_std_array_v<T>`; the trait is applied to `T` as written, so it fails for a
reference type (`ref = true`). -/
def is_std_array (T : Ty) (ref : Bool) : Bool :=
  match T with
  | .stdarray _ _ => !ref
  | _ => false

/-- Trait `is_forward_list_v<T>`; applied to `T` as written, so it fails for a reference type. -/
def is_forward_list (T : Ty) (ref : Bool) : Bool :=
  match T with
  | .forward_list _ => !ref
  | _ => false

/-- Trait `is_tuple_serializable_v<T>`: `is_std_tuple_v<T>` (`std::tuple_size`, `std::get<0>` and
`std::tuple_element<0, T>` are usable: non-empty tuples, pairs and non-empty `std::array`s) or a
`CUSTOM_SERIALIZABLE` specialisation (1 to 15 fields).  It is applied to `T` as written and fails
for a reference type. -/
def is_tuple_serializable (T : Ty) (ref : Bool) : Bool :=
  match T with
  | .tuple _ fs => !ref && !fs.isEmpty
  | .aggregate fs => !ref && !fs.isEmpty && decide (fs.length ≤ 15)
  | .stdarray _ n => !ref && decide (0 < n)
  | _ => false

/-- Trait `is_resizable_v<T>`: `T` has `resize(size)`.  The specialisation for non-class `T`
makes it false for a reference type. -/
def is_resizable (T : Ty) (ref : Bool) : Bool :=
  match T with
  | .vector _ => !ref
  | .list _ => !ref
  | .vector_bool => !ref
  | _ => false

/-- Whether `std::data(x)` of an lvalue of `plain_value<T>` is convertible to `void *` and
`std::size(x)` is integral (first two conjuncts of `qualifies<T, ArithmeticContiguous>`). -/
def has_data (T : Ty) : Bool :=
  match T with
  | .vector _ => true
  | .stdarray _ _ => true
  | .carray _ _ => true
  | _ => false

/-- The conjuncts of `qualifies<T, Iterable>` on `plain_value<T>`: `std::begin` / `std::end` give
input iterators, `is_insertable_v` (`x.insert(x.end(), *x.begin())`) and `has_size_v`. -/
def is_insertable_sized_range (T : Ty) : Bool :=
  match T with
  | .vector _ => true
  | .list _ => true
  | .set _ => true
  | .vector_bool => true
  | _ => false

/-- The `qualifies<T, tag>` trait.  `ref` tells whether `T` is written as a reference
(`decltype(i)` of a loop variable); `plain_value` strips it in the conditions that use
`plain_value<T>` and does not in the others. -/
def qualifies (cfg : Config) : Ty → Bool → ValueType → Bool
  | .arith _ _, _, .Arithmetic => true
  | .enum _ _, _, .Enum => true
  | .stdarray e n, ref, .Optimized =>
      is_std_array (.stdarray e n) ref &&
      (qualifies cfg e false .Arithmetic || qualifies cfg e false .ArithmeticArray) &&
      decide (cfg.order = cfg.Host)
  | .forward_list e, ref, .Optimized => is_forward_list (.forward_list e) ref
  | .carray e n, _, .ArithmeticArray =>
      decide (0 < n) &&
      (qualifies cfg e false .Arithmetic || qualifies cfg e false .ArithmeticArray ||
        qualifies cfg e false .Enum) &&
      decide (cfg.order = cfg.Host)
  | .vector e, _, .ArithmeticContiguous =>
      has_data (.vector e) &&
      (qualifies cfg e false .Arithmetic || qualifies cfg e false .Enum) &&
      is_resizable (.vector e) false &&
      decide (cfg.order = cfg.Host)
  | .carray _ n, _, .Array => decide (0 < n)
  | T, ref, .Tuple => is_tuple_serializable T ref
  | .vector_bool, ref, .Iterable => is_insertable_sized_range .vector_bool && ref
  | T, _, .Iterable => is_insertable_sized_range T
  | _, _, .NonSerializable => true
  | _, _, _ => false

/-- The recursion of `priority_type<T, i>()` over the tail `typePriority[i..]`: the first tag
that qualifies is returned.  The source returns `typePriority[i]` also for
`i == std::size(typePriority)`, an index past the array that is never reached because the last
entry qualifies for every type. -/
def priority_type_from (cfg : Config) (T : Ty) (ref : Bool) : List ValueType → ValueType
  | [] => ValueType.NonSerializable
  | tag :: rest => if qualifies cfg T ref tag then tag else priority_type_from cfg T ref rest

/-- The classifier `priority_type<T>()` (public name `priorityType<T>`). -/
def priority_type (cfg : Config) (T : Ty) (ref : Bool) : ValueType :=
  priority_type_from cfg T ref typePriority

/-- Public constant `priorityType<T>`. -/
def priorityType (cfg : Config) (T : Ty) : ValueType := priority_type cfg T false

/-! ## Bytes and integer scalars -/

/-- A byte of a buffer (`char`). -/
abbrev Byte := Fin 256

/-- The low byte of a natural number. -/
def byte_of (n : Nat) : Byte := ⟨n % 256, Nat.mod_lt _ (by decide)⟩

/-- The `w` low bytes of `p`, least significant first. -/
def le_bytes : Nat → Nat → List Byte
  | 0, _ => []
  | w + 1, p => byte_of p :: le_bytes w (p / 256)

/-- The number whose bytes, least significant first, are `bs`. -/
def of_le_bytes : List Byte → Nat
  | [] => 0
  | b :: bs => b.val + 256 * of_le_bytes bs

/-- Conversion of an integer to the integral type of `w` bytes (two's complement wrap-around). -/
def wrap (signed : Bool) (w : Nat) (x : Int) : Int :=
  let m := x % (2 : Int) ^ (8 * w)
  if signed && decide ((2 : Int) ^ (8 * w - 1) ≤ m) then m - (2 : Int) ^ (8 * w) else m

/-- The bit pattern of an integer stored in `w` bytes. -/
def bit_pattern (w : Nat) (x : Int) : Nat := (x % (2 : Int) ^ (8 * w)).toNat

/-- Object representation in memory of the integer `x` of `w` bytes on a host of byte order
`host` (what `memcpy(ptr, &x, sizeof(x))` copies). -/
def object_bytes (host : ByteOrder) (w : Nat) (x : Int) : List Byte :=
  match host with
  | .LittleEndian => le_bytes w (bit_pattern w x)
  | .BigEndian => (le_bytes w (bit_pattern w x)).reverse

/-- The integer of type `signed`, `bs.length` bytes, whose object representation on the host is
`bs` (what `memcpy(&x, ptr, sizeof(x))` stores). -/
def object_value (host : ByteOrder) (signed : Bool) (bs : List Byte) : Int :=
  match host with
  | .LittleEndian => wrap signed bs.length (of_le_bytes bs)
  | .BigEndian => wrap signed bs.length (of_le_bytes bs.reverse)

/-- The loop of `reorder`: `k` iterations remain, `ret` is the bit pattern of the accumulator
(of the `w`-byte type), `val` the value still to be consumed.
`ret = T(ret << 8); ret |= val & 0xFF; val = T(val >> 8)`. -/
def reorder_loop (w : Nat) : Nat → Nat → Int → Nat
  | 0, ret, _ => ret
  | k + 1, ret, val =>
      reorder_loop w k (((ret <<< 8) % 2 ^ (8 * w)) ||| (val % 256).toNat) (val >>> (8 : Nat))

/-- Function `reorder<T, from, to>(val)` for the integral type of `w` bytes (`src` is the
template argument `from`, `dst` is `to`). -/
def reorder (signed : Bool) (w : Nat) (src dst : ByteOrder) (val : Int) : Int :=
  if src ≠ dst ∧ 1 < w then wrap signed w (reorder_loop w w 0 val) else val

/-- The `sizeof` of the trivially copyable types the source applies `sizeof` to (integers,
enumerations and C arrays of them); `0` stands for the types it is never applied to. -/
def sizeof : Ty → Nat
  | .arith _ w => w
  | .enum _ w => w
  | .carray e n => n * sizeof e
  | _ => 0

/-! ## Size calculation -/

/-- Width in bytes of a length prefix, `sizeof(size_type_t<...>)`. -/
def size_field_width (cfg : Config) : Nat := (size_type_t cfg).bytes

mutual
/-- The `byte_size<T>::get(val)` family, selected by `priority_type<T>()`. -/
def byte_size (cfg : Config) : Ty → Val → Nat
  | .arith _ w, _ => w
  | .enum _ w, _ => w
  | .carray e n, v =>
      match priority_type cfg (.carray e n) false with
      | .ArithmeticArray => n * byte_size cfg e (v.elems.headD (.int 0))
      | .Array => (v.elems.map (byte_size cfg e)).sum
      | _ => 0
  | .stdarray e n, v =>
      match priority_type cfg (.stdarray e n) false with
      | .Optimized => n * sizeof e
      | .Tuple => (v.elems.map (byte_size cfg e)).sum
      | _ => 0
  | .forward_list e, v => size_field_width cfg + (v.elems.map (byte_size cfg e)).sum
  | .vector e, v =>
      match priority_type cfg (.vector e) false with
      | .ArithmeticContiguous => size_field_width cfg + v.elems.length * sizeof e
      | .Iterable => size_field_width cfg + (v.elems.map (byte_size cfg e)).sum
      | _ => 0
  | .list e, v => size_field_width cfg + (v.elems.map (byte_size cfg e)).sum
  | .set e, v => size_field_width cfg + (v.elems.map (byte_size cfg e)).sum
  | .tuple _ fs, v => tuple_byte_size cfg fs v.elems
  | .aggregate fs, v => tuple_byte_size cfg fs v.elems
  | .vector_bool, _ => 0
  | .pointer, _ => 0
  | .bitset, _ => 0
  | .initializer_list, _ => 0
/-- Function `tuple_byte_size<T, i>(val)`: the sizes of the fields from index `i` on. -/
def tuple_byte_size (cfg : Config) : List Ty → List Val → Nat
  | [], _ => 0
  | t :: ts, vs => byte_size cfg t (vs.headD (.int 0)) + tuple_byte_size cfg ts vs.tail
end

mutual
/-- The `byte_minsize<T>::value` family.  For `std::array` in the `Optimized` category the
source writes `byte_minsize_v<T::value_type>()*tuple_size_v<T>`, which is rejected by the
compiler when it is instantiated (see `byte_minsize_ok`); the value meant stands in its place. -/
def byte_minsize (cfg : Config) : Ty → Nat
  | .arith _ w => w
  | .enum _ w => w
  | .carray e n =>
      match priority_type cfg (.carray e n) false with
      | .ArithmeticArray => n * byte_minsize cfg e
      | .Array => n * byte_minsize cfg e
      | _ => 0
  | .stdarray e n =>
      match priority_type cfg (.stdarray e n) false with
      | .Optimized => byte_minsize cfg e * n
      | .Tuple => (List.replicate n (byte_minsize cfg e)).sum
      | _ => 0
  | .forward_list _ => size_field_width cfg
  | .vector _ => size_field_width cfg
  | .list _ => size_field_width cfg
  | .set _ => size_field_width cfg
  | .tuple _ fs => tuple_byte_minsize cfg fs
  | .aggregate fs => tuple_byte_minsize cfg fs
  | .vector_bool => size_field_width cfg
  | .pointer => 0
  | .bitset => 0
  | .initializer_list => 0
/-- Function `tuple_byte_minsize<T, i>()`. -/
def tuple_byte_minsize (cfg : Config) : List Ty → Nat
  | [] => 0
  | t :: ts => byte_minsize cfg t + tuple_byte_minsize cfg ts
end

/-! ## Static checks

Instantiating `byte_size<T>`, `byte_minsize<T>`, `append<T>` or `take<T>` for a type whose
category is `NonSerializable` selects the primary template, whose `static_assert` fails; using
`size_type_t` runs the assertions of `size_type`.  The predicates below collect these assertions
over all the instantiations an operation needs.  Where an assertion fails the program does not
exist, and the run-time functions below return a dummy there. -/

/-- Trait `tuple_has_const_v<T>`. -/
def tuple_has_const : Ty → Bool
  | .tuple c _ => c
  | _ => false

/-- Constant `take<T>::useReference`: `true` in every category except `Tuple`, where it is
`!tuple_has_const_v<T>`. -/
def useReference (cfg : Config) (T : Ty) (ref : Bool) : Bool :=
  !(decide (priority_type cfg T ref = ValueType.Tuple) && tuple_has_const T)

mutual
/-- Assertions met when instantiating `byte_size<T>` (`T` not a reference). -/
def byte_size_ok (cfg : Config) : Ty → Bool
  | .arith _ _ => true
  | .enum _ _ => true
  | .carray e n =>
      match priority_type cfg (.carray e n) false with
      | .ArithmeticArray => byte_size_ok cfg e
      | .Array => byte_size_ok cfg e
      | _ => false
  | .stdarray e n =>
      match priority_type cfg (.stdarray e n) false with
      | .Optimized => true
      | .Tuple => byte_size_ok cfg e
      | _ => false
  | .forward_list e =>
      size_type_ok cfg && decide (priority_type cfg e true ≠ ValueType.NonSerializable) &&
        byte_size_ok cfg e
  | .vector e =>
      match priority_type cfg (.vector e) false with
      | .ArithmeticContiguous => size_type_ok cfg
      | .Iterable => size_type_ok cfg && byte_size_ok cfg e
      | _ => false
  | .list e => size_type_ok cfg && byte_size_ok cfg e
  | .set e => size_type_ok cfg && byte_size_ok cfg e
  | .tuple _ fs => !fs.isEmpty && tuple_byte_size_ok cfg fs
  | .aggregate fs => is_tuple_serializable (.aggregate fs) false && tuple_byte_size_ok cfg fs
  | .vector_bool => false
  | .pointer => false
  | .bitset => false
  | .initializer_list => false
/-- Assertions of `byte_size` for the fields of a tuple. -/
def tuple_byte_size_ok (cfg : Config) : List Ty → Bool
  | [] => true
  | t :: ts => byte_size_ok cfg t && tuple_byte_size_ok cfg ts
end

mutual
/-- Assertions met when instantiating `append<T>`. -/
def append_ok (cfg : Config) : Ty → Bool
  | .arith _ _ => true
  | .enum _ _ => true
  | .carray e n =>
      match priority_type cfg (.carray e n) false with
      | .ArithmeticArray => true
      | .Array => append_ok cfg e
      | _ => false
  | .stdarray e n =>
      match priority_type cfg (.stdarray e n) false with
      | .Optimized => true
      | .Tuple => append_ok cfg e
      | _ => false
  | .forward_list e => size_type_ok cfg && append_ok cfg e
  | .vector e =>
      match priority_type cfg (.vector e) false with
      | .ArithmeticContiguous => size_type_ok cfg
      | .Iterable => size_type_ok cfg && append_ok cfg e
      | _ => false
  | .list e => size_type_ok cfg && append_ok cfg e
  | .set e => size_type_ok cfg && append_ok cfg e
  | .tuple _ fs => !fs.isEmpty && append_tuple_ok cfg fs
  | .aggregate fs => is_tuple_serializable (.aggregate fs) false && append_tuple_ok cfg fs
  | .vector_bool => false
  | .pointer => false
  | .bitset => false
  | .initializer_list => false
/-- Assertions of `append` for the fields of a tuple. -/
def append_tuple_ok (cfg : Config) : List Ty → Bool
  | [] => true
  | t :: ts => append_ok cfg t && append_tuple_ok cfg ts
end

mutual
/-- Assertions met when instantiating `byte_minsize<T>`.  The specialisation for `std::array`
in the `Optimized` category does not compile (`T::value_type` is parsed as a non-type and the
variable template is called like a function), so no program instantiates it. -/
def byte_minsize_ok (cfg : Config) : Ty → Bool
  | .arith _ _ => true
  | .enum _ _ => true
  | .carray e n =>
      match priority_type cfg (.carray e n) false with
      | .ArithmeticArray => byte_minsize_ok cfg e
      | .Array => byte_minsize_ok cfg e
      | _ => false
  | .stdarray e n =>
      match priority_type cfg (.stdarray e n) false with
      | .Optimized => false
      | .Tuple => byte_minsize_ok cfg e
      | _ => false
  | .forward_list _ => size_type_ok cfg
  | .vector _ => size_type_ok cfg
  | .list _ => size_type_ok cfg
  | .set _ => size_type_ok cfg
  | .tuple _ fs => !fs.isEmpty && tuple_byte_minsize_ok cfg fs
  | .aggregate fs => is_tuple_serializable (.aggregate fs) false && tuple_byte_minsize_ok cfg fs
  | .vector_bool => false
  | .pointer => false
  | .bitset => false
  | .initializer_list => false
/-- Assertions of `byte_minsize` for the fields of a tuple. -/
def tuple_byte_minsize_ok (cfg : Config) : List Ty → Bool
  | [] => true
  | t :: ts => byte_minsize_ok cfg t && tuple_byte_minsize_ok cfg ts
end

mutual
/-- Assertions met when instantiating `take<T>`; `ref` tells whether `T` is written as a
reference (the elements of a C array are taken as `take<decltype(i)>`). -/
def take_ok (cfg : Config) : Ty → Bool → Bool
  | .arith _ _, _ => true
  | .enum _ _, _ => true
  | .carray e n, ref =>
      match priority_type cfg (.carray e n) ref with
      | .ArithmeticArray => true
      | .Array => take_ok cfg e true
      | _ => false
  | .stdarray e n, ref =>
      match priority_type cfg (.stdarray e n) ref with
      | .Optimized => true
      | .Tuple => take_ok cfg e false
      | _ => false
  | .forward_list e, ref =>
      !ref && size_type_ok cfg && byte_minsize_ok cfg e && take_ok cfg e false
  | .vector e, ref =>
      match priority_type cfg (.vector e) ref with
      | .ArithmeticContiguous => size_type_ok cfg
      | .Iterable => size_type_ok cfg && byte_minsize_ok cfg e && take_ok cfg e false
      | _ => false
  | .list e, _ => size_type_ok cfg && byte_minsize_ok cfg e && take_ok cfg e false
  | .set e, _ => size_type_ok cfg && byte_minsize_ok cfg e && take_ok cfg e false
  | .tuple _ fs, ref => !ref && !fs.isEmpty && take_tuple_ok cfg fs
  | .aggregate fs, ref => is_tuple_serializable (.aggregate fs) ref && take_tuple_ok cfg fs
  | .vector_bool, ref => ref && size_type_ok cfg
  | .pointer, _ => false
  | .bitset, _ => false
  | .initializer_list, _ => false
/-- Assertions of `take` for the fields of a tuple. -/
def take_tuple_ok (cfg : Config) : List Ty → Bool
  | [] => true
  | t :: ts => take_ok cfg t false && take_tuple_ok cfg ts
end

/-- A type can be given to `byteSize` and `serialize`. -/
def serializable (cfg : Config) (T : Ty) : Bool := byte_size_ok cfg T && append_ok cfg T

/-- A type can be given to `deserialize`. -/
def deserializable (cfg : Config) (T : Ty) : Bool := take_ok cfg T false

/-! ## Encoder -/

/-- The memory chunk being written and the write pointer `ptr` (an index into it). -/
structure Writer where
  buf : List Byte
  ptr : Nat
deriving DecidableEq, Repr

/-- The statements `memcpy(ptr, src, n); ptr += n` where `bs` are the `n` bytes at `src`.
`none`: bytes would be written outside the chunk (undefined behaviour). -/
def write_bytes (wr : Writer) (bs : List Byte) : Option Writer :=
  if wr.ptr + bs.length ≤ wr.buf.length then
    some ⟨wr.buf.take wr.ptr ++ bs ++ wr.buf.drop (wr.ptr + bs.length), wr.ptr + bs.length⟩
  else none

/-- The integer held by a scalar value. -/
def Val.toInt : Val → Int
  | .int x => x
  | .seq _ => 0

/-- Object representation on the host of a value of a trivially copyable type (integer,
enumeration, C array of them): the bytes a bulk `memcpy` reads.  It has `sizeof T` bytes. -/
def raw_bytes (host : ByteOrder) : Ty → Val → List Byte
  | .arith _ w, v => object_bytes host w v.toInt
  | .enum _ w, v => object_bytes host w v.toInt
  | .carray e _, v => (v.elems.map (raw_bytes host e)).flatten
  | _, _ => []

/-- Specialisation `append<T>` for the `Arithmetic` category on the integral type `(s, w)`:
`ordval = reorder<T, Host, order>(val); memcpy(ptr, &ordval, sizeof(ordval)); ptr += ...`. -/
def append_arith (cfg : Config) (s : Bool) (w : Nat) (x : Int) (wr : Writer) : Option Writer :=
  write_bytes wr (object_bytes cfg.Host w (reorder s w cfg.Host cfg.order x))

/-- Appending a container size: `append_f(ptr, static_cast<size_type_t<...>>(n))`. -/
def append_size (cfg : Config) (n : Nat) (wr : Writer) : Option Writer :=
  append_arith cfg (size_type_t cfg).signed (size_field_width cfg)
    (wrap (size_type_t cfg).signed (size_field_width cfg) n) wr

/-- The loop `for (auto &i : val) append_f(ptr, i);`. -/
def append_each (f : Val → Writer → Option Writer) : List Val → Writer → Option Writer
  | [], wr => some wr
  | x :: xs, wr => (f x wr).bind (append_each f xs)

mutual
/-- The `append<T>::get(ptr, val)` family, selected by `priority_type<T>()`. -/
def append (cfg : Config) : Ty → Val → Writer → Option Writer
  | .arith s w, v, wr => append_arith cfg s w v.toInt wr
  | .enum s w, v, wr => append_arith cfg s w v.toInt wr
  | .carray e n, v, wr =>
      match priority_type cfg (.carray e n) false with
      | .ArithmeticArray => write_bytes wr (raw_bytes cfg.Host (.carray e n) v)
      | .Array => append_each (append cfg e) v.elems wr
      | _ => some wr
  | .stdarray e n, v, wr =>
      match priority_type cfg (.stdarray e n) false with
      | .Optimized => write_bytes wr (v.elems.map (raw_bytes cfg.Host e)).flatten
      | .Tuple => append_each (append cfg e) v.elems wr
      | _ => some wr
  | .forward_list e, v, wr =>
      (append_size cfg v.elems.length wr).bind (append_each (append cfg e) v.elems)
  | .vector e, v, wr =>
      match priority_type cfg (.vector e) false with
      | .ArithmeticContiguous =>
          (append_size cfg v.elems.length wr).bind
            (fun wr1 => write_bytes wr1 (v.elems.map (raw_bytes cfg.Host e)).flatten)
      | .Iterable => (append_size cfg v.elems.length wr).bind (append_each (append cfg e) v.elems)
      | _ => some wr
  | .list e, v, wr =>
      (append_size cfg v.elems.length wr).bind (append_each (append cfg e) v.elems)
  | .set e, v, wr =>
      (append_size cfg v.elems.length wr).bind (append_each (append cfg e) v.elems)
  | .tuple _ fs, v, wr => append_tuple cfg fs v.elems wr
  | .aggregate fs, v, wr => append_tuple cfg fs v.elems wr
  | .vector_bool, _, wr => some wr
  | .pointer, _, wr => some wr
  | .bitset, _, wr => some wr
  | .initializer_list, _, wr => some wr
/-- Function `append_tuple<T, i>(ptr, val)`: the fields from index `i` on. -/
def append_tuple (cfg : Config) : List Ty → List Val → Writer → Option Writer
  | [], _, wr => some wr
  | t :: ts, vs, wr => (append cfg t (vs.headD (.int 0)) wr).bind (append_tuple cfg ts vs.tail)
end

/-- Variadic `byteSize(val, args...)`: `byte_size_f(val) + byteSize(args...)`. -/
def byteSize (cfg : Config) : List (Ty × Val) → Nat
  | [] => 0
  | a :: rest => byte_size cfg a.1 a.2 + byteSize cfg rest

/-- Variadic `writeData(ptr, val, args...)`: `append_f(ptr, val); writeData(ptr, args...)`. -/
def writeData (cfg : Config) : List (Ty × Val) → Writer → Option Writer
  | [], wr => some wr
  | a :: rest, wr => (append cfg a.1 a.2 wr).bind (writeData cfg rest)

/-- Function `serialize(args...)`:
`std::vector<char> ret(byteSize(args...)); writeData(ret.data(), args...); return ret;`.
`none`: some argument type fails a static check, or a byte would be written outside `ret`. -/
def serialize (cfg : Config) (args : List (Ty × Val)) : Option (List Byte) :=
  if args.all (fun a => serializable cfg a.1) then
    (writeData cfg args ⟨List.replicate (byteSize cfg args) 0, 0⟩).map (fun wr => wr.buf)
  else none

/-! ## Decoder -/

/-- How a decoding call ends: normally, by throwing `Serialization::DeserializationError`, by
throwing `std::length_error` out of a container's `resize`, or by reading outside the buffer
(undefined behaviour). -/
inductive Status where
  | ok
  | DeserializationError
  | length_error
  | out_of_bounds
deriving DecidableEq, Repr

/-- The read pointer `ptr` (an index into the buffer) and the counter `restSize`, both passed by
reference through the `take` family. -/
structure Cursor where
  ptr : Nat
  restSize : Nat
deriving DecidableEq, Repr

/-- State after a `take` call on one destination: how it ended, the destination as the call left
it (for a by-value call that ended normally: the value returned), and the cursor. -/
structure Taken where
  status : Status
  val : Val
  cur : Cursor
deriving Repr

/-- State after a loop of `take` calls over several destinations. -/
structure TakenList where
  status : Status
  vals : List Val
  cur : Cursor
deriving Repr

/-- Function `check_size(sizeLeft, currentSize)`: `none` when it throws, otherwise the new value
of `sizeLeft`. -/
def check_size (sizeLeft currentSize : Nat) : Option Nat :=
  if sizeLeft < currentSize then none else some (sizeLeft - currentSize)

/-- The `n` bytes a `memcpy(dst, ptr, n)` reads from the buffer; `none` if some of them lie
outside the buffer. -/
def read_bytes (buf : List Byte) (ptr n : Nat) : Option (List Byte) :=
  if ptr + n ≤ buf.length then some ((buf.drop ptr).take n) else none

mutual
/-- A default-constructed object.  A scalar local is left uninitialised by the source and is
always assigned before it is read; `0` stands for its indeterminate value. -/
def default_val : Ty → Val
  | .arith _ _ => .int 0
  | .enum _ _ => .int 0
  | .carray e n => .seq (List.replicate n (default_val e))
  | .stdarray e n => .seq (List.replicate n (default_val e))
  | .forward_list _ => .seq []
  | .vector _ => .seq []
  | .list _ => .seq []
  | .set _ => .seq []
  | .tuple _ fs => .seq (default_vals fs)
  | .aggregate fs => .seq (default_vals fs)
  | .vector_bool => .seq []
  | .pointer => .int 0
  | .bitset => .int 0
  | .initializer_list => .seq []
/-- Default-constructed fields of a tuple. -/
def default_vals : List Ty → List Val
  | [] => []
  | t :: ts => default_val t :: default_vals ts
end

/-- Member `resize(n)` of a sequence container: the first `n` elements, filled up with
value-initialised ones. -/
def resize (e : Ty) (n : Nat) (xs : List Val) : List Val :=
  xs.take n ++ List.replicate (n - xs.length) (default_val e)

/-- Member `max_size()` of a container of `e`: at most `PTRDIFF_MAX` bytes of elements, an
element occupying at least `byte_minsize` (and at least one) bytes of storage.  `resize(n)`
throws `std::length_error` for `n > max_size()`. -/
def max_size (cfg : Config) (e : Ty) : Nat := PTRDIFF_MAX / max 1 (byte_minsize cfg e)

mutual
/-- Three-way comparison of values: integers by value, sequences and tuples
lexicographically. -/
def Val.cmp : Val → Val → Ordering
  | .int a, .int b => compare a b
  | .seq xs, .seq ys => Val.cmp_list xs ys
  | _, _ => .eq
/-- Lexicographic three-way comparison of sequences of values. -/
def Val.cmp_list : List Val → List Val → Ordering
  | [], [] => .eq
  | [], _ :: _ => .lt
  | _ :: _, [] => .gt
  | x :: xs, y :: ys =>
      match Val.cmp x y with
      | .eq => Val.cmp_list xs ys
      | o => o
end

/-- The order `operator<` on values. -/
def Val.lt (a b : Val) : Bool := Val.cmp a b == .lt

/-- Member `insert(end(), x)` of `std::set`: `x` is put at its place in the order unless an
equivalent element is present. -/
def set_insert : List Val → Val → List Val
  | [], x => [x]
  | y :: ys, x =>
      if Val.lt y x then y :: set_insert ys x
      else if Val.lt x y then x :: y :: ys
      else y :: ys

/-- Member `insert(end(), x)` of a sequence container. -/
def seq_insert (xs : List Val) (x : Val) : List Val := xs ++ [x]

/-- The first `n` consecutive chunks of `k` bytes. -/
def chunks (k : Nat) : Nat → List Byte → List (List Byte)
  | 0, _ => []
  | n + 1, bs => bs.take k :: chunks k n (bs.drop k)

/-- The value of a trivially copyable type whose object representation on the host is `bs`:
what a bulk `memcpy` into the object leaves there. -/
def from_raw (host : ByteOrder) : Ty → List Byte → Val
  | .arith s _, bs => .int (object_value host s bs)
  | .enum s _, bs => .int (object_value host s bs)
  | .carray e n, bs => .seq ((chunks (sizeof e) n bs).map (from_raw host e))
  | _, _ => .seq []

/-- Specialisation `take<T>` for the `Arithmetic` category on the integral type `(s, w)`:
`check_size(restSize, sizeof(nval)); memcpy(&nval, ptr, sizeof(nval)); ptr += sizeof(nval);
val = reorder<T, order, Host>(nval);`. -/
def take_arith (cfg : Config) (buf : List Byte) (s : Bool) (w : Nat) (val : Val) (c : Cursor) :
    Taken :=
  match check_size c.restSize w with
  | none => ⟨.DeserializationError, val, c⟩
  | some rest =>
      match read_bytes buf c.ptr w with
      | none => ⟨.out_of_bounds, val, ⟨c.ptr, rest⟩⟩
      | some bs =>
          ⟨.ok, .int (reorder s w cfg.order cfg.Host (object_value cfg.Host s bs)),
            ⟨c.ptr + w, rest⟩⟩

/-- The bulk read of the `Optimized` (`std::array`) and `ArithmeticArray` specialisations:
`check_size(restSize, size); memcpy(std::data(val), ptr, size); ptr += size;`, `decode` giving
the value the copied bytes represent. -/
def take_bulk (buf : List Byte) (size : Nat) (decode : List Byte → Val) (val : Val)
    (c : Cursor) : Taken :=
  match check_size c.restSize size with
  | none => ⟨.DeserializationError, val, c⟩
  | some rest =>
      match read_bytes buf c.ptr size with
      | none => ⟨.out_of_bounds, val, ⟨c.ptr, rest⟩⟩
      | some bs => ⟨.ok, decode bs, ⟨c.ptr + size, rest⟩⟩

/-- The two ways a destination is filled,
`if constexpr (take<T>::useReference) take_f<T>(ptr, restSize, i); else i = take_f<T>(ptr, restSize);`.
When the by-value call throws, the destination is not assigned. -/
def take_into (useRef : Bool) (by_ref : Val → Cursor → Taken) (by_val : Cursor → Taken)
    (dest : Val) (c : Cursor) : Taken :=
  if useRef then by_ref dest c
  else
    let r := by_val c
    match r.status with
    | .ok => r
    | st => ⟨st, dest, r.cur⟩

/-- The two ways a new element is obtained,
`if constexpr (take<T>::useReference) { T el; take_f<T>(ptr, restSize, el); ... } else
take_f<T>(ptr, restSize)`; `dflt` is the default-constructed `el`. -/
def take_new (useRef : Bool) (by_ref : Val → Cursor → Taken) (by_val : Cursor → Taken)
    (dflt : Val) (c : Cursor) : Taken :=
  if useRef then by_ref dflt c else by_val c

/-- The loop `for (auto &i : val) take(i)` over the elements of a destination: it stops at the
first call that throws, leaving the later elements as they were. -/
def take_each (f : Val → Cursor → Taken) : List Val → Cursor → TakenList
  | [], c => ⟨.ok, [], c⟩
  | d :: ds, c =>
      let r := f d c
      match r.status with
      | .ok =>
          let rs := take_each f ds r.cur
          ⟨rs.status, r.val :: rs.vals, rs.cur⟩
      | st => ⟨st, r.val :: ds, r.cur⟩

/-- The loop `for (size_t i = 0; i < size; ++i) val.insert(..., take())`: `k` iterations remain,
`acc` holds the elements of the container. -/
def take_insert (g : Cursor → Taken) (ins : List Val → Val → List Val) :
    Nat → List Val → Cursor → TakenList
  | 0, acc, c => ⟨.ok, acc, c⟩
  | k + 1, acc, c =>
      let r := g c
      match r.status with
      | .ok => take_insert g ins k (ins acc r.val) r.cur
      | st => ⟨st, acc, r.cur⟩

/-- Reading a length prefix:
`size_type_t<...> size; take_f<decltype(size)>(ptr, restSize, size);`. -/
def take_size (cfg : Config) (buf : List Byte) (c : Cursor) : Taken :=
  take_arith cfg buf (size_type_t cfg).signed (size_field_width cfg) (.int 0) c

/-- The value of a length prefix converted to `size_t`. -/
def to_size_t (x : Int) : Nat := bit_pattern size_t_bytes x

/-- The guard `size * byte_minsize_v<value_type> > restSize`, computed in `size_t`. -/
def count_exceeds (cfg : Config) (e : Ty) (n restSize : Nat) : Bool :=
  decide (restSize < (n * byte_minsize cfg e) % SIZE_MOD)

/-- Specialisation `take<T>` for the `Iterable` category.  `e` is the `value_type`, `resizable`
is `is_resizable_v<T>`, `ins` the container's `insert(end(), x)`; `useRef`, `by_ref`, `by_val`
describe `take<value_type>`. -/
def take_iterable (cfg : Config) (buf : List Byte) (e : Ty) (resizable : Bool)
    (ins : List Val → Val → List Val) (useRef : Bool) (by_ref : Val → Cursor → Taken)
    (by_val : Cursor → Taken) (val : Val) (c : Cursor) : Taken :=
  let rs := take_size cfg buf c
  match rs.status with
  | .ok =>
      let n := to_size_t rs.val.toInt
      if count_exceeds cfg e n rs.cur.restSize then ⟨.DeserializationError, val, rs.cur⟩
      else if useRef then
        if resizable then
          if max_size cfg e < n then ⟨.length_error, val, rs.cur⟩
          else
            let r := take_each by_ref (resize e n val.elems) rs.cur
            ⟨r.status, .seq r.vals, r.cur⟩
        else
          let r := take_insert (by_ref (default_val e)) ins n val.elems rs.cur
          ⟨r.status, .seq r.vals, r.cur⟩
      else
        let r := take_insert by_val ins n val.elems rs.cur
        ⟨r.status, .seq r.vals, r.cur⟩
  | st => ⟨st, val, rs.cur⟩

/-- Specialisation `take<T>` for `std::forward_list` (`Optimized`): the new elements are linked
one after the other starting at `before_begin()`, ahead of the elements already in `val`. -/
def take_forward_list (cfg : Config) (buf : List Byte) (e : Ty) (useRef : Bool)
    (by_ref : Val → Cursor → Taken) (by_val : Cursor → Taken) (val : Val) (c : Cursor) : Taken :=
  let rs := take_size cfg buf c
  match rs.status with
  | .ok =>
      let n := to_size_t rs.val.toInt
      if count_exceeds cfg e n rs.cur.restSize then ⟨.DeserializationError, val, rs.cur⟩
      else
        let r := take_insert (take_new useRef by_ref by_val (default_val e)) seq_insert n []
          rs.cur
        ⟨r.status, .seq (r.vals ++ val.elems), r.cur⟩
  | st => ⟨st, val, rs.cur⟩

/-- Specialisation `take<T>` for the `ArithmeticContiguous` category, `e` being the element
type: the length, `size = length * sizeof(element)` in `size_t`, `check_size(restSize, size)`,
`val.resize(length)`, one `memcpy` of `std::size(val) * sizeof(element)` bytes, `ptr += size`. -/
def take_contiguous (cfg : Config) (buf : List Byte) (e : Ty) (val : Val) (c : Cursor) : Taken :=
  let rs := take_size cfg buf c
  match rs.status with
  | .ok =>
      let n := to_size_t rs.val.toInt
      let size := (n * sizeof e) % SIZE_MOD
      match check_size rs.cur.restSize size with
      | none => ⟨.DeserializationError, val, rs.cur⟩
      | some rest =>
          if max_size cfg e < n then ⟨.length_error, val, ⟨rs.cur.ptr, rest⟩⟩
          else
            match read_bytes buf rs.cur.ptr size with
            | none => ⟨.out_of_bounds, .seq (resize e n val.elems), ⟨rs.cur.ptr, rest⟩⟩
            | some bs =>
                ⟨.ok, .seq ((chunks (sizeof e) n bs).map (from_raw cfg.Host e)),
                  ⟨rs.cur.ptr + size, rest⟩⟩
  | st => ⟨st, val, rs.cur⟩

/-- Repackaging of a loop result as the state of the enclosing destination. -/
def TakenList.toTaken (r : TakenList) : Taken := ⟨r.status, .seq r.vals, r.cur⟩

mutual
/-- The by-reference `take<T>::get(ptr, restSize, val)` family, selected by
`priority_type<T>()`; `ref` tells whether `T` is written as a reference type. -/
def take (cfg : Config) (buf : List Byte) : Ty → Bool → Val → Cursor → Taken
  | .arith s w, _, val, c => take_arith cfg buf s w val c
  | .enum s w, _, val, c => take_arith cfg buf s w val c
  | .carray e n, ref, val, c =>
      match priority_type cfg (.carray e n) ref with
      | .ArithmeticArray =>
          take_bulk buf (byte_size cfg (.carray e n) val) (from_raw cfg.Host (.carray e n)) val c
      | .Array =>
          (take_each (take_into (useReference cfg e true) (take cfg buf e true)
            (take_val cfg buf e)) (resize e n val.elems) c).toTaken
      | _ => ⟨.ok, val, c⟩
  | .stdarray e n, ref, val, c =>
      match priority_type cfg (.stdarray e n) ref with
      | .Optimized =>
          take_bulk buf (byte_size cfg (.stdarray e n) val)
            (fun bs => .seq ((chunks (sizeof e) n bs).map (from_raw cfg.Host e))) val c
      | .Tuple =>
          (take_each (take_into (useReference cfg e false) (take cfg buf e false)
            (take_val cfg buf e)) (resize e n val.elems) c).toTaken
      | _ => ⟨.ok, val, c⟩
  | .forward_list e, ref, val, c =>
      match priority_type cfg (.forward_list e) ref with
      | .Optimized =>
          take_forward_list cfg buf e (useReference cfg e false) (take cfg buf e false)
            (take_val cfg buf e) val c
      | _ => ⟨.ok, val, c⟩
  | .vector e, ref, val, c =>
      match priority_type cfg (.vector e) ref with
      | .ArithmeticContiguous => take_contiguous cfg buf e val c
      | .Iterable =>
          take_iterable cfg buf e (is_resizable (.vector e) ref) seq_insert
            (useReference cfg e false) (take cfg buf e false) (take_val cfg buf e) val c
      | _ => ⟨.ok, val, c⟩
  | .list e, ref, val, c =>
      take_iterable cfg buf e (is_resizable (.list e) ref) seq_insert
        (useReference cfg e false) (take cfg buf e false) (take_val cfg buf e) val c
  | .set e, ref, val, c =>
      take_iterable cfg buf e (is_resizable (.set e) ref) set_insert
        (useReference cfg e false) (take cfg buf e false) (take_val cfg buf e) val c
  | .tuple hc fs, ref, val, c =>
      match priority_type cfg (.tuple hc fs) ref with
      | .Tuple => (take_tuple_set cfg buf fs val.elems c).toTaken
      | _ => ⟨.ok, val, c⟩
  | .aggregate fs, ref, val, c =>
      match priority_type cfg (.aggregate fs) ref with
      | .Tuple => (take_tuple_set cfg buf fs val.elems c).toTaken
      | _ => ⟨.ok, val, c⟩
  | .vector_bool, ref, val, c =>
      match priority_type cfg .vector_bool ref with
      | .Iterable =>
          take_iterable cfg buf (.arith false 1) (is_resizable .vector_bool ref) seq_insert
            true (take_arith cfg buf false 1) (fun c1 => ⟨.ok, .int 0, c1⟩) val c
      | _ => ⟨.ok, val, c⟩
  | .pointer, _, val, c => ⟨.ok, val, c⟩
  | .bitset, _, val, c => ⟨.ok, val, c⟩
  | .initializer_list, _, val, c => ⟨.ok, val, c⟩
/-- The by-value `take<T>::get(ptr, restSize)`, which only the `Tuple` category has:
`take_tuple_construct<T>(ptr, restSize)`. -/
def take_val (cfg : Config) (buf : List Byte) : Ty → Cursor → Taken
  | .tuple _ fs, c => (take_tuple_construct cfg buf fs [] c).toTaken
  | .aggregate fs, c => (take_tuple_construct cfg buf fs [] c).toTaken
  | .stdarray e n, c =>
      (take_insert (take_new (useReference cfg e false) (take cfg buf e false)
        (take_val cfg buf e) (default_val e)) seq_insert n [] c).toTaken
  | T, c => ⟨.ok, default_val T, c⟩
/-- Function `take_tuple_set<T, i>(ptr, restSize, tuple)`: the fields from index `i` on are
filled in place. -/
def take_tuple_set (cfg : Config) (buf : List Byte) : List Ty → List Val → Cursor → TakenList
  | [], ds, c => ⟨.ok, ds, c⟩
  | t :: ts, ds, c =>
      let r := take_into (useReference cfg t false) (take cfg buf t false) (take_val cfg buf t)
        (ds.headD (default_val t)) c
      match r.status with
      | .ok =>
          let rs := take_tuple_set cfg buf ts ds.tail r.cur
          ⟨rs.status, r.val :: rs.vals, rs.cur⟩
      | st => ⟨st, r.val :: ds.tail, r.cur⟩
/-- Function `take_tuple_construct<T, i>(ptr, restSize, args...)`: the fields from index `i` on
are taken into new objects and the tuple is built from `args..., el`. -/
def take_tuple_construct (cfg : Config) (buf : List Byte) :
    List Ty → List Val → Cursor → TakenList
  | [], args, c => ⟨.ok, args, c⟩
  | t :: ts, args, c =>
      let r := take_new (useReference cfg t false) (take cfg buf t false) (take_val cfg buf t)
        (default_val t) c
      match r.status with
      | .ok => take_tuple_construct cfg buf ts (args ++ [r.val]) r.cur
      | st => ⟨st, args, r.cur⟩
end

/-- Function `readData<T>(ptr, size)` returning the value. -/
def readData_value (cfg : Config) (data : List Byte) (size : Nat) (T : Ty) : Taken :=
  take_new (useReference cfg T false) (take cfg data T false) (take_val cfg data T)
    (default_val T) ⟨0, size⟩

/-- Variadic `readData(ptr, size, val, args...)` filling the destinations in turn; `c` holds
the local copies of `ptr` and `size`. -/
def readData (cfg : Config) (data : List Byte) : List Ty → List Val → Cursor → TakenList
  | [], ds, c => ⟨.ok, ds, c⟩
  | T :: Ts, ds, c =>
      let r := take_into (useReference cfg T false) (take cfg data T false) (take_val cfg data T)
        (ds.headD (default_val T)) c
      match r.status with
      | .ok =>
          let rs := readData cfg data Ts ds.tail r.cur
          ⟨rs.status, r.val :: rs.vals, rs.cur⟩
      | st => ⟨st, r.val :: ds.tail, r.cur⟩

/-- Function `deserialize<T>(data)`: `readData<T>(data.data(), data.size())`. -/
def deserialize_value (cfg : Config) (T : Ty) (data : List Byte) : Taken :=
  readData_value cfg data data.length T

/-- Function `deserialize(data, val, args...)`:
`readData(data.data(), data.size(), val, args...)`. -/
def deserialize (cfg : Config) (Ts : List Ty) (data : List Byte) (dests : List Val) :
    TakenList :=
  readData cfg data Ts dests ⟨0, data.length⟩

/-! ## Well-typed values and the wire format -/

/-- The widths of the integral types. -/
def valid_width (w : Nat) : Bool := w == 1 || w == 2 || w == 4 || w == 8

/-- The integer `x` is a value of the integral type `(s, w)`. -/
def int_in_range (s : Bool) (w : Nat) (x : Int) : Bool :=
  if s then decide (-(2 : Int) ^ (8 * w - 1) ≤ x ∧ x < (2 : Int) ^ (8 * w - 1))
  else decide (0 ≤ x ∧ x < (2 : Int) ^ (8 * w))

/-- Every element precedes every later one in the order `Val.lt`: the iteration order of a
`std::set`. -/
def strictly_ascending : List Val → Bool
  | [] => true
  | x :: xs => xs.all (Val.lt x) && strictly_ascending xs

mutual
/-- The value `v` is an object of type `T`: scalars are in range, arrays and tuples have their
static length, containers hold at most `max_size()` elements, sets are in their iteration
order. -/
def has_type (cfg : Config) : Ty → Val → Bool
  | .arith s w, .int x => valid_width w && int_in_range s w x
  | .enum s w, .int x => valid_width w && int_in_range s w x
  | .carray e n, .seq xs => decide (xs.length = n) && xs.all (has_type cfg e)
  | .stdarray e n, .seq xs => decide (xs.length = n) && xs.all (has_type cfg e)
  | .forward_list e, .seq xs => decide (xs.length ≤ max_size cfg e) && xs.all (has_type cfg e)
  | .vector e, .seq xs => decide (xs.length ≤ max_size cfg e) && xs.all (has_type cfg e)
  | .list e, .seq xs => decide (xs.length ≤ max_size cfg e) && xs.all (has_type cfg e)
  | .set e, .seq xs =>
      decide (xs.length ≤ max_size cfg e) && xs.all (has_type cfg e) && strictly_ascending xs
  | .tuple _ fs, .seq xs => has_types cfg fs xs
  | .aggregate fs, .seq xs => has_types cfg fs xs
  | _, _ => false
/-- The values `vs` are the fields of a tuple of field types `Ts`. -/
def has_types (cfg : Config) : List Ty → List Val → Bool
  | [], [] => true
  | t :: ts, x :: xs => has_type cfg t x && has_types cfg ts xs
  | _, _ => false
end

/-- The bytes of a length prefix: the count as an integer of the size-field width in the
configured byte order. -/
def count_bytes (cfg : Config) (n : Nat) : List Byte :=
  object_bytes cfg.order (size_field_width cfg) n

mutual
/-- The wire format by the structure of the type alone: a scalar is its bytes in the configured
order, arrays and tuples are their elements one after the other, containers are a length prefix
followed by their elements. -/
def encode (cfg : Config) : Ty → Val → List Byte
  | .arith _ w, v => object_bytes cfg.order w v.toInt
  | .enum _ w, v => object_bytes cfg.order w v.toInt
  | .carray e _, v => (v.elems.map (encode cfg e)).flatten
  | .stdarray e _, v => (v.elems.map (encode cfg e)).flatten
  | .forward_list e, v => count_bytes cfg v.elems.length ++ (v.elems.map (encode cfg e)).flatten
  | .vector e, v => count_bytes cfg v.elems.length ++ (v.elems.map (encode cfg e)).flatten
  | .list e, v => count_bytes cfg v.elems.length ++ (v.elems.map (encode cfg e)).flatten
  | .set e, v => count_bytes cfg v.elems.length ++ (v.elems.map (encode cfg e)).flatten
  | .tuple _ fs, v => encode_fields cfg fs v.elems
  | .aggregate fs, v => encode_fields cfg fs v.elems
  | _, _ => []
/-- The wire format of the fields of a tuple. -/
def encode_fields (cfg : Config) : List Ty → List Val → List Byte
  | [], _ => []
  | t :: ts, vs => encode cfg t (vs.headD (.int 0)) ++ encode_fields cfg ts vs.tail
end

/-- The wire format of several values one after the other. -/
def encode_all (cfg : Config) : List (Ty × Val) → List Byte
  | [] => []
  | a :: rest => encode cfg a.1 a.2 ++ encode_all cfg rest

/-- The read cursor `c` stands in `buf` in front of the bytes `rest`, which run to the end of
the buffer, and `restSize` counts them. -/
def At (buf : List Byte) (c : Cursor) (rest : List Byte) : Prop :=
  c.ptr + c.restSize = buf.length ∧ buf.drop c.ptr = rest

/-- The number whose `w` bytes are those of `p` in the opposite order. -/
def rev_pattern (w p : Nat) : Nat := of_le_bytes (le_bytes w p).reverse

/-- The element types of the bulk-copied categories: those that qualify as `Arithmetic`,
`ArithmeticArray` or `Enum`. -/
def bulk_copyable (cfg : Config) (e : Ty) : Bool :=
  qualifies cfg e false .Arithmetic || qualifies cfg e false .ArithmeticArray ||
    qualifies cfg e false .Enum

/-- A writing step `f` writes exactly the bytes `bs` at the write pointer whenever they fit the
chunk. -/
def Writes (f : Writer → Option Writer) (bs : List Byte) : Prop :=
  ∀ wr : Writer, wr.ptr + bs.length ≤ wr.buf.length → f wr = write_bytes wr bs

/-- In `buf`, the reading step `f` started in front of the bytes `bs` ends normally with the
value `v`, having consumed exactly `bs`, whatever follows them. -/
def Reads (buf : List Byte) (f : Cursor → Taken) (bs : List Byte) (v : Val) : Prop :=
  ∀ (c : Cursor) (post : List Byte), At buf c (bs ++ post) →
    f c = ⟨.ok, v, ⟨c.ptr + bs.length, post.length⟩⟩

/-- The same for a loop over several destinations. -/
def ReadsList (buf : List Byte) (f : Cursor → TakenList) (bs : List Byte) (vs : List Val) :
    Prop :=
  ∀ (c : Cursor) (post : List Byte), At buf c (bs ++ post) →
    f c = ⟨.ok, vs, ⟨c.ptr + bs.length, post.length⟩⟩

/-- The types of the arguments of a variadic call. -/
def arg_types (args : List (Ty × Val)) : List Ty := args.map (fun a => a.1)

/-- The values of the arguments of a variadic call. -/
def arg_values (args : List (Ty × Val)) : List Val := args.map (fun a => a.2)

/-- Freshly default-constructed destinations for the arguments of a variadic call. -/
def fresh_dests (args : List (Ty × Val)) : List Val := args.map (fun a => default_val a.1)

/-- Example configuration `Serializer<>` on a little-endian host. -/
def cfg_host : Config := ⟨.LittleEndian, .LittleEndian, none⟩

/-- Example configuration `Serializer<Network, uint64_t>` on a little-endian host. -/
def cfg_net : Config := ⟨.LittleEndian, .BigEndian, some ⟨false, 8⟩⟩

/-- The type `int`. -/
def ty_int : Ty := .arith true 4

/-- Example type
`std::tuple<int[2], std::string, std::list<std::pair<std::vector<int>, int>>, std::set<short>>`. -/
def ty_nested : Ty :=
  .tuple false [.carray ty_int 2, .vector (.arith true 1),
    .list (.tuple false [.vector ty_int, ty_int]), .set (.arith true 2)]

/-- Example value of `ty_nested`. -/
def val_nested : Val :=
  .seq [.seq [.int (-5), .int 70000], .seq [.int 116, .int 101],
    .seq [.seq [.seq [.int 1, .int (-2)], .int 3], .seq [.seq [], .int (-4)]],
    .seq [.int (-300), .int 7]]

/-- Example arguments of a variadic call: an `int`, an `int[2]`, a `std::vector<int>` and a
`std::forward_list<std::vector<short>>`. -/
def args_example : List (Ty × Val) :=
  [(ty_int, .int (-12345)), (.carray ty_int 2, .seq [.int 1, .int 2]),
   (.vector ty_int, .seq [.int 3, .int 4, .int 5]),
   (.forward_list (.vector (.arith true 2)), .seq [.seq [.int 6], .seq []])]

mutual
/-- Reference definition of the exact size, following the specification's words: a scalar or
enumeration has its width; a fixed array has the sum of the sizes of its elements, without
prefix; a tuple has the sum of the sizes of its fields in order; a variable-length container or
forward list has the size-field width (the configured width if one is set, else the width of the
container's natural size type) plus the sum of the sizes of its actual elements. -/
def exactSize (cfg : Config) : Ty → Val → Nat
  | .arith _ w, _ => w
  | .enum _ w, _ => w
  | .carray e _, v => (v.elems.map (exactSize cfg e)).sum
  | .stdarray e _, v => (v.elems.map (exactSize cfg e)).sum
  | .forward_list e, v =>
      (match cfg.sizeT with | some t => t.bytes | none => size_t_bytes) +
        (v.elems.map (exactSize cfg e)).sum
  | .vector e, v =>
      (match cfg.sizeT with | some t => t.bytes | none => size_t_bytes) +
        (v.elems.map (exactSize cfg e)).sum
  | .list e, v =>
      (match cfg.sizeT with | some t => t.bytes | none => size_t_bytes) +
        (v.elems.map (exactSize cfg e)).sum
  | .set e, v =>
      (match cfg.sizeT with | some t => t.bytes | none => size_t_bytes) +
        (v.elems.map (exactSize cfg e)).sum
  | .tuple _ fs, v => exactSize_fields cfg fs v.elems
  | .aggregate fs, v => exactSize_fields cfg fs v.elems
  | _, _ => 0
/-- Reference definition: the sum of the sizes of the fields, in order. -/
def exactSize_fields (cfg : Config) : List Ty → List Val → Nat
  | t :: ts, x :: xs => exactSize cfg t x + exactSize_fields cfg ts xs
  | _, _ => 0
end

/-- The variable-length categories' types: `T` is a container or forward list of `e`. -/
def is_variable_length (T e : Ty) : Prop :=
  T = .vector e ∨ T = .list e ∨ T = .set e ∨ T = .forward_list e

/-- Example configuration `Serializer<LittleEndian>` on a little-endian host. -/
def cfg_le : Config := ⟨.LittleEndian, .LittleEndian, none⟩

/-- Example configuration `Serializer<BigEndian>` on a little-endian host. -/
def cfg_be : Config := ⟨.LittleEndian, .BigEndian, none⟩

/-- The type `std::list<std::list<int32_t>>`. -/
def ty_list_list : Ty := .list (.list ty_int)

/-- The value `[[1, 2], [3]]`. -/
def val_list_list : Val := .seq [.seq [.int 1, .int 2], .seq [.int 3]]

/-- The fixed-length array types: `T` is a C array or a `std::array` of `e`. -/
def is_fixed_array (T e : Ty) : Prop :=
  ∃ n, T = .carray e n ∨ T = .stdarray e n

/-- The tuple types with field types `fs`: a `std::tuple` / `std::pair` or a registered
aggregate. -/
def is_tuple_of (T : Ty) (fs : List Ty) : Prop :=
  (∃ hc, T = .tuple hc fs) ∨ T = .aggregate fs

/-- The type `std::tuple<int8_t, int16_t, int32_t>`. -/
def ty_tuple3 : Ty := .tuple false [.arith true 1, .arith true 2, .arith true 4]

/-- The value `(1, 2, 3)`. -/
def val_tuple3 : Val := .seq [.int 1, .int 2, .int 3]

/-- The sized insertable containers: `T` is a `std::vector`, `std::list` or `std::set` of `e`. -/
def is_sized_container (T e : Ty) : Prop :=
  T = .vector e ∨ T = .list e ∨ T = .set e

/-- The integer scalar types: `T` is the integral type or an enumeration of signedness `s` and
`w` bytes. -/
def is_scalar (T : Ty) (s : Bool) (w : Nat) : Prop :=
  T = .arith s w ∨ T = .enum s w

/-- The type `std::list<int32_t>`. -/
def ty_list_int : Ty := .list ty_int

/-- The value `[1, 2, 3]`. -/
def val_123 : Val := .seq [.int 1, .int 2, .int 3]

/-- Example configuration `Serializer<LittleEndian, uint32_t>` on a little-endian host. -/
def cfg_le4 : Config := ⟨.LittleEndian, .LittleEndian, some ⟨false, 4⟩⟩

/-- Example configuration `Serializer<LittleEndian, uint64_t>` on a little-endian host. -/
def cfg_le8 : Config := ⟨.LittleEndian, .LittleEndian, some ⟨false, 8⟩⟩

/-- Macro `PP_NARG(...)`: the number of arguments (up to 63). -/
def PP_NARG (args : List Ty) : Nat := args.length

/-- Macro family `_SERIALIZER_ADD_METHODS_k(total, typeName, arg, ...)` for `k = 1 .. 15`: it
expands to `_SERIALIZER_ADD_METHOD_(total - k, typeName, arg)` followed by
`_SERIALIZER_ADD_METHODS_(k-1)(total, typeName, ...)`.  Each `_SERIALIZER_ADD_METHOD_(pos, ...)`
specialises `tuple_get<typeName, pos>` and `tuple_element<typeName, pos>` for the member `arg`;
the result lists these specialisations as pairs `(pos, type of arg)`.  There is no macro for
`k = 0` or `k > 15`. -/
def SERIALIZER_ADD_METHODS (total : Nat) : Nat → List Ty → List (Nat × Ty)
  | 0, _ => []
  | _ + 1, [] => []
  | k + 1, arg :: rest =>
      if k + 1 ≤ 15 then (total - (k + 1), arg) :: SERIALIZER_ADD_METHODS total k rest else []

/-- Macro `_SERIALIZER_ADD_ALL_METHODS_(size, typeName, ...)`:
`CONCATENATE(_SERIALIZER_ADD_METHODS_, size)(size, typeName, ...)`. -/
def SERIALIZER_ADD_ALL_METHODS (size : Nat) (args : List Ty) : List (Nat × Ty) :=
  SERIALIZER_ADD_METHODS size size args

/-- The type `tuple_element_t<typeName, pos>` given the registered specialisations. -/
def tuple_element (table : List (Nat × Ty)) (pos : Nat) : Option Ty := table.lookup pos

/-- Macro `CUSTOM_SERIALIZABLE(typeName, f1, ..., fn)` on a class whose registered members have
the types `args`: `tuple_size` is `PP_NARG(...)`, and the tuple view of the class has at each
index below `tuple_size` the type `tuple_element_t<typeName, index>`. -/
def CUSTOM_SERIALIZABLE (args : List Ty) : Ty :=
  .aggregate ((List.range (PP_NARG args)).filterMap
    (tuple_element (SERIALIZER_ADD_ALL_METHODS (PP_NARG args) args)))

/-- Example registered class with an `int8_t`, a `std::vector<int16_t>` and an `int32_t`
member. -/
def args_custom : List Ty := [.arith true 1, .vector (.arith true 2), .arith true 4]

/-- Example value of the class `CUSTOM_SERIALIZABLE args_custom`. -/
def val_custom : Val := .seq [.int 1, .seq [.int 2, .int (-2)], .int 3]

/-- Body of the specialisation `append<T, Array>::get(ptr, val)`, the element-wise path for a
fixed-length array of elements of type `e`: `for (auto &i : val) append_f(ptr, i);`. -/
def append_Array (cfg : Config) (e : Ty) (v : Val) (wr : Writer) : Option Writer :=
  append_each (append cfg e) v.elems wr

mutual
/-- The leaves of the wire format in order: one byte group for each scalar and for each length
prefix. -/
def encode_leaves (cfg : Config) : Ty → Val → List (List Byte)
  | .arith _ w, v => [object_bytes cfg.order w v.toInt]
  | .enum _ w, v => [object_bytes cfg.order w v.toInt]
  | .carray e _, v => (v.elems.map (encode_leaves cfg e)).flatten
  | .stdarray e _, v => (v.elems.map (encode_leaves cfg e)).flatten
  | .forward_list e, v =>
      count_bytes cfg v.elems.length :: (v.elems.map (encode_leaves cfg e)).flatten
  | .vector e, v => count_bytes cfg v.elems.length :: (v.elems.map (encode_leaves cfg e)).flatten
  | .list e, v => count_bytes cfg v.elems.length :: (v.elems.map (encode_leaves cfg e)).flatten
  | .set e, v => count_bytes cfg v.elems.length :: (v.elems.map (encode_leaves cfg e)).flatten
  | .tuple _ fs, v => encode_leaves_fields cfg fs v.elems
  | .aggregate fs, v => encode_leaves_fields cfg fs v.elems
  | _, _ => []
/-- The leaves of the fields of a tuple. -/
def encode_leaves_fields (cfg : Config) : List Ty → List Val → List (List Byte)
  | [], _ => []
  | t :: ts, vs => encode_leaves cfg t (vs.headD (.int 0)) ++ encode_leaves_fields cfg ts vs.tail
end

/-- The configuration `cfg` with the target byte order replaced by `o`. -/
def with_order (cfg : Config) (o : ByteOrder) : Config := ⟨cfg.Host, o, cfg.sizeT⟩

/-- A decoding step that started at cursor `c` and ended in status `st` at cursor `c1` stayed
safe: it read no byte outside the buffer, moved the read pointer forward only, never increased
the bytes-remaining counter, kept `ptr + restSize` at most what it was, and, when it ended
normally, kept `ptr + restSize` exactly what it was. -/
def Safe (c : Cursor) (st : Status) (c1 : Cursor) : Prop :=
  st ≠ .out_of_bounds ∧ c.ptr ≤ c1.ptr ∧ c1.restSize ≤ c.restSize ∧
    c1.ptr + c1.restSize ≤ c.ptr + c.restSize ∧
    (st = .ok → c1.ptr + c1.restSize = c.ptr + c.restSize)

/-- The step `f` is safe from every cursor whose remaining bytes lie inside `buf`. -/
def SafeStep (buf : List Byte) (f : Cursor → Taken) : Prop :=
  ∀ c : Cursor, c.ptr + c.restSize ≤ buf.length → Safe c (f c).status (f c).cur

/-- The same for a loop over several destinations. -/
def SafeLoop (buf : List Byte) (f : Cursor → TakenList) : Prop :=
  ∀ c : Cursor, c.ptr + c.restSize ≤ buf.length → Safe c (f c).status (f c).cur

/-- In `buf`, the reading step `f` started in front of `p`, the rest of the buffer, throws
`DeserializationError` whenever `p` is a strict prefix of the bytes `bs`: the buffer ends
before `bs` is complete. -/
def Truncated (buf : List Byte) (f : Cursor → Taken) (bs : List Byte) : Prop :=
  ∀ (c : Cursor) (p : List Byte), At buf c p → p <+: bs → p.length < bs.length →
    (f c).status = .DeserializationError

/-- The same for a loop over several destinations. -/
def TruncatedList (buf : List Byte) (f : Cursor → TakenList) (bs : List Byte) : Prop :=
  ∀ (c : Cursor) (p : List Byte), At buf c p → p <+: bs → p.length < bs.length →
    (f c).status = .DeserializationError

/-- The type `std::forward_list<int32_t>`. -/
def ty_flist_int : Ty := .forward_list ty_int

/-- The containers and fixed-length arrays with element type `e`: `std::vector`, `std::list`,
`std::set`, `std::forward_list`, C array and `std::array`. -/
def has_element_type (T e : Ty) : Prop :=
  is_variable_length T e ∨ is_fixed_array T e

/-- The type `std::vector<std::vector<int32_t>>`. -/
def ty_vec_vec : Ty := .vector (.vector ty_int)

mutual
/-- Reference definition of the minimal size, following the specification's words over the
type alone: a scalar or enumeration has its width; a fixed-length array of `N` elements has `N`
times the minimal size of its element; a tuple has the sum of the minimal sizes of its fields; a
variable-length container or forward list has exactly its size-field width (zero elements). -/
def minSize (cfg : Config) : Ty → Nat
  | .arith _ w => w
  | .enum _ w => w
  | .carray e n => n * minSize cfg e
  | .stdarray e n => n * minSize cfg e
  | .forward_list _ => size_field_width cfg
  | .vector _ => size_field_width cfg
  | .list _ => size_field_width cfg
  | .set _ => size_field_width cfg
  | .tuple _ fs => minSize_fields cfg fs
  | .aggregate fs => minSize_fields cfg fs
  | _ => 0
/-- The sum of the minimal sizes of the fields of a tuple. -/
def minSize_fields (cfg : Config) : List Ty → Nat
  | [] => 0
  | t :: ts => minSize cfg t + minSize_fields cfg ts
end

/-- The type `std::array<int32_t, 3>`. -/
def ty_array3 : Ty := .stdarray ty_int 3

/-- The type `std::set<int32_t>`. -/
def ty_set_int : Ty := .set ty_int

/-- The 16 bytes `serialize` returns for the set or list `{1, 2}` of `int32_t` under
`Serializer<>` on a little-endian host: the count 2 in 8 bytes, then 1 and 2 in 4 bytes each. -/
def bytes_1_2 : List Byte := [2, 0, 0, 0, 0, 0, 0, 0, 1, 0, 0, 0, 2, 0, 0, 0]

/-- The type `std::tuple<int8_t, std::vector<int16_t>, int32_t>`. -/
def ty_tuple_mixed : Ty := .tuple false args_custom

/-- Body of the specialisation `append<T, Iterable>::get(ptr, val)`, the element-wise path for a
container of elements of type `e`:
`append_f(ptr, static_cast<size_type_t<...>>(std::size(val))); for (auto &i : val) append_f(ptr, i);`. -/
def append_Iterable (cfg : Config) (e : Ty) (v : Val) (wr : Writer) : Option Writer :=
  (append_size cfg v.elems.length wr).bind (append_each (append cfg e) v.elems)

/-- Body of the specialisation `take<T, Iterable>::get(ptr, restSize, val)` for a `std::vector`
of elements of type `e`. -/
def take_Iterable (cfg : Config) (buf : List Byte) (e : Ty) (val : Val) (c : Cursor) : Taken :=
  take_iterable cfg buf e (is_resizable (.vector e) false) seq_insert (useReference cfg e false)
    (take cfg buf e false) (take_val cfg buf e) val c

/-- The step `f` on the buffer `buf` and the step `g` on the longer buffer `buf ++ s` run in
lockstep: whenever `f`, started inside `buf`, ends normally, `g` started at the same read pointer
with `s.length` more bytes remaining ends normally with the same value, at the same read pointer,
with `s.length` more bytes remaining. -/
def Mono (buf s : List Byte) (f g : Cursor → Taken) : Prop :=
  ∀ c : Cursor, c.ptr + c.restSize ≤ buf.length → (f c).status = .ok →
    g ⟨c.ptr, c.restSize + s.length⟩ =
      ⟨.ok, (f c).val, ⟨(f c).cur.ptr, (f c).cur.restSize + s.length⟩⟩

/-- The same for a loop over several destinations. -/
def MonoList (buf s : List Byte) (f g : Cursor → TakenList) : Prop :=
  ∀ c : Cursor, c.ptr + c.restSize ≤ buf.length → (f c).status = .ok →
    g ⟨c.ptr, c.restSize + s.length⟩ =
      ⟨.ok, (f c).vals, ⟨(f c).cur.ptr, (f c).cur.restSize + s.length⟩⟩

mutual
/-- No associative container occurs in the type; `std::set` is the associative container among
the type codes. -/
def set_free : Ty → Bool
  | .set _ => false
  | .carray e _ => set_free e
  | .stdarray e _ => set_free e
  | .forward_list e => set_free e
  | .vector e => set_free e
  | .list e => set_free e
  | .tuple _ fs => set_free_fields fs
  | .aggregate fs => set_free_fields fs
  | _ => true
/-- No associative container occurs in the field types of a tuple. -/
def set_free_fields : List Ty → Bool
  | [] => true
  | t :: ts => set_free t && set_free_fields ts
end

mutual
/-- Every integral scalar and enumeration the type is built from has one of the widths 1, 2, 4, 8
of the integral types. -/
def widths_ok : Ty → Bool
  | .arith _ w => valid_width w
  | .enum _ w => valid_width w
  | .carray e _ => widths_ok e
  | .stdarray e _ => widths_ok e
  | .forward_list e => widths_ok e
  | .vector e => widths_ok e
  | .list e => widths_ok e
  | .set e => widths_ok e
  | .tuple _ fs => widths_ok_fields fs
  | .aggregate fs => widths_ok_fields fs
  | _ => true
/-- The same for the field types of a tuple. -/
def widths_ok_fields : List Ty → Bool
  | [] => true
  | t :: ts => widths_ok t && widths_ok_fields ts
end

/-- Between the cursors `c` and `c1` exactly the bytes `bs` of `buf` were consumed: the read
pointer advanced by their number, the remaining count dropped by it, and they are the bytes of
the buffer from the first read pointer on. -/
def Consumed (buf : List Byte) (c c1 : Cursor) (bs : List Byte) : Prop :=
  c1.ptr = c.ptr + bs.length ∧ c1.restSize + bs.length = c.restSize ∧
    (buf.drop c.ptr).take bs.length = bs

/-- The decoding step `f` is canonical for the type `T` in `buf`: whenever it ends normally,
started inside the buffer, the value it leaves is an object of `T` and the bytes it consumed are
the wire format of that value. -/
def Canon (cfg : Config) (buf : List Byte) (T : Ty) (f : Cursor → Taken) : Prop :=
  ∀ c : Cursor, c.ptr + c.restSize ≤ buf.length → (f c).status = .ok →
    has_type cfg T (f c).val = true ∧ Consumed buf c (f c).cur (encode cfg T (f c).val)

/-- A buffer holding the count 2 followed by the 32-bit integer 5 twice. -/
def bytes_5_5 : List Byte := [2, 0, 0, 0, 0, 0, 0, 0, 5, 0, 0, 0, 5, 0, 0, 0]

/-- A buffer holding the count 2 followed by the 32-bit integers 2 and 1. -/
def bytes_2_1 : List Byte := [2, 0, 0, 0, 0, 0, 0, 0, 2, 0, 0, 0, 1, 0, 0, 0]

/-- The type `std::vector<std::array<int32_t, 3>>`. -/
def ty_vec_array3 : Ty := .vector ty_array3

/-- The value `{{1, 2, 3}}` of `std::vector<std::array<int32_t, 3>>`. -/
def val_vec_array3 : Val := .seq [.seq [.int 1, .int 2, .int 3]]

/-- The 20 bytes `serialize` returns for `val_vec_array3` under `Serializer<>` on a
little-endian host: the count 1 in 8 bytes, then 1, 2 and 3 in 4 bytes each. -/
def bytes_vec_array3 : List Byte :=
  [1, 0, 0, 0, 0, 0, 0, 0, 1, 0, 0, 0, 2, 0, 0, 0, 3, 0, 0, 0]

/-- The type `std::pair<int32_t, int32_t>[2]`. -/
def ty_pair_array2 : Ty := .carray (.tuple false [ty_int, ty_int]) 2

/-- The value `{{1, 2}, {3, 4}}` of `std::pair<int32_t, int32_t>[2]`. -/
def val_pair_array2 : Val := .seq [.seq [.int 1, .int 2], .seq [.int 3, .int 4]]

/-- The 16 bytes `serialize` returns for `val_pair_array2` under `Serializer<>` on a
little-endian host. -/
def bytes_pair_array2 : List Byte := [1, 0, 0, 0, 2, 0, 0, 0, 3, 0, 0, 0, 4, 0, 0, 0]

/-- Arguments of a variadic call: an `int` and a `std::vector<std::array<int32_t, 3>>`. -/
def args_undecodable : List (Ty × Val) := [(ty_int, .int 7), (ty_vec_array3, val_vec_array3)]

/-- Member `insert(end(), x)` of `std::multiset`: `x` is put behind the elements that are not
greater than it; equivalent elements are kept. -/
def multiset_insert : List Val → Val → List Val
  | [], x => [x]
  | y :: ys, x => if Val.lt x y then x :: y :: ys else y :: multiset_insert ys x

/-- The key of an element of a `std::map`: the first component of the pair. -/
def map_key (x : Val) : Val := x.elems.headD (.int 0)

/-- Member `insert(end(), x)` of `std::map`, `x` being a pair of key and value: `x` is put at the
place of its key unless an element of an equivalent key is present. -/
def map_insert : List Val → Val → List Val
  | [], x => [x]
  | y :: ys, x =>
      if Val.lt (map_key y) (map_key x) then y :: map_insert ys x
      else if Val.lt (map_key x) (map_key y) then x :: y :: ys
      else y :: ys

/-- The specialisation `take<T, Iterable>::get(ptr, restSize, val)` for `T = std::multiset<e>`:
the type has no `resize`, so each element is taken and inserted with `val.insert(val.end(), el)`. -/
def take_multiset (cfg : Config) (buf : List Byte) (e : Ty) (val : Val) (c : Cursor) : Taken :=
  take_iterable cfg buf e false multiset_insert (useReference cfg e false)
    (take cfg buf e false) (take_val cfg buf e) val c

/-- The specialisation `take<T, Iterable>::get(ptr, restSize, val)` for `T = std::map<k, v>`,
whose `value_type` is `std::pair<const k, v>`: a tuple with a `const` element, taken by value
and inserted with `val.insert(val.end(), ...)`. -/
def take_map (cfg : Config) (buf : List Byte) (k v : Ty) (val : Val) (c : Cursor) : Taken :=
  take_iterable cfg buf (.tuple true [k, v]) false map_insert
    (useReference cfg (.tuple true [k, v]) false) (take cfg buf (.tuple true [k, v]) false)
    (take_val cfg buf (.tuple true [k, v])) val c

/-- A buffer holding the count 2 followed by the pairs (1, 5) and (1, 6) of 8-bit integers. -/
def bytes_map_dup : List Byte := [2, 0, 0, 0, 0, 0, 0, 0, 1, 5, 1, 6]

/-! # Theorems -/

theorem length_le_bytes (w p : Nat) : (le_bytes w p).length = w := by
  induction w generalizing p with
  | zero => rfl
  | succ w ih => simp [le_bytes, ih]

theorem of_le_bytes_lt (bs : List Byte) : of_le_bytes bs < 256 ^ bs.length := by
  induction bs with
  | nil => simp [of_le_bytes]
  | cons b bs ih =>
      have hb := b.isLt
      simp only [of_le_bytes, List.length_cons, pow_succ]
      omega

theorem of_le_bytes_le_bytes (w p : Nat) : of_le_bytes (le_bytes w p) = p % 256 ^ w := by
  induction w generalizing p with
  | zero => simp [le_bytes, of_le_bytes, Nat.mod_one]
  | succ w ih =>
      simp only [le_bytes, of_le_bytes, byte_of, ih]
      rw [pow_succ, Nat.mul_comm (256 ^ w) 256, Nat.mod_mul]

theorem le_bytes_of_le_bytes (bs : List Byte) : le_bytes bs.length (of_le_bytes bs) = bs := by
  induction bs with
  | nil => rfl
  | cons b bs ih =>
      have hb := b.isLt
      simp only [List.length_cons, le_bytes, of_le_bytes]
      congr 1
      · apply Fin.ext
        simp only [byte_of]
        omega
      · have : (b.val + 256 * of_le_bytes bs) / 256 = of_le_bytes bs := by omega
        rw [this, ih]

theorem of_le_bytes_append (xs ys : List Byte) :
    of_le_bytes (xs ++ ys) = of_le_bytes xs + 256 ^ xs.length * of_le_bytes ys := by
  induction xs with
  | nil => simp [of_le_bytes]
  | cons b xs ih =>
      rw [List.cons_append]
      simp only [of_le_bytes, ih, List.length_cons, pow_succ]
      ring


theorem rev_pattern_lt (w p : Nat) : rev_pattern w p < 256 ^ w := by
  have := of_le_bytes_lt (le_bytes w p).reverse
  simpa [rev_pattern, length_le_bytes] using this

theorem le_bytes_rev_pattern (w p : Nat) :
    le_bytes w (rev_pattern w p) = (le_bytes w p).reverse := by
  have := le_bytes_of_le_bytes (le_bytes w p).reverse
  simpa [rev_pattern, length_le_bytes] using this

theorem le_bytes_mod (w p : Nat) : le_bytes w (p % 256 ^ w) = le_bytes w p := by
  have h1 := le_bytes_of_le_bytes (le_bytes w p)
  rw [length_le_bytes, of_le_bytes_le_bytes] at h1
  exact h1

theorem rev_pattern_succ (k p : Nat) :
    rev_pattern (k + 1) p = rev_pattern k (p / 256) + p % 256 * 256 ^ k := by
  simp only [rev_pattern, le_bytes, List.reverse_cons, of_le_bytes_append, List.length_reverse,
    length_le_bytes, of_le_bytes, byte_of]
  ring

theorem two_pow_8 (w : Nat) : (2 : Nat) ^ (8 * w) = 256 ^ w := by
  rw [pow_mul]; norm_num

theorem two_pow_8_int (w : Nat) : (2 : Int) ^ (8 * w) = 256 ^ w := by
  rw [pow_mul]; norm_num

theorem emod_mul_256 (val q : Int) (hq : 0 < q) :
    val % (256 * q) = val % 256 + 256 * ((val / 256) % q) := by
  have h1 := Int.emod_add_ediv (val / 256) q
  have h2 := Int.emod_add_ediv val 256
  have h3 := Int.emod_nonneg val (b := 256) (by norm_num)
  have h4 := Int.emod_lt_of_pos val (b := 256) (by norm_num)
  have h5 := Int.emod_nonneg (val / 256) (b := q) (by omega)
  have h6 := Int.emod_lt_of_pos (val / 256) hq
  have := (Int.ediv_emod_unique (a := val) (b := 256 * q) (r := val % 256 + 256 * (val / 256 % q))
    (q := val / 256 / q) (by omega)).2 ⟨by linear_combination 256 * h1 + h2, by omega, by omega⟩
  exact this.2

theorem pattern_succ (val : Int) (k : Nat) :
    (val % 256 ^ (k + 1)).toNat / 256 = ((val / 256) % 256 ^ k).toNat ∧
    (val % 256 ^ (k + 1)).toNat % 256 = (val % 256).toNat := by
  have hq : (0 : Int) < 256 ^ k := by positivity
  have h := emod_mul_256 val (256 ^ k) hq
  have h3 := Int.emod_nonneg val (b := 256) (by norm_num)
  have h4 := Int.emod_lt_of_pos val (b := 256) (by norm_num)
  have h5 := Int.emod_nonneg (val / 256) (b := 256 ^ k) (by omega)
  rw [pow_succ, mul_comm, h]
  generalize val % 256 = r1 at *
  generalize val / 256 % 256 ^ k = r2 at *
  omega

theorem reorder_loop_nat (w : Nat) : ∀ (k ret : Nat) (val : Int), k ≤ w → ret < 256 ^ (w - k) →
    reorder_loop w k ret val = ret * 256 ^ k + rev_pattern k (val % 256 ^ k).toNat := by
  intro k
  induction k with
  | zero => intro ret val _ _; simp [reorder_loop, rev_pattern, le_bytes, of_le_bytes]
  | succ k ih =>
      intro ret val hk hret
      have hb0 : (0 : Int) ≤ val % 256 := Int.emod_nonneg _ (by norm_num)
      have hb1 : val % 256 < 256 := Int.emod_lt_of_pos _ (by norm_num)
      have hbn : (val % 256).toNat < 2 ^ 8 := by omega
      have hpow : 256 ^ (w - k) = 256 ^ (w - (k + 1)) * 256 := by
        rw [← pow_succ]; congr 1; omega
      have hlt : ret * 256 < 256 ^ (w - k) := by
        rw [hpow]; exact Nat.mul_lt_mul_of_pos_right hret (by norm_num)
      have hle : 256 ^ (w - k) ≤ 2 ^ (8 * w) := by
        rw [two_pow_8]; exact Nat.pow_le_pow_right (by norm_num) (by omega)
      have hmod : (ret <<< 8) % 2 ^ (8 * w) = 2 ^ 8 * ret := by
        rw [Nat.shiftLeft_eq, Nat.mod_eq_of_lt (by norm_num at hlt ⊢; omega)]
        ring
      have hor : ((ret <<< 8) % 2 ^ (8 * w)) ||| (val % 256).toNat
          = ret * 256 + (val % 256).toNat := by
        rw [hmod, ← Nat.mul_add_lt_is_or hbn]; ring
      have hnew : ret * 256 + (val % 256).toNat < 256 ^ (w - k) := by
        rw [hpow]
        have : ret + 1 ≤ 256 ^ (w - (k + 1)) := hret
        nlinarith
      have hsh : val >>> (8 : Nat) = val / 256 := by
        rw [Int.shiftRight_eq_div_pow]; norm_num
      rw [reorder_loop, hor, hsh, ih _ _ (by omega) hnew, rev_pattern_succ]
      obtain ⟨h1, h2⟩ := pattern_succ val k
      rw [h1, h2, pow_succ]
      ring

theorem reorder_loop_eq (w : Nat) (val : Int) :
    reorder_loop w w 0 val = rev_pattern w (bit_pattern w val) := by
  rw [reorder_loop_nat w w 0 val (le_refl _) (by simp)]
  simp [bit_pattern, two_pow_8_int]

theorem pow_half (w : Nat) (hw : 1 ≤ w) : (2 : Int) ^ (8 * w) = 2 * 2 ^ (8 * w - 1) := by
  rw [← pow_succ']; congr 1; omega

theorem bit_pattern_lt (w : Nat) (x : Int) : bit_pattern w x < 256 ^ w := by
  have h0 : (0 : Int) ≤ x % 2 ^ (8 * w) := Int.emod_nonneg _ (by positivity)
  have h1 : x % 2 ^ (8 * w) < 2 ^ (8 * w) := Int.emod_lt_of_pos _ (by positivity)
  rw [← two_pow_8]
  unfold bit_pattern
  zify
  rw [Int.toNat_of_nonneg h0]
  exact_mod_cast h1

theorem bit_pattern_cast (w : Nat) (x : Int) : ((bit_pattern w x : Nat) : Int) = x % 2 ^ (8 * w) := by
  unfold bit_pattern
  exact Int.toNat_of_nonneg (Int.emod_nonneg _ (by positivity))

theorem wrap_emod (s : Bool) (w : Nat) (x : Int) :
    wrap s w x % 2 ^ (8 * w) = x % 2 ^ (8 * w) := by
  unfold wrap
  simp only
  split
  · have := Int.add_mul_emod_self (a := x % 2 ^ (8 * w)) (b := -1) (c := 2 ^ (8 * w))
    rw [show x % 2 ^ (8 * w) - 2 ^ (8 * w) = x % 2 ^ (8 * w) + -1 * 2 ^ (8 * w) by ring, this]
    exact Int.emod_emod_of_dvd _ (dvd_refl _)
  · exact Int.emod_emod_of_dvd _ (dvd_refl _)

theorem bit_pattern_wrap (s : Bool) (w : Nat) (x : Int) :
    bit_pattern w (wrap s w x) = bit_pattern w x := by
  unfold bit_pattern
  rw [wrap_emod]

theorem wrap_congr (s : Bool) (w : Nat) (x y : Int) (h : x % 2 ^ (8 * w) = y % 2 ^ (8 * w)) :
    wrap s w x = wrap s w y := by
  unfold wrap
  simp only [h]

theorem wrap_bit_pattern (s : Bool) (w : Nat) (x : Int) :
    wrap s w (bit_pattern w x : Nat) = wrap s w x := by
  apply wrap_congr
  rw [bit_pattern_cast]
  exact Int.emod_emod_of_dvd _ (dvd_refl _)

theorem wrap_of_in_range (s : Bool) (w : Nat) (x : Int) (hw : 1 ≤ w)
    (h : int_in_range s w x = true) : wrap s w x = x := by
  have hM := pow_half w hw
  have hpos : (0 : Int) < 2 ^ (8 * w - 1) := by positivity
  unfold int_in_range at h
  unfold wrap
  generalize (2 : Int) ^ (8 * w) = M at *
  generalize (2 : Int) ^ (8 * w - 1) = H at *
  cases s
  · simp only [Bool.false_eq_true, ↓reduceIte, decide_eq_true_eq] at h
    simp [Int.emod_eq_of_lt h.1 h.2]
  · simp only [↓reduceIte, decide_eq_true_eq] at h
    by_cases hx : 0 ≤ x
    · have : x % M = x := Int.emod_eq_of_lt hx (by omega)
      simp only [this, Bool.true_and, decide_eq_true_eq]
      rw [if_neg (by omega)]
    · have h2 : x % M = x + M := by
        have := Int.add_mul_emod_self (a := x) (b := 1) (c := M)
        rw [one_mul] at this
        rw [← this]
        exact Int.emod_eq_of_lt (by omega) (by omega)
      simp only [h2, Bool.true_and, decide_eq_true_eq]
      rw [if_pos (by omega)]
      ring

theorem wrap_in_range (s : Bool) (w : Nat) (x : Int) (hw : 1 ≤ w) :
    int_in_range s w (wrap s w x) = true := by
  have hM := pow_half w hw
  have h0 : (0 : Int) ≤ x % 2 ^ (8 * w) := Int.emod_nonneg _ (by positivity)
  have h1 : x % 2 ^ (8 * w) < 2 ^ (8 * w) := Int.emod_lt_of_pos _ (by positivity)
  have hpos : (0 : Int) < 2 ^ (8 * w - 1) := by positivity
  unfold int_in_range wrap
  generalize x % (2 : Int) ^ (8 * w) = m at *
  generalize (2 : Int) ^ (8 * w) = M at *
  generalize (2 : Int) ^ (8 * w - 1) = H at *
  cases s
  · simp only [Bool.false_and, Bool.false_eq_true, ↓reduceIte, decide_eq_true_eq]
    omega
  · simp only [Bool.true_and, decide_eq_true_eq, ↓reduceIte]
    split <;> omega

theorem length_object_bytes (o : ByteOrder) (w : Nat) (x : Int) :
    (object_bytes o w x).length = w := by
  cases o <;> simp [object_bytes, length_le_bytes]

theorem object_value_object_bytes (o : ByteOrder) (s : Bool) (w : Nat) (x : Int) :
    object_value o s (object_bytes o w x) = wrap s w x := by
  have hc : ((bit_pattern w x % 256 ^ w : Nat) : Int) = (bit_pattern w x : Nat) := by
    rw [Nat.mod_eq_of_lt (bit_pattern_lt w x)]
  cases o <;>
    simp only [object_value, object_bytes, List.length_reverse, List.reverse_reverse,
      length_le_bytes, of_le_bytes_le_bytes, hc, wrap_bit_pattern]

theorem bit_pattern_wrap_nat (s : Bool) (w p : Nat) (hp : p < 256 ^ w) :
    bit_pattern w (wrap s w (p : Int)) = p := by
  rw [bit_pattern_wrap]
  unfold bit_pattern
  rw [two_pow_8_int, Int.emod_eq_of_lt (by positivity) (by exact_mod_cast hp)]
  simp

theorem object_bytes_object_value (o : ByteOrder) (s : Bool) (bs : List Byte) :
    object_bytes o bs.length (object_value o s bs) = bs := by
  cases o
  · simp only [object_value, object_bytes]
    rw [bit_pattern_wrap_nat _ _ _ (of_le_bytes_lt bs), le_bytes_of_le_bytes]
  · simp only [object_value, object_bytes]
    have := of_le_bytes_lt bs.reverse
    rw [List.length_reverse] at this
    rw [bit_pattern_wrap_nat _ _ _ this]
    have h2 := le_bytes_of_le_bytes bs.reverse
    rw [List.length_reverse] at h2
    rw [h2, List.reverse_reverse]

/-- The bytes written for a scalar are its object representation on a machine of the configured
byte order. -/
theorem object_bytes_reorder (s : Bool) (w : Nat) (H o : ByteOrder) (x : Int) :
    object_bytes H w (reorder s w H o x) = object_bytes o w x := by
  unfold reorder
  split
  · rename_i h
    have hrev : bit_pattern w (wrap s w (reorder_loop w w 0 x : Nat)) =
        rev_pattern w (bit_pattern w x) := by
      rw [reorder_loop_eq, bit_pattern_wrap_nat _ _ _ (rev_pattern_lt _ _)]
    cases H <;> cases o <;> simp at h <;>
      simp only [object_bytes, hrev, le_bytes_rev_pattern, List.reverse_reverse]
  · rename_i h
    by_cases hHo : H = o
    · rw [hHo]
    · have hw : w ≤ 1 := by
        by_contra hc
        exact h ⟨hHo, by omega⟩
      interval_cases w
      · cases H <;> cases o <;> simp [object_bytes, le_bytes]
      · cases H <;> cases o <;> simp [object_bytes, le_bytes]

theorem rev_pattern_rev_pattern (w p : Nat) (hp : p < 256 ^ w) :
    rev_pattern w (rev_pattern w p) = p := by
  unfold rev_pattern
  have h := le_bytes_rev_pattern w p
  unfold rev_pattern at h
  rw [h, List.reverse_reverse, of_le_bytes_le_bytes, Nat.mod_eq_of_lt hp]

/-- Reordering what `memcpy` stored gives the integer whose object representation on a machine
of the configured byte order the bytes are. -/
theorem reorder_object_value (s : Bool) (H o : ByteOrder) (bs : List Byte) :
    reorder s bs.length o H (object_value H s bs) = object_value o s bs := by
  unfold reorder
  split
  · rename_i h
    rw [reorder_loop_eq]
    have key : ∀ p : Nat, p < 256 ^ bs.length →
        wrap s bs.length (rev_pattern bs.length (bit_pattern bs.length (wrap s bs.length (p : Int))) : Nat)
          = wrap s bs.length (rev_pattern bs.length p : Nat) := by
      intro p hp
      rw [bit_pattern_wrap_nat _ _ _ hp]
    have hr : rev_pattern bs.length (of_le_bytes bs) = of_le_bytes bs.reverse := by
      unfold rev_pattern
      rw [le_bytes_of_le_bytes]
    have hr2 : rev_pattern bs.length (of_le_bytes bs.reverse) = of_le_bytes bs := by
      rw [← hr, rev_pattern_rev_pattern _ _ (of_le_bytes_lt bs)]
    have hlt2 : of_le_bytes bs.reverse < 256 ^ bs.length := by
      have := of_le_bytes_lt bs.reverse
      rwa [List.length_reverse] at this
    cases H <;> cases o <;> simp at h <;> simp only [object_value]
    · rw [key _ (of_le_bytes_lt bs), hr]
    · rw [key _ hlt2, hr2]
  · rename_i h
    by_cases hHo : o = H
    · rw [hHo]
    · have hw : bs.length ≤ 1 := by
        by_contra hc
        exact h ⟨hHo, by omega⟩
      match bs, hw with
      | [], _ => cases H <;> cases o <;> simp [object_value]
      | [b], _ => cases H <;> cases o <;> simp [object_value]

/-! ## Classification of each type constructor -/

theorem priority_arith (cfg : Config) (s : Bool) (w : Nat) (ref : Bool) :
    priority_type cfg (.arith s w) ref = .Arithmetic := by
  simp [priority_type, priority_type_from, typePriority, qualifies]

theorem priority_enum (cfg : Config) (s : Bool) (w : Nat) (ref : Bool) :
    priority_type cfg (.enum s w) ref = .Enum := by
  simp [priority_type, priority_type_from, typePriority, qualifies, is_tuple_serializable]

theorem priority_carray (cfg : Config) (e : Ty) (n : Nat) (ref : Bool) :
    priority_type cfg (.carray e n) ref =
      if 0 < n ∧ bulk_copyable cfg e = true ∧ cfg.order = cfg.Host then .ArithmeticArray
      else if 0 < n then .Array else .NonSerializable := by
  simp [priority_type, priority_type_from, typePriority, qualifies, is_tuple_serializable,
    is_insertable_sized_range, bulk_copyable, and_assoc]

theorem priority_stdarray (cfg : Config) (e : Ty) (n : Nat) (ref : Bool) :
    priority_type cfg (.stdarray e n) ref =
      if ref = false ∧ (qualifies cfg e false .Arithmetic = true ∨
          qualifies cfg e false .ArithmeticArray = true) ∧ cfg.order = cfg.Host then .Optimized
      else if ref = false ∧ 0 < n then .Tuple else .NonSerializable := by
  simp [priority_type, priority_type_from, typePriority, qualifies, is_tuple_serializable,
    is_insertable_sized_range, is_std_array, and_assoc]

theorem priority_forward_list (cfg : Config) (e : Ty) (ref : Bool) :
    priority_type cfg (.forward_list e) ref =
      if ref = false then .Optimized else .NonSerializable := by
  cases ref <;>
  simp [priority_type, priority_type_from, typePriority, qualifies, is_tuple_serializable,
    is_insertable_sized_range, is_forward_list]

theorem priority_vector (cfg : Config) (e : Ty) (ref : Bool) :
    priority_type cfg (.vector e) ref =
      if (qualifies cfg e false .Arithmetic = true ∨ qualifies cfg e false .Enum = true) ∧
          cfg.order = cfg.Host then .ArithmeticContiguous
      else .Iterable := by
  simp [priority_type, priority_type_from, typePriority, qualifies, is_tuple_serializable,
    is_insertable_sized_range, has_data, is_resizable]

theorem priority_list (cfg : Config) (e : Ty) (ref : Bool) :
    priority_type cfg (.list e) ref = .Iterable := by
  simp [priority_type, priority_type_from, typePriority, qualifies, is_tuple_serializable,
    is_insertable_sized_range]

theorem priority_set (cfg : Config) (e : Ty) (ref : Bool) :
    priority_type cfg (.set e) ref = .Iterable := by
  simp [priority_type, priority_type_from, typePriority, qualifies, is_tuple_serializable,
    is_insertable_sized_range]

theorem priority_tuple (cfg : Config) (hc : Bool) (fs : List Ty) (ref : Bool) :
    priority_type cfg (.tuple hc fs) ref =
      if ref = false ∧ fs.isEmpty = false then .Tuple else .NonSerializable := by
  cases ref <;> cases fs <;>
  simp [priority_type, priority_type_from, typePriority, qualifies, is_tuple_serializable,
    is_insertable_sized_range]

theorem priority_aggregate (cfg : Config) (fs : List Ty) (ref : Bool) :
    priority_type cfg (.aggregate fs) ref =
      if is_tuple_serializable (.aggregate fs) ref = true then .Tuple else .NonSerializable := by
  simp [priority_type, priority_type_from, typePriority, qualifies, is_insertable_sized_range]

theorem priority_vector_bool (cfg : Config) (ref : Bool) :
    priority_type cfg .vector_bool ref = if ref = true then .Iterable else .NonSerializable := by
  cases ref <;>
  simp [priority_type, priority_type_from, typePriority, qualifies, is_tuple_serializable,
    is_insertable_sized_range]

theorem priority_pointer (cfg : Config) (ref : Bool) :
    priority_type cfg .pointer ref = .NonSerializable := by
  simp [priority_type, priority_type_from, typePriority, qualifies, is_tuple_serializable,
    is_insertable_sized_range]

theorem priority_bitset (cfg : Config) (ref : Bool) :
    priority_type cfg .bitset ref = .NonSerializable := by
  simp [priority_type, priority_type_from, typePriority, qualifies, is_tuple_serializable,
    is_insertable_sized_range]

theorem priority_initializer_list (cfg : Config) (ref : Bool) :
    priority_type cfg .initializer_list ref = .NonSerializable := by
  simp [priority_type, priority_type_from, typePriority, qualifies, is_tuple_serializable,
    is_insertable_sized_range]

/-- A type qualifies as `Arithmetic` exactly when it is an integral type. -/
theorem qualifies_Arithmetic (cfg : Config) (e : Ty) (ref : Bool) :
    qualifies cfg e ref .Arithmetic = true ↔ ∃ s w, e = .arith s w := by
  cases e <;> simp [qualifies]

theorem qualifies_Enum (cfg : Config) (e : Ty) (ref : Bool) :
    qualifies cfg e ref .Enum = true ↔ ∃ s w, e = .enum s w := by
  cases e <;> simp [qualifies]

theorem qualifies_ArithmeticArray (cfg : Config) (e : Ty) (ref : Bool) :
    qualifies cfg e ref .ArithmeticArray = true ↔
      ∃ e1 n, e = .carray e1 n ∧ 0 < n ∧ bulk_copyable cfg e1 = true ∧ cfg.order = cfg.Host := by
  cases e <;> simp [qualifies, bulk_copyable, and_assoc]

theorem carray_cases (cfg : Config) (e : Ty) (n : Nat) (ref : Bool) :
    (priority_type cfg (.carray e n) ref = .ArithmeticArray ∧ 0 < n ∧
        bulk_copyable cfg e = true ∧ cfg.order = cfg.Host) ∨
    (priority_type cfg (.carray e n) ref = .Array ∧ 0 < n) ∨
    (priority_type cfg (.carray e n) ref = .NonSerializable ∧ n = 0) := by
  rw [priority_carray]
  by_cases h1 : 0 < n ∧ bulk_copyable cfg e = true ∧ cfg.order = cfg.Host
  · simp [h1]
  · by_cases h2 : 0 < n
    · right; left
      exact ⟨by rw [if_neg h1, if_pos h2], h2⟩
    · right; right
      exact ⟨by rw [if_neg h1, if_neg h2], by omega⟩

theorem stdarray_cases (cfg : Config) (e : Ty) (n : Nat) (ref : Bool) :
    (priority_type cfg (.stdarray e n) ref = .Optimized ∧ ref = false ∧
        (qualifies cfg e false .Arithmetic = true ∨ qualifies cfg e false .ArithmeticArray = true) ∧
        bulk_copyable cfg e = true ∧ cfg.order = cfg.Host) ∨
    (priority_type cfg (.stdarray e n) ref = .Tuple ∧ ref = false ∧ 0 < n) ∨
    (priority_type cfg (.stdarray e n) ref = .NonSerializable ∧ (ref = true ∨ n = 0)) := by
  rw [priority_stdarray]
  by_cases h1 : ref = false ∧ (qualifies cfg e false .Arithmetic = true ∨
      qualifies cfg e false .ArithmeticArray = true) ∧ cfg.order = cfg.Host
  · left
    refine ⟨by rw [if_pos h1], h1.1, h1.2.1, ?_, h1.2.2⟩
    rcases h1.2.1 with h | h <;> simp [bulk_copyable, h]
  · by_cases h2 : ref = false ∧ 0 < n
    · right; left
      exact ⟨by rw [if_neg h1, if_pos h2], h2.1, h2.2⟩
    · right; right
      refine ⟨by rw [if_neg h1, if_neg h2], ?_⟩
      cases ref <;> simp at h2 ⊢
      omega

theorem vector_cases (cfg : Config) (e : Ty) (ref : Bool) :
    (priority_type cfg (.vector e) ref = .ArithmeticContiguous ∧
        (qualifies cfg e false .Arithmetic = true ∨ qualifies cfg e false .Enum = true) ∧
        bulk_copyable cfg e = true ∧ cfg.order = cfg.Host) ∨
    (priority_type cfg (.vector e) ref = .Iterable) := by
  rw [priority_vector]
  by_cases h1 : (qualifies cfg e false .Arithmetic = true ∨ qualifies cfg e false .Enum = true) ∧
      cfg.order = cfg.Host
  · left
    refine ⟨by rw [if_pos h1], h1.1, ?_, h1.2⟩
    rcases h1.1 with h | h <;> simp [bulk_copyable, h]
  · right; rw [if_neg h1]

/-- Writing a serializable type as a reference does not change its category, when it still has
one. -/
theorem priority_ref_eq (cfg : Config) (T : Ty) (h : priority_type cfg T true ≠ .NonSerializable)
    (hvb : priority_type cfg T false ≠ .NonSerializable) :
    priority_type cfg T true = priority_type cfg T false := by
  cases T with
  | arith s w => simp [priority_arith]
  | enum s w => simp [priority_enum]
  | carray e n => simp [priority_carray]
  | stdarray e n => simp [priority_stdarray] at h
  | forward_list e => simp [priority_forward_list] at h
  | vector e => simp [priority_vector]
  | list e => simp [priority_list]
  | set e => simp [priority_set]
  | tuple hc fs => simp [priority_tuple] at h
  | aggregate fs => simp [priority_aggregate, is_tuple_serializable] at h
  | vector_bool => simp [priority_vector_bool] at hvb
  | pointer => simp [priority_pointer] at h
  | bitset => simp [priority_bitset] at h
  | initializer_list => simp [priority_initializer_list] at h

theorem sum_map_const {α : Type} (xs : List α) (f : α → Nat) (c : Nat) (h : ∀ x ∈ xs, f x = c) :
    (xs.map f).sum = xs.length * c := by
  induction xs with
  | nil => simp
  | cons x xs ih =>
      simp only [List.map_cons, List.sum_cons, List.length_cons]
      rw [h x (by simp), ih (fun y hy => h y (by simp [hy]))]
      ring

theorem length_flatten_map {α : Type} (xs : List α) (f : α → List Byte) :
    ((xs.map f).flatten).length = (xs.map (fun x => (f x).length)).sum := by
  induction xs with
  | nil => simp
  | cons x xs ih => simp [ih]

theorem sum_map_congr {α : Type} (xs : List α) (f g : α → Nat) (h : ∀ x ∈ xs, f x = g x) :
    (xs.map f).sum = (xs.map g).sum := by
  induction xs with
  | nil => simp
  | cons x xs ih =>
      simp only [List.map_cons, List.sum_cons]
      rw [h x (by simp), ih (fun y hy => h y (by simp [hy]))]

theorem map_congr_mem {α β : Type} (xs : List α) (f g : α → β) (h : ∀ x ∈ xs, f x = g x) :
    xs.map f = xs.map g := List.map_congr_left h

/-- Sizes of the bulk-copied element types do not depend on the value. -/
theorem bulk_size (cfg : Config) (e : Ty) (h : bulk_copyable cfg e = true) :
    (∀ x, byte_size cfg e x = sizeof e) ∧ byte_minsize cfg e = sizeof e := by
  cases e with
  | arith s w => simp [byte_size, byte_minsize, sizeof]
  | enum s w => simp [byte_size, byte_minsize, sizeof]
  | carray e1 n =>
      have h' : 0 < n ∧ bulk_copyable cfg e1 = true ∧ cfg.order = cfg.Host := by
        simpa [bulk_copyable, qualifies, and_assoc] using h
      have ih := bulk_size cfg e1 h'.2.1
      have hp : priority_type cfg (.carray e1 n) false = .ArithmeticArray := by
        rw [priority_carray, if_pos h']
      simp [byte_size, byte_minsize, sizeof, hp, ih.1, ih.2]
  | _ => simp [bulk_copyable, qualifies, is_tuple_serializable] at h

/-- Under `order = Host` the object representation of a bulk-copied type is its wire format. -/
theorem bulk_raw (cfg : Config) (hH : cfg.order = cfg.Host) (e : Ty)
    (h : bulk_copyable cfg e = true) (x : Val) : raw_bytes cfg.Host e x = encode cfg e x := by
  cases e with
  | arith s w => simp [raw_bytes, encode, hH]
  | enum s w => simp [raw_bytes, encode, hH]
  | carray e1 n =>
      have h' : 0 < n ∧ bulk_copyable cfg e1 = true ∧ cfg.order = cfg.Host := by
        simpa [bulk_copyable, qualifies, and_assoc] using h
      simp only [raw_bytes, encode]
      congr 1
      exact List.map_congr_left (fun y _ => bulk_raw cfg hH e1 h'.2.1 y)
  | _ => simp [bulk_copyable, qualifies, is_tuple_serializable] at h

theorem all_has_type {cfg : Config} {e : Ty} {xs : List Val}
    (h : xs.all (has_type cfg e) = true) : ∀ x ∈ xs, has_type cfg e x = true := by
  simpa using h

theorem has_types_length (cfg : Config) : ∀ (Ts : List Ty) (vs : List Val),
    has_types cfg Ts vs = true → vs.length = Ts.length
  | [], [], _ => rfl
  | [], _ :: _, h => by simp [has_types] at h
  | _ :: _, [], h => by simp [has_types] at h
  | t :: ts, x :: xs, h => by
      simp only [has_types, Bool.and_eq_true] at h
      simp [has_types_length cfg ts xs h.2]

mutual
/-- The wire format of a value has `byte_size` bytes. -/
theorem length_encode (cfg : Config) (T : Ty) (v : Val) (h : has_type cfg T v = true) :
    (encode cfg T v).length = byte_size cfg T v := by
  cases T with
  | arith s w => simp [encode, byte_size, length_object_bytes]
  | enum s w => simp [encode, byte_size, length_object_bytes]
  | carray e n =>
      cases v with
      | int x => simp [has_type] at h
      | seq xs =>
          simp only [has_type, Bool.and_eq_true, decide_eq_true_eq] at h
          have hall := all_has_type h.2
          have ih : ∀ x ∈ xs, (encode cfg e x).length = byte_size cfg e x :=
            fun x hx => length_encode cfg e x (hall x hx)
          simp only [encode, byte_size, Val.elems, length_flatten_map]
          rcases carray_cases cfg e n false with ⟨hp, _, hc, _⟩ | ⟨hp, _⟩ | ⟨hp, hn⟩ <;>
            simp only [hp]
          · have hb := bulk_size cfg e hc
            rw [sum_map_const xs _ (sizeof e) (fun x hx => by rw [ih x hx, hb.1]), hb.1, h.1]
          · exact sum_map_congr _ _ _ ih
          · have : xs = [] := by
              apply List.eq_nil_of_length_eq_zero; omega
            simp [this]
  | stdarray e n =>
      cases v with
      | int x => simp [has_type] at h
      | seq xs =>
          simp only [has_type, Bool.and_eq_true, decide_eq_true_eq] at h
          have hall := all_has_type h.2
          have ih : ∀ x ∈ xs, (encode cfg e x).length = byte_size cfg e x :=
            fun x hx => length_encode cfg e x (hall x hx)
          simp only [encode, byte_size, Val.elems, length_flatten_map]
          rcases stdarray_cases cfg e n false with ⟨hp, _, _, hc, _⟩ | ⟨hp, _⟩ | ⟨hp, hn⟩ <;>
            simp only [hp]
          · have hb := bulk_size cfg e hc
            rw [sum_map_const xs _ (sizeof e) (fun x hx => by rw [ih x hx, hb.1]), h.1]
          · exact sum_map_congr _ _ _ ih
          · have : xs = [] := by
              apply List.eq_nil_of_length_eq_zero
              simp at hn
              omega
            simp [this]
  | forward_list e =>
      cases v with
      | int x => simp [has_type] at h
      | seq xs =>
          simp only [has_type, Bool.and_eq_true, decide_eq_true_eq] at h
          have hall := all_has_type h.2
          have ih : ∀ x ∈ xs, (encode cfg e x).length = byte_size cfg e x :=
            fun x hx => length_encode cfg e x (hall x hx)
          simp only [encode, byte_size, Val.elems, length_flatten_map, List.length_append,
            count_bytes, length_object_bytes]
          rw [sum_map_congr _ _ _ ih]
  | vector e =>
      cases v with
      | int x => simp [has_type] at h
      | seq xs =>
          simp only [has_type, Bool.and_eq_true, decide_eq_true_eq] at h
          have hall := all_has_type h.2
          have ih : ∀ x ∈ xs, (encode cfg e x).length = byte_size cfg e x :=
            fun x hx => length_encode cfg e x (hall x hx)
          simp only [encode, byte_size, Val.elems, length_flatten_map, List.length_append,
            count_bytes, length_object_bytes]
          rcases vector_cases cfg e false with ⟨hp, _, hc, _⟩ | hp <;> simp only [hp]
          · have hb := bulk_size cfg e hc
            rw [sum_map_const xs _ (sizeof e) (fun x hx => by rw [ih x hx, hb.1])]
          · rw [sum_map_congr _ _ _ ih]
  | list e =>
      cases v with
      | int x => simp [has_type] at h
      | seq xs =>
          simp only [has_type, Bool.and_eq_true, decide_eq_true_eq] at h
          have hall := all_has_type h.2
          have ih : ∀ x ∈ xs, (encode cfg e x).length = byte_size cfg e x :=
            fun x hx => length_encode cfg e x (hall x hx)
          simp only [encode, byte_size, Val.elems, length_flatten_map, List.length_append,
            count_bytes, length_object_bytes]
          rw [sum_map_congr _ _ _ ih]
  | set e =>
      cases v with
      | int x => simp [has_type] at h
      | seq xs =>
          simp only [has_type, Bool.and_eq_true, decide_eq_true_eq] at h
          have hall := all_has_type h.1.2
          have ih : ∀ x ∈ xs, (encode cfg e x).length = byte_size cfg e x :=
            fun x hx => length_encode cfg e x (hall x hx)
          simp only [encode, byte_size, Val.elems, length_flatten_map, List.length_append,
            count_bytes, length_object_bytes]
          rw [sum_map_congr _ _ _ ih]
  | tuple hc fs =>
      cases v with
      | int x => simp [has_type] at h
      | seq xs =>
          simp only [has_type] at h
          simp only [encode, byte_size, Val.elems]
          exact length_encode_fields cfg fs xs h
  | aggregate fs =>
      cases v with
      | int x => simp [has_type] at h
      | seq xs =>
          simp only [has_type] at h
          simp only [encode, byte_size, Val.elems]
          exact length_encode_fields cfg fs xs h
  | vector_bool => cases v <;> simp [has_type] at h
  | pointer => cases v <;> simp [has_type] at h
  | bitset => cases v <;> simp [has_type] at h
  | initializer_list => cases v <;> simp [has_type] at h
/-- The wire format of the fields of a tuple has `tuple_byte_size` bytes. -/
theorem length_encode_fields (cfg : Config) (Ts : List Ty) (vs : List Val)
    (h : has_types cfg Ts vs = true) :
    (encode_fields cfg Ts vs).length = tuple_byte_size cfg Ts vs := by
  cases Ts with
  | nil => simp [encode_fields, tuple_byte_size]
  | cons t ts =>
      cases vs with
      | nil => simp [has_types] at h
      | cons x xs =>
          simp only [has_types, Bool.and_eq_true] at h
          simp only [encode_fields, tuple_byte_size, List.headD_cons, List.tail_cons,
            List.length_append]
          rw [length_encode cfg t x h.1, length_encode_fields cfg ts xs h.2]
end

/-! ## The encoder writes the wire format -/

theorem write_bytes_nil (wr : Writer) (h : wr.ptr ≤ wr.buf.length) : write_bytes wr [] = some wr := by
  unfold write_bytes
  simp [h]

theorem write_bytes_append (wr : Writer) (a b : List Byte)
    (h : wr.ptr + (a ++ b).length ≤ wr.buf.length) :
    (write_bytes wr a).bind (fun w => write_bytes w b) = write_bytes wr (a ++ b) := by
  obtain ⟨buf, ptr⟩ := wr
  simp only [List.length_append] at h
  have hx : (buf.take ptr ++ a).length = ptr + a.length := by
    simp only [List.length_append, List.length_take]; omega
  unfold write_bytes
  simp only [List.length_append]
  rw [if_pos (by omega), if_pos (by omega)]
  simp only [Option.some_bind, List.length_append, List.length_take, List.length_drop]
  rw [if_pos (by omega)]
  have e1 : List.take (ptr + a.length) (List.take ptr buf ++ a ++ List.drop (ptr + a.length) buf)
      = List.take ptr buf ++ a := List.take_left' hx
  have e2 : List.drop (ptr + a.length + b.length)
      (List.take ptr buf ++ a ++ List.drop (ptr + a.length) buf)
      = List.drop (ptr + (a.length + b.length)) buf := by
    rw [← hx, List.drop_append, List.drop_drop, hx]
    congr 1
    omega
  rw [e1, e2]
  simp [Nat.add_assoc]

theorem writes_write (bs : List Byte) : Writes (fun wr => write_bytes wr bs) bs :=
  fun _ _ => rfl

theorem writes_skip : Writes (fun wr => some wr) [] :=
  fun wr h => (write_bytes_nil wr (by simpa using h)).symm

theorem writes_bind {f g : Writer → Option Writer} {a b : List Byte} (hf : Writes f a)
    (hg : Writes g b) : Writes (fun wr => (f wr).bind g) (a ++ b) := by
  intro wr h
  have ha : wr.ptr + a.length ≤ wr.buf.length := by
    simp only [List.length_append] at h; omega
  simp only
  rw [hf wr ha, ← write_bytes_append wr a b h]
  unfold write_bytes
  rw [if_pos ha]
  simp only [Option.some_bind]
  apply hg
  simp only [List.length_append, List.length_take, List.length_drop] at h ⊢
  omega

theorem writes_each (f : Val → Writer → Option Writer) (g : Val → List Byte) (xs : List Val)
    (h : ∀ x ∈ xs, Writes (f x) (g x)) : Writes (append_each f xs) (xs.map g).flatten := by
  induction xs with
  | nil => exact writes_skip
  | cons x xs ih =>
      have h1 := h x (by simp)
      have h2 := ih (fun y hy => h y (by simp [hy]))
      simpa [append_each] using writes_bind h1 h2

theorem object_bytes_wrap (o : ByteOrder) (s : Bool) (w : Nat) (x : Int) :
    object_bytes o w (wrap s w x) = object_bytes o w x := by
  cases o <;> simp [object_bytes, bit_pattern_wrap]

theorem writes_arith (cfg : Config) (s : Bool) (w : Nat) (x : Int) :
    Writes (append_arith cfg s w x) (object_bytes cfg.order w x) := by
  intro wr _
  simp [append_arith, object_bytes_reorder]

theorem writes_size (cfg : Config) (n : Nat) : Writes (append_size cfg n) (count_bytes cfg n) := by
  intro wr _
  simp [append_size, append_arith, object_bytes_reorder, object_bytes_wrap, count_bytes]

mutual
/-- Instantiated on a serializable type, `append` writes the wire format of the value at the
write pointer. -/
theorem append_writes (cfg : Config) (T : Ty) (v : Val) (h : append_ok cfg T = true) :
    Writes (append cfg T v) (encode cfg T v) := by
  cases T with
  | arith s w => simpa [append, encode] using writes_arith cfg s w v.toInt
  | enum s w => simpa [append, encode] using writes_arith cfg s w v.toInt
  | carray e n =>
      rcases carray_cases cfg e n false with ⟨hp, _, hc, hH⟩ | ⟨hp, _⟩ | ⟨hp, hn⟩ <;>
        simp only [append_ok, hp] at h
      · simp only [append, hp, encode, raw_bytes]
        rw [List.map_congr_left (fun y _ => bulk_raw cfg hH e hc y)]
        exact writes_write _
      · simp only [append, hp, encode]
        exact writes_each _ _ _ (fun x _ => append_writes cfg e x h)
      · simp at h
  | stdarray e n =>
      rcases stdarray_cases cfg e n false with ⟨hp, _, _, hc, hH⟩ | ⟨hp, _⟩ | ⟨hp, hn⟩ <;>
        simp only [append_ok, hp] at h
      · simp only [append, hp, encode]
        rw [List.map_congr_left (fun y _ => bulk_raw cfg hH e hc y)]
        exact writes_write _
      · simp only [append, hp, encode]
        exact writes_each _ _ _ (fun x _ => append_writes cfg e x h)
      · simp at h
  | forward_list e =>
      simp only [append_ok, Bool.and_eq_true] at h
      simp only [append, encode]
      exact writes_bind (writes_size cfg _) (writes_each _ _ _ (fun x _ => append_writes cfg e x h.2))
  | vector e =>
      rcases vector_cases cfg e false with ⟨hp, _, hc, hH⟩ | hp <;>
        simp only [append_ok, hp, Bool.and_eq_true] at h
      · simp only [append, hp, encode]
        rw [← List.map_congr_left (fun y _ => bulk_raw cfg hH e hc y)]
        exact writes_bind (writes_size cfg _) (writes_write _)
      · simp only [append, hp, encode]
        exact writes_bind (writes_size cfg _)
          (writes_each _ _ _ (fun x _ => append_writes cfg e x h.2))
  | list e =>
      simp only [append_ok, Bool.and_eq_true] at h
      simp only [append, encode]
      exact writes_bind (writes_size cfg _) (writes_each _ _ _ (fun x _ => append_writes cfg e x h.2))
  | set e =>
      simp only [append_ok, Bool.and_eq_true] at h
      simp only [append, encode]
      exact writes_bind (writes_size cfg _) (writes_each _ _ _ (fun x _ => append_writes cfg e x h.2))
  | tuple hc fs =>
      simp only [append_ok, Bool.and_eq_true] at h
      simp only [append, encode]
      exact append_tuple_writes cfg fs v.elems h.2
  | aggregate fs =>
      simp only [append_ok, Bool.and_eq_true] at h
      simp only [append, encode]
      exact append_tuple_writes cfg fs v.elems h.2
  | vector_bool => simp [append_ok] at h
  | pointer => simp [append_ok] at h
  | bitset => simp [append_ok] at h
  | initializer_list => simp [append_ok] at h
/-- Function `append_tuple` writes the wire format of the fields. -/
theorem append_tuple_writes (cfg : Config) (Ts : List Ty) (vs : List Val)
    (h : append_tuple_ok cfg Ts = true) :
    Writes (append_tuple cfg Ts vs) (encode_fields cfg Ts vs) := by
  cases Ts with
  | nil => simpa [append_tuple, encode_fields] using writes_skip
  | cons t ts =>
      simp only [append_tuple_ok, Bool.and_eq_true] at h
      simp only [append_tuple, encode_fields]
      exact writes_bind (append_writes cfg t _ h.1) (append_tuple_writes cfg ts _ h.2)
end

theorem writeData_writes (cfg : Config) (args : List (Ty × Val))
    (h : args.all (fun a => serializable cfg a.1) = true) :
    Writes (writeData cfg args) (encode_all cfg args) := by
  induction args with
  | nil => simpa [writeData, encode_all] using writes_skip
  | cons a rest ih =>
      simp only [List.all_cons, Bool.and_eq_true, serializable] at h
      simp only [writeData, encode_all]
      exact writes_bind (append_writes cfg a.1 a.2 h.1.2) (ih (by simpa [serializable] using h.2))

theorem length_encode_all (cfg : Config) (args : List (Ty × Val))
    (h : ∀ a ∈ args, has_type cfg a.1 a.2 = true) :
    (encode_all cfg args).length = byteSize cfg args := by
  induction args with
  | nil => rfl
  | cons a rest ih =>
      simp only [encode_all, byteSize, List.length_append]
      rw [length_encode cfg a.1 a.2 (h a (by simp)), ih (fun b hb => h b (by simp [hb]))]

/-- Function `serialize` returns the wire format of its arguments. -/
theorem serialize_eq (cfg : Config) (args : List (Ty × Val))
    (hs : args.all (fun a => serializable cfg a.1) = true)
    (ht : ∀ a ∈ args, has_type cfg a.1 a.2 = true) :
    serialize cfg args = some (encode_all cfg args) := by
  unfold serialize
  rw [if_pos hs, writeData_writes cfg args hs _ (by
    simp [length_encode_all cfg args ht])]
  unfold write_bytes
  simp [length_encode_all cfg args ht]

/-! ## Reading from a buffer -/

theorem At.restSize {buf : List Byte} {c : Cursor} {rest : List Byte} (h : At buf c rest) :
    c.restSize = rest.length := by
  obtain ⟨h1, h2⟩ := h
  rw [← h2, List.length_drop]
  omega

theorem At.read {buf : List Byte} {c : Cursor} {bs post : List Byte} (h : At buf c (bs ++ post)) :
    read_bytes buf c.ptr bs.length = some bs := by
  have hr := h.restSize
  obtain ⟨h1, h2⟩ := h
  simp only [List.length_append] at hr
  unfold read_bytes
  rw [if_pos (by omega), h2, List.take_left' rfl]

theorem At.advance {buf : List Byte} {c : Cursor} {bs post : List Byte}
    (h : At buf c (bs ++ post)) : At buf ⟨c.ptr + bs.length, post.length⟩ post := by
  have hr := h.restSize
  obtain ⟨h1, h2⟩ := h
  simp only [List.length_append] at hr
  refine ⟨by simp only; omega, ?_⟩
  simp only
  rw [← List.drop_drop, h2, List.drop_left' rfl]

theorem At.check {buf : List Byte} {c : Cursor} {bs post : List Byte}
    (h : At buf c (bs ++ post)) : check_size c.restSize bs.length = some post.length := by
  have hr := h.restSize
  simp only [List.length_append] at hr
  unfold check_size
  rw [if_neg (by omega)]
  congr 1
  omega

theorem reads_arith (cfg : Config) (buf : List Byte) (s : Bool) (w : Nat) (x : Int) (d : Val) :
    Reads buf (take_arith cfg buf s w d) (object_bytes cfg.order w x) (.int (wrap s w x)) := by
  intro c post h
  have hl := length_object_bytes cfg.order w x
  have h1 := h.check
  have h2 := h.read
  rw [hl] at h1 h2
  unfold take_arith
  rw [h1]
  simp only
  rw [h2]
  simp only
  have := reorder_object_value s cfg.Host cfg.order (object_bytes cfg.order w x)
  rw [hl] at this
  rw [this, object_value_object_bytes, hl]

theorem reads_bulk (buf : List Byte) (size : Nat) (decode : List Byte → Val) (d : Val)
    (bs : List Byte) (h : bs.length = size) :
    Reads buf (take_bulk buf size decode d) bs (decode bs) := by
  intro c post hc
  have h1 := hc.check
  have h2 := hc.read
  rw [h] at h1 h2
  unfold take_bulk
  rw [h1]
  simp only
  rw [h2, h]

theorem reads_each (buf : List Byte) (f : Val → Cursor → Taken) (g : Val → List Byte)
    (d : Val) (xs : List Val) (h : ∀ x ∈ xs, Reads buf (f d) (g x) x) :
    ReadsList buf (take_each f (List.replicate xs.length d)) (xs.map g).flatten xs := by
  induction xs with
  | nil =>
      intro c post hc
      have hr := hc.restSize
      simp only [List.map_nil, List.flatten_nil, List.nil_append] at hr
      simp [take_each, ← hr]
  | cons x xs ih =>
      intro c post hc
      have h1 := h x (by simp)
      have h2 := ih (fun y hy => h y (by simp [hy]))
      simp only [List.map_cons, List.flatten_cons, List.append_assoc] at hc
      have e1 := h1 c _ hc
      have e2 := h2 _ post hc.advance
      simp only [List.length_cons, List.replicate_succ, take_each]
      rw [e1]
      simp only
      rw [e2]
      simp [Nat.add_assoc]

theorem reads_insert (buf : List Byte) (f : Cursor → Taken) (g : Val → List Byte)
    (ins : List Val → Val → List Val) (xs : List Val) (h : ∀ x ∈ xs, Reads buf f (g x) x)
    (acc : List Val) :
    ReadsList buf (take_insert f ins xs.length acc) (xs.map g).flatten (xs.foldl ins acc) := by
  induction xs generalizing acc with
  | nil =>
      intro c post hc
      have hr := hc.restSize
      simp only [List.map_nil, List.flatten_nil, List.nil_append] at hr
      simp [take_insert, ← hr]
  | cons x xs ih =>
      intro c post hc
      have h1 := h x (by simp)
      have h2 := ih (fun y hy => h y (by simp [hy])) (ins acc x)
      simp only [List.map_cons, List.flatten_cons, List.append_assoc] at hc
      have e1 := h1 c _ hc
      have e2 := h2 _ post hc.advance
      simp only [List.length_cons, take_insert]
      rw [e1]
      simp only
      rw [e2]
      simp [Nat.add_assoc]

theorem foldl_seq_insert (xs acc : List Val) : xs.foldl seq_insert acc = acc ++ xs := by
  induction xs generalizing acc with
  | nil => simp
  | cons x xs ih => simp [ih, seq_insert]

theorem set_insert_last (ys : List Val) (x : Val) (h : ∀ y ∈ ys, Val.lt y x = true) :
    set_insert ys x = ys ++ [x] := by
  induction ys with
  | nil => rfl
  | cons y ys ih =>
      simp only [set_insert, h y (by simp), ↓reduceIte, List.cons_append]
      rw [ih (fun z hz => h z (by simp [hz]))]

theorem pairwise_of_strictly_ascending (xs : List Val) (h : strictly_ascending xs = true) :
    xs.Pairwise (fun a b => Val.lt a b = true) := by
  induction xs with
  | nil => exact List.Pairwise.nil
  | cons x xs ih =>
      simp only [strictly_ascending, Bool.and_eq_true, List.all_eq_true] at h
      exact List.Pairwise.cons h.1 (ih h.2)

theorem foldl_set_insert (xs acc : List Val)
    (h : (acc ++ xs).Pairwise (fun a b => Val.lt a b = true)) :
    xs.foldl set_insert acc = acc ++ xs := by
  induction xs generalizing acc with
  | nil => simp
  | cons x xs ih =>
      have hx : ∀ y ∈ acc, Val.lt y x = true := by
        intro y hy
        rw [List.pairwise_append] at h
        exact h.2.2 y hy x (by simp)
      simp only [List.foldl_cons, set_insert_last acc x hx]
      rw [ih (acc ++ [x]) (by simpa using h)]
      simp

theorem has_type_int_wrap (cfg : Config) (s : Bool) (w : Nat) (v : Val)
    (h : has_type cfg (.arith s w) v = true ∨ has_type cfg (.enum s w) v = true) :
    Val.int (wrap s w v.toInt) = v := by
  cases v with
  | seq xs => simp [has_type] at h
  | int x =>
      have h' : valid_width w = true ∧ int_in_range s w x = true := by
        rcases h with h | h <;> simpa [has_type] using h
      have hw : 1 ≤ w := by
        have := h'.1
        simp [valid_width] at this
        omega
      simp [Val.toInt, wrap_of_in_range s w x hw h'.2]

theorem chunks_flatten (k : Nat) (ys : List (List Byte)) (h : ∀ y ∈ ys, y.length = k) :
    chunks k ys.length ys.flatten = ys := by
  induction ys with
  | nil => rfl
  | cons y ys ih =>
      have hy := h y (by simp)
      simp only [List.length_cons, chunks, List.flatten_cons]
      rw [List.take_left' hy, List.drop_left' hy, ih (fun z hz => h z (by simp [hz]))]

theorem map_id_of_mem {α : Type} (xs : List α) (f : α → α) (h : ∀ x ∈ xs, f x = x) :
    xs.map f = xs := by
  induction xs with
  | nil => rfl
  | cons x xs ih =>
      simp only [List.map_cons]
      rw [h x (by simp), ih (fun y hy => h y (by simp [hy]))]

/-- Under `order = Host`, storing the wire format of a bulk-copied type into an object gives
the value back. -/
theorem from_raw_encode (cfg : Config) (hH : cfg.order = cfg.Host) (e : Ty)
    (hb : bulk_copyable cfg e = true) (x : Val) (h : has_type cfg e x = true) :
    from_raw cfg.Host e (encode cfg e x) = x := by
  cases e with
  | arith s w =>
      simp only [from_raw, encode, hH, object_value_object_bytes]
      exact has_type_int_wrap cfg s w x (Or.inl h)
  | enum s w =>
      simp only [from_raw, encode, hH, object_value_object_bytes]
      exact has_type_int_wrap cfg s w x (Or.inr h)
  | carray e1 n =>
      have h' : 0 < n ∧ bulk_copyable cfg e1 = true ∧ cfg.order = cfg.Host := by
        simpa [bulk_copyable, qualifies, and_assoc] using hb
      cases x with
      | int x => simp [has_type] at h
      | seq xs =>
          simp only [has_type, Bool.and_eq_true, decide_eq_true_eq] at h
          have hall := all_has_type h.2
          have hlen : ∀ y ∈ xs.map (encode cfg e1), y.length = sizeof e1 := by
            intro y hy
            obtain ⟨x, hx, rfl⟩ := List.mem_map.1 hy
            rw [length_encode cfg e1 x (hall x hx), (bulk_size cfg e1 h'.2.1).1]
          have hc := chunks_flatten (sizeof e1) (xs.map (encode cfg e1)) hlen
          rw [List.length_map, h.1] at hc
          simp only [from_raw, encode, Val.elems, hc, List.map_map]
          congr 1
          exact map_id_of_mem _ _ (fun y hy => from_raw_encode cfg hH e1 h'.2.1 y (hall y hy))
  | _ => simp [bulk_copyable, qualifies, is_tuple_serializable] at hb

theorem sum_le_sum_map {α : Type} (xs : List α) (f : α → Nat) (c : Nat) (h : ∀ x ∈ xs, c ≤ f x) :
    xs.length * c ≤ (xs.map f).sum := by
  induction xs with
  | nil => simp
  | cons x xs ih =>
      have h1 := h x (by simp)
      have h2 := ih (fun y hy => h y (by simp [hy]))
      simp only [List.length_cons, List.map_cons, List.sum_cons]
      nlinarith

mutual
/-- The minimal size of a type is a lower bound of the size of each of its values. -/
theorem byte_minsize_le (cfg : Config) (T : Ty) (v : Val) (h : has_type cfg T v = true) :
    byte_minsize cfg T ≤ byte_size cfg T v := by
  cases T with
  | arith s w => simp [byte_minsize, byte_size]
  | enum s w => simp [byte_minsize, byte_size]
  | carray e n =>
      cases v with
      | int x => simp [has_type] at h
      | seq xs =>
          simp only [has_type, Bool.and_eq_true, decide_eq_true_eq] at h
          have hall := all_has_type h.2
          simp only [byte_minsize, byte_size, Val.elems]
          rcases carray_cases cfg e n false with ⟨hp, _, hc, _⟩ | ⟨hp, _⟩ | ⟨hp, hn⟩ <;>
            simp only [hp]
          · have hb := bulk_size cfg e hc
            rw [hb.1, hb.2]
          · rw [← h.1]
            exact sum_le_sum_map xs _ _ (fun x hx => byte_minsize_le cfg e x (hall x hx))
          · exact Nat.zero_le _
  | stdarray e n =>
      cases v with
      | int x => simp [has_type] at h
      | seq xs =>
          simp only [has_type, Bool.and_eq_true, decide_eq_true_eq] at h
          have hall := all_has_type h.2
          simp only [byte_minsize, byte_size, Val.elems]
          rcases stdarray_cases cfg e n false with ⟨hp, _, _, hc, _⟩ | ⟨hp, _⟩ | ⟨hp, hn⟩ <;>
            simp only [hp]
          · have hb := bulk_size cfg e hc
            rw [hb.2, Nat.mul_comm]
          · rw [← h.1, List.sum_replicate, smul_eq_mul]
            exact sum_le_sum_map xs _ _ (fun x hx => byte_minsize_le cfg e x (hall x hx))
          · exact Nat.zero_le _
  | forward_list e => simp [byte_minsize, byte_size]
  | vector e =>
      simp only [byte_minsize, byte_size]
      rcases vector_cases cfg e false with ⟨hp, _⟩ | hp <;> simp [hp]
  | list e => simp [byte_minsize, byte_size]
  | set e => simp [byte_minsize, byte_size]
  | tuple hc fs =>
      cases v with
      | int x => simp [has_type] at h
      | seq xs =>
          simp only [has_type] at h
          simp only [byte_minsize, byte_size, Val.elems]
          exact tuple_byte_minsize_le cfg fs xs h
  | aggregate fs =>
      cases v with
      | int x => simp [has_type] at h
      | seq xs =>
          simp only [has_type] at h
          simp only [byte_minsize, byte_size, Val.elems]
          exact tuple_byte_minsize_le cfg fs xs h
  | vector_bool => cases v <;> simp [has_type] at h
  | pointer => cases v <;> simp [has_type] at h
  | bitset => cases v <;> simp [has_type] at h
  | initializer_list => cases v <;> simp [has_type] at h
/-- The same for the fields of a tuple. -/
theorem tuple_byte_minsize_le (cfg : Config) (Ts : List Ty) (vs : List Val)
    (h : has_types cfg Ts vs = true) :
    tuple_byte_minsize cfg Ts ≤ tuple_byte_size cfg Ts vs := by
  cases Ts with
  | nil => simp [tuple_byte_minsize]
  | cons t ts =>
      cases vs with
      | nil => simp [has_types] at h
      | cons x xs =>
          simp only [has_types, Bool.and_eq_true] at h
          simp only [tuple_byte_minsize, tuple_byte_size, List.headD_cons, List.tail_cons]
          exact Nat.add_le_add (byte_minsize_le cfg t x h.1) (tuple_byte_minsize_le cfg ts xs h.2)
end

theorem size_field_width_ge (cfg : Config) (h : size_type_ok cfg = true) :
    size_t_bytes ≤ size_field_width cfg := by
  unfold size_type_ok at h
  unfold size_field_width size_type_t
  cases hs : cfg.sizeT with
  | none => simp
  | some t => simpa [hs] using h

theorem mul_le_of_le_max_size (cfg : Config) (e : Ty) (n : Nat) (h : n ≤ max_size cfg e) :
    n * byte_minsize cfg e ≤ PTRDIFF_MAX ∧ n ≤ PTRDIFF_MAX := by
  unfold max_size at h
  have h1 : n * max 1 (byte_minsize cfg e) ≤ PTRDIFF_MAX :=
    le_trans (Nat.mul_le_mul_right _ h) (Nat.div_mul_le_self _ _)
  have h2 : byte_minsize cfg e ≤ max 1 (byte_minsize cfg e) := le_max_right _ _
  have h3 : 1 ≤ max 1 (byte_minsize cfg e) := le_max_left _ _
  constructor
  · exact le_trans (Nat.mul_le_mul_left _ h2) h1
  · calc n = n * 1 := (Nat.mul_one n).symm
      _ ≤ n * max 1 (byte_minsize cfg e) := Nat.mul_le_mul_left _ h3
      _ ≤ PTRDIFF_MAX := h1

theorem PTRDIFF_MAX_lt : PTRDIFF_MAX < SIZE_MOD := by
  unfold PTRDIFF_MAX SIZE_MOD size_t_bytes; norm_num

/-- A length prefix written by the encoder is read back as the same count. -/
theorem to_size_t_wrap (cfg : Config) (h : size_type_ok cfg = true) (n : Nat)
    (hn : n ≤ PTRDIFF_MAX) :
    to_size_t (wrap (size_type_t cfg).signed (size_field_width cfg) n) = n := by
  have hW := size_field_width_ge cfg h
  have hlt := PTRDIFF_MAX_lt
  unfold to_size_t bit_pattern
  have hdvd : ((2 : Int) ^ (8 * size_t_bytes)) ∣ (2 : Int) ^ (8 * size_field_width cfg) :=
    pow_dvd_pow 2 (by omega)
  rw [← Int.emod_emod_of_dvd _ hdvd, wrap_emod, Int.emod_emod_of_dvd _ hdvd]
  have : ((n : Int)) % 2 ^ (8 * size_t_bytes) = n := by
    apply Int.emod_eq_of_lt (by positivity)
    unfold SIZE_MOD at hlt
    exact_mod_cast (lt_of_le_of_lt hn hlt)
  rw [this]
  simp

theorem reads_size (cfg : Config) (buf : List Byte) (n : Nat) :
    Reads buf (take_size cfg buf) (count_bytes cfg n)
      (.int (wrap (size_type_t cfg).signed (size_field_width cfg) n)) := by
  unfold take_size count_bytes
  exact reads_arith cfg buf _ _ _ _

theorem count_exceeds_false (cfg : Config) (e : Ty) (n rest : Nat) (h : n ≤ max_size cfg e)
    (hr : n * byte_minsize cfg e ≤ rest) : count_exceeds cfg e n rest = false := by
  have h1 := (mul_le_of_le_max_size cfg e n h).1
  have h2 := PTRDIFF_MAX_lt
  unfold count_exceeds
  rw [Nat.mod_eq_of_lt (by omega)]
  simp
  omega

theorem flatten_length_ge (cfg : Config) (e : Ty) (g : Val → List Byte) (xs : List Val)
    (hmin : ∀ x ∈ xs, byte_minsize cfg e ≤ (g x).length) :
    xs.length * byte_minsize cfg e ≤ (xs.map g).flatten.length := by
  rw [length_flatten_map]
  exact sum_le_sum_map xs _ _ hmin

theorem resize_nil (e : Ty) (n : Nat) : resize e n [] = List.replicate n (default_val e) := by
  simp [resize]

/-- Reading a length prefix written by the encoder. -/
theorem take_size_at (cfg : Config) (buf : List Byte) (n : Nat) (c : Cursor) (rest : List Byte)
    (hok : size_type_ok cfg = true) (hn : n ≤ PTRDIFF_MAX)
    (hc : At buf c (count_bytes cfg n ++ rest)) :
    ∃ r : Taken, take_size cfg buf c = r ∧ r.status = .ok ∧ to_size_t r.val.toInt = n ∧
      At buf r.cur rest ∧ r.cur.ptr = c.ptr + (count_bytes cfg n).length := by
  refine ⟨_, reads_size cfg buf n c rest hc, rfl, ?_, hc.advance, rfl⟩
  exact to_size_t_wrap cfg hok n hn

theorem reads_iterable (cfg : Config) (buf : List Byte) (e : Ty) (resizable : Bool)
    (ins : List Val → Val → List Val) (useRef : Bool) (by_ref : Val → Cursor → Taken)
    (by_val : Cursor → Taken) (g : Val → List Byte) (xs : List Val)
    (hok : size_type_ok cfg = true) (hn : xs.length ≤ max_size cfg e)
    (hmin : ∀ x ∈ xs, byte_minsize cfg e ≤ (g x).length)
    (href : useRef = true → ∀ x ∈ xs, Reads buf (by_ref (default_val e)) (g x) x)
    (hval : useRef = false → ∀ x ∈ xs, Reads buf by_val (g x) x)
    (hins : xs.foldl ins [] = xs) :
    Reads buf (take_iterable cfg buf e resizable ins useRef by_ref by_val (.seq []))
      (count_bytes cfg xs.length ++ (xs.map g).flatten) (.seq xs) := by
  intro c post hc
  rw [List.append_assoc] at hc
  obtain ⟨r, e1, hst, hsz, hc1, hp1⟩ :=
    take_size_at cfg buf xs.length c _ hok (mul_le_of_le_max_size cfg e _ hn).2 hc
  have hge := flatten_length_ge cfg e g xs hmin
  have hce : count_exceeds cfg e xs.length r.cur.restSize = false :=
    count_exceeds_false cfg e xs.length _ hn
      (by rw [hc1.restSize]; simp only [List.length_append]; omega)
  unfold take_iterable
  simp only [e1, hst, hsz, hce, Bool.false_eq_true, ↓reduceIte, Val.elems]
  cases useRef with
  | true =>
      cases resizable with
      | true =>
          have e2 := reads_each buf by_ref g (default_val e) xs (href rfl) _ post hc1
          simp only [↓reduceIte, if_neg (not_lt.2 hn), resize_nil, e2, hp1, List.length_append,
            Nat.add_assoc]
      | false =>
          have e2 :=
            reads_insert buf (by_ref (default_val e)) g ins xs (href rfl) [] _ post hc1
          simp only [↓reduceIte, Bool.false_eq_true, e2, hins, hp1, List.length_append,
            Nat.add_assoc]
  | false =>
      have e2 := reads_insert buf by_val g ins xs (hval rfl) [] _ post hc1
      simp only [Bool.false_eq_true, ↓reduceIte, e2, hins, hp1, List.length_append,
        Nat.add_assoc]

theorem reads_forward_list (cfg : Config) (buf : List Byte) (e : Ty) (useRef : Bool)
    (by_ref : Val → Cursor → Taken) (by_val : Cursor → Taken) (g : Val → List Byte)
    (xs : List Val) (hok : size_type_ok cfg = true) (hn : xs.length ≤ max_size cfg e)
    (hmin : ∀ x ∈ xs, byte_minsize cfg e ≤ (g x).length)
    (h : ∀ x ∈ xs, Reads buf (take_new useRef by_ref by_val (default_val e)) (g x) x) :
    Reads buf (take_forward_list cfg buf e useRef by_ref by_val (.seq []))
      (count_bytes cfg xs.length ++ (xs.map g).flatten) (.seq xs) := by
  intro c post hc
  rw [List.append_assoc] at hc
  obtain ⟨r, e1, hst, hsz, hc1, hp1⟩ :=
    take_size_at cfg buf xs.length c _ hok (mul_le_of_le_max_size cfg e _ hn).2 hc
  have hge := flatten_length_ge cfg e g xs hmin
  have hce : count_exceeds cfg e xs.length r.cur.restSize = false :=
    count_exceeds_false cfg e xs.length _ hn
      (by rw [hc1.restSize]; simp only [List.length_append]; omega)
  have e2 := reads_insert buf _ g seq_insert xs h [] _ post hc1
  unfold take_forward_list
  simp only [e1, hst, hsz, hce, Bool.false_eq_true, ↓reduceIte, Val.elems, e2,
    foldl_seq_insert, hp1, List.length_append, Nat.add_assoc, List.nil_append, List.append_nil]

theorem reads_contiguous (cfg : Config) (buf : List Byte) (e : Ty) (xs : List Val)
    (hok : size_type_ok cfg = true) (hn : xs.length ≤ max_size cfg e)
    (hH : cfg.order = cfg.Host) (hb : bulk_copyable cfg e = true)
    (ht : ∀ x ∈ xs, has_type cfg e x = true) (d : Val) :
    Reads buf (take_contiguous cfg buf e d)
      (count_bytes cfg xs.length ++ (xs.map (encode cfg e)).flatten) (.seq xs) := by
  intro c post hc
  rw [List.append_assoc] at hc
  obtain ⟨r, e1, hst, hsz, hc1, hp1⟩ :=
    take_size_at cfg buf xs.length c _ hok (mul_le_of_le_max_size cfg e _ hn).2 hc
  have hbs := bulk_size cfg e hb
  have hlen : ∀ y ∈ xs.map (encode cfg e), y.length = sizeof e := by
    intro y hy
    obtain ⟨x, hx, rfl⟩ := List.mem_map.1 hy
    rw [length_encode cfg e x (ht x hx), hbs.1]
  have hfl : (xs.map (encode cfg e)).flatten.length = xs.length * sizeof e := by
    rw [length_flatten_map]
    exact sum_map_const xs _ _ (fun x hx => hlen _ (List.mem_map_of_mem _ hx))
  have hmul := (mul_le_of_le_max_size cfg e _ hn).1
  rw [hbs.2] at hmul
  have hmod : (xs.length * sizeof e) % SIZE_MOD = xs.length * sizeof e :=
    Nat.mod_eq_of_lt (lt_of_le_of_lt hmul PTRDIFF_MAX_lt)
  have h1 := hc1.check
  have h2 := hc1.read
  rw [hfl] at h1 h2
  rw [hp1] at h2
  have hch := chunks_flatten (sizeof e) (xs.map (encode cfg e)) hlen
  rw [List.length_map] at hch
  have hid : List.map (from_raw cfg.Host e) (List.map (encode cfg e) xs) = xs := by
    rw [List.map_map]
    exact map_id_of_mem _ _ (fun y hy => from_raw_encode cfg hH e hb y (ht y hy))
  unfold take_contiguous
  simp only [e1, hst, hsz, hmod, h1, if_neg (not_lt.2 hn), h2, hch, hid, hp1,
    List.length_append, hfl, Nat.add_assoc]

theorem reads_new {buf : List Byte} {useRef : Bool} {by_ref : Val → Cursor → Taken}
    {by_val : Cursor → Taken} {dflt : Val} {bs : List Byte} {v : Val}
    (href : useRef = true → Reads buf (by_ref dflt) bs v)
    (hval : useRef = false → Reads buf by_val bs v) :
    Reads buf (take_new useRef by_ref by_val dflt) bs v := by
  cases useRef with
  | true => simpa [take_new] using href rfl
  | false => simpa [take_new] using hval rfl

theorem reads_into {buf : List Byte} {useRef : Bool} {by_ref : Val → Cursor → Taken}
    {by_val : Cursor → Taken} {dflt : Val} {bs : List Byte} {v : Val}
    (href : useRef = true → Reads buf (by_ref dflt) bs v)
    (hval : useRef = false → Reads buf by_val bs v) :
    Reads buf (take_into useRef by_ref by_val dflt) bs v := by
  cases useRef with
  | true => simpa [take_into] using href rfl
  | false =>
      intro c post hc
      have := hval rfl c post hc
      simp [take_into, this]

theorem reads_toTaken {buf : List Byte} {f : Cursor → TakenList} {bs : List Byte}
    {vs : List Val} (h : ReadsList buf f bs vs) :
    Reads buf (fun c => (f c).toTaken) bs (.seq vs) := by
  intro c post hc
  simp [h c post hc, TakenList.toTaken]

theorem useReference_ref (cfg : Config) (T : Ty) : useReference cfg T true = true := by
  cases T <;> simp [useReference, tuple_has_const, priority_tuple]

theorem useReference_false (cfg : Config) (T : Ty) (h : useReference cfg T false = false) :
    ∃ fs, T = .tuple true fs := by
  cases T <;> simp [useReference, tuple_has_const] at h
  rename_i hc fs
  exact ⟨fs, by rw [h.2]⟩

theorem resize_replicate (e : Ty) (n : Nat) :
    resize e n (List.replicate n (default_val e)) = List.replicate n (default_val e) := by
  simp [resize]

theorem bulk_copyable_carray (cfg : Config) (e : Ty) (n : Nat) (hn : 0 < n)
    (hb : bulk_copyable cfg e = true) (hH : cfg.order = cfg.Host) :
    bulk_copyable cfg (.carray e n) = true := by
  have : qualifies cfg (.carray e n) false .ArithmeticArray = true :=
    (qualifies_ArithmeticArray cfg _ false).2 ⟨e, n, rfl, hn, hb, hH⟩
  simp [bulk_copyable, this]

mutual
/-- Taking into a default-constructed destination, in front of the wire format of a value,
yields the value and consumes exactly its wire format. -/
theorem take_reads (cfg : Config) (buf : List Byte) (T : Ty) (ref : Bool) (v : Val)
    (ht : has_type cfg T v = true) (hok : take_ok cfg T ref = true) :
    Reads buf (take cfg buf T ref (default_val T)) (encode cfg T v) v := by
  cases T with
  | arith s w =>
      have := reads_arith cfg buf s w v.toInt (default_val (.arith s w))
      rw [has_type_int_wrap cfg s w v (Or.inl ht)] at this
      simpa [take, encode] using this
  | enum s w =>
      have := reads_arith cfg buf s w v.toInt (default_val (.enum s w))
      rw [has_type_int_wrap cfg s w v (Or.inr ht)] at this
      simpa [take, encode] using this
  | carray e n =>
      cases v with
      | int x => simp [has_type] at ht
      | seq xs =>
          have ht0 := ht
          simp only [has_type, Bool.and_eq_true, decide_eq_true_eq] at ht
          have hall := all_has_type ht.2
          rcases carray_cases cfg e n ref with ⟨hp, hn, hc, hH⟩ | ⟨hp, _⟩ | ⟨hp, hn⟩ <;>
            simp only [take_ok, hp] at hok
          · have hbc := bulk_copyable_carray cfg e n hn hc hH
            have hsz := (bulk_size cfg _ hbc).1 (default_val (.carray e n))
            have hl := length_encode cfg _ _ ht0
            rw [(bulk_size cfg _ hbc).1] at hl
            have := reads_bulk buf (sizeof (.carray e n)) (from_raw cfg.Host (.carray e n))
              (default_val (.carray e n)) (encode cfg (.carray e n) (.seq xs)) hl
            rw [from_raw_encode cfg hH _ hbc _ ht0] at this
            simpa only [take, hp, hsz] using this
          · have h1 : ∀ x ∈ xs, Reads buf
                (take_into (useReference cfg e true) (take cfg buf e true) (take_val cfg buf e)
                  (default_val e)) (encode cfg e x) x := fun x hx =>
              reads_into (fun _ => take_reads cfg buf e true x (hall x hx) hok)
                (fun hu => by rw [useReference_ref] at hu; cases hu)
            have h2 := reads_toTaken (reads_each buf _ (encode cfg e) (default_val e) xs h1)
            rw [ht.1] at h2
            simpa only [take, hp, default_val, Val.elems, resize_replicate, encode] using h2
          · simp at hok
  | stdarray e n =>
      cases v with
      | int x => simp [has_type] at ht
      | seq xs =>
          have ht0 := ht
          simp only [has_type, Bool.and_eq_true, decide_eq_true_eq] at ht
          have hall := all_has_type ht.2
          rcases stdarray_cases cfg e n ref with ⟨hp, hr, _, hc, hH⟩ | ⟨hp, hr, _⟩ | ⟨hp, hn⟩ <;>
            simp only [take_ok, hp] at hok
          · subst hr
            have hbs := bulk_size cfg e hc
            have hlen : ∀ y ∈ xs.map (encode cfg e), y.length = sizeof e := by
              intro y hy
              obtain ⟨x, hx, rfl⟩ := List.mem_map.1 hy
              rw [length_encode cfg e x (hall x hx), hbs.1]
            have hl : (encode cfg (.stdarray e n) (.seq xs)).length = n * sizeof e := by
              rw [length_encode cfg _ _ ht0]
              simp [byte_size, hp]
            have hch := chunks_flatten (sizeof e) (xs.map (encode cfg e)) hlen
            rw [List.length_map, ht.1] at hch
            have hid : List.map (from_raw cfg.Host e) (List.map (encode cfg e) xs) = xs := by
              rw [List.map_map]
              exact map_id_of_mem _ _ (fun y hy => from_raw_encode cfg hH e hc y (hall y hy))
            have := reads_bulk buf (n * sizeof e)
              (fun bs => Val.seq ((chunks (sizeof e) n bs).map (from_raw cfg.Host e)))
              (default_val (.stdarray e n)) (encode cfg (.stdarray e n) (.seq xs)) hl
            simp only [encode, Val.elems, hch, hid] at this
            simpa only [take, hp, byte_size, encode, Val.elems] using this
          · subst hr
            have h1 : ∀ x ∈ xs, Reads buf
                (take_into (useReference cfg e false) (take cfg buf e false) (take_val cfg buf e)
                  (default_val e)) (encode cfg e x) x := fun x hx =>
              reads_into (fun _ => take_reads cfg buf e false x (hall x hx) hok)
                (fun hu => take_val_reads cfg buf e x (hall x hx) hok hu)
            have h2 := reads_toTaken (reads_each buf _ (encode cfg e) (default_val e) xs h1)
            rw [ht.1] at h2
            simpa only [take, hp, default_val, Val.elems, resize_replicate, encode] using h2
          · simp at hok
  | forward_list e =>
      cases v with
      | int x => simp [has_type] at ht
      | seq xs =>
          simp only [has_type, Bool.and_eq_true, decide_eq_true_eq] at ht
          have hall := all_has_type ht.2
          simp only [take_ok, Bool.and_eq_true, Bool.not_eq_true'] at hok
          obtain ⟨⟨⟨hr, hst⟩, hms⟩, hte⟩ := hok
          subst hr
          have hp : priority_type cfg (.forward_list e) false = .Optimized := by
            simp [priority_forward_list]
          have h1 : ∀ x ∈ xs, Reads buf
              (take_new (useReference cfg e false) (take cfg buf e false) (take_val cfg buf e)
                (default_val e)) (encode cfg e x) x := fun x hx =>
            reads_new (fun _ => take_reads cfg buf e false x (hall x hx) hte)
              (fun hu => take_val_reads cfg buf e x (hall x hx) hte hu)
          have hmin : ∀ x ∈ xs, byte_minsize cfg e ≤ (encode cfg e x).length := fun x hx => by
            rw [length_encode cfg e x (hall x hx)]
            exact byte_minsize_le cfg e x (hall x hx)
          have := reads_forward_list cfg buf e _ _ _ (encode cfg e) xs hst ht.1 hmin h1
          simpa only [take, hp, default_val, encode, Val.elems] using this
  | vector e =>
      cases v with
      | int x => simp [has_type] at ht
      | seq xs =>
          simp only [has_type, Bool.and_eq_true, decide_eq_true_eq] at ht
          have hall := all_has_type ht.2
          rcases vector_cases cfg e ref with ⟨hp, _, hc, hH⟩ | hp <;>
            simp only [take_ok, hp, Bool.and_eq_true] at hok
          · have := reads_contiguous cfg buf e xs hok ht.1 hH hc hall (default_val (.vector e))
            simpa only [take, hp, encode, Val.elems] using this
          · obtain ⟨⟨hst, hms⟩, hte⟩ := hok
            have hmin : ∀ x ∈ xs, byte_minsize cfg e ≤ (encode cfg e x).length := fun x hx => by
              rw [length_encode cfg e x (hall x hx)]
              exact byte_minsize_le cfg e x (hall x hx)
            have := reads_iterable cfg buf e (is_resizable (.vector e) ref) seq_insert
              (useReference cfg e false) (take cfg buf e false) (take_val cfg buf e)
              (encode cfg e) xs hst ht.1 hmin
              (fun _ x hx => take_reads cfg buf e false x (hall x hx) hte)
              (fun hu x hx => take_val_reads cfg buf e x (hall x hx) hte hu)
              (by simp [foldl_seq_insert])
            simpa only [take, hp, default_val, encode, Val.elems] using this
  | list e =>
      cases v with
      | int x => simp [has_type] at ht
      | seq xs =>
          simp only [has_type, Bool.and_eq_true, decide_eq_true_eq] at ht
          have hall := all_has_type ht.2
          simp only [take_ok, Bool.and_eq_true] at hok
          obtain ⟨⟨hst, hms⟩, hte⟩ := hok
          have hmin : ∀ x ∈ xs, byte_minsize cfg e ≤ (encode cfg e x).length := fun x hx => by
            rw [length_encode cfg e x (hall x hx)]
            exact byte_minsize_le cfg e x (hall x hx)
          have := reads_iterable cfg buf e (is_resizable (.list e) ref) seq_insert
            (useReference cfg e false) (take cfg buf e false) (take_val cfg buf e)
            (encode cfg e) xs hst ht.1 hmin
            (fun _ x hx => take_reads cfg buf e false x (hall x hx) hte)
            (fun hu x hx => take_val_reads cfg buf e x (hall x hx) hte hu)
            (by simp [foldl_seq_insert])
          simpa only [take, default_val, encode, Val.elems] using this
  | set e =>
      cases v with
      | int x => simp [has_type] at ht
      | seq xs =>
          simp only [has_type, Bool.and_eq_true, decide_eq_true_eq] at ht
          have hall := all_has_type ht.1.2
          simp only [take_ok, Bool.and_eq_true] at hok
          obtain ⟨⟨hst, hms⟩, hte⟩ := hok
          have hmin : ∀ x ∈ xs, byte_minsize cfg e ≤ (encode cfg e x).length := fun x hx => by
            rw [length_encode cfg e x (hall x hx)]
            exact byte_minsize_le cfg e x (hall x hx)
          have := reads_iterable cfg buf e (is_resizable (.set e) ref) set_insert
            (useReference cfg e false) (take cfg buf e false) (take_val cfg buf e)
            (encode cfg e) xs hst ht.1.1 hmin
            (fun _ x hx => take_reads cfg buf e false x (hall x hx) hte)
            (fun hu x hx => take_val_reads cfg buf e x (hall x hx) hte hu)
            (by
              have := foldl_set_insert xs [] (by
                simpa using pairwise_of_strictly_ascending xs ht.2)
              simpa using this)
          simpa only [take, default_val, encode, Val.elems] using this
  | tuple hc fs =>
      cases v with
      | int x => simp [has_type] at ht
      | seq xs =>
          simp only [has_type] at ht
          simp only [take_ok, Bool.and_eq_true, Bool.not_eq_true'] at hok
          obtain ⟨⟨hr, hne⟩, hte⟩ := hok
          subst hr
          have hp : priority_type cfg (.tuple hc fs) false = .Tuple := by
            rw [priority_tuple, if_pos ⟨rfl, by simpa using hne⟩]
          have := reads_toTaken (take_tuple_set_reads cfg buf fs xs ht hte)
          simpa only [take, hp, default_val, encode, Val.elems] using this
  | aggregate fs =>
      cases v with
      | int x => simp [has_type] at ht
      | seq xs =>
          simp only [has_type] at ht
          simp only [take_ok, Bool.and_eq_true] at hok
          obtain ⟨hts, hte⟩ := hok
          have hp : priority_type cfg (.aggregate fs) ref = .Tuple := by
            rw [priority_aggregate, if_pos hts]
          have := reads_toTaken (take_tuple_set_reads cfg buf fs xs ht hte)
          simpa only [take, hp, default_val, encode, Val.elems] using this
  | vector_bool => cases v <;> simp [has_type] at ht
  | pointer => cases v <;> simp [has_type] at ht
  | bitset => cases v <;> simp [has_type] at ht
  | initializer_list => cases v <;> simp [has_type] at ht
/-- The by-value `take` of a tuple with a `const` element, in front of the wire format of a
value, returns the value. -/
theorem take_val_reads (cfg : Config) (buf : List Byte) (T : Ty) (v : Val)
    (ht : has_type cfg T v = true) (hok : take_ok cfg T false = true)
    (hu : useReference cfg T false = false) :
    Reads buf (take_val cfg buf T) (encode cfg T v) v := by
  cases T with
  | tuple hc fs =>
      cases v with
      | int x => simp [has_type] at ht
      | seq xs =>
          simp only [has_type] at ht
          simp only [take_ok, Bool.and_eq_true, Bool.not_eq_true'] at hok
          have := reads_toTaken (take_tuple_construct_reads cfg buf fs xs ht hok.2 [])
          simpa only [take_val, encode, Val.elems, List.nil_append] using this
  | _ => simp [useReference, tuple_has_const] at hu
/-- Function `take_tuple_set` on default-constructed fields. -/
theorem take_tuple_set_reads (cfg : Config) (buf : List Byte) (Ts : List Ty) (vs : List Val)
    (ht : has_types cfg Ts vs = true) (hok : take_tuple_ok cfg Ts = true) :
    ReadsList buf (take_tuple_set cfg buf Ts (default_vals Ts)) (encode_fields cfg Ts vs) vs := by
  cases Ts with
  | nil =>
      cases vs with
      | nil =>
          intro c post hc
          have hr := hc.restSize
          simp only [encode_fields, List.nil_append] at hr
          simp [take_tuple_set, default_vals, encode_fields, ← hr]
      | cons x xs => simp [has_types] at ht
  | cons t ts =>
      cases vs with
      | nil => simp [has_types] at ht
      | cons x xs =>
          simp only [has_types, Bool.and_eq_true] at ht
          simp only [take_tuple_ok, Bool.and_eq_true] at hok
          have h1 : Reads buf
              (take_into (useReference cfg t false) (take cfg buf t false) (take_val cfg buf t)
                (default_val t)) (encode cfg t x) x :=
            reads_into (fun _ => take_reads cfg buf t false x ht.1 hok.1)
              (fun hu => take_val_reads cfg buf t x ht.1 hok.1 hu)
          have h2 := take_tuple_set_reads cfg buf ts xs ht.2 hok.2
          intro c post hc
          simp only [encode_fields, List.headD_cons, List.tail_cons, List.append_assoc] at hc
          have e1 := h1 c _ hc
          have e2 := h2 _ post hc.advance
          simp only [take_tuple_set, default_vals, List.headD_cons, List.tail_cons]
          rw [e1]
          simp only
          rw [e2]
          simp [encode_fields, Nat.add_assoc]
/-- Function `take_tuple_construct`. -/
theorem take_tuple_construct_reads (cfg : Config) (buf : List Byte) (Ts : List Ty)
    (vs : List Val) (ht : has_types cfg Ts vs = true) (hok : take_tuple_ok cfg Ts = true)
    (args : List Val) :
    ReadsList buf (take_tuple_construct cfg buf Ts args) (encode_fields cfg Ts vs)
      (args ++ vs) := by
  cases Ts with
  | nil =>
      cases vs with
      | nil =>
          intro c post hc
          have hr := hc.restSize
          simp only [encode_fields, List.nil_append] at hr
          simp [take_tuple_construct, encode_fields, ← hr]
      | cons x xs => simp [has_types] at ht
  | cons t ts =>
      cases vs with
      | nil => simp [has_types] at ht
      | cons x xs =>
          simp only [has_types, Bool.and_eq_true] at ht
          simp only [take_tuple_ok, Bool.and_eq_true] at hok
          have h1 : Reads buf
              (take_new (useReference cfg t false) (take cfg buf t false) (take_val cfg buf t)
                (default_val t)) (encode cfg t x) x :=
            reads_new (fun _ => take_reads cfg buf t false x ht.1 hok.1)
              (fun hu => take_val_reads cfg buf t x ht.1 hok.1 hu)
          have h2 := take_tuple_construct_reads cfg buf ts xs ht.2 hok.2 (args ++ [x])
          intro c post hc
          simp only [encode_fields, List.headD_cons, List.tail_cons, List.append_assoc] at hc
          have e1 := h1 c _ hc
          have e2 := h2 _ post hc.advance
          simp only [take_tuple_construct]
          rw [e1]
          simp only
          rw [e2]
          simp [encode_fields, Nat.add_assoc]
end

theorem At.start (data : List Byte) : At data ⟨0, data.length⟩ data :=
  ⟨by simp, by simp⟩

theorem readData_reads (cfg : Config) (buf : List Byte) (args : List (Ty × Val))
    (hd : ∀ a ∈ args, deserializable cfg a.1 = true)
    (ht : ∀ a ∈ args, has_type cfg a.1 a.2 = true) :
    ReadsList buf (readData cfg buf (arg_types args) (fresh_dests args)) (encode_all cfg args)
      (arg_values args) := by
  induction args with
  | nil =>
      intro c post hc
      have hr := hc.restSize
      simp only [encode_all, List.nil_append] at hr
      simp [readData, arg_types, fresh_dests, arg_values, encode_all, ← hr]
  | cons a rest ih =>
      have hd1 := hd a (by simp)
      have ht1 := ht a (by simp)
      unfold deserializable at hd1
      have h1 : Reads buf
          (take_into (useReference cfg a.1 false) (take cfg buf a.1 false) (take_val cfg buf a.1)
            (default_val a.1)) (encode cfg a.1 a.2) a.2 :=
        reads_into (fun _ => take_reads cfg buf a.1 false a.2 ht1 hd1)
          (fun hu => take_val_reads cfg buf a.1 a.2 ht1 hd1 hu)
      have h2 := ih (fun b hb => hd b (by simp [hb])) (fun b hb => ht b (by simp [hb]))
      intro c post hc
      simp only [encode_all, List.append_assoc] at hc
      have e1 := h1 c _ hc
      have e2 := h2 _ post hc.advance
      simp only [arg_types, fresh_dests, arg_values, List.map_cons, readData, List.headD_cons,
        List.tail_cons] at e2 ⊢
      rw [e1]
      simp only
      rw [e2]
      simp [encode_all, Nat.add_assoc]

/-- Decoding the wire format of the arguments, followed by any bytes, into fresh
destinations. -/
theorem deserialize_encode_all (cfg : Config) (args : List (Ty × Val)) (extra : List Byte)
    (hd : ∀ a ∈ args, deserializable cfg a.1 = true)
    (ht : ∀ a ∈ args, has_type cfg a.1 a.2 = true) :
    deserialize cfg (arg_types args) (encode_all cfg args ++ extra) (fresh_dests args) =
      ⟨.ok, arg_values args, ⟨(encode_all cfg args).length, extra.length⟩⟩ := by
  have := readData_reads cfg (encode_all cfg args ++ extra) args hd ht _ extra (At.start _)
  simpa [deserialize] using this

theorem deserialize_value_encode (cfg : Config) (T : Ty) (v : Val) (extra : List Byte)
    (hd : deserializable cfg T = true) (ht : has_type cfg T v = true) :
    deserialize_value cfg T (encode cfg T v ++ extra) =
      ⟨.ok, v, ⟨(encode cfg T v).length, extra.length⟩⟩ := by
  unfold deserializable at hd
  have h1 : Reads (encode cfg T v ++ extra)
      (take_new (useReference cfg T false) (take cfg (encode cfg T v ++ extra) T false)
        (take_val cfg (encode cfg T v ++ extra) T) (default_val T)) (encode cfg T v) v :=
    reads_new (fun _ => take_reads cfg _ T false v ht hd)
      (fun hu => take_val_reads cfg _ T v ht hd hu)
  have := h1 _ extra (At.start _)
  simpa [deserialize_value, readData_value] using this

/-- Claim C1 evaluated.  The round trip holds for every type whose decoder exists: for every
configuration, every type that passes the static checks of `serialize` and of `deserialize` and
every value `v` of it, `serialize(v)` returns a buffer and `deserialize<T>` of that buffer ends
normally and returns `v`.  It does not hold for every serializable type, because some of them
have no decoder.  `std::vector<std::array<int32_t, 3>>` under Host order is serializable
(`serialize` of `{{1, 2, 3}}` returns 20 bytes), but `deserialize` instantiates `byte_minsize` of
the `Optimized` `std::array`, which is ill-formed; this holds for a vector of any `std::array`
of integers under Host order.  `std::pair<int32_t, int32_t>[2]` is serializable (16 bytes), but
the elements of a C array are taken as `take<decltype(i)>`, a reference type, for which no tuple
qualifies; this holds for a C array of any tuple under every configuration. -/
theorem C1_roundtrip_single :
    (∀ (cfg : Config) (T : Ty) (v : Val), serializable cfg T = true →
      deserializable cfg T = true → has_type cfg T v = true →
      ∃ data, serialize cfg [(T, v)] = some data ∧
        (deserialize_value cfg T data).status = .ok ∧ (deserialize_value cfg T data).val = v) ∧
    (serializable cfg_host ty_vec_array3 = true ∧
      has_type cfg_host ty_vec_array3 val_vec_array3 = true ∧
      serialize cfg_host [(ty_vec_array3, val_vec_array3)] = some bytes_vec_array3 ∧
      deserializable cfg_host ty_vec_array3 = false) ∧
    (serializable cfg_host ty_pair_array2 = true ∧
      has_type cfg_host ty_pair_array2 val_pair_array2 = true ∧
      serialize cfg_host [(ty_pair_array2, val_pair_array2)] = some bytes_pair_array2 ∧
      deserializable cfg_host ty_pair_array2 = false) ∧
    (∀ (cfg : Config) (s : Bool) (w n : Nat), cfg.order = cfg.Host →
      deserializable cfg (.vector (.stdarray (.arith s w) n)) = false) ∧
    (∀ (cfg : Config) (c : Bool) (fs : List Ty) (n : Nat),
      deserializable cfg (.carray (.tuple c fs) n) = false) := by
  refine ⟨?_, ⟨by rfl, by rfl, by rfl, by rfl⟩, ⟨by rfl, by rfl, by rfl, by rfl⟩, ?_, ?_⟩
  · intro cfg T v hs hd ht
    refine ⟨encode_all cfg [(T, v)],
      serialize_eq cfg _ (by simpa using hs) (by simpa using ht), ?_⟩
    have := deserialize_value_encode cfg T v [] hd ht
    simp only [encode_all, this, and_self]
  · intro cfg s w n hH
    unfold deserializable
    have hp : priority_type cfg (.stdarray (.arith s w) n) false = .Optimized := by
      rw [priority_stdarray]
      simp [qualifies, hH]
    rcases vector_cases cfg (.stdarray (.arith s w) n) false with ⟨_, hq, _⟩ | hp1
    · simp [qualifies] at hq
    · simp [take_ok, hp1, byte_minsize_ok, hp]
  · intro cfg c fs n
    unfold deserializable
    rcases carray_cases cfg (.tuple c fs) n false with ⟨_, _, hc, _⟩ | ⟨hp, _⟩ | ⟨hp, _⟩
    · simp [bulk_copyable, qualifies, is_tuple_serializable] at hc
    · simp [take_ok, hp]
    · simp [take_ok, hp]

theorem C1_roundtrip_single_witness :
    serializable cfg_net ty_nested = true ∧ deserializable cfg_net ty_nested = true ∧
    has_type cfg_net ty_nested val_nested = true ∧
    ∃ data, serialize cfg_net [(ty_nested, val_nested)] = some data ∧
      (deserialize_value cfg_net ty_nested data).status = .ok ∧
      (deserialize_value cfg_net ty_nested data).val = val_nested :=
  ⟨by rfl, by rfl, by rfl,
    C1_roundtrip_single.1 cfg_net ty_nested val_nested (by rfl) (by rfl) (by rfl)⟩

/-- Claim C2 evaluated.  For every sequence of values of types that pass the static checks of
`serialize` and of `deserialize`, `deserialize(serialize(v1, ..., vn), d1, ..., dn)` into
default-constructed destinations ends normally and leaves the destinations equal to
`v1, ..., vn` in order.  It does not hold for every sequence of serializable values: the
sequence of the `int` 7 and the `std::vector<std::array<int32_t, 3>>` `{{1, 2, 3}}` under Host
order is serialized to 24 bytes, but the variadic `deserialize` does not exist for it, the
second type having no decoder. -/
theorem C2_roundtrip_multiple :
    (∀ (cfg : Config) (args : List (Ty × Val)),
      (∀ a ∈ args, serializable cfg a.1 = true) → (∀ a ∈ args, deserializable cfg a.1 = true) →
      (∀ a ∈ args, has_type cfg a.1 a.2 = true) →
      ∃ data, serialize cfg args = some data ∧
        (deserialize cfg (arg_types args) data (fresh_dests args)).status = .ok ∧
        (deserialize cfg (arg_types args) data (fresh_dests args)).vals = arg_values args) ∧
    ((∀ a ∈ args_undecodable, serializable cfg_host a.1 = true) ∧
      (∀ a ∈ args_undecodable, has_type cfg_host a.1 a.2 = true) ∧
      serialize cfg_host args_undecodable = some ([7, 0, 0, 0] ++ bytes_vec_array3) ∧
      args_undecodable.all (fun a => deserializable cfg_host a.1) = false) := by
  refine ⟨?_, by decide, by decide, by rfl, by rfl⟩
  intro cfg args hs hd ht
  refine ⟨encode_all cfg args, serialize_eq cfg _ (by simpa using hs) ht, ?_⟩
  have := deserialize_encode_all cfg args [] hd ht
  rw [List.append_nil] at this
  simp only [this, and_self]

theorem C2_roundtrip_multiple_witness :
    (∀ a ∈ args_example, serializable cfg_host a.1 = true) ∧
    (∀ a ∈ args_example, deserializable cfg_host a.1 = true) ∧
    (∀ a ∈ args_example, has_type cfg_host a.1 a.2 = true) ∧
    ∃ data, serialize cfg_host args_example = some data ∧
      (deserialize cfg_host (arg_types args_example) data (fresh_dests args_example)).status
        = .ok ∧
      (deserialize cfg_host (arg_types args_example) data (fresh_dests args_example)).vals
        = arg_values args_example :=
  have h1 : ∀ a ∈ args_example, serializable cfg_host a.1 = true := by
    intro a ha
    simp only [args_example, List.mem_cons, List.mem_singleton, List.not_mem_nil, or_false] at ha
    rcases ha with rfl | rfl | rfl | rfl <;> rfl
  have h2 : ∀ a ∈ args_example, deserializable cfg_host a.1 = true := by
    intro a ha
    simp only [args_example, List.mem_cons, List.mem_singleton, List.not_mem_nil, or_false] at ha
    rcases ha with rfl | rfl | rfl | rfl <;> rfl
  have h3 : ∀ a ∈ args_example, has_type cfg_host a.1 a.2 = true := by
    intro a ha
    simp only [args_example, List.mem_cons, List.mem_singleton, List.not_mem_nil, or_false] at ha
    rcases ha with rfl | rfl | rfl | rfl <;> rfl
  ⟨h1, h2, h3, C2_roundtrip_multiple.1 cfg_host args_example h1 h2 h3⟩

/-- Claim C3. For every serializable type and every value of it, `append` run on a chunk with
at least `byteSize(v)` bytes left advances the write pointer by exactly `byteSize(v)`, changes
no byte before the old or after the new pointer, and `serialize(v)` returns a buffer of exactly
`byteSize(v)` bytes (no byte is written outside it). -/
theorem C3_encoder_writes_byteSize (cfg : Config) (T : Ty) (v : Val)
    (hs : serializable cfg T = true) (ht : has_type cfg T v = true) :
    (∀ wr : Writer, wr.ptr + byte_size cfg T v ≤ wr.buf.length →
      ∃ wr1, append cfg T v wr = some wr1 ∧ wr1.ptr = wr.ptr + byte_size cfg T v ∧
        wr1.buf.length = wr.buf.length ∧ wr1.buf.take wr.ptr = wr.buf.take wr.ptr ∧
        wr1.buf.drop wr1.ptr = wr.buf.drop wr1.ptr) ∧
    (∃ data, serialize cfg [(T, v)] = some data ∧ data.length = byteSize cfg [(T, v)] ∧
      byteSize cfg [(T, v)] = byte_size cfg T v) := by
  have hl := length_encode cfg T v ht
  constructor
  · intro wr hwr
    have ha : append_ok cfg T = true := by
      unfold serializable at hs
      simp only [Bool.and_eq_true] at hs
      exact hs.2
    have hw := append_writes cfg T v ha wr (by rw [hl]; exact hwr)
    refine ⟨_, by rw [hw]; unfold write_bytes; rw [if_pos (by rw [hl]; exact hwr)], ?_, ?_, ?_, ?_⟩
    · simp only [hl]
    · simp only [List.length_append, List.length_take, List.length_drop, hl]
      omega
    · simp only [List.append_assoc]
      rw [List.take_left' (by simp only [List.length_take]; omega)]
    · have hx : (wr.buf.take wr.ptr ++ encode cfg T v).length = wr.ptr + (encode cfg T v).length := by
        simp only [List.length_append, List.length_take]; omega
      simp only
      rw [List.drop_left' hx]
  · refine ⟨encode_all cfg [(T, v)], serialize_eq cfg _ (by simpa using hs) (by simpa using ht), ?_, ?_⟩
    · simp [encode_all, byteSize, hl]
    · simp [byteSize]

theorem C3_encoder_writes_byteSize_witness :
    serializable cfg_net ty_nested = true ∧ has_type cfg_net ty_nested val_nested = true ∧
    ((∀ wr : Writer, wr.ptr + byte_size cfg_net ty_nested val_nested ≤ wr.buf.length →
      ∃ wr1, append cfg_net ty_nested val_nested wr = some wr1 ∧
        wr1.ptr = wr.ptr + byte_size cfg_net ty_nested val_nested ∧
        wr1.buf.length = wr.buf.length ∧ wr1.buf.take wr.ptr = wr.buf.take wr.ptr ∧
        wr1.buf.drop wr1.ptr = wr.buf.drop wr1.ptr) ∧
    (∃ data, serialize cfg_net [(ty_nested, val_nested)] = some data ∧
      data.length = byteSize cfg_net [(ty_nested, val_nested)] ∧
      byteSize cfg_net [(ty_nested, val_nested)] = byte_size cfg_net ty_nested val_nested)) :=
  ⟨by rfl, by rfl, C3_encoder_writes_byteSize cfg_net ty_nested val_nested (by rfl) (by rfl)⟩

/-- Claim C5. For every sequence of values of types that pass the static checks and every byte
string `extra` appended to its encoding, decoding the extended buffer into default-constructed
destinations ends normally with the original values; the `extra.length` trailing bytes are left
unread (the counter of remaining bytes ends at `extra.length`). -/
theorem C5_trailing_bytes_ignored (cfg : Config) (args : List (Ty × Val)) (extra : List Byte)
    (hs : ∀ a ∈ args, serializable cfg a.1 = true)
    (hd : ∀ a ∈ args, deserializable cfg a.1 = true)
    (ht : ∀ a ∈ args, has_type cfg a.1 a.2 = true) :
    ∃ data, serialize cfg args = some data ∧
      deserialize cfg (arg_types args) (data ++ extra) (fresh_dests args) =
        ⟨.ok, arg_values args, ⟨data.length, extra.length⟩⟩ :=
  ⟨encode_all cfg args, serialize_eq cfg _ (by simpa using hs) ht,
    deserialize_encode_all cfg args extra hd ht⟩

theorem C5_trailing_bytes_ignored_witness :
    (∀ a ∈ args_example, serializable cfg_host a.1 = true) ∧
    (∀ a ∈ args_example, deserializable cfg_host a.1 = true) ∧
    (∀ a ∈ args_example, has_type cfg_host a.1 a.2 = true) ∧
    ∃ data, serialize cfg_host args_example = some data ∧
      deserialize cfg_host (arg_types args_example) (data ++ [1, 2, 3])
        (fresh_dests args_example) =
        ⟨.ok, arg_values args_example, ⟨data.length, [(1 : Byte), 2, 3].length⟩⟩ :=
  have h1 : ∀ a ∈ args_example, serializable cfg_host a.1 = true := by
    intro a ha
    simp only [args_example, List.mem_cons, List.mem_singleton, List.not_mem_nil, or_false] at ha
    rcases ha with rfl | rfl | rfl | rfl <;> rfl
  have h2 : ∀ a ∈ args_example, deserializable cfg_host a.1 = true := by
    intro a ha
    simp only [args_example, List.mem_cons, List.mem_singleton, List.not_mem_nil, or_false] at ha
    rcases ha with rfl | rfl | rfl | rfl <;> rfl
  have h3 : ∀ a ∈ args_example, has_type cfg_host a.1 a.2 = true := by
    intro a ha
    simp only [args_example, List.mem_cons, List.mem_singleton, List.not_mem_nil, or_false] at ha
    rcases ha with rfl | rfl | rfl | rfl <;> rfl
  ⟨h1, h2, h3, C5_trailing_bytes_ignored cfg_host args_example [1, 2, 3] h1 h2 h3⟩

theorem size_field_width_eq (cfg : Config) :
    size_field_width cfg = (match cfg.sizeT with | some t => t.bytes | none => size_t_bytes) := by
  unfold size_field_width size_type_t
  cases cfg.sizeT <;> rfl

mutual
theorem exactSize_eq_length (cfg : Config) (T : Ty) (v : Val) (h : has_type cfg T v = true) :
    exactSize cfg T v = (encode cfg T v).length := by
  cases T with
  | arith s w => simp [exactSize, encode, length_object_bytes]
  | enum s w => simp [exactSize, encode, length_object_bytes]
  | carray e n =>
      cases v with
      | int x => simp [has_type] at h
      | seq xs =>
          simp only [has_type, Bool.and_eq_true, decide_eq_true_eq] at h
          have hall := all_has_type h.2
          simp only [exactSize, encode, Val.elems, length_flatten_map]
          exact sum_map_congr _ _ _ (fun x hx => exactSize_eq_length cfg e x (hall x hx))
  | stdarray e n =>
      cases v with
      | int x => simp [has_type] at h
      | seq xs =>
          simp only [has_type, Bool.and_eq_true, decide_eq_true_eq] at h
          have hall := all_has_type h.2
          simp only [exactSize, encode, Val.elems, length_flatten_map]
          exact sum_map_congr _ _ _ (fun x hx => exactSize_eq_length cfg e x (hall x hx))
  | forward_list e =>
      cases v with
      | int x => simp [has_type] at h
      | seq xs =>
          simp only [has_type, Bool.and_eq_true, decide_eq_true_eq] at h
          have hall := all_has_type h.2
          simp only [exactSize, encode, Val.elems, length_flatten_map, List.length_append,
            count_bytes, length_object_bytes]
          rw [sum_map_congr _ _ _ (fun x hx => exactSize_eq_length cfg e x (hall x hx))]
          cases hs : cfg.sizeT <;> simp [size_field_width, size_type_t, hs]
  | vector e =>
      cases v with
      | int x => simp [has_type] at h
      | seq xs =>
          simp only [has_type, Bool.and_eq_true, decide_eq_true_eq] at h
          have hall := all_has_type h.2
          simp only [exactSize, encode, Val.elems, length_flatten_map, List.length_append,
            count_bytes, length_object_bytes]
          rw [sum_map_congr _ _ _ (fun x hx => exactSize_eq_length cfg e x (hall x hx))]
          cases hs : cfg.sizeT <;> simp [size_field_width, size_type_t, hs]
  | list e =>
      cases v with
      | int x => simp [has_type] at h
      | seq xs =>
          simp only [has_type, Bool.and_eq_true, decide_eq_true_eq] at h
          have hall := all_has_type h.2
          simp only [exactSize, encode, Val.elems, length_flatten_map, List.length_append,
            count_bytes, length_object_bytes]
          rw [sum_map_congr _ _ _ (fun x hx => exactSize_eq_length cfg e x (hall x hx))]
          cases hs : cfg.sizeT <;> simp [size_field_width, size_type_t, hs]
  | set e =>
      cases v with
      | int x => simp [has_type] at h
      | seq xs =>
          simp only [has_type, Bool.and_eq_true, decide_eq_true_eq] at h
          have hall := all_has_type h.1.2
          simp only [exactSize, encode, Val.elems, length_flatten_map, List.length_append,
            count_bytes, length_object_bytes]
          rw [sum_map_congr _ _ _ (fun x hx => exactSize_eq_length cfg e x (hall x hx))]
          cases hs : cfg.sizeT <;> simp [size_field_width, size_type_t, hs]
  | tuple hc fs =>
      cases v with
      | int x => simp [has_type] at h
      | seq xs =>
          simp only [has_type] at h
          simp only [exactSize, encode, Val.elems]
          exact exactSize_fields_eq_length cfg fs xs h
  | aggregate fs =>
      cases v with
      | int x => simp [has_type] at h
      | seq xs =>
          simp only [has_type] at h
          simp only [exactSize, encode, Val.elems]
          exact exactSize_fields_eq_length cfg fs xs h
  | vector_bool => cases v <;> simp [has_type] at h
  | pointer => cases v <;> simp [has_type] at h
  | bitset => cases v <;> simp [has_type] at h
  | initializer_list => cases v <;> simp [has_type] at h
theorem exactSize_fields_eq_length (cfg : Config) (Ts : List Ty) (vs : List Val)
    (h : has_types cfg Ts vs = true) :
    exactSize_fields cfg Ts vs = (encode_fields cfg Ts vs).length := by
  cases Ts with
  | nil => cases vs <;> simp [exactSize_fields, encode_fields]
  | cons t ts =>
      cases vs with
      | nil => simp [has_types] at h
      | cons x xs =>
          simp only [has_types, Bool.and_eq_true] at h
          simp only [exactSize_fields, encode_fields, List.headD_cons, List.tail_cons,
            List.length_append]
          rw [exactSize_eq_length cfg t x h.1, exactSize_fields_eq_length cfg ts xs h.2]
end

/-- Claim C6 (the code departs from it). The count guard multiplies in `size_t`: for a
`std::forward_list<int32_t>` whose length prefix says `2^62 + 1` with 4 bytes left, the product
of natural numbers exceeds the 4 bytes, yet the guard does not fire, one element is taken and
linked into the destination, and only then `DeserializationError` is thrown; for a
`std::vector<int32_t>` whose prefix says `2^62` the wrapped product is `0` and the call ends in
`std::length_error` from `resize`. -/
theorem C6_count_guard_wraps :
    4 < (2 ^ 62 + 1) * byte_minsize cfg_host ty_int ∧
    count_exceeds cfg_host ty_int (2 ^ 62 + 1) 4 = false ∧
    take cfg_host (le_bytes 8 (2 ^ 62 + 1) ++ [1, 2, 3, 4]) (.forward_list ty_int) false
        (.seq []) ⟨0, 12⟩ =
      ⟨.DeserializationError, .seq [.int 67305985], ⟨12, 0⟩⟩ ∧
    0 < 2 ^ 62 * byte_minsize cfg_host ty_int ∧
    take cfg_host (le_bytes 8 (2 ^ 62)) (.vector ty_int) false (.seq []) ⟨0, 8⟩ =
      ⟨.length_error, .seq [], ⟨8, 0⟩⟩ :=
  ⟨by decide, by rfl, by rfl, by decide, by rfl⟩

theorem serialize_single (cfg : Config) (T : Ty) (v : Val) (hs : serializable cfg T = true)
    (ht : has_type cfg T v = true) : serialize cfg [(T, v)] = some (encode cfg T v) := by
  have := serialize_eq cfg [(T, v)] (by simpa using hs) (by simpa using ht)
  simpa [encode_all] using this

theorem bulk_serializable (cfg : Config) (e : Ty) (h : bulk_copyable cfg e = true) :
    byte_size_ok cfg e = true ∧ append_ok cfg e = true := by
  cases e with
  | arith s w => simp [byte_size_ok, append_ok]
  | enum s w => simp [byte_size_ok, append_ok]
  | carray e1 n =>
      have h' : 0 < n ∧ bulk_copyable cfg e1 = true ∧ cfg.order = cfg.Host := by
        simpa [bulk_copyable, qualifies, and_assoc] using h
      have ih := bulk_serializable cfg e1 h'.2.1
      have hp : priority_type cfg (.carray e1 n) false = .ArithmeticArray := by
        rw [priority_carray, if_pos h']
      simp [byte_size_ok, append_ok, hp, ih.1]
  | _ => simp [bulk_copyable, qualifies, is_tuple_serializable] at h

theorem serializable_of_container (cfg : Config) (T e : Ty) (hT : is_variable_length T e)
    (hs : serializable cfg T = true) : serializable cfg e = true := by
  unfold serializable at hs ⊢
  simp only [Bool.and_eq_true] at hs ⊢
  rcases hT with rfl | rfl | rfl | rfl
  · rcases vector_cases cfg e false with ⟨hp, _, hc, _⟩ | hp
    · exact bulk_serializable cfg e hc
    · simp only [byte_size_ok, append_ok, hp, Bool.and_eq_true] at hs
      exact ⟨hs.1.2, hs.2.2⟩
  · simp only [byte_size_ok, append_ok, Bool.and_eq_true] at hs
    exact ⟨hs.1.2, hs.2.2⟩
  · simp only [byte_size_ok, append_ok, Bool.and_eq_true] at hs
    exact ⟨hs.1.2, hs.2.2⟩
  · simp only [byte_size_ok, append_ok, Bool.and_eq_true] at hs
    exact ⟨hs.1.2, hs.2.2⟩

theorem serializable_of_array (cfg : Config) (T e : Ty) (hT : is_fixed_array T e)
    (hs : serializable cfg T = true) : serializable cfg e = true := by
  unfold serializable at hs ⊢
  simp only [Bool.and_eq_true] at hs ⊢
  obtain ⟨n, rfl | rfl⟩ := hT
  · rcases carray_cases cfg e n false with ⟨hp, _, hc, _⟩ | ⟨hp, _⟩ | ⟨hp, _⟩
    · exact bulk_serializable cfg e hc
    · simpa only [byte_size_ok, append_ok, hp] using hs
    · simp [byte_size_ok, hp] at hs
  · rcases stdarray_cases cfg e n false with ⟨hp, _, _, hc, _⟩ | ⟨hp, _⟩ | ⟨hp, _⟩
    · exact bulk_serializable cfg e hc
    · simpa only [byte_size_ok, append_ok, hp] using hs
    · simp [byte_size_ok, hp] at hs

theorem has_type_elems (cfg : Config) (T e : Ty) (xs : List Val)
    (hT : is_variable_length T e ∨ is_fixed_array T e) (ht : has_type cfg T (.seq xs) = true) :
    ∀ x ∈ xs, has_type cfg e x = true := by
  rcases hT with (rfl | rfl | rfl | rfl) | ⟨n, rfl | rfl⟩ <;>
    simp only [has_type, Bool.and_eq_true, decide_eq_true_eq] at ht
  · exact all_has_type ht.2
  · exact all_has_type ht.2
  · exact all_has_type ht.1.2
  · exact all_has_type ht.2
  · exact all_has_type ht.2
  · exact all_has_type ht.2

theorem forall₂_serialize (cfg : Config) (e : Ty) (xs : List Val)
    (hs : serializable cfg e = true) (ht : ∀ x ∈ xs, has_type cfg e x = true) :
    List.Forall₂ (fun x b => serialize cfg [(e, x)] = some b) xs (xs.map (encode cfg e)) := by
  induction xs with
  | nil => exact List.Forall₂.nil
  | cons x xs ih =>
      exact List.Forall₂.cons (serialize_single cfg e x hs (ht x (by simp)))
        (ih (fun y hy => ht y (by simp [hy])))

/-- Claim C10. For every variable-length container or forward list (a `vector`, `list`, `set`
or `forward_list` of `e`, in the `Iterable`, `ArithmeticContiguous` or `Optimized` category)
the encoding is the element count as an integer of the size-field width in the configured byte
order, followed by the encodings of the elements in iteration order; the list of lists
`[[1,2],[3]]` of `int32` encodes as count 2, count 2, 1, 2, count 1, 3. -/
theorem C10_container_encoding (cfg : Config) (T e : Ty) (xs : List Val)
    (hT : is_variable_length T e) (hs : serializable cfg T = true)
    (ht : has_type cfg T (.seq xs) = true) :
    (∃ parts, List.Forall₂ (fun x b => serialize cfg [(e, x)] = some b) xs parts ∧
      serialize cfg [(T, .seq xs)] =
        some (object_bytes cfg.order (size_field_width cfg) xs.length ++ parts.flatten)) ∧
    serialize cfg_le [(ty_list_list, val_list_list)] =
      some [2, 0, 0, 0, 0, 0, 0, 0,
            2, 0, 0, 0, 0, 0, 0, 0, 1, 0, 0, 0, 2, 0, 0, 0,
            1, 0, 0, 0, 0, 0, 0, 0, 3, 0, 0, 0] := by
  refine ⟨⟨xs.map (encode cfg e), ?_, ?_⟩, by rfl⟩
  · exact forall₂_serialize cfg e xs (serializable_of_container cfg T e hT hs)
      (has_type_elems cfg T e xs (Or.inl hT) ht)
  · rw [serialize_single cfg T _ hs ht]
    rcases hT with rfl | rfl | rfl | rfl <;> simp [encode, Val.elems, count_bytes]

theorem C10_container_encoding_witness :
    is_variable_length ty_list_list (.list ty_int) ∧ serializable cfg_be ty_list_list = true ∧
    has_type cfg_be ty_list_list val_list_list = true ∧
    ((∃ parts, List.Forall₂ (fun x b => serialize cfg_be [(.list ty_int, x)] = some b)
        [.seq [.int 1, .int 2], .seq [.int 3]] parts ∧
      serialize cfg_be [(ty_list_list, .seq [.seq [.int 1, .int 2], .seq [.int 3]])] =
        some (object_bytes cfg_be.order (size_field_width cfg_be)
          [Val.seq [.int 1, .int 2], Val.seq [.int 3]].length ++ parts.flatten)) ∧
    serialize cfg_le [(ty_list_list, val_list_list)] =
      some [2, 0, 0, 0, 0, 0, 0, 0,
            2, 0, 0, 0, 0, 0, 0, 0, 1, 0, 0, 0, 2, 0, 0, 0,
            1, 0, 0, 0, 0, 0, 0, 0, 3, 0, 0, 0]) :=
  ⟨Or.inr (Or.inl rfl), by rfl, by rfl,
    C10_container_encoding cfg_be ty_list_list (.list ty_int) _ (Or.inr (Or.inl rfl)) (by rfl)
      (by rfl)⟩

theorem serializable_fields (cfg : Config) (fs : List Ty)
    (h : tuple_byte_size_ok cfg fs = true ∧ append_tuple_ok cfg fs = true) :
    ∀ f ∈ fs, serializable cfg f = true := by
  induction fs with
  | nil => simp
  | cons t ts ih =>
      simp only [tuple_byte_size_ok, append_tuple_ok, Bool.and_eq_true] at h
      intro f hf
      rcases List.mem_cons.1 hf with rfl | hf
      · simp [serializable, h.1.1, h.2.1]
      · exact ih ⟨h.1.2, h.2.2⟩ f hf

theorem encode_fields_eq (cfg : Config) : ∀ (fs : List Ty) (xs : List Val),
    xs.length = fs.length →
    encode_fields cfg fs xs = ((fs.zip xs).map (fun a => encode cfg a.1 a.2)).flatten
  | [], _, _ => by simp [encode_fields]
  | t :: ts, [], h => by simp at h
  | t :: ts, x :: xs, h => by
      simp only [List.length_cons, add_left_inj] at h
      simp [encode_fields, encode_fields_eq cfg ts xs h]

theorem forall₂_serialize_fields (cfg : Config) : ∀ (fs : List Ty) (xs : List Val),
    (∀ f ∈ fs, serializable cfg f = true) → has_types cfg fs xs = true →
    List.Forall₂ (fun (a : Ty × Val) b => serialize cfg [a] = some b) (fs.zip xs)
      ((fs.zip xs).map (fun a => encode cfg a.1 a.2))
  | [], _, _, _ => by simp
  | t :: ts, [], _, h => by simp [has_types] at h
  | t :: ts, x :: xs, hs, h => by
      simp only [has_types, Bool.and_eq_true] at h
      simp only [List.zip_cons_cons, List.map_cons]
      exact List.Forall₂.cons (serialize_single cfg t x (hs t (by simp)) h.1)
        (forall₂_serialize_fields cfg ts xs (fun f hf => hs f (by simp [hf])) h.2)

/-- Claim C11. For every fixed-length array (`carray`, `stdarray`, in the bulk or the
element-wise category) and every tuple or registered aggregate, the encoding is exactly the
concatenation of the encodings of its elements / fields in declared order, with no length
prefix; the tuple `(int8 1, int16 2, int32 3)` encodes under BigEndian to the 7 bytes
`01 | 00 02 | 00 00 00 03`. -/
theorem C11_fixed_length_encoding (cfg : Config) (T : Ty) (xs : List Val)
    (hs : serializable cfg T = true) (ht : has_type cfg T (.seq xs) = true) :
    (∀ e, is_fixed_array T e →
      ∃ parts, List.Forall₂ (fun x b => serialize cfg [(e, x)] = some b) xs parts ∧
        serialize cfg [(T, .seq xs)] = some parts.flatten) ∧
    (∀ fs, is_tuple_of T fs →
      xs.length = fs.length ∧
      ∃ parts, List.Forall₂ (fun (a : Ty × Val) b => serialize cfg [a] = some b)
          (fs.zip xs) parts ∧
        serialize cfg [(T, .seq xs)] = some parts.flatten) ∧
    serialize cfg_be [(ty_tuple3, val_tuple3)] = some [1, 0, 2, 0, 0, 0, 3] := by
  refine ⟨?_, ?_, by rfl⟩
  · intro e hT
    refine ⟨xs.map (encode cfg e), ?_, ?_⟩
    · exact forall₂_serialize cfg e xs (serializable_of_array cfg T e hT hs)
        (has_type_elems cfg T e xs (Or.inr hT) ht)
    · rw [serialize_single cfg T _ hs ht]
      obtain ⟨n, rfl | rfl⟩ := hT <;> simp [encode, Val.elems]
  · intro fs hT
    have hfs : tuple_byte_size_ok cfg fs = true ∧ append_tuple_ok cfg fs = true ∧
        has_types cfg fs xs = true := by
      unfold serializable at hs
      rcases hT with ⟨hc, rfl⟩ | rfl <;>
        simp only [byte_size_ok, append_ok, has_type, Bool.and_eq_true] at hs ht <;>
        exact ⟨hs.1.2, hs.2.2, ht⟩
    have hlen := has_types_length cfg fs xs hfs.2.2
    refine ⟨hlen, (fs.zip xs).map (fun a => encode cfg a.1 a.2), ?_, ?_⟩
    · exact forall₂_serialize_fields cfg fs xs (serializable_fields cfg fs ⟨hfs.1, hfs.2.1⟩)
        hfs.2.2
    · rw [serialize_single cfg T _ hs ht, ← encode_fields_eq cfg fs xs hlen]
      rcases hT with ⟨hc, rfl⟩ | rfl <;> simp [encode, Val.elems]

theorem C11_fixed_length_encoding_witness :
    serializable cfg_be ty_tuple3 = true ∧ has_type cfg_be ty_tuple3 val_tuple3 = true ∧
    ((∀ e, is_fixed_array ty_tuple3 e →
      ∃ parts, List.Forall₂ (fun x b => serialize cfg_be [(e, x)] = some b)
          [.int 1, .int 2, .int 3] parts ∧
        serialize cfg_be [(ty_tuple3, .seq [.int 1, .int 2, .int 3])] = some parts.flatten) ∧
    (∀ fs, is_tuple_of ty_tuple3 fs →
      [Val.int 1, Val.int 2, Val.int 3].length = fs.length ∧
      ∃ parts, List.Forall₂ (fun (a : Ty × Val) b => serialize cfg_be [a] = some b)
          (fs.zip [.int 1, .int 2, .int 3]) parts ∧
        serialize cfg_be [(ty_tuple3, .seq [.int 1, .int 2, .int 3])] = some parts.flatten) ∧
    serialize cfg_be [(ty_tuple3, val_tuple3)] = some [1, 0, 2, 0, 0, 0, 3]) :=
  ⟨by rfl, by rfl, C11_fixed_length_encoding cfg_be ty_tuple3 _ (by rfl) (by rfl)⟩

theorem le_bytes_get (w p i : Nat) (hi : i < w) :
    (le_bytes w p)[i]? = some (byte_of (p / 256 ^ i)) := by
  induction w generalizing p i with
  | zero => omega
  | succ w ih =>
      cases i with
      | zero => simp [le_bytes]
      | succ i =>
          simp only [le_bytes, List.getElem?_cons_succ]
          rw [ih (p / 256) i (by omega), Nat.div_div_eq_div_mul, pow_succ, Nat.mul_comm]

/-- Claim C12. For every integer scalar `x` of width `w` bytes (integral type or enumeration),
whatever the host order and the size type: the LittleEndian encoding is the `w` bytes of the
two's-complement pattern of `x` from least to most significant (byte `i` is
`pattern / 256^i mod 256`), the BigEndian encoding is exactly its reversal, and decoding each
with the matching order returns `x`, consuming the `w` bytes. -/
theorem C12_scalar_byte_order (H : ByteOrder) (st : Option IntType) (T : Ty) (s : Bool)
    (w : Nat) (x : Int) (hT : is_scalar T s w) (hw : valid_width w = true)
    (hx : int_in_range s w x = true) :
    serialize ⟨H, .LittleEndian, st⟩ [(T, .int x)] = some (le_bytes w (bit_pattern w x)) ∧
    (le_bytes w (bit_pattern w x)).length = w ∧
    (∀ i, i < w → (le_bytes w (bit_pattern w x))[i]? = some (byte_of (bit_pattern w x / 256 ^ i))) ∧
    serialize ⟨H, .BigEndian, st⟩ [(T, .int x)] = some (le_bytes w (bit_pattern w x)).reverse ∧
    deserialize_value ⟨H, .LittleEndian, st⟩ T (le_bytes w (bit_pattern w x)) =
      ⟨.ok, .int x, ⟨w, 0⟩⟩ ∧
    deserialize_value ⟨H, .BigEndian, st⟩ T (le_bytes w (bit_pattern w x)).reverse =
      ⟨.ok, .int x, ⟨w, 0⟩⟩ := by
  have hs : ∀ cfg : Config, serializable cfg T = true := by
    intro cfg
    rcases hT with rfl | rfl <;> simp [serializable, byte_size_ok, append_ok]
  have hd : ∀ cfg : Config, deserializable cfg T = true := by
    intro cfg
    rcases hT with rfl | rfl <;> simp [deserializable, take_ok]
  have ht : ∀ cfg : Config, has_type cfg T (.int x) = true := by
    intro cfg
    rcases hT with rfl | rfl <;> simp [has_type, hw, hx]
  have he : ∀ cfg : Config, encode cfg T (.int x) = object_bytes cfg.order w x := by
    intro cfg
    rcases hT with rfl | rfl <;> simp [encode, Val.toInt]
  refine ⟨?_, length_le_bytes _ _, fun i hi => le_bytes_get _ _ _ hi, ?_, ?_, ?_⟩
  · have := serialize_eq ⟨H, .LittleEndian, st⟩ [(T, .int x)] (by simpa using hs _)
      (by simpa using ht _)
    simpa [encode_all, he, object_bytes] using this
  · have := serialize_eq ⟨H, .BigEndian, st⟩ [(T, .int x)] (by simpa using hs _)
      (by simpa using ht _)
    simpa [encode_all, he, object_bytes] using this
  · have := deserialize_value_encode ⟨H, .LittleEndian, st⟩ T (.int x) [] (hd _) (ht _)
    simpa [he, object_bytes, length_le_bytes] using this
  · have := deserialize_value_encode ⟨H, .BigEndian, st⟩ T (.int x) [] (hd _) (ht _)
    simpa [he, object_bytes, length_le_bytes] using this

theorem C12_scalar_byte_order_witness :
    is_scalar ty_int true 4 ∧ valid_width 4 = true ∧ int_in_range true 4 (-2) = true ∧
    (serialize ⟨.BigEndian, .LittleEndian, none⟩ [(ty_int, .int (-2))] =
      some (le_bytes 4 (bit_pattern 4 (-2))) ∧
    (le_bytes 4 (bit_pattern 4 (-2))).length = 4 ∧
    (∀ i, i < 4 → (le_bytes 4 (bit_pattern 4 (-2)))[i]? =
      some (byte_of (bit_pattern 4 (-2) / 256 ^ i))) ∧
    serialize ⟨.BigEndian, .BigEndian, none⟩ [(ty_int, .int (-2))] =
      some (le_bytes 4 (bit_pattern 4 (-2))).reverse ∧
    deserialize_value ⟨.BigEndian, .LittleEndian, none⟩ ty_int (le_bytes 4 (bit_pattern 4 (-2))) =
      ⟨.ok, .int (-2), ⟨4, 0⟩⟩ ∧
    deserialize_value ⟨.BigEndian, .BigEndian, none⟩ ty_int
        (le_bytes 4 (bit_pattern 4 (-2))).reverse =
      ⟨.ok, .int (-2), ⟨4, 0⟩⟩) :=
  ⟨Or.inl rfl, by decide, by decide,
    C12_scalar_byte_order .BigEndian none ty_int true 4 (-2) (Or.inl rfl) (by decide) (by decide)⟩

/-- Claim C15. The size-field width is the width of the container's natural size type (`size_t`)
when no size type is configured and the width of the configured integer type otherwise; the
assertions of `size_type` hold exactly when the configured width is at least the natural one; a
narrower configured type makes every variable-length container fail the static checks of
`serialize` and `deserialize` (nothing is encoded with a truncated length), and a configured type
at least as wide is accepted, for instance for every list of integers. -/
theorem C15_size_field_width (H o : ByteOrder) :
    (size_field_width ⟨H, o, none⟩ = size_t_bytes ∧ size_type_ok ⟨H, o, none⟩ = true) ∧
    (∀ t : IntType, size_field_width ⟨H, o, some t⟩ = t.bytes ∧
      (size_type_ok ⟨H, o, some t⟩ = true ↔ size_t_bytes ≤ t.bytes)) ∧
    (∀ (t : IntType) (T e : Ty) (v : Val), is_variable_length T e → t.bytes < size_t_bytes →
      serializable ⟨H, o, some t⟩ T = false ∧ serialize ⟨H, o, some t⟩ [(T, v)] = none ∧
      deserializable ⟨H, o, some t⟩ T = false) ∧
    (∀ (t : IntType) (s : Bool) (w : Nat), size_t_bytes ≤ t.bytes →
      serializable ⟨H, o, some t⟩ (.list (.arith s w)) = true ∧
      deserializable ⟨H, o, some t⟩ (.list (.arith s w)) = true) := by
  refine ⟨⟨rfl, rfl⟩, fun t => ⟨rfl, by simp [size_type_ok]⟩, ?_, ?_⟩
  · intro t T e v hT ht
    have hso : size_type_ok ⟨H, o, some t⟩ = false := by
      simp only [size_type_ok, decide_eq_false_iff_not]; omega
    have h1 : serializable ⟨H, o, some t⟩ T = false := by
      rcases hT with rfl | rfl | rfl | rfl
      · rcases vector_cases ⟨H, o, some t⟩ e false with ⟨hp, _⟩ | hp <;>
          simp [serializable, byte_size_ok, hp, hso]
      · simp [serializable, byte_size_ok, hso]
      · simp [serializable, byte_size_ok, hso]
      · simp [serializable, byte_size_ok, hso]
    refine ⟨h1, by simp [serialize, h1], ?_⟩
    rcases hT with rfl | rfl | rfl | rfl
    · rcases vector_cases ⟨H, o, some t⟩ e false with ⟨hp, _⟩ | hp <;>
        simp [deserializable, take_ok, hp, hso]
    · simp [deserializable, take_ok, hso]
    · simp [deserializable, take_ok, hso]
    · simp [deserializable, take_ok, hso]
  · intro t s w ht
    have hso : size_type_ok ⟨H, o, some t⟩ = true := by
      simp only [size_type_ok, decide_eq_true_eq]; exact ht
    simp [serializable, deserializable, byte_size_ok, append_ok, take_ok, byte_minsize_ok, hso]

/-- Claim C16, the part that fails: with the size type overridden to a 4-byte integer the
assertion of `size_type` fails (the native size type has 8 bytes), so `[1, 2, 3]` is not encoded
to 16 bytes: there is no encoding at all. -/
theorem C16_four_byte_override_rejected :
    size_type_ok cfg_le4 = false ∧ serialize cfg_le4 [(ty_list_int, val_123)] = none ∧
    ¬ ∃ data, serialize cfg_le4 [(ty_list_int, val_123)] = some data ∧ data.length = 4 + 12 := by
  refine ⟨by rfl, by rfl, ?_⟩
  rintro ⟨data, h, _⟩
  have h0 : serialize cfg_le4 [(ty_list_int, val_123)] = none := by rfl
  rw [h0] at h
  cases h

/-- Claim C16, as amended. With LittleEndian order the list `[1, 2, 3]` of `int32` encodes to
`8 + 12 = 20` bytes with the default size field (the native 8-byte size type): the count 3 in 8
bytes and the three elements in 4 bytes each; an override of the size type to a 4-byte integer is
rejected by the static checks of `serialize`, `byteSize` and `deserialize`; with an override to an
8-byte integer the encoding is the same 20 bytes. -/
theorem C16_list_default_size_field :
    serialize cfg_le [(ty_list_int, val_123)] =
      some [3, 0, 0, 0, 0, 0, 0, 0, 1, 0, 0, 0, 2, 0, 0, 0, 3, 0, 0, 0] ∧
    byteSize cfg_le [(ty_list_int, val_123)] = 8 + 12 ∧
    size_field_width cfg_le = 8 ∧ size_field_width cfg_le4 = 4 ∧
    serializable cfg_le4 ty_list_int = false ∧ deserializable cfg_le4 ty_list_int = false ∧
    serialize cfg_le8 [(ty_list_int, val_123)] =
      some [3, 0, 0, 0, 0, 0, 0, 0, 1, 0, 0, 0, 2, 0, 0, 0, 3, 0, 0, 0] ∧
    byteSize cfg_le8 [(ty_list_int, val_123)] = 8 + 12 :=
  ⟨by rfl, by rfl, by rfl, by rfl, by rfl, by rfl, by rfl, by rfl⟩

/-- Claim C18. Under Host byte order the classifier returns `Arithmetic` for an integral scalar,
`Enum` for an enumeration, `ArithmeticArray` for a C array of arithmetic elements,
`ArithmeticContiguous` for a `std::vector` of arithmetic elements, `Array` for a C array of
containers, `Tuple` for a std tuple (with at least one element), `Iterable` for a container of
containers and `Optimized` for a `std::array` of arithmetic elements. -/
theorem C18_host_classification (cfg : Config) (hH : cfg.order = cfg.Host) :
    (∀ s w, priorityType cfg (.arith s w) = .Arithmetic) ∧
    (∀ s w, priorityType cfg (.enum s w) = .Enum) ∧
    (∀ s w n, 0 < n → priorityType cfg (.carray (.arith s w) n) = .ArithmeticArray) ∧
    (∀ s w, priorityType cfg (.vector (.arith s w)) = .ArithmeticContiguous) ∧
    (∀ c e n, is_variable_length c e → 0 < n → priorityType cfg (.carray c n) = .Array) ∧
    (∀ hc fs, fs ≠ [] → priorityType cfg (.tuple hc fs) = .Tuple) ∧
    (∀ T c e, is_sized_container T c → is_variable_length c e →
      priorityType cfg T = .Iterable) ∧
    (∀ s w n, priorityType cfg (.stdarray (.arith s w) n) = .Optimized) := by
  refine ⟨fun s w => priority_arith cfg s w false, fun s w => priority_enum cfg s w false,
    ?_, ?_, ?_, ?_, ?_, ?_⟩
  · intro s w n hn
    simp [priorityType, priority_carray, bulk_copyable, qualifies, hn, hH]
  · intro s w
    simp [priorityType, priority_vector, qualifies, hH]
  · intro c e n hc hn
    rcases hc with rfl | rfl | rfl | rfl <;>
      simp [priorityType, priority_carray, bulk_copyable, qualifies, hn]
  · intro hc fs hfs
    cases fs with
    | nil => exact absurd rfl hfs
    | cons f fs => simp [priorityType, priority_tuple]
  · intro T c e hT hc
    rcases hT with rfl | rfl | rfl
    · rcases hc with rfl | rfl | rfl | rfl <;> simp [priorityType, priority_vector, qualifies]
    · exact priority_list cfg c false
    · exact priority_set cfg c false
  · intro s w n
    simp [priorityType, priority_stdarray, qualifies, hH]

theorem C18_host_classification_witness :
    cfg_host.order = cfg_host.Host ∧
    ((∀ s w, priorityType cfg_host (.arith s w) = .Arithmetic) ∧
    (∀ s w, priorityType cfg_host (.enum s w) = .Enum) ∧
    (∀ s w n, 0 < n → priorityType cfg_host (.carray (.arith s w) n) = .ArithmeticArray) ∧
    (∀ s w, priorityType cfg_host (.vector (.arith s w)) = .ArithmeticContiguous) ∧
    (∀ c e n, is_variable_length c e → 0 < n → priorityType cfg_host (.carray c n) = .Array) ∧
    (∀ hc fs, fs ≠ [] → priorityType cfg_host (.tuple hc fs) = .Tuple) ∧
    (∀ T c e, is_sized_container T c → is_variable_length c e →
      priorityType cfg_host T = .Iterable) ∧
    (∀ s w n, priorityType cfg_host (.stdarray (.arith s w) n) = .Optimized)) :=
  ⟨by decide, C18_host_classification cfg_host (by decide)⟩

/-- Claim C19. Under the non-Host byte order a C array of arithmetic elements classifies as
`Array`, not `ArithmeticArray`, and a `std::vector` of arithmetic elements classifies as
`Iterable`, not `ArithmeticContiguous`, while integral scalars, enumerations and tuples (with at
least one element) keep the categories `Arithmetic`, `Enum` and `Tuple`. -/
theorem C19_non_host_classification (cfg : Config) (hH : cfg.order ≠ cfg.Host) :
    (∀ s w n, 0 < n → priorityType cfg (.carray (.arith s w) n) = .Array) ∧
    (∀ s w, priorityType cfg (.vector (.arith s w)) = .Iterable) ∧
    (∀ s w, priorityType cfg (.arith s w) = .Arithmetic) ∧
    (∀ s w, priorityType cfg (.enum s w) = .Enum) ∧
    (∀ hc fs, fs ≠ [] → priorityType cfg (.tuple hc fs) = .Tuple) := by
  refine ⟨?_, ?_, fun s w => priority_arith cfg s w false, fun s w => priority_enum cfg s w false,
    ?_⟩
  · intro s w n hn
    simp [priorityType, priority_carray, hn, hH]
  · intro s w
    simp [priorityType, priority_vector, hH]
  · intro hc fs hfs
    cases fs with
    | nil => exact absurd rfl hfs
    | cons f fs => simp [priorityType, priority_tuple]

theorem C19_non_host_classification_witness :
    cfg_be.order ≠ cfg_be.Host ∧
    ((∀ s w n, 0 < n → priorityType cfg_be (.carray (.arith s w) n) = .Array) ∧
    (∀ s w, priorityType cfg_be (.vector (.arith s w)) = .Iterable) ∧
    (∀ s w, priorityType cfg_be (.arith s w) = .Arithmetic) ∧
    (∀ s w, priorityType cfg_be (.enum s w) = .Enum) ∧
    (∀ hc fs, fs ≠ [] → priorityType cfg_be (.tuple hc fs) = .Tuple)) :=
  ⟨by decide, C19_non_host_classification cfg_be (by decide)⟩

/-- Claim C20. Raw pointers, `std::initializer_list`, `std::bitset` and the packed-bit container
`std::vector<bool>` classify as `NonSerializable` under every host and target byte order and
every size type. -/
theorem C20_non_serializable_types (cfg : Config) :
    priorityType cfg .pointer = .NonSerializable ∧
    priorityType cfg .initializer_list = .NonSerializable ∧
    priorityType cfg .bitset = .NonSerializable ∧
    priorityType cfg .vector_bool = .NonSerializable :=
  ⟨priority_pointer cfg false, priority_initializer_list cfg false, priority_bitset cfg false,
    by simp [priorityType, priority_vector_bool]⟩

theorem add_methods_eq (total : Nat) : ∀ (k : Nat) (args : List Ty), args.length = k →
    k ≤ total → k ≤ 15 →
    SERIALIZER_ADD_METHODS total k args = args.enumFrom (total - k)
  | 0, [], _, _, _ => by simp [SERIALIZER_ADD_METHODS]
  | 0, _ :: _, h, _, _ => by simp at h
  | k + 1, [], h, _, _ => by simp at h
  | k + 1, arg :: rest, h, ht, h15 => by
      simp only [List.length_cons, add_left_inj] at h
      have ih := add_methods_eq total k rest h (by omega) (by omega)
      have e : total - (k + 1) + 1 = total - k := by omega
      simp [SERIALIZER_ADD_METHODS, h15, ih, List.enumFrom_cons, e]

theorem lookup_enumFrom_lt (l : List Ty) (s i : Nat) (h : i < s) :
    (l.enumFrom s).lookup i = none := by
  induction l generalizing s with
  | nil => simp
  | cons a l ih =>
      have hne : (i == s) = false := by simp; omega
      simp [List.enumFrom_cons, List.lookup_cons, hne, ih (s + 1) (by omega)]

theorem filterMap_lookup_enumFrom (l : List Ty) (s : Nat) :
    (List.range' s l.length).filterMap (fun i => (l.enumFrom s).lookup i) = l := by
  induction l generalizing s with
  | nil => simp
  | cons a l ih =>
      simp only [List.length_cons, List.range'_succ, List.enumFrom_cons, List.filterMap_cons,
        List.lookup_cons, beq_self_eq_true]
      congr 1
      refine Eq.trans ?_ (ih (s + 1))
      apply List.filterMap_congr
      intro i hi
      have : s + 1 ≤ i := by
        simp [List.mem_range'] at hi
        omega
      have hne : (i == s) = false := by simp; omega
      simp [hne]

theorem custom_serializable_eq (args : List Ty) (h15 : args.length ≤ 15) :
    CUSTOM_SERIALIZABLE args = .aggregate args := by
  unfold CUSTOM_SERIALIZABLE SERIALIZER_ADD_ALL_METHODS PP_NARG tuple_element
  rw [add_methods_eq _ _ args rfl (le_refl _) h15, Nat.sub_self, List.range_eq_range']
  congr 1
  exact filterMap_lookup_enumFrom args 0

theorem lookup_enumFrom_ge (l : List Ty) (s i : Nat) (h : s ≤ i) :
    (l.enumFrom s).lookup i = l[i - s]? := by
  induction l generalizing s with
  | nil => simp
  | cons a l ih =>
      rcases Nat.eq_or_lt_of_le h with rfl | hlt
      · simp [List.enumFrom_cons, List.lookup_cons]
      · have hne : (i == s) = false := by simp; omega
        have e : i - s = (i - (s + 1)) + 1 := by omega
        simp only [List.enumFrom_cons, List.lookup_cons, hne]
        rw [ih (s + 1) (by omega), e, List.getElem?_cons_succ]

theorem sum_zip_byte_size (cfg : Config) : ∀ (fs : List Ty) (xs : List Val),
    xs.length = fs.length →
    tuple_byte_size cfg fs xs = ((fs.zip xs).map (fun a => byte_size cfg a.1 a.2)).sum
  | [], _, _ => by simp [tuple_byte_size]
  | t :: ts, [], h => by simp at h
  | t :: ts, x :: xs, h => by
      simp only [List.length_cons, add_left_inj] at h
      simp [tuple_byte_size, sum_zip_byte_size cfg ts xs h]

/-- Claim C17. For a class registered with `CUSTOM_SERIALIZABLE(T, f1, ..., fn)`, `1 ≤ n ≤ 15`:
the macros register field `i` (counted from 1) at tuple index `i - 1`, so the tuple view lists the
fields in declared order; the class classifies as `Tuple`; its `byte_size`, `serialize`, `take`
and `deserialize` are exactly those of the tuple `(f1, ..., fn)`; `byteSize` is the sum of the
sizes of the fields and the bytes are the encodings of the fields concatenated in declared
order. -/
theorem C17_custom_aggregate (cfg : Config) (args : List Ty) (h1 : 1 ≤ args.length)
    (h15 : args.length ≤ 15) :
    SERIALIZER_ADD_ALL_METHODS (PP_NARG args) args = args.enum ∧
    (∀ i, tuple_element (SERIALIZER_ADD_ALL_METHODS (PP_NARG args) args) i = args[i]?) ∧
    CUSTOM_SERIALIZABLE args = .aggregate args ∧
    priorityType cfg (CUSTOM_SERIALIZABLE args) = .Tuple ∧
    (∀ v, byte_size cfg (CUSTOM_SERIALIZABLE args) v = byte_size cfg (.tuple false args) v) ∧
    (∀ v, serialize cfg [(CUSTOM_SERIALIZABLE args, v)] =
      serialize cfg [(.tuple false args, v)]) ∧
    (∀ buf val c, take cfg buf (CUSTOM_SERIALIZABLE args) false val c =
      take cfg buf (.tuple false args) false val c) ∧
    (∀ data, deserialize_value cfg (CUSTOM_SERIALIZABLE args) data =
      deserialize_value cfg (.tuple false args) data) ∧
    (∀ xs, xs.length = args.length →
      byteSize cfg [(CUSTOM_SERIALIZABLE args, .seq xs)] =
        ((args.zip xs).map (fun a => byteSize cfg [a])).sum) ∧
    (∀ xs, serializable cfg (CUSTOM_SERIALIZABLE args) = true →
      has_type cfg (CUSTOM_SERIALIZABLE args) (.seq xs) = true →
      ∃ parts, List.Forall₂ (fun (a : Ty × Val) b => serialize cfg [a] = some b)
          (args.zip xs) parts ∧
        serialize cfg [(CUSTOM_SERIALIZABLE args, .seq xs)] = some parts.flatten) := by
  have hne : args.isEmpty = false := by
    cases args with
    | nil => simp at h1
    | cons a l => rfl
  have hts : is_tuple_serializable (.aggregate args) false = true := by
    simp [is_tuple_serializable, hne, h15]
  have hpa : priority_type cfg (.aggregate args) false = .Tuple := by
    rw [priority_aggregate, if_pos hts]
  have hpt : priority_type cfg (.tuple false args) false = .Tuple := by
    rw [priority_tuple, if_pos ⟨rfl, hne⟩]
  have htab : SERIALIZER_ADD_ALL_METHODS (PP_NARG args) args = args.enum := by
    unfold SERIALIZER_ADD_ALL_METHODS PP_NARG
    rw [add_methods_eq _ _ args rfl (le_refl _) h15, Nat.sub_self]
    rfl
  rw [custom_serializable_eq args h15]
  refine ⟨htab, ?_, rfl, hpa, ?_, ?_, ?_, ?_, ?_, ?_⟩
  · intro i
    rw [htab]
    exact lookup_enumFrom_ge args 0 i (Nat.zero_le _)
  · intro v
    simp [byte_size]
  · intro v
    simp [serialize, serializable, byte_size_ok, append_ok, hts, hne, byteSize, byte_size,
      writeData, append]
  · intro buf val c
    simp [take, hpa, hpt]
  · intro data
    simp [deserialize_value, readData_value, useReference, tuple_has_const, take, take_val, hpa, default_val,
      hpt]
  · intro xs hlen
    simp [byteSize, byte_size, Val.elems, sum_zip_byte_size cfg args xs hlen]
  · intro xs hs ht
    have hfs : tuple_byte_size_ok cfg args = true ∧ append_tuple_ok cfg args = true ∧
        has_types cfg args xs = true := by
      unfold serializable at hs
      simp only [byte_size_ok, append_ok, has_type, Bool.and_eq_true] at hs ht
      exact ⟨hs.1.2, hs.2.2, ht⟩
    have hlen := has_types_length cfg args xs hfs.2.2
    refine ⟨(args.zip xs).map (fun a => encode cfg a.1 a.2), ?_, ?_⟩
    · exact forall₂_serialize_fields cfg args xs
        (serializable_fields cfg args ⟨hfs.1, hfs.2.1⟩) hfs.2.2
    · rw [serialize_single cfg _ _ hs ht, ← encode_fields_eq cfg args xs hlen]
      simp [encode, Val.elems]

theorem C17_custom_aggregate_witness :
    1 ≤ args_custom.length ∧ args_custom.length ≤ 15 ∧
    (SERIALIZER_ADD_ALL_METHODS (PP_NARG args_custom) args_custom = args_custom.enum ∧
    (∀ i, tuple_element (SERIALIZER_ADD_ALL_METHODS (PP_NARG args_custom) args_custom) i =
      args_custom[i]?) ∧
    CUSTOM_SERIALIZABLE args_custom = .aggregate args_custom ∧
    priorityType cfg_net (CUSTOM_SERIALIZABLE args_custom) = .Tuple ∧
    (∀ v, byte_size cfg_net (CUSTOM_SERIALIZABLE args_custom) v =
      byte_size cfg_net (.tuple false args_custom) v) ∧
    (∀ v, serialize cfg_net [(CUSTOM_SERIALIZABLE args_custom, v)] =
      serialize cfg_net [(.tuple false args_custom, v)]) ∧
    (∀ buf val c, take cfg_net buf (CUSTOM_SERIALIZABLE args_custom) false val c =
      take cfg_net buf (.tuple false args_custom) false val c) ∧
    (∀ data, deserialize_value cfg_net (CUSTOM_SERIALIZABLE args_custom) data =
      deserialize_value cfg_net (.tuple false args_custom) data) ∧
    (∀ xs, xs.length = args_custom.length →
      byteSize cfg_net [(CUSTOM_SERIALIZABLE args_custom, .seq xs)] =
        ((args_custom.zip xs).map (fun a => byteSize cfg_net [a])).sum) ∧
    (∀ xs, serializable cfg_net (CUSTOM_SERIALIZABLE args_custom) = true →
      has_type cfg_net (CUSTOM_SERIALIZABLE args_custom) (.seq xs) = true →
      ∃ parts, List.Forall₂ (fun (a : Ty × Val) b => serialize cfg_net [a] = some b)
          (args_custom.zip xs) parts ∧
        serialize cfg_net [(CUSTOM_SERIALIZABLE args_custom, .seq xs)] = some parts.flatten)) :=
  ⟨by decide, by decide, C17_custom_aggregate cfg_net args_custom (by decide) (by decide)⟩

theorem flatten_flatten_map {α β : Type} (f : α → List (List β)) (xs : List α) :
    ((xs.map f).flatten).flatten = (xs.map (fun x => (f x).flatten)).flatten := by
  induction xs with
  | nil => rfl
  | cons x xs ih => simp [List.flatten_append, ih]

theorem map_flatten_map {α β γ : Type} (f : α → List β) (g : β → γ) (xs : List α) :
    ((xs.map f).flatten).map g = (xs.map (fun x => (f x).map g)).flatten := by
  induction xs with
  | nil => rfl
  | cons x xs ih => simp [ih]

mutual
theorem leaves_flatten (cfg : Config) (T : Ty) (v : Val) :
    (encode_leaves cfg T v).flatten = encode cfg T v := by
  cases T with
  | arith s w => simp [encode_leaves, encode]
  | enum s w => simp [encode_leaves, encode]
  | carray e n =>
      simp only [encode_leaves, encode, flatten_flatten_map]
      congr 1
      exact List.map_congr_left (fun x _ => leaves_flatten cfg e x)
  | stdarray e n =>
      simp only [encode_leaves, encode, flatten_flatten_map]
      congr 1
      exact List.map_congr_left (fun x _ => leaves_flatten cfg e x)
  | forward_list e =>
      simp only [encode_leaves, encode, List.flatten_cons, flatten_flatten_map]
      congr 2
      exact List.map_congr_left (fun x _ => leaves_flatten cfg e x)
  | vector e =>
      simp only [encode_leaves, encode, List.flatten_cons, flatten_flatten_map]
      congr 2
      exact List.map_congr_left (fun x _ => leaves_flatten cfg e x)
  | list e =>
      simp only [encode_leaves, encode, List.flatten_cons, flatten_flatten_map]
      congr 2
      exact List.map_congr_left (fun x _ => leaves_flatten cfg e x)
  | set e =>
      simp only [encode_leaves, encode, List.flatten_cons, flatten_flatten_map]
      congr 2
      exact List.map_congr_left (fun x _ => leaves_flatten cfg e x)
  | tuple hc fs => simpa [encode_leaves, encode] using leaves_fields_flatten cfg fs v.elems
  | aggregate fs => simpa [encode_leaves, encode] using leaves_fields_flatten cfg fs v.elems
  | vector_bool => simp [encode_leaves, encode]
  | pointer => simp [encode_leaves, encode]
  | bitset => simp [encode_leaves, encode]
  | initializer_list => simp [encode_leaves, encode]
theorem leaves_fields_flatten (cfg : Config) (Ts : List Ty) (vs : List Val) :
    (encode_leaves_fields cfg Ts vs).flatten = encode_fields cfg Ts vs := by
  cases Ts with
  | nil => simp [encode_leaves_fields, encode_fields]
  | cons t ts =>
      simp only [encode_leaves_fields, encode_fields, List.flatten_append]
      rw [leaves_flatten cfg t _, leaves_fields_flatten cfg ts _]
end

theorem object_bytes_BigEndian (w : Nat) (x : Int) :
    object_bytes .BigEndian w x = (object_bytes .LittleEndian w x).reverse := rfl

mutual
theorem leaves_reverse (cfg : Config) (T : Ty) (v : Val) :
    encode_leaves (with_order cfg .BigEndian) T v =
      (encode_leaves (with_order cfg .LittleEndian) T v).map List.reverse := by
  cases T with
  | arith s w => simp [encode_leaves, with_order, object_bytes]
  | enum s w => simp [encode_leaves, with_order, object_bytes]
  | carray e n =>
      simp only [encode_leaves, map_flatten_map]
      congr 1
      exact List.map_congr_left (fun x _ => leaves_reverse cfg e x)
  | stdarray e n =>
      simp only [encode_leaves, map_flatten_map]
      congr 1
      exact List.map_congr_left (fun x _ => leaves_reverse cfg e x)
  | forward_list e =>
      simp only [encode_leaves, List.map_cons, map_flatten_map]
      congr 1
      congr 1
      exact List.map_congr_left (fun x _ => leaves_reverse cfg e x)
  | vector e =>
      simp only [encode_leaves, List.map_cons, map_flatten_map]
      congr 1
      congr 1
      exact List.map_congr_left (fun x _ => leaves_reverse cfg e x)
  | list e =>
      simp only [encode_leaves, List.map_cons, map_flatten_map]
      congr 1
      congr 1
      exact List.map_congr_left (fun x _ => leaves_reverse cfg e x)
  | set e =>
      simp only [encode_leaves, List.map_cons, map_flatten_map]
      congr 1
      congr 1
      exact List.map_congr_left (fun x _ => leaves_reverse cfg e x)
  | tuple hc fs => simpa [encode_leaves] using leaves_fields_reverse cfg fs v.elems
  | aggregate fs => simpa [encode_leaves] using leaves_fields_reverse cfg fs v.elems
  | vector_bool => simp [encode_leaves]
  | pointer => simp [encode_leaves]
  | bitset => simp [encode_leaves]
  | initializer_list => simp [encode_leaves]
theorem leaves_fields_reverse (cfg : Config) (Ts : List Ty) (vs : List Val) :
    encode_leaves_fields (with_order cfg .BigEndian) Ts vs =
      (encode_leaves_fields (with_order cfg .LittleEndian) Ts vs).map List.reverse := by
  cases Ts with
  | nil => simp [encode_leaves_fields]
  | cons t ts =>
      simp only [encode_leaves_fields, List.map_append]
      rw [leaves_reverse cfg t _, leaves_fields_reverse cfg ts _]
end

/-- Claim C13. For every value serializable under both byte orders (same host, same size type),
`byteSize` is the same under LittleEndian and BigEndian, and the two encodings are the same
sequence of leaves (one per scalar and per length prefix, in the same positions), each leaf of
the BigEndian encoding being the byte-reversal of the corresponding leaf of the LittleEndian
encoding. -/
theorem C13_byte_order_keeps_layout (cfg : Config) (T : Ty) (v : Val)
    (hsL : serializable (with_order cfg .LittleEndian) T = true)
    (hsB : serializable (with_order cfg .BigEndian) T = true)
    (htL : has_type (with_order cfg .LittleEndian) T v = true)
    (htB : has_type (with_order cfg .BigEndian) T v = true) :
    byteSize (with_order cfg .LittleEndian) [(T, v)] =
      byteSize (with_order cfg .BigEndian) [(T, v)] ∧
    serialize (with_order cfg .LittleEndian) [(T, v)] =
      some (encode_leaves (with_order cfg .LittleEndian) T v).flatten ∧
    serialize (with_order cfg .BigEndian) [(T, v)] =
      some (encode_leaves (with_order cfg .BigEndian) T v).flatten ∧
    encode_leaves (with_order cfg .BigEndian) T v =
      (encode_leaves (with_order cfg .LittleEndian) T v).map List.reverse ∧
    (encode_leaves (with_order cfg .BigEndian) T v).length =
      (encode_leaves (with_order cfg .LittleEndian) T v).length := by
  have hrev := leaves_reverse cfg T v
  refine ⟨?_, ?_, ?_, hrev, by rw [hrev, List.length_map]⟩
  · have h1 := length_encode _ T v htL
    have h2 := length_encode _ T v htB
    simp only [byteSize, Nat.add_zero]
    rw [← h1, ← h2, ← leaves_flatten, ← leaves_flatten, hrev]
    simp [List.length_flatten, Function.comp_def]
  · rw [serialize_single _ T v hsL htL, leaves_flatten]
  · rw [serialize_single _ T v hsB htB, leaves_flatten]

theorem C13_byte_order_keeps_layout_witness :
    serializable (with_order cfg_net .LittleEndian) ty_nested = true ∧
    serializable (with_order cfg_net .BigEndian) ty_nested = true ∧
    has_type (with_order cfg_net .LittleEndian) ty_nested val_nested = true ∧
    has_type (with_order cfg_net .BigEndian) ty_nested val_nested = true ∧
    (byteSize (with_order cfg_net .LittleEndian) [(ty_nested, val_nested)] =
      byteSize (with_order cfg_net .BigEndian) [(ty_nested, val_nested)] ∧
    serialize (with_order cfg_net .LittleEndian) [(ty_nested, val_nested)] =
      some (encode_leaves (with_order cfg_net .LittleEndian) ty_nested val_nested).flatten ∧
    serialize (with_order cfg_net .BigEndian) [(ty_nested, val_nested)] =
      some (encode_leaves (with_order cfg_net .BigEndian) ty_nested val_nested).flatten ∧
    encode_leaves (with_order cfg_net .BigEndian) ty_nested val_nested =
      (encode_leaves (with_order cfg_net .LittleEndian) ty_nested val_nested).map List.reverse ∧
    (encode_leaves (with_order cfg_net .BigEndian) ty_nested val_nested).length =
      (encode_leaves (with_order cfg_net .LittleEndian) ty_nested val_nested).length) :=
  ⟨by rfl, by rfl, by rfl, by rfl,
    C13_byte_order_keeps_layout cfg_net ty_nested val_nested (by rfl) (by rfl) (by rfl) (by rfl)⟩

/-- Claim C14. Under Host byte order, for every fixed-length array of `n` arithmetic values, the
bulk copy of the `Optimized` `std::array` path and of the `ArithmeticArray` path writes exactly
what the element-wise `Array` path writes for the same elements: the same resulting chunk and
write pointer, `n * w` bytes further. -/
theorem C14_bulk_equals_elementwise (cfg : Config) (s : Bool) (w n : Nat) (v : Val)
    (wr : Writer) (hH : cfg.order = cfg.Host) (hn : 0 < n) (hlen : v.elems.length = n)
    (hroom : wr.ptr + n * w ≤ wr.buf.length) :
    priorityType cfg (.stdarray (.arith s w) n) = .Optimized ∧
    priorityType cfg (.carray (.arith s w) n) = .ArithmeticArray ∧
    append cfg (.stdarray (.arith s w) n) v wr = append_Array cfg (.arith s w) v wr ∧
    append cfg (.carray (.arith s w) n) v wr = append_Array cfg (.arith s w) v wr ∧
    ∃ wr1, append_Array cfg (.arith s w) v wr = some wr1 ∧ wr1.ptr = wr.ptr + n * w ∧
      wr1.buf.length = wr.buf.length := by
  have hp1 : priority_type cfg (.stdarray (.arith s w) n) false = .Optimized := by
    simp [priority_stdarray, qualifies, hH]
  have hp2 : priority_type cfg (.carray (.arith s w) n) false = .ArithmeticArray := by
    simp [priority_carray, bulk_copyable, qualifies, hn, hH]
  have hl : ((v.elems.map (encode cfg (.arith s w))).flatten).length = n * w := by
    rw [length_flatten_map, sum_map_const _ _ w (fun x _ => by simp [encode, length_object_bytes]),
      hlen]
  have h1 : append cfg (.stdarray (.arith s w) n) v wr =
      write_bytes wr (v.elems.map (encode cfg (.arith s w))).flatten := by
    have e1 : encode cfg (.stdarray (.arith s w) n) v =
        (v.elems.map (encode cfg (.arith s w))).flatten := by simp only [encode]
    rw [← e1]
    exact append_writes cfg (.stdarray (.arith s w) n) v (by simp [append_ok, hp1]) wr
      (by rw [e1, hl]; exact hroom)
  have h2 : append cfg (.carray (.arith s w) n) v wr =
      write_bytes wr (v.elems.map (encode cfg (.arith s w))).flatten := by
    have e2 : encode cfg (.carray (.arith s w) n) v =
        (v.elems.map (encode cfg (.arith s w))).flatten := by simp only [encode]
    rw [← e2]
    exact append_writes cfg (.carray (.arith s w) n) v (by simp [append_ok, hp2]) wr
      (by rw [e2, hl]; exact hroom)
  have h3 : append_Array cfg (.arith s w) v wr =
      write_bytes wr (v.elems.map (encode cfg (.arith s w))).flatten :=
    writes_each (append cfg (.arith s w)) (encode cfg (.arith s w)) v.elems
      (fun x _ => append_writes cfg (.arith s w) x (by simp [append_ok])) wr
      (by rw [hl]; exact hroom)
  refine ⟨hp1, hp2, h1.trans h3.symm, h2.trans h3.symm, ?_⟩
  rw [h3]
  unfold write_bytes
  rw [if_pos (by rw [hl]; exact hroom)]
  refine ⟨_, rfl, by simp [hl], ?_⟩
  simp only [List.length_append, List.length_take, List.length_drop, hl]
  omega

theorem C14_bulk_equals_elementwise_witness :
    cfg_host.order = cfg_host.Host ∧ 0 < 2 ∧
    (Val.seq [.int 1, .int (-2)]).elems.length = 2 ∧
    (Writer.mk (List.replicate 10 0) 1).ptr + 2 * 4 ≤ (Writer.mk (List.replicate 10 0) 1).buf.length ∧
    (priorityType cfg_host (.stdarray (.arith true 4) 2) = .Optimized ∧
    priorityType cfg_host (.carray (.arith true 4) 2) = .ArithmeticArray ∧
    append cfg_host (.stdarray (.arith true 4) 2) (.seq [.int 1, .int (-2)])
        (Writer.mk (List.replicate 10 0) 1) =
      append_Array cfg_host (.arith true 4) (.seq [.int 1, .int (-2)])
        (Writer.mk (List.replicate 10 0) 1) ∧
    append cfg_host (.carray (.arith true 4) 2) (.seq [.int 1, .int (-2)])
        (Writer.mk (List.replicate 10 0) 1) =
      append_Array cfg_host (.arith true 4) (.seq [.int 1, .int (-2)])
        (Writer.mk (List.replicate 10 0) 1) ∧
    ∃ wr1, append_Array cfg_host (.arith true 4) (.seq [.int 1, .int (-2)])
        (Writer.mk (List.replicate 10 0) 1) = some wr1 ∧
      wr1.ptr = (Writer.mk (List.replicate 10 0) 1).ptr + 2 * 4 ∧
      wr1.buf.length = (Writer.mk (List.replicate 10 0) 1).buf.length) :=
  ⟨by decide, by decide, by decide, by decide,
    C14_bulk_equals_elementwise cfg_host true 4 2 (.seq [.int 1, .int (-2)])
      (Writer.mk (List.replicate 10 0) 1) (by decide) (by decide) (by decide) (by decide)⟩

theorem safe_stay (c : Cursor) (st : Status) (h : st ≠ .out_of_bounds) : Safe c st c :=
  ⟨h, le_refl _, le_refl _, le_refl _, fun _ => rfl⟩

theorem safe_trans {c c1 c2 : Cursor} {st : Status} (h1 : Safe c .ok c1) (h2 : Safe c1 st c2) :
    Safe c st c2 := by
  obtain ⟨_, a1, a2, a3, a4⟩ := h1
  obtain ⟨b0, b1, b2, b3, b4⟩ := h2
  have := a4 rfl
  refine ⟨b0, by omega, by omega, by omega, fun h => ?_⟩
  have := b4 h
  omega

theorem safe_inv {buf : List Byte} {c c1 : Cursor} {st : Status} (h : Safe c st c1)
    (hc : c.ptr + c.restSize ≤ buf.length) : c1.ptr + c1.restSize ≤ buf.length := by
  obtain ⟨_, _, _, a3, _⟩ := h
  omega

theorem safe_bulk (buf : List Byte) (size : Nat) (decode : List Byte → Val) (val : Val) :
    SafeStep buf (take_bulk buf size decode val) := by
  intro c hc
  unfold take_bulk check_size read_bytes
  by_cases h1 : c.restSize < size
  · simp only [if_pos h1]
    exact safe_stay c _ (by decide)
  · simp only [if_neg h1]
    have h2 : c.ptr + size ≤ buf.length := by omega
    simp only [if_pos h2]
    exact ⟨by decide, by simp, by simp, by simp; omega, fun _ => by simp; omega⟩

theorem safe_arith (cfg : Config) (buf : List Byte) (s : Bool) (w : Nat) (val : Val) :
    SafeStep buf (take_arith cfg buf s w val) := by
  intro c hc
  unfold take_arith check_size read_bytes
  by_cases h1 : c.restSize < w
  · simp only [if_pos h1]
    exact safe_stay c _ (by decide)
  · simp only [if_neg h1]
    have h2 : c.ptr + w ≤ buf.length := by omega
    simp only [if_pos h2]
    exact ⟨by decide, by simp, by simp, by simp; omega, fun _ => by simp; omega⟩

theorem safe_into {buf : List Byte} (u : Bool) {by_ref : Val → Cursor → Taken}
    {by_val : Cursor → Taken} (h1 : ∀ d, SafeStep buf (by_ref d)) (h2 : SafeStep buf by_val)
    (dest : Val) : SafeStep buf (take_into u by_ref by_val dest) := by
  intro c hc
  unfold take_into
  cases u
  · have := h2 c hc
    simp only [Bool.false_eq_true, if_false]
    split
    · exact this
    · exact this
  · simpa using h1 dest c hc

theorem safe_new {buf : List Byte} (u : Bool) {by_ref : Val → Cursor → Taken}
    {by_val : Cursor → Taken} (h1 : ∀ d, SafeStep buf (by_ref d)) (h2 : SafeStep buf by_val)
    (dflt : Val) : SafeStep buf (take_new u by_ref by_val dflt) := by
  intro c hc
  unfold take_new
  cases u
  · simpa using h2 c hc
  · simpa using h1 dflt c hc

theorem safe_each {buf : List Byte} {f : Val → Cursor → Taken} (h : ∀ d, SafeStep buf (f d))
    (ds : List Val) : SafeLoop buf (take_each f ds) := by
  induction ds with
  | nil => exact fun c _ => safe_stay c _ (by simp [take_each])
  | cons d ds ih =>
      intro c hc
      have h1 := h d c hc
      simp only [take_each]
      split
      · rename_i hst
        rw [hst] at h1
        exact safe_trans h1 (ih _ (safe_inv h1 hc))
      · exact h1

theorem safe_insert {buf : List Byte} {g : Cursor → Taken} (h : SafeStep buf g)
    (ins : List Val → Val → List Val) (k : Nat) :
    ∀ acc, SafeLoop buf (take_insert g ins k acc) := by
  induction k with
  | zero => exact fun acc c _ => safe_stay c _ (by simp [take_insert])
  | succ k ih =>
      intro acc c hc
      have h1 := h c hc
      simp only [take_insert]
      split
      · rename_i hst
        rw [hst] at h1
        exact safe_trans h1 (ih _ _ (safe_inv h1 hc))
      · exact h1

theorem safe_toTaken {buf : List Byte} {f : Cursor → TakenList} (h : SafeLoop buf f) :
    SafeStep buf (fun c => (f c).toTaken) := fun c hc => h c hc

theorem safe_size (cfg : Config) (buf : List Byte) : SafeStep buf (take_size cfg buf) :=
  safe_arith cfg buf _ _ _

theorem safe_iterable (cfg : Config) (buf : List Byte) (e : Ty) (resizable : Bool)
    (ins : List Val → Val → List Val) (u : Bool) {by_ref : Val → Cursor → Taken}
    {by_val : Cursor → Taken} (h1 : ∀ d, SafeStep buf (by_ref d)) (h2 : SafeStep buf by_val)
    (val : Val) : SafeStep buf (take_iterable cfg buf e resizable ins u by_ref by_val val) := by
  intro c hc
  have hs := safe_size cfg buf c hc
  unfold take_iterable
  simp only
  split
  · rename_i hst
    rw [hst] at hs
    have hi := safe_inv hs hc
    split
    · exact safe_trans hs (safe_stay _ _ (by simp))
    · split
      · split
        · split
          · exact safe_trans hs (safe_stay _ _ (by simp))
          · exact safe_trans hs (safe_each h1 _ _ hi)
        · exact safe_trans hs (safe_insert (h1 _) ins _ _ _ hi)
      · exact safe_trans hs (safe_insert h2 ins _ _ _ hi)
  · exact hs

theorem safe_forward_list (cfg : Config) (buf : List Byte) (e : Ty) (u : Bool)
    {by_ref : Val → Cursor → Taken} {by_val : Cursor → Taken}
    (h1 : ∀ d, SafeStep buf (by_ref d)) (h2 : SafeStep buf by_val) (val : Val) :
    SafeStep buf (take_forward_list cfg buf e u by_ref by_val val) := by
  intro c hc
  have hs := safe_size cfg buf c hc
  unfold take_forward_list
  simp only
  split
  · rename_i hst
    rw [hst] at hs
    have hi := safe_inv hs hc
    split
    · exact safe_trans hs (safe_stay _ _ (by simp))
    · exact safe_trans hs (safe_insert (safe_new _ h1 h2 _) seq_insert _ _ _ hi)
  · exact hs

theorem safe_contiguous (cfg : Config) (buf : List Byte) (e : Ty) (val : Val) :
    SafeStep buf (take_contiguous cfg buf e val) := by
  intro c hc
  have hs := safe_size cfg buf c hc
  unfold take_contiguous
  simp only
  split
  · rename_i hst
    rw [hst] at hs
    have hi := safe_inv hs hc
    unfold check_size read_bytes
    by_cases hlt : (take_size cfg buf c).cur.restSize <
        to_size_t (take_size cfg buf c).val.toInt * sizeof e % SIZE_MOD
    · simp only [if_pos hlt]
      exact safe_trans hs (safe_stay _ _ (by simp))
    · simp only [if_neg hlt]
      split
      · exact safe_trans hs ⟨by simp, le_refl _, by simp, by simp, fun h => by simp at h⟩
      · have h2 : (take_size cfg buf c).cur.ptr +
            to_size_t (take_size cfg buf c).val.toInt * sizeof e % SIZE_MOD ≤ buf.length := by
          omega
        simp only [if_pos h2]
        exact safe_trans hs
          ⟨by decide, by simp, by simp, by simp; omega, fun _ => by simp; omega⟩
  · exact hs

mutual
theorem take_safe (cfg : Config) (buf : List Byte) (T : Ty) (ref : Bool) (val : Val) :
    SafeStep buf (take cfg buf T ref val) := by
  cases T with
  | arith s w => simpa only [take] using safe_arith cfg buf s w val
  | enum s w => simpa only [take] using safe_arith cfg buf s w val
  | carray e n =>
      intro c hc
      simp only [take]
      split
      · exact safe_bulk buf _ _ val c hc
      · exact safe_toTaken (safe_each (fun d => safe_into _ (fun d1 => take_safe cfg buf e true d1)
          (take_val_safe cfg buf e) d) _) c hc
      · exact safe_stay c _ (by simp)
  | stdarray e n =>
      intro c hc
      simp only [take]
      split
      · exact safe_bulk buf _ _ val c hc
      · exact safe_toTaken (safe_each (fun d => safe_into _ (fun d1 => take_safe cfg buf e false d1)
          (take_val_safe cfg buf e) d) _) c hc
      · exact safe_stay c _ (by simp)
  | forward_list e =>
      intro c hc
      simp only [take]
      split
      · exact safe_forward_list cfg buf e _ (fun d1 => take_safe cfg buf e false d1)
          (take_val_safe cfg buf e) val c hc
      · exact safe_stay c _ (by simp)
  | vector e =>
      intro c hc
      simp only [take]
      split
      · exact safe_contiguous cfg buf e val c hc
      · exact safe_iterable cfg buf e _ _ _ (fun d1 => take_safe cfg buf e false d1)
          (take_val_safe cfg buf e) val c hc
      · exact safe_stay c _ (by simp)
  | list e =>
      intro c hc
      simp only [take]
      exact safe_iterable cfg buf e _ _ _ (fun d1 => take_safe cfg buf e false d1)
        (take_val_safe cfg buf e) val c hc
  | set e =>
      intro c hc
      simp only [take]
      exact safe_iterable cfg buf e _ _ _ (fun d1 => take_safe cfg buf e false d1)
        (take_val_safe cfg buf e) val c hc
  | tuple hc fs =>
      intro c hc
      simp only [take]
      split
      · exact safe_toTaken (take_tuple_set_safe cfg buf fs val.elems) c hc
      · exact safe_stay c _ (by simp)
  | aggregate fs =>
      intro c hc
      simp only [take]
      split
      · exact safe_toTaken (take_tuple_set_safe cfg buf fs val.elems) c hc
      · exact safe_stay c _ (by simp)
  | vector_bool =>
      intro c hc
      simp only [take]
      split
      · exact safe_iterable cfg buf _ _ _ _ (fun d1 => safe_arith cfg buf false 1 d1)
          (fun c1 _ => safe_stay c1 _ (by simp)) val c hc
      · exact safe_stay c _ (by simp)
  | pointer => exact fun c _ => safe_stay c _ (by simp [take])
  | bitset => exact fun c _ => safe_stay c _ (by simp [take])
  | initializer_list => exact fun c _ => safe_stay c _ (by simp [take])
theorem take_val_safe (cfg : Config) (buf : List Byte) (T : Ty) :
    SafeStep buf (take_val cfg buf T) := by
  cases T with
  | tuple hc fs =>
      simpa only [take_val] using safe_toTaken (take_tuple_construct_safe cfg buf fs [])
  | aggregate fs =>
      simpa only [take_val] using safe_toTaken (take_tuple_construct_safe cfg buf fs [])
  | stdarray e n =>
      simpa only [take_val] using safe_toTaken (safe_insert
        (safe_new _ (fun d1 => take_safe cfg buf e false d1) (take_val_safe cfg buf e) _)
        seq_insert n [])
  | arith s w => exact fun c _ => safe_stay c _ (by simp [take_val])
  | enum s w => exact fun c _ => safe_stay c _ (by simp [take_val])
  | carray e n => exact fun c _ => safe_stay c _ (by simp [take_val])
  | forward_list e => exact fun c _ => safe_stay c _ (by simp [take_val])
  | vector e => exact fun c _ => safe_stay c _ (by simp [take_val])
  | list e => exact fun c _ => safe_stay c _ (by simp [take_val])
  | set e => exact fun c _ => safe_stay c _ (by simp [take_val])
  | vector_bool => exact fun c _ => safe_stay c _ (by simp [take_val])
  | pointer => exact fun c _ => safe_stay c _ (by simp [take_val])
  | bitset => exact fun c _ => safe_stay c _ (by simp [take_val])
  | initializer_list => exact fun c _ => safe_stay c _ (by simp [take_val])
theorem take_tuple_set_safe (cfg : Config) (buf : List Byte) (Ts : List Ty) (ds : List Val) :
    SafeLoop buf (take_tuple_set cfg buf Ts ds) := by
  cases Ts with
  | nil => exact fun c _ => safe_stay c _ (by simp [take_tuple_set])
  | cons t ts =>
      intro c hc
      have h1 := safe_into (useReference cfg t false) (fun d1 => take_safe cfg buf t false d1) (take_val_safe cfg buf t)
        (ds.headD (default_val t)) c hc
      simp only [take_tuple_set]
      split
      · rename_i hst
        rw [hst] at h1
        exact safe_trans h1 (take_tuple_set_safe cfg buf ts ds.tail _ (safe_inv h1 hc))
      · exact h1
theorem take_tuple_construct_safe (cfg : Config) (buf : List Byte) (Ts : List Ty)
    (args : List Val) : SafeLoop buf (take_tuple_construct cfg buf Ts args) := by
  cases Ts with
  | nil => exact fun c _ => safe_stay c _ (by simp [take_tuple_construct])
  | cons t ts =>
      intro c hc
      have h1 := safe_new (useReference cfg t false) (fun d1 => take_safe cfg buf t false d1) (take_val_safe cfg buf t)
        (default_val t) c hc
      simp only [take_tuple_construct]
      split
      · rename_i hst
        rw [hst] at h1
        exact safe_trans h1 (take_tuple_construct_safe cfg buf ts _ _ (safe_inv h1 hc))
      · exact h1
end

theorem readData_safe (cfg : Config) (buf : List Byte) (Ts : List Ty) :
    ∀ ds, SafeLoop buf (readData cfg buf Ts ds) := by
  induction Ts with
  | nil => exact fun ds c _ => safe_stay c _ (by simp [readData])
  | cons t ts ih =>
      intro ds c hc
      have h1 := safe_into (useReference cfg t false) (fun d1 => take_safe cfg buf t false d1) (take_val_safe cfg buf t)
        (ds.headD (default_val t)) c hc
      simp only [readData]
      split
      · rename_i hst
        rw [hst] at h1
        exact safe_trans h1 (ih ds.tail _ (safe_inv h1 hc))
      · exact h1

/-- Claim C7. On every input buffer, well-formed or not, and for every type: `check_size`
subtracts only after it has compared, so the bytes-remaining counter never underflows; every
`take` step started with its remaining bytes inside the buffer reads no byte outside the buffer
(it never ends in `out_of_bounds`), moves the read pointer forward only, never increases the
counter and, when it ends normally, leaves consumed + remaining unchanged; hence both forms of
`deserialize` read inside the caller's buffer and end normally only with
consumed + remaining equal to the buffer length. -/
theorem C7_decoder_stays_in_buffer (cfg : Config) (data : List Byte) :
    (∀ sizeLeft currentSize, (check_size sizeLeft currentSize = none ↔ sizeLeft < currentSize) ∧
      ∀ r, check_size sizeLeft currentSize = some r → currentSize ≤ sizeLeft ∧
        r + currentSize = sizeLeft) ∧
    (∀ p n, (read_bytes data p n).isSome = true ↔ p + n ≤ data.length) ∧
    (∀ T ref val, SafeStep data (take cfg data T ref val)) ∧
    (∀ T, (deserialize_value cfg T data).status ≠ .out_of_bounds ∧
      (deserialize_value cfg T data).cur.ptr + (deserialize_value cfg T data).cur.restSize ≤
        data.length ∧
      ((deserialize_value cfg T data).status = .ok →
        (deserialize_value cfg T data).cur.ptr + (deserialize_value cfg T data).cur.restSize =
          data.length)) ∧
    (∀ Ts dests, (deserialize cfg Ts data dests).status ≠ .out_of_bounds ∧
      (deserialize cfg Ts data dests).cur.ptr + (deserialize cfg Ts data dests).cur.restSize ≤
        data.length ∧
      ((deserialize cfg Ts data dests).status = .ok →
        (deserialize cfg Ts data dests).cur.ptr + (deserialize cfg Ts data dests).cur.restSize =
          data.length)) := by
  refine ⟨?_, ?_, fun T ref val => take_safe cfg data T ref val, ?_, ?_⟩
  · intro a b
    unfold check_size
    by_cases h : a < b
    · simp [h]
    · simp only [if_neg h]
      refine ⟨by simp [h], fun r hr => ?_⟩
      simp only [Option.some.injEq] at hr
      omega
  · intro p n
    unfold read_bytes
    by_cases h : p + n ≤ data.length <;> simp [h]
  · intro T
    have h := safe_new (useReference cfg T false) (fun d1 => take_safe cfg data T false d1) (take_val_safe cfg data T)
      (default_val T) ⟨0, data.length⟩ (by simp)
    obtain ⟨h0, _, _, h3, h4⟩ := h
    exact ⟨h0, by simpa using h3, fun hok => by simpa using h4 hok⟩
  · intro Ts dests
    obtain ⟨h0, _, _, h3, h4⟩ := readData_safe cfg data Ts dests ⟨0, data.length⟩ (by simp)
    exact ⟨h0, by simpa using h3, fun hok => by simpa using h4 hok⟩

theorem prefix_split {p a b : List Byte} (hp : p <+: a ++ b)
    (hl : p.length < (a ++ b).length) :
    (∃ q, p = a ++ q ∧ q <+: b ∧ q.length < b.length) ∨ (p <+: a ∧ p.length < a.length) := by
  rcases List.prefix_or_prefix_of_prefix hp (List.prefix_append a b) with h | h
  · rcases Nat.eq_or_lt_of_le h.length_le with he | hlt
    · left
      have hpa : p = a := h.eq_of_length he
      subst hpa
      refine ⟨[], by simp, List.nil_prefix, ?_⟩
      simp only [List.length_append] at hl
      simp only [List.length_nil]
      omega
    · exact Or.inr ⟨h, hlt⟩
  · left
    obtain ⟨q, rfl⟩ := h
    refine ⟨q, rfl, (List.prefix_append_right_inj a).1 hp, ?_⟩
    simp only [List.length_append] at hl
    omega

/-- One step of a loop in front of a truncated buffer: the step either throws, or it reads its
own bytes completely and leaves a truncated rest. -/
theorem step_cases {buf : List Byte} {f : Cursor → Taken} {a : List Byte} {v : Val}
    (hr : Reads buf f a v) (ht : Truncated buf f a) (b : List Byte) (c : Cursor)
    (p : List Byte) (hc : At buf c p) (hp : p <+: a ++ b) (hl : p.length < (a ++ b).length) :
    (f c).status = .DeserializationError ∨
    ∃ q, f c = ⟨.ok, v, ⟨c.ptr + a.length, q.length⟩⟩ ∧
      At buf ⟨c.ptr + a.length, q.length⟩ q ∧ q <+: b ∧ q.length < b.length := by
  rcases prefix_split hp hl with ⟨q, rfl, hq, hql⟩ | ⟨h1, h2⟩
  · exact Or.inr ⟨q, hr c q hc, hc.advance, hq, hql⟩
  · exact Or.inl (ht c p hc h1 h2)

theorem trunc_arith (cfg : Config) (buf : List Byte) (s : Bool) (w : Nat) (val : Val)
    (bs : List Byte) (h : bs.length = w) : Truncated buf (take_arith cfg buf s w val) bs := by
  intro c p hc _ hl
  have hr := hc.restSize
  unfold take_arith check_size
  rw [if_pos (by omega)]

theorem trunc_bulk (buf : List Byte) (size : Nat) (decode : List Byte → Val) (val : Val)
    (bs : List Byte) (h : bs.length = size) : Truncated buf (take_bulk buf size decode val) bs := by
  intro c p hc _ hl
  have hr := hc.restSize
  unfold take_bulk check_size
  rw [if_pos (by omega)]

theorem trunc_new {buf : List Byte} {useRef : Bool} {by_ref : Val → Cursor → Taken}
    {by_val : Cursor → Taken} {dflt : Val} {bs : List Byte}
    (href : useRef = true → Truncated buf (by_ref dflt) bs)
    (hval : useRef = false → Truncated buf by_val bs) :
    Truncated buf (take_new useRef by_ref by_val dflt) bs := by
  cases useRef with
  | true => simpa [take_new] using href rfl
  | false => simpa [take_new] using hval rfl

theorem trunc_into {buf : List Byte} {useRef : Bool} {by_ref : Val → Cursor → Taken}
    {by_val : Cursor → Taken} {dflt : Val} {bs : List Byte}
    (href : useRef = true → Truncated buf (by_ref dflt) bs)
    (hval : useRef = false → Truncated buf by_val bs) :
    Truncated buf (take_into useRef by_ref by_val dflt) bs := by
  cases useRef with
  | true => simpa [take_into] using href rfl
  | false =>
      intro c p hc hp hl
      have := hval rfl c p hc hp hl
      simp [take_into, this]

theorem trunc_toTaken {buf : List Byte} {f : Cursor → TakenList} {bs : List Byte}
    (h : TruncatedList buf f bs) : Truncated buf (fun c => (f c).toTaken) bs :=
  fun c p hc hp hl => h c p hc hp hl

theorem trunc_each (buf : List Byte) (f : Val → Cursor → Taken) (g : Val → List Byte)
    (d : Val) (xs : List Val) (hr : ∀ x ∈ xs, Reads buf (f d) (g x) x)
    (ht : ∀ x ∈ xs, Truncated buf (f d) (g x)) :
    TruncatedList buf (take_each f (List.replicate xs.length d)) (xs.map g).flatten := by
  induction xs with
  | nil =>
      intro c p _ _ hl
      simp at hl
  | cons x xs ih =>
      intro c p hc hp hl
      simp only [List.map_cons, List.flatten_cons] at hp hl
      simp only [List.length_cons, List.replicate_succ, take_each]
      rcases step_cases (hr x (by simp)) (ht x (by simp)) _ c p hc hp hl with
        h | ⟨q, e1, hc1, hq, hql⟩
      · simp only [h]
      · have := ih (fun y hy => hr y (by simp [hy])) (fun y hy => ht y (by simp [hy])) _ q hc1
          hq hql
        simp only [e1, this]

theorem trunc_insert (buf : List Byte) (f : Cursor → Taken) (g : Val → List Byte)
    (ins : List Val → Val → List Val) (xs : List Val) (hr : ∀ x ∈ xs, Reads buf f (g x) x)
    (ht : ∀ x ∈ xs, Truncated buf f (g x)) (acc : List Val) :
    TruncatedList buf (take_insert f ins xs.length acc) (xs.map g).flatten := by
  induction xs generalizing acc with
  | nil =>
      intro c p _ _ hl
      simp at hl
  | cons x xs ih =>
      intro c p hc hp hl
      simp only [List.map_cons, List.flatten_cons] at hp hl
      simp only [List.length_cons, take_insert]
      rcases step_cases (hr x (by simp)) (ht x (by simp)) _ c p hc hp hl with
        h | ⟨q, e1, hc1, hq, hql⟩
      · simp only [h]
      · have := ih (fun y hy => hr y (by simp [hy])) (fun y hy => ht y (by simp [hy]))
          (ins acc x) _ q hc1 hq hql
        simp only [e1, this]

/-- In front of a truncated container: the length prefix is either itself cut, or read
completely, leaving a truncated sequence of elements. -/
theorem size_cases (cfg : Config) (buf : List Byte) (n : Nat) (b : List Byte) (c : Cursor)
    (p : List Byte) (hok : size_type_ok cfg = true) (hn : n ≤ PTRDIFF_MAX) (hc : At buf c p)
    (hp : p <+: count_bytes cfg n ++ b) (hl : p.length < (count_bytes cfg n ++ b).length) :
    (take_size cfg buf c).status = .DeserializationError ∨
    ∃ (r : Taken) (q : List Byte), take_size cfg buf c = r ∧ r.status = .ok ∧
      to_size_t r.val.toInt = n ∧ At buf r.cur q ∧ q <+: b ∧ q.length < b.length := by
  rcases prefix_split hp hl with ⟨q, rfl, hq, hql⟩ | ⟨h1, h2⟩
  · obtain ⟨r, e1, hst, hsz, hc1, _⟩ := take_size_at cfg buf n c q hok hn hc
    exact Or.inr ⟨r, q, e1, hst, hsz, hc1, hq, hql⟩
  · left
    have := trunc_arith cfg buf (size_type_t cfg).signed (size_field_width cfg) (.int 0)
      (count_bytes cfg n) (by simp [count_bytes, length_object_bytes]) c p hc h1 h2
    simpa [take_size] using this

theorem trunc_iterable (cfg : Config) (buf : List Byte) (e : Ty) (resizable : Bool)
    (ins : List Val → Val → List Val) (useRef : Bool) (by_ref : Val → Cursor → Taken)
    (by_val : Cursor → Taken) (g : Val → List Byte) (xs : List Val)
    (hok : size_type_ok cfg = true) (hn : xs.length ≤ max_size cfg e)
    (href : useRef = true → ∀ x ∈ xs, Reads buf (by_ref (default_val e)) (g x) x)
    (hval : useRef = false → ∀ x ∈ xs, Reads buf by_val (g x) x)
    (tref : useRef = true → ∀ x ∈ xs, Truncated buf (by_ref (default_val e)) (g x))
    (tval : useRef = false → ∀ x ∈ xs, Truncated buf by_val (g x)) :
    Truncated buf (take_iterable cfg buf e resizable ins useRef by_ref by_val (.seq []))
      (count_bytes cfg xs.length ++ (xs.map g).flatten) := by
  intro c p hc hp hl
  unfold take_iterable
  rcases size_cases cfg buf xs.length _ c p hok (mul_le_of_le_max_size cfg e _ hn).2 hc hp hl
    with h | ⟨r, q, e1, hst, hsz, hc1, hq, hql⟩
  · simp only [h]
  · simp only [e1, hst, hsz, Val.elems]
    cases hce : count_exceeds cfg e xs.length r.cur.restSize with
    | true => simp
    | false =>
        cases useRef with
        | true =>
            cases resizable with
            | true =>
                have e2 := trunc_each buf by_ref g (default_val e) xs (href rfl) (tref rfl)
                  _ q hc1 hq hql
                simp only [Bool.false_eq_true, ↓reduceIte, if_neg (not_lt.2 hn), resize_nil, e2]
            | false =>
                have e2 := trunc_insert buf (by_ref (default_val e)) g ins xs (href rfl)
                  (tref rfl) [] _ q hc1 hq hql
                simp only [Bool.false_eq_true, ↓reduceIte, e2]
        | false =>
            have e2 := trunc_insert buf by_val g ins xs (hval rfl) (tval rfl) [] _ q hc1 hq hql
            simp only [Bool.false_eq_true, ↓reduceIte, e2]

theorem trunc_forward_list (cfg : Config) (buf : List Byte) (e : Ty) (useRef : Bool)
    (by_ref : Val → Cursor → Taken) (by_val : Cursor → Taken) (g : Val → List Byte)
    (xs : List Val) (hok : size_type_ok cfg = true) (hn : xs.length ≤ max_size cfg e)
    (h : ∀ x ∈ xs, Reads buf (take_new useRef by_ref by_val (default_val e)) (g x) x)
    (t : ∀ x ∈ xs, Truncated buf (take_new useRef by_ref by_val (default_val e)) (g x)) :
    Truncated buf (take_forward_list cfg buf e useRef by_ref by_val (.seq []))
      (count_bytes cfg xs.length ++ (xs.map g).flatten) := by
  intro c p hc hp hl
  unfold take_forward_list
  rcases size_cases cfg buf xs.length _ c p hok (mul_le_of_le_max_size cfg e _ hn).2 hc hp hl
    with h1 | ⟨r, q, e1, hst, hsz, hc1, hq, hql⟩
  · simp only [h1]
  · simp only [e1, hst, hsz, Val.elems]
    cases hce : count_exceeds cfg e xs.length r.cur.restSize with
    | true => simp
    | false =>
        have e2 := trunc_insert buf _ g seq_insert xs h t [] _ q hc1 hq hql
        simp only [Bool.false_eq_true, ↓reduceIte, e2]

theorem trunc_contiguous (cfg : Config) (buf : List Byte) (e : Ty) (xs : List Val)
    (hok : size_type_ok cfg = true) (hn : xs.length ≤ max_size cfg e)
    (hb : bulk_copyable cfg e = true) (ht : ∀ x ∈ xs, has_type cfg e x = true) (d : Val) :
    Truncated buf (take_contiguous cfg buf e d)
      (count_bytes cfg xs.length ++ (xs.map (encode cfg e)).flatten) := by
  intro c p hc hp hl
  unfold take_contiguous
  rcases size_cases cfg buf xs.length _ c p hok (mul_le_of_le_max_size cfg e _ hn).2 hc hp hl
    with h1 | ⟨r, q, e1, hst, hsz, hc1, hq, hql⟩
  · simp only [h1]
  · have hbs := bulk_size cfg e hb
    have hfl : (xs.map (encode cfg e)).flatten.length = xs.length * sizeof e := by
      rw [length_flatten_map]
      exact sum_map_const xs _ _ (fun x hx => by rw [length_encode cfg e x (ht x hx), hbs.1])
    have hmul := (mul_le_of_le_max_size cfg e _ hn).1
    rw [hbs.2] at hmul
    have hmod : (xs.length * sizeof e) % SIZE_MOD = xs.length * sizeof e :=
      Nat.mod_eq_of_lt (lt_of_le_of_lt hmul PTRDIFF_MAX_lt)
    have hr := hc1.restSize
    have hcs : check_size r.cur.restSize (xs.length * sizeof e) = none := by
      unfold check_size
      rw [if_pos (by omega)]
    simp only [e1, hst, hsz, hmod, hcs]

mutual
/-- Taking into a default-constructed destination, in front of a strict prefix of the wire
format of a value, throws `DeserializationError`. -/
theorem take_trunc (cfg : Config) (buf : List Byte) (T : Ty) (ref : Bool) (v : Val)
    (ht : has_type cfg T v = true) (hok : take_ok cfg T ref = true) :
    Truncated buf (take cfg buf T ref (default_val T)) (encode cfg T v) := by
  cases T with
  | arith s w =>
      simpa [take, encode] using
        trunc_arith cfg buf s w (default_val (.arith s w)) (object_bytes cfg.order w v.toInt)
          (length_object_bytes _ _ _)
  | enum s w =>
      simpa [take, encode] using
        trunc_arith cfg buf s w (default_val (.enum s w)) (object_bytes cfg.order w v.toInt)
          (length_object_bytes _ _ _)
  | carray e n =>
      cases v with
      | int x => simp [has_type] at ht
      | seq xs =>
          have ht0 := ht
          simp only [has_type, Bool.and_eq_true, decide_eq_true_eq] at ht
          have hall := all_has_type ht.2
          rcases carray_cases cfg e n ref with ⟨hp, hn, hc, hH⟩ | ⟨hp, _⟩ | ⟨hp, hn⟩ <;>
            simp only [take_ok, hp] at hok
          · have hbc := bulk_copyable_carray cfg e n hn hc hH
            have hsz := (bulk_size cfg _ hbc).1 (default_val (.carray e n))
            have hl := length_encode cfg _ _ ht0
            rw [(bulk_size cfg _ hbc).1] at hl
            have := trunc_bulk buf (sizeof (.carray e n)) (from_raw cfg.Host (.carray e n))
              (default_val (.carray e n)) (encode cfg (.carray e n) (.seq xs)) hl
            simpa only [take, hp, hsz] using this
          · have h1 : ∀ x ∈ xs, Reads buf
                (take_into (useReference cfg e true) (take cfg buf e true) (take_val cfg buf e)
                  (default_val e)) (encode cfg e x) x := fun x hx =>
              reads_into (fun _ => take_reads cfg buf e true x (hall x hx) hok)
                (fun hu => by rw [useReference_ref] at hu; cases hu)
            have t1 : ∀ x ∈ xs, Truncated buf
                (take_into (useReference cfg e true) (take cfg buf e true) (take_val cfg buf e)
                  (default_val e)) (encode cfg e x) := fun x hx =>
              trunc_into (fun _ => take_trunc cfg buf e true x (hall x hx) hok)
                (fun hu => by rw [useReference_ref] at hu; cases hu)
            have h2 := trunc_toTaken (trunc_each buf _ (encode cfg e) (default_val e) xs h1 t1)
            rw [ht.1] at h2
            simpa only [take, hp, default_val, Val.elems, resize_replicate, encode] using h2
          · simp at hok
  | stdarray e n =>
      cases v with
      | int x => simp [has_type] at ht
      | seq xs =>
          have ht0 := ht
          simp only [has_type, Bool.and_eq_true, decide_eq_true_eq] at ht
          have hall := all_has_type ht.2
          rcases stdarray_cases cfg e n ref with ⟨hp, hr, _, hc, hH⟩ | ⟨hp, hr, _⟩ | ⟨hp, hn⟩ <;>
            simp only [take_ok, hp] at hok
          · subst hr
            have hl : (encode cfg (.stdarray e n) (.seq xs)).length = n * sizeof e := by
              rw [length_encode cfg _ _ ht0]
              simp [byte_size, hp]
            have := trunc_bulk buf (n * sizeof e)
              (fun bs => Val.seq ((chunks (sizeof e) n bs).map (from_raw cfg.Host e)))
              (default_val (.stdarray e n)) (encode cfg (.stdarray e n) (.seq xs)) hl
            simpa only [take, hp, byte_size, encode, Val.elems] using this
          · subst hr
            have h1 : ∀ x ∈ xs, Reads buf
                (take_into (useReference cfg e false) (take cfg buf e false) (take_val cfg buf e)
                  (default_val e)) (encode cfg e x) x := fun x hx =>
              reads_into (fun _ => take_reads cfg buf e false x (hall x hx) hok)
                (fun hu => take_val_reads cfg buf e x (hall x hx) hok hu)
            have t1 : ∀ x ∈ xs, Truncated buf
                (take_into (useReference cfg e false) (take cfg buf e false) (take_val cfg buf e)
                  (default_val e)) (encode cfg e x) := fun x hx =>
              trunc_into (fun _ => take_trunc cfg buf e false x (hall x hx) hok)
                (fun hu => take_val_trunc cfg buf e x (hall x hx) hok hu)
            have h2 := trunc_toTaken (trunc_each buf _ (encode cfg e) (default_val e) xs h1 t1)
            rw [ht.1] at h2
            simpa only [take, hp, default_val, Val.elems, resize_replicate, encode] using h2
          · simp at hok
  | forward_list e =>
      cases v with
      | int x => simp [has_type] at ht
      | seq xs =>
          simp only [has_type, Bool.and_eq_true, decide_eq_true_eq] at ht
          have hall := all_has_type ht.2
          simp only [take_ok, Bool.and_eq_true, Bool.not_eq_true'] at hok
          obtain ⟨⟨⟨hr, hst⟩, hms⟩, hte⟩ := hok
          subst hr
          have hp : priority_type cfg (.forward_list e) false = .Optimized := by
            simp [priority_forward_list]
          have h1 : ∀ x ∈ xs, Reads buf
              (take_new (useReference cfg e false) (take cfg buf e false) (take_val cfg buf e)
                (default_val e)) (encode cfg e x) x := fun x hx =>
            reads_new (fun _ => take_reads cfg buf e false x (hall x hx) hte)
              (fun hu => take_val_reads cfg buf e x (hall x hx) hte hu)
          have t1 : ∀ x ∈ xs, Truncated buf
              (take_new (useReference cfg e false) (take cfg buf e false) (take_val cfg buf e)
                (default_val e)) (encode cfg e x) := fun x hx =>
            trunc_new (fun _ => take_trunc cfg buf e false x (hall x hx) hte)
              (fun hu => take_val_trunc cfg buf e x (hall x hx) hte hu)
          have := trunc_forward_list cfg buf e _ _ _ (encode cfg e) xs hst ht.1 h1 t1
          simpa only [take, hp, default_val, encode, Val.elems] using this
  | vector e =>
      cases v with
      | int x => simp [has_type] at ht
      | seq xs =>
          simp only [has_type, Bool.and_eq_true, decide_eq_true_eq] at ht
          have hall := all_has_type ht.2
          rcases vector_cases cfg e ref with ⟨hp, _, hc, hH⟩ | hp <;>
            simp only [take_ok, hp, Bool.and_eq_true] at hok
          · have := trunc_contiguous cfg buf e xs hok ht.1 hc hall (default_val (.vector e))
            simpa only [take, hp, encode, Val.elems] using this
          · obtain ⟨⟨hst, hms⟩, hte⟩ := hok
            have := trunc_iterable cfg buf e (is_resizable (.vector e) ref) seq_insert
              (useReference cfg e false) (take cfg buf e false) (take_val cfg buf e)
              (encode cfg e) xs hst ht.1
              (fun _ x hx => take_reads cfg buf e false x (hall x hx) hte)
              (fun hu x hx => take_val_reads cfg buf e x (hall x hx) hte hu)
              (fun _ x hx => take_trunc cfg buf e false x (hall x hx) hte)
              (fun hu x hx => take_val_trunc cfg buf e x (hall x hx) hte hu)
            simpa only [take, hp, default_val, encode, Val.elems] using this
  | list e =>
      cases v with
      | int x => simp [has_type] at ht
      | seq xs =>
          simp only [has_type, Bool.and_eq_true, decide_eq_true_eq] at ht
          have hall := all_has_type ht.2
          simp only [take_ok, Bool.and_eq_true] at hok
          obtain ⟨⟨hst, hms⟩, hte⟩ := hok
          have := trunc_iterable cfg buf e (is_resizable (.list e) ref) seq_insert
            (useReference cfg e false) (take cfg buf e false) (take_val cfg buf e)
            (encode cfg e) xs hst ht.1
            (fun _ x hx => take_reads cfg buf e false x (hall x hx) hte)
            (fun hu x hx => take_val_reads cfg buf e x (hall x hx) hte hu)
            (fun _ x hx => take_trunc cfg buf e false x (hall x hx) hte)
            (fun hu x hx => take_val_trunc cfg buf e x (hall x hx) hte hu)
          simpa only [take, default_val, encode, Val.elems] using this
  | set e =>
      cases v with
      | int x => simp [has_type] at ht
      | seq xs =>
          simp only [has_type, Bool.and_eq_true, decide_eq_true_eq] at ht
          have hall := all_has_type ht.1.2
          simp only [take_ok, Bool.and_eq_true] at hok
          obtain ⟨⟨hst, hms⟩, hte⟩ := hok
          have := trunc_iterable cfg buf e (is_resizable (.set e) ref) set_insert
            (useReference cfg e false) (take cfg buf e false) (take_val cfg buf e)
            (encode cfg e) xs hst ht.1.1
            (fun _ x hx => take_reads cfg buf e false x (hall x hx) hte)
            (fun hu x hx => take_val_reads cfg buf e x (hall x hx) hte hu)
            (fun _ x hx => take_trunc cfg buf e false x (hall x hx) hte)
            (fun hu x hx => take_val_trunc cfg buf e x (hall x hx) hte hu)
          simpa only [take, default_val, encode, Val.elems] using this
  | tuple hc fs =>
      cases v with
      | int x => simp [has_type] at ht
      | seq xs =>
          simp only [has_type] at ht
          simp only [take_ok, Bool.and_eq_true, Bool.not_eq_true'] at hok
          obtain ⟨⟨hr, hne⟩, hte⟩ := hok
          subst hr
          have hp : priority_type cfg (.tuple hc fs) false = .Tuple := by
            rw [priority_tuple, if_pos ⟨rfl, by simpa using hne⟩]
          have := trunc_toTaken (take_tuple_set_trunc cfg buf fs xs ht hte)
          simpa only [take, hp, default_val, encode, Val.elems] using this
  | aggregate fs =>
      cases v with
      | int x => simp [has_type] at ht
      | seq xs =>
          simp only [has_type] at ht
          simp only [take_ok, Bool.and_eq_true] at hok
          obtain ⟨hts, hte⟩ := hok
          have hp : priority_type cfg (.aggregate fs) ref = .Tuple := by
            rw [priority_aggregate, if_pos hts]
          have := trunc_toTaken (take_tuple_set_trunc cfg buf fs xs ht hte)
          simpa only [take, hp, default_val, encode, Val.elems] using this
  | vector_bool => cases v <;> simp [has_type] at ht
  | pointer => cases v <;> simp [has_type] at ht
  | bitset => cases v <;> simp [has_type] at ht
  | initializer_list => cases v <;> simp [has_type] at ht
/-- The by-value `take` of a tuple with a `const` element, in front of a strict prefix of the
wire format of a value. -/
theorem take_val_trunc (cfg : Config) (buf : List Byte) (T : Ty) (v : Val)
    (ht : has_type cfg T v = true) (hok : take_ok cfg T false = true)
    (hu : useReference cfg T false = false) :
    Truncated buf (take_val cfg buf T) (encode cfg T v) := by
  cases T with
  | tuple hc fs =>
      cases v with
      | int x => simp [has_type] at ht
      | seq xs =>
          simp only [has_type] at ht
          simp only [take_ok, Bool.and_eq_true, Bool.not_eq_true'] at hok
          have := trunc_toTaken (take_tuple_construct_trunc cfg buf fs xs ht hok.2 [])
          simpa only [take_val, encode, Val.elems] using this
  | _ => simp [useReference, tuple_has_const] at hu
/-- Function `take_tuple_set` on default-constructed fields, truncated input. -/
theorem take_tuple_set_trunc (cfg : Config) (buf : List Byte) (Ts : List Ty) (vs : List Val)
    (ht : has_types cfg Ts vs = true) (hok : take_tuple_ok cfg Ts = true) :
    TruncatedList buf (take_tuple_set cfg buf Ts (default_vals Ts))
      (encode_fields cfg Ts vs) := by
  cases Ts with
  | nil =>
      intro c p _ _ hl
      simp [encode_fields] at hl
  | cons t ts =>
      cases vs with
      | nil => simp [has_types] at ht
      | cons x xs =>
          simp only [has_types, Bool.and_eq_true] at ht
          simp only [take_tuple_ok, Bool.and_eq_true] at hok
          have h1 : Reads buf
              (take_into (useReference cfg t false) (take cfg buf t false) (take_val cfg buf t)
                (default_val t)) (encode cfg t x) x :=
            reads_into (fun _ => take_reads cfg buf t false x ht.1 hok.1)
              (fun hu => take_val_reads cfg buf t x ht.1 hok.1 hu)
          have t1 : Truncated buf
              (take_into (useReference cfg t false) (take cfg buf t false) (take_val cfg buf t)
                (default_val t)) (encode cfg t x) :=
            trunc_into (fun _ => take_trunc cfg buf t false x ht.1 hok.1)
              (fun hu => take_val_trunc cfg buf t x ht.1 hok.1 hu)
          have t2 := take_tuple_set_trunc cfg buf ts xs ht.2 hok.2
          intro c p hc hp hl
          simp only [encode_fields, List.headD_cons, List.tail_cons] at hp hl
          simp only [take_tuple_set, default_vals, List.headD_cons, List.tail_cons]
          rcases step_cases h1 t1 _ c p hc hp hl with h | ⟨q, e1, hc1, hq, hql⟩
          · simp only [h]
          · have := t2 _ q hc1 hq hql
            simp only [e1, this]
/-- Function `take_tuple_construct`, truncated input. -/
theorem take_tuple_construct_trunc (cfg : Config) (buf : List Byte) (Ts : List Ty)
    (vs : List Val) (ht : has_types cfg Ts vs = true) (hok : take_tuple_ok cfg Ts = true)
    (args : List Val) :
    TruncatedList buf (take_tuple_construct cfg buf Ts args) (encode_fields cfg Ts vs) := by
  cases Ts with
  | nil =>
      intro c p _ _ hl
      simp [encode_fields] at hl
  | cons t ts =>
      cases vs with
      | nil => simp [has_types] at ht
      | cons x xs =>
          simp only [has_types, Bool.and_eq_true] at ht
          simp only [take_tuple_ok, Bool.and_eq_true] at hok
          have h1 : Reads buf
              (take_new (useReference cfg t false) (take cfg buf t false) (take_val cfg buf t)
                (default_val t)) (encode cfg t x) x :=
            reads_new (fun _ => take_reads cfg buf t false x ht.1 hok.1)
              (fun hu => take_val_reads cfg buf t x ht.1 hok.1 hu)
          have t1 : Truncated buf
              (take_new (useReference cfg t false) (take cfg buf t false) (take_val cfg buf t)
                (default_val t)) (encode cfg t x) :=
            trunc_new (fun _ => take_trunc cfg buf t false x ht.1 hok.1)
              (fun hu => take_val_trunc cfg buf t x ht.1 hok.1 hu)
          have t2 := take_tuple_construct_trunc cfg buf ts xs ht.2 hok.2 (args ++ [x])
          intro c p hc hp hl
          simp only [encode_fields, List.headD_cons, List.tail_cons] at hp hl
          simp only [take_tuple_construct]
          rcases step_cases h1 t1 _ c p hc hp hl with h | ⟨q, e1, hc1, hq, hql⟩
          · simp only [h]
          · have := t2 _ q hc1 hq hql
            simp only [e1, this]
end

theorem readData_trunc (cfg : Config) (buf : List Byte) (args : List (Ty × Val))
    (hd : ∀ a ∈ args, deserializable cfg a.1 = true)
    (ht : ∀ a ∈ args, has_type cfg a.1 a.2 = true) :
    TruncatedList buf (readData cfg buf (arg_types args) (fresh_dests args))
      (encode_all cfg args) := by
  induction args with
  | nil =>
      intro c p _ _ hl
      simp [encode_all] at hl
  | cons a rest ih =>
      have hd1 := hd a (by simp)
      have ht1 := ht a (by simp)
      unfold deserializable at hd1
      have h1 : Reads buf
          (take_into (useReference cfg a.1 false) (take cfg buf a.1 false) (take_val cfg buf a.1)
            (default_val a.1)) (encode cfg a.1 a.2) a.2 :=
        reads_into (fun _ => take_reads cfg buf a.1 false a.2 ht1 hd1)
          (fun hu => take_val_reads cfg buf a.1 a.2 ht1 hd1 hu)
      have t1 : Truncated buf
          (take_into (useReference cfg a.1 false) (take cfg buf a.1 false) (take_val cfg buf a.1)
            (default_val a.1)) (encode cfg a.1 a.2) :=
        trunc_into (fun _ => take_trunc cfg buf a.1 false a.2 ht1 hd1)
          (fun hu => take_val_trunc cfg buf a.1 a.2 ht1 hd1 hu)
      have t2 := ih (fun b hb => hd b (by simp [hb])) (fun b hb => ht b (by simp [hb]))
      intro c p hc hp hl
      simp only [encode_all] at hp hl
      simp only [arg_types, fresh_dests, List.map_cons, readData, List.headD_cons,
        List.tail_cons] at t2 ⊢
      rcases step_cases h1 t1 _ c p hc hp hl with h | ⟨q, e1, hc1, hq, hql⟩
      · simp only [h]
      · have := t2 _ q hc1 hq hql
        simp only [e1, this]

/-- Claim C4. For every sequence of values of types that pass the static checks, whose encoding
has length `L`, and every `k` with `1 ≤ k ≤ L` (in particular `1 ≤ k ≤ L - 1`), decoding the
encoding with its last `k` bytes removed into default-constructed destinations throws
`DeserializationError`; so does the single-value form of `deserialize`. -/
theorem C4_truncated_input_rejected (cfg : Config) (args : List (Ty × Val))
    (hs : ∀ a ∈ args, serializable cfg a.1 = true)
    (hd : ∀ a ∈ args, deserializable cfg a.1 = true)
    (ht : ∀ a ∈ args, has_type cfg a.1 a.2 = true) :
    ∃ data, serialize cfg args = some data ∧
      (∀ k, 1 ≤ k → k ≤ data.length →
        (deserialize cfg (arg_types args) (data.take (data.length - k))
          (fresh_dests args)).status = .DeserializationError) ∧
      (∀ T v k, args = [(T, v)] → 1 ≤ k → k ≤ data.length →
        (deserialize_value cfg T (data.take (data.length - k))).status =
          .DeserializationError) := by
  refine ⟨encode_all cfg args, serialize_eq cfg _ (by simpa using hs) ht, ?_, ?_⟩
  · intro k h1 hk
    have := readData_trunc cfg ((encode_all cfg args).take ((encode_all cfg args).length - k))
      args hd ht _ _ (At.start _) (List.take_prefix _ _)
      (by rw [List.length_take]; omega)
    simpa [deserialize] using this
  · intro T v k hargs h1 hk
    subst hargs
    have hd1 : take_ok cfg T false = true := by simpa [deserializable] using hd (T, v) (by simp)
    have ht1 : has_type cfg T v = true := by simpa using ht (T, v) (by simp)
    simp only [encode_all, List.append_nil] at hk ⊢
    have t1 : Truncated ((encode cfg T v).take ((encode cfg T v).length - k))
        (take_new (useReference cfg T false)
          (take cfg ((encode cfg T v).take ((encode cfg T v).length - k)) T false)
          (take_val cfg ((encode cfg T v).take ((encode cfg T v).length - k)) T)
          (default_val T)) (encode cfg T v) :=
      trunc_new (fun _ => take_trunc cfg _ T false v ht1 hd1)
        (fun hu => take_val_trunc cfg _ T v ht1 hd1 hu)
    have := t1 _ _ (At.start _) (List.take_prefix _ _) (by rw [List.length_take]; omega)
    simpa [deserialize_value, readData_value] using this

theorem C4_truncated_input_rejected_witness :
    (∀ a ∈ args_example, serializable cfg_net a.1 = true) ∧
    (∀ a ∈ args_example, deserializable cfg_net a.1 = true) ∧
    (∀ a ∈ args_example, has_type cfg_net a.1 a.2 = true) ∧
    ∃ data, serialize cfg_net args_example = some data ∧
      (∀ k, 1 ≤ k → k ≤ data.length →
        (deserialize cfg_net (arg_types args_example) (data.take (data.length - k))
          (fresh_dests args_example)).status = .DeserializationError) ∧
      (∀ T v k, args_example = [(T, v)] → 1 ≤ k → k ≤ data.length →
        (deserialize_value cfg_net T (data.take (data.length - k))).status =
          .DeserializationError) :=
  have h1 : ∀ a ∈ args_example, serializable cfg_net a.1 = true := by
    intro a ha
    simp only [args_example, List.mem_cons, List.mem_singleton, List.not_mem_nil, or_false] at ha
    rcases ha with rfl | rfl | rfl | rfl <;> rfl
  have h2 : ∀ a ∈ args_example, deserializable cfg_net a.1 = true := by
    intro a ha
    simp only [args_example, List.mem_cons, List.mem_singleton, List.not_mem_nil, or_false] at ha
    rcases ha with rfl | rfl | rfl | rfl <;> rfl
  have h3 : ∀ a ∈ args_example, has_type cfg_net a.1 a.2 = true := by
    intro a ha
    simp only [args_example, List.mem_cons, List.mem_singleton, List.not_mem_nil, or_false] at ha
    rcases ha with rfl | rfl | rfl | rfl <;> rfl
  ⟨h1, h2, h3, C4_truncated_input_rejected cfg_net args_example h1 h2 h3⟩

/-- Claim C21. A `std::forward_list` classifies as `Optimized` under every configuration, in
particular under both byte orders; its encoder writes the element count through the scalar path
and then the elements one at a time, and it round-trips under every byte order, the non-Host
one included: `serialize` returns the count followed by the element encodings and `deserialize`
returns the list. -/
theorem C21_forward_list_optimized (cfg : Config) (e : Ty) (xs : List Val)
    (hs : serializable cfg (.forward_list e) = true)
    (hd : deserializable cfg (.forward_list e) = true)
    (ht : has_type cfg (.forward_list e) (.seq xs) = true) :
    (∀ cfg1 : Config, priorityType cfg1 (.forward_list e) = .Optimized) ∧
    (∀ wr, append cfg (.forward_list e) (.seq xs) wr =
      (append_size cfg xs.length wr).bind (append_each (append cfg e) xs)) ∧
    ∃ data, serialize cfg [(.forward_list e, .seq xs)] = some data ∧
      data = count_bytes cfg xs.length ++ (xs.map (encode cfg e)).flatten ∧
      deserialize_value cfg (.forward_list e) data = ⟨.ok, .seq xs, ⟨data.length, 0⟩⟩ := by
  refine ⟨fun cfg1 => by simp [priorityType, priority_forward_list], fun wr => by
    simp [append, Val.elems], encode cfg (.forward_list e) (.seq xs),
    serialize_single cfg _ _ hs ht, by simp [encode, Val.elems], ?_⟩
  have := deserialize_value_encode cfg (.forward_list e) (.seq xs) [] hd ht
  simpa using this

theorem C21_forward_list_optimized_witness :
    serializable cfg_be ty_flist_int = true ∧ deserializable cfg_be ty_flist_int = true ∧
    has_type cfg_be ty_flist_int (.seq [.int 1, .int 2, .int 3]) = true ∧
    cfg_be.order ≠ cfg_be.Host ∧
    ((∀ cfg1 : Config, priorityType cfg1 (.forward_list ty_int) = .Optimized) ∧
    (∀ wr, append cfg_be (.forward_list ty_int) (.seq [.int 1, .int 2, .int 3]) wr =
      (append_size cfg_be [Val.int 1, Val.int 2, Val.int 3].length wr).bind
        (append_each (append cfg_be ty_int) [.int 1, .int 2, .int 3])) ∧
    ∃ data, serialize cfg_be [(.forward_list ty_int, .seq [.int 1, .int 2, .int 3])] =
        some data ∧
      data = count_bytes cfg_be [Val.int 1, Val.int 2, Val.int 3].length ++
        ([Val.int 1, Val.int 2, Val.int 3].map (encode cfg_be ty_int)).flatten ∧
      deserialize_value cfg_be (.forward_list ty_int) data =
        ⟨.ok, .seq [.int 1, .int 2, .int 3], ⟨data.length, 0⟩⟩) :=
  ⟨by rfl, by rfl, by rfl, by decide,
    C21_forward_list_optimized cfg_be ty_int [.int 1, .int 2, .int 3] (by rfl) (by rfl) (by rfl)⟩

theorem non_serializable_rejected (cfg : Config) (T : Ty)
    (h : priority_type cfg T false = .NonSerializable) :
    byte_size_ok cfg T = false ∧ append_ok cfg T = false ∧ byte_minsize_ok cfg T = false ∧
      take_ok cfg T false = false := by
  cases T with
  | arith s w => simp [priority_arith] at h
  | enum s w => simp [priority_enum] at h
  | carray e n => simp [byte_size_ok, append_ok, byte_minsize_ok, take_ok, h]
  | stdarray e n => simp [byte_size_ok, append_ok, byte_minsize_ok, take_ok, h]
  | forward_list e => simp [priority_forward_list] at h
  | vector e => rcases vector_cases cfg e false with ⟨hp, _⟩ | hp <;> simp [hp] at h
  | list e => simp [priority_list] at h
  | set e => simp [priority_set] at h
  | tuple hc fs =>
      cases fs with
      | nil => simp [byte_size_ok, append_ok, byte_minsize_ok, take_ok]
      | cons f fs => simp [priority_tuple] at h
  | aggregate fs =>
      have hts : is_tuple_serializable (.aggregate fs) false = false := by
        by_contra hc
        rw [priority_aggregate, if_pos (by simpa using hc)] at h
        cases h
      simp [byte_size_ok, append_ok, byte_minsize_ok, take_ok, hts]
  | vector_bool => simp [byte_size_ok, append_ok, byte_minsize_ok, take_ok]
  | pointer => simp [byte_size_ok, append_ok, byte_minsize_ok, take_ok]
  | bitset => simp [byte_size_ok, append_ok, byte_minsize_ok, take_ok]
  | initializer_list => simp [byte_size_ok, append_ok, byte_minsize_ok, take_ok]

/-- Claim C22, the part that fails: a `std::vector` of raw pointers classifies as `Iterable` and
a C array of raw pointers as `Array`, not as `NonSerializable`, although the element type
classifies as `NonSerializable`. -/
theorem C22_pointer_containers_classified :
    priorityType cfg_host .pointer = .NonSerializable ∧
    priorityType cfg_host (.vector .pointer) = .Iterable ∧
    priorityType cfg_host (.carray .pointer 3) = .Array ∧
    ¬ (priorityType cfg_host (.vector .pointer) = .NonSerializable) ∧
    ¬ (priorityType cfg_host (.carray .pointer 3) = .NonSerializable) :=
  ⟨by rfl, by rfl, by rfl, by decide, by decide⟩

/-- Claim C22, as amended. The classifier looks at the outer type only: whatever the element
type, a `std::list` or `std::set` classifies as `Iterable`, a `std::vector` as `Iterable` or
`ArithmeticContiguous`, a C array with at least one element as `Array` or `ArithmeticArray`.
When the element type classifies as `NonSerializable`, the container or fixed-length array is
`Iterable`, `Array` (C array), or for `std::array` and `std::forward_list` what the outer type
alone gives, and the static checks of `byteSize` and `serialize` reject it through the
assertion on the element; those of `deserialize` reject every such container and
`std::array`. -/
theorem C22_classifier_ignores_elements (cfg : Config) (e : Ty) :
    priorityType cfg (.list e) = .Iterable ∧ priorityType cfg (.set e) = .Iterable ∧
    (priorityType cfg (.vector e) = .Iterable ∨
      priorityType cfg (.vector e) = .ArithmeticContiguous) ∧
    (∀ n, 0 < n → priorityType cfg (.carray e n) = .Array ∨
      priorityType cfg (.carray e n) = .ArithmeticArray) ∧
    (priorityType cfg e = .NonSerializable →
      priorityType cfg (.vector e) = .Iterable ∧
      (∀ n, 0 < n → priorityType cfg (.carray e n) = .Array) ∧
      (∀ T, has_element_type T e → serializable cfg T = false) ∧
      (∀ T, is_variable_length T e → deserializable cfg T = false) ∧
      (∀ n, deserializable cfg (.stdarray e n) = false)) := by
  refine ⟨priority_list cfg e false, priority_set cfg e false, ?_, ?_, ?_⟩
  · rcases vector_cases cfg e false with ⟨hp, _⟩ | hp
    · exact Or.inr hp
    · exact Or.inl hp
  · intro n hn
    rcases carray_cases cfg e n false with ⟨hp, _⟩ | ⟨hp, _⟩ | ⟨_, h0⟩
    · exact Or.inr hp
    · exact Or.inl hp
    · omega
  · intro hns
    obtain ⟨h1, h2, h3, h4⟩ := non_serializable_rejected cfg e hns
    have hb : bulk_copyable cfg e = false := by
      by_contra hc
      have hc1 : bulk_copyable cfg e = true := by simpa using hc
      simp only [bulk_copyable, Bool.or_eq_true] at hc1
      rcases hc1 with (ha | haa) | he
      · obtain ⟨s, w, rfl⟩ := (qualifies_Arithmetic cfg e false).1 ha
        simp [priorityType, priority_arith] at hns
      · obtain ⟨e1, n, rfl, hn, hb1, hH⟩ := (qualifies_ArithmeticArray cfg e false).1 haa
        rw [priorityType, priority_carray, if_pos ⟨hn, hb1, hH⟩] at hns
        cases hns
      · obtain ⟨s, w, rfl⟩ := (qualifies_Enum cfg e false).1 he
        simp [priorityType, priority_enum] at hns
    have hv : priority_type cfg (.vector e) false = .Iterable := by
      rcases vector_cases cfg e false with ⟨_, _, hc, _⟩ | hp
      · rw [hb] at hc; cases hc
      · exact hp
    have hc : ∀ n, priority_type cfg (.carray e n) false = .Array ∨
        priority_type cfg (.carray e n) false = .NonSerializable := by
      intro n
      rcases carray_cases cfg e n false with ⟨_, _, hc, _⟩ | ⟨hp, _⟩ | ⟨hp, _⟩
      · rw [hb] at hc; cases hc
      · exact Or.inl hp
      · exact Or.inr hp
    have hsa : ∀ n, priority_type cfg (.stdarray e n) false = .Tuple ∨
        priority_type cfg (.stdarray e n) false = .NonSerializable := by
      intro n
      rcases stdarray_cases cfg e n false with ⟨_, _, _, hc, _⟩ | ⟨hp, _⟩ | ⟨hp, _⟩
      · rw [hb] at hc; cases hc
      · exact Or.inl hp
      · exact Or.inr hp
    refine ⟨hv, ?_, ?_, ?_, ?_⟩
    · intro n hn
      rcases carray_cases cfg e n false with ⟨_, _, hc1, _⟩ | ⟨hp, _⟩ | ⟨_, h0⟩
      · rw [hb] at hc1; cases hc1
      · exact hp
      · omega
    · intro T hT
      rcases hT with (rfl | rfl | rfl | rfl) | ⟨n, rfl | rfl⟩
      · simp [serializable, byte_size_ok, hv, h1]
      · simp [serializable, byte_size_ok, h1]
      · simp [serializable, byte_size_ok, h1]
      · simp [serializable, byte_size_ok, h1]
      · rcases hc n with hp | hp <;> simp [serializable, byte_size_ok, hp, h1]
      · rcases hsa n with hp | hp <;> simp [serializable, byte_size_ok, hp, h1]
    · intro T hT
      have hv1 : priority_type cfg (.vector e) false = .Iterable := hv
      rcases hT with rfl | rfl | rfl | rfl
      · simp [deserializable, take_ok, hv1, h4]
      · simp [deserializable, take_ok, h4]
      · simp [deserializable, take_ok, h4]
      · simp [deserializable, take_ok, h4]
    · intro n
      rcases hsa n with hp | hp <;> simp [deserializable, take_ok, hp, h4]

theorem C22_classifier_ignores_elements_witness :
    priorityType cfg_host .pointer = .NonSerializable ∧
    (priorityType cfg_host (.vector .pointer) = .Iterable ∧
      (∀ n, 0 < n → priorityType cfg_host (.carray .pointer n) = .Array) ∧
      (∀ T, has_element_type T .pointer → serializable cfg_host T = false) ∧
      (∀ T, is_variable_length T .pointer → deserializable cfg_host T = false) ∧
      (∀ n, deserializable cfg_host (.stdarray .pointer n) = false)) :=
  ⟨by rfl, (C22_classifier_ignores_elements cfg_host .pointer).2.2.2.2 (by rfl)⟩

/-- Claim C23, the part that fails: `std::array<int32_t, 3>` classifies as `Optimized` under Host
order and as `Tuple`, not `Array`, under the non-Host order. -/
theorem C23_std_array_is_tuple :
    priorityType cfg_host (.stdarray ty_int 3) = .Optimized ∧
    cfg_be.order ≠ cfg_be.Host ∧
    priorityType cfg_be (.stdarray ty_int 3) = .Tuple ∧
    ¬ (priorityType cfg_be (.stdarray ty_int 3) = .Array) :=
  ⟨by rfl, by decide, by rfl, by decide⟩

/-- Claim C23, as amended. Every `std::array` with at least one element that classifies as
`Optimized` under Host order classifies as `Tuple` under the non-Host order (the `Array`
category is for C arrays only); there its elements are encoded one by one, like those of the
element-wise array path.  Its element type is an integral type or a C array copied in bulk. -/
theorem C23_std_array_non_host (H o : ByteOrder) (st : Option IntType) (e : Ty) (n : Nat)
    (hopt : priorityType ⟨H, H, st⟩ (.stdarray e n) = .Optimized) (ho : o ≠ H) (hn : 0 < n) :
    ((∃ s w, e = .arith s w) ∨ (∃ e1 m, e = .carray e1 m)) ∧
    priorityType ⟨H, o, st⟩ (.stdarray e n) = .Tuple ∧
    (∀ v wr, append ⟨H, o, st⟩ (.stdarray e n) v wr = append_Array ⟨H, o, st⟩ e v wr) ∧
    (∀ v, byte_size ⟨H, o, st⟩ (.stdarray e n) v =
      (v.elems.map (byte_size ⟨H, o, st⟩ e)).sum) := by
  have hp : priority_type ⟨H, o, st⟩ (.stdarray e n) false = .Tuple := by
    rcases stdarray_cases ⟨H, o, st⟩ e n false with ⟨_, _, _, _, hH⟩ | ⟨hp, _⟩ | ⟨_, h0⟩
    · exact absurd hH ho
    · exact hp
    · rcases h0 with h0 | h0
      · cases h0
      · omega
  have he : (∃ s w, e = .arith s w) ∨ (∃ e1 m, e = .carray e1 m) := by
    rcases stdarray_cases ⟨H, H, st⟩ e n false with ⟨_, _, hq, _, _⟩ | ⟨hp1, _⟩ | ⟨hp1, _⟩
    · rcases hq with hq | hq
      · exact Or.inl ((qualifies_Arithmetic _ e false).1 hq)
      · obtain ⟨e1, m, rfl, _⟩ := (qualifies_ArithmeticArray _ e false).1 hq
        exact Or.inr ⟨e1, m, rfl⟩
    · rw [priorityType, hp1] at hopt
      cases hopt
    · rw [priorityType, hp1] at hopt
      cases hopt
  exact ⟨he, hp, fun v wr => by simp [append, append_Array, hp],
    fun v => by simp [byte_size, hp]⟩

theorem C23_std_array_non_host_witness :
    priorityType ⟨.LittleEndian, .LittleEndian, none⟩ (.stdarray ty_int 3) = .Optimized ∧
    ByteOrder.BigEndian ≠ ByteOrder.LittleEndian ∧ 0 < 3 ∧
    (((∃ s w, ty_int = .arith s w) ∨ (∃ e1 m, ty_int = .carray e1 m)) ∧
    priorityType ⟨.LittleEndian, .BigEndian, none⟩ (.stdarray ty_int 3) = .Tuple ∧
    (∀ v wr, append ⟨.LittleEndian, .BigEndian, none⟩ (.stdarray ty_int 3) v wr =
      append_Array ⟨.LittleEndian, .BigEndian, none⟩ ty_int v wr) ∧
    (∀ v, byte_size ⟨.LittleEndian, .BigEndian, none⟩ (.stdarray ty_int 3) v =
      (v.elems.map (byte_size ⟨.LittleEndian, .BigEndian, none⟩ ty_int)).sum)) :=
  ⟨by rfl, by decide, by decide,
    C23_std_array_non_host .LittleEndian .BigEndian none ty_int 3 (by rfl) (by decide)
      (by decide)⟩

/-- Claim C24. For every well-typed value `v` of a type `T`, `byte_minsize` of `T` is at most
`byteSize(v)`; and for every container or forward list holding the elements `xs`, the count
guard does not fire on what `serialize` produced: with the bytes of the elements (and any
further bytes) remaining after the length prefix, `count * byte_minsize > restSize` is
false. -/
theorem C24_minsize_lower_bound (cfg : Config) (T : Ty) (v : Val)
    (hs : serializable cfg T = true) (ht : has_type cfg T v = true) :
    byte_minsize cfg T ≤ byteSize cfg [(T, v)] ∧
    (∃ data, serialize cfg [(T, v)] = some data ∧ byte_minsize cfg T ≤ data.length) ∧
    (∀ e xs extra, is_variable_length T e → v = .seq xs →
      count_exceeds cfg e xs.length
        (byteSize cfg [(T, v)] - size_field_width cfg + extra) = false) := by
  have hle := byte_minsize_le cfg T v ht
  have hl := length_encode cfg T v ht
  refine ⟨by simpa [byteSize] using hle,
    ⟨encode cfg T v, serialize_single cfg T v hs ht, by rw [hl]; exact hle⟩, ?_⟩
  intro e xs extra hT hv
  subst hv
  have hall := has_type_elems cfg T e xs (Or.inl hT) ht
  have hn : xs.length ≤ max_size cfg e := by
    rcases hT with rfl | rfl | rfl | rfl <;>
      simp only [has_type, Bool.and_eq_true, decide_eq_true_eq] at ht
    · exact ht.1
    · exact ht.1
    · exact ht.1.1
    · exact ht.1
  have henc : (encode cfg T (.seq xs)).length =
      size_field_width cfg + ((xs.map (encode cfg e)).flatten).length := by
    rcases hT with rfl | rfl | rfl | rfl <;>
      simp [encode, Val.elems, count_bytes, length_object_bytes]
  have hge := flatten_length_ge cfg e (encode cfg e) xs (fun x hx => by
    rw [length_encode cfg e x (hall x hx)]
    exact byte_minsize_le cfg e x (hall x hx))
  apply count_exceeds_false cfg e xs.length _ hn
  simp only [byteSize, Nat.add_zero]
  rw [← hl, henc]
  omega

theorem C24_minsize_lower_bound_witness :
    serializable cfg_net ty_nested = true ∧ has_type cfg_net ty_nested val_nested = true ∧
    (byte_minsize cfg_net ty_nested ≤ byteSize cfg_net [(ty_nested, val_nested)] ∧
    (∃ data, serialize cfg_net [(ty_nested, val_nested)] = some data ∧
      byte_minsize cfg_net ty_nested ≤ data.length) ∧
    (∀ e xs extra, is_variable_length ty_nested e → val_nested = .seq xs →
      count_exceeds cfg_net e xs.length
        (byteSize cfg_net [(ty_nested, val_nested)] - size_field_width cfg_net + extra) =
          false)) :=
  ⟨by rfl, by rfl, C24_minsize_lower_bound cfg_net ty_nested val_nested (by rfl) (by rfl)⟩

theorem byteSize_eq_sum (cfg : Config) (args : List (Ty × Val)) :
    byteSize cfg args = (args.map (fun a => byte_size cfg a.1 a.2)).sum := by
  induction args with
  | nil => rfl
  | cons a rest ih => simp [byteSize, ih]

/-- Claim C28. The variadic `byteSize` is the sum of the individual sizes,
`byteSize(v1, ..., vn) = byteSize(v1) + ... + byteSize(vn)`, and for values of types that pass
the static checks this is the length of `serialize(v1, ..., vn)`. -/
theorem C28_byteSize_sum (cfg : Config) (args : List (Ty × Val))
    (hs : ∀ a ∈ args, serializable cfg a.1 = true)
    (ht : ∀ a ∈ args, has_type cfg a.1 a.2 = true) :
    byteSize cfg args = (args.map (fun a => byteSize cfg [a])).sum ∧
    ∃ data, serialize cfg args = some data ∧ data.length = byteSize cfg args := by
  refine ⟨by simp [byteSize_eq_sum, byteSize], encode_all cfg args,
    serialize_eq cfg _ (by simpa using hs) ht, ?_⟩
  rw [length_encode_all cfg args ht]

theorem C28_byteSize_sum_witness :
    (∀ a ∈ args_example, serializable cfg_net a.1 = true) ∧
    (∀ a ∈ args_example, has_type cfg_net a.1 a.2 = true) ∧
    (byteSize cfg_net args_example = (args_example.map (fun a => byteSize cfg_net [a])).sum ∧
    ∃ data, serialize cfg_net args_example = some data ∧
      data.length = byteSize cfg_net args_example) :=
  have h1 : ∀ a ∈ args_example, serializable cfg_net a.1 = true := by
    intro a ha
    simp only [args_example, List.mem_cons, List.mem_singleton, List.not_mem_nil, or_false] at ha
    rcases ha with rfl | rfl | rfl | rfl <;> rfl
  have h3 : ∀ a ∈ args_example, has_type cfg_net a.1 a.2 = true := by
    intro a ha
    simp only [args_example, List.mem_cons, List.mem_singleton, List.not_mem_nil, or_false] at ha
    rcases ha with rfl | rfl | rfl | rfl <;> rfl
  ⟨h1, h3, C28_byteSize_sum cfg_net args_example h1 h3⟩

/-- Claim C29. For every well-typed value `v` of a type that passes the static checks and every
byte string `rest`, decoding one value of the type from `serialize(v) ++ rest` ends normally
with `v`, the read cursor advanced by exactly `byteSize(v)` and the remaining count equal to the
length of `rest`; the same holds for a `take` step started at any cursor that stands in front of
`serialize(v) ++ rest`. -/
theorem C29_cursor_advances_by_byteSize (cfg : Config) (T : Ty) (v : Val) (rest : List Byte)
    (hs : serializable cfg T = true) (hd : deserializable cfg T = true)
    (ht : has_type cfg T v = true) :
    ∃ data, serialize cfg [(T, v)] = some data ∧
      deserialize_value cfg T (data ++ rest) =
        ⟨.ok, v, ⟨byteSize cfg [(T, v)], rest.length⟩⟩ ∧
      ∀ (buf : List Byte) (c : Cursor), c.ptr + c.restSize = buf.length →
        buf.drop c.ptr = data ++ rest →
        take cfg buf T false (default_val T) c =
          ⟨.ok, v, ⟨c.ptr + byteSize cfg [(T, v)], rest.length⟩⟩ := by
  have hl := length_encode cfg T v ht
  refine ⟨encode cfg T v, serialize_single cfg T v hs ht, ?_, ?_⟩
  · have := deserialize_value_encode cfg T v rest hd ht
    simpa [byteSize, hl] using this
  · intro buf c h1 h2
    have := take_reads cfg buf T false v ht hd c rest ⟨h1, h2⟩
    simpa [byteSize, hl] using this

theorem C29_cursor_advances_by_byteSize_witness :
    serializable cfg_net ty_nested = true ∧ deserializable cfg_net ty_nested = true ∧
    has_type cfg_net ty_nested val_nested = true ∧
    ∃ data, serialize cfg_net [(ty_nested, val_nested)] = some data ∧
      deserialize_value cfg_net ty_nested (data ++ [9, 8, 7]) =
        ⟨.ok, val_nested, ⟨byteSize cfg_net [(ty_nested, val_nested)],
          [(9 : Byte), 8, 7].length⟩⟩ ∧
      ∀ (buf : List Byte) (c : Cursor), c.ptr + c.restSize = buf.length →
        buf.drop c.ptr = data ++ [9, 8, 7] →
        take cfg_net buf ty_nested false (default_val ty_nested) c =
          ⟨.ok, val_nested, ⟨c.ptr + byteSize cfg_net [(ty_nested, val_nested)],
            [(9 : Byte), 8, 7].length⟩⟩ :=
  ⟨by rfl, by rfl, by rfl,
    C29_cursor_advances_by_byteSize cfg_net ty_nested val_nested [9, 8, 7] (by rfl) (by rfl)
      (by rfl)⟩

theorem encode_all_eq_flatten (cfg : Config) (args : List (Ty × Val)) :
    encode_all cfg args = (args.map (fun a => encode cfg a.1 a.2)).flatten := by
  induction args with
  | nil => rfl
  | cons a rest ih => simp [encode_all, ih]

theorem forall₂_serialize_args (cfg : Config) (args : List (Ty × Val))
    (hs : ∀ a ∈ args, serializable cfg a.1 = true)
    (ht : ∀ a ∈ args, has_type cfg a.1 a.2 = true) :
    List.Forall₂ (fun (a : Ty × Val) b => serialize cfg [a] = some b) args
      (args.map (fun a => encode cfg a.1 a.2)) := by
  induction args with
  | nil => exact List.Forall₂.nil
  | cons a rest ih =>
      exact List.Forall₂.cons (serialize_single cfg a.1 a.2 (hs a (by simp)) (ht a (by simp)))
        (ih (fun b hb => hs b (by simp [hb])) (fun b hb => ht b (by simp [hb])))

/-- Claim C30. For every sequence of well-typed values of types that pass the static checks,
`serialize(v1, ..., vn)` is the concatenation of `serialize(v1)`, ..., `serialize(vn)` in order,
with nothing between, before or after them; its length is the sum of their lengths. -/
theorem C30_serialize_concatenates (cfg : Config) (args : List (Ty × Val))
    (hs : ∀ a ∈ args, serializable cfg a.1 = true)
    (ht : ∀ a ∈ args, has_type cfg a.1 a.2 = true) :
    ∃ parts, List.Forall₂ (fun (a : Ty × Val) b => serialize cfg [a] = some b) args parts ∧
      serialize cfg args = some parts.flatten ∧
      parts.flatten.length = (parts.map List.length).sum := by
  refine ⟨args.map (fun a => encode cfg a.1 a.2), forall₂_serialize_args cfg args hs ht, ?_,
    List.length_flatten _⟩
  rw [serialize_eq cfg _ (by simpa using hs) ht, encode_all_eq_flatten]

theorem C30_serialize_concatenates_witness :
    (∀ a ∈ args_example, serializable cfg_net a.1 = true) ∧
    (∀ a ∈ args_example, has_type cfg_net a.1 a.2 = true) ∧
    ∃ parts, List.Forall₂ (fun (a : Ty × Val) b => serialize cfg_net [a] = some b)
        args_example parts ∧
      serialize cfg_net args_example = some parts.flatten ∧
      parts.flatten.length = (parts.map List.length).sum :=
  have h1 : ∀ a ∈ args_example, serializable cfg_net a.1 = true := by
    intro a ha
    simp only [args_example, List.mem_cons, List.mem_singleton, List.not_mem_nil, or_false] at ha
    rcases ha with rfl | rfl | rfl | rfl <;> rfl
  have h3 : ∀ a ∈ args_example, has_type cfg_net a.1 a.2 = true := by
    intro a ha
    simp only [args_example, List.mem_cons, List.mem_singleton, List.not_mem_nil, or_false] at ha
    rcases ha with rfl | rfl | rfl | rfl <;> rfl
  ⟨h1, h3, C30_serialize_concatenates cfg_net args_example h1 h3⟩

theorem cursor_eta (c : Cursor) (p r : Nat) (h1 : c.ptr = p) (h2 : c.restSize = r) :
    c = ⟨p, r⟩ := by
  cases c
  simp only at h1 h2
  rw [h1, h2]

/-- A container whose size field declares `n` elements, with nothing after the size field: the
count check throws before the destination is touched. -/
theorem take_count_only (cfg : Config) (buf : List Byte) (T e : Ty) (dest : Val) (n : Nat)
    (c : Cursor) (hT : is_variable_length T e) (hok : size_type_ok cfg = true)
    (hn : n ≤ PTRDIFF_MAX) (hpos : 0 < n * byte_minsize cfg e)
    (hbig : n * byte_minsize cfg e < SIZE_MOD) (hc : At buf c (count_bytes cfg n)) :
    take cfg buf T false dest c =
      ⟨.DeserializationError, dest, ⟨c.ptr + size_field_width cfg, 0⟩⟩ := by
  obtain ⟨r, e1, hst, hsz, hc1, hp1⟩ :=
    take_size_at cfg buf n c [] hok hn (by simpa using hc)
  have hr0 : r.cur.restSize = 0 := by simpa using hc1.restSize
  have hcur : r.cur = ⟨c.ptr + size_field_width cfg, 0⟩ :=
    cursor_eta _ _ _ (by rw [hp1]; simp [count_bytes, length_object_bytes]) hr0
  have hce : count_exceeds cfg e n 0 = true := by
    unfold count_exceeds
    rw [Nat.mod_eq_of_lt hbig]
    simpa using hpos
  have hit : ∀ rz ins u by_ref by_val,
      take_iterable cfg buf e rz ins u by_ref by_val dest c =
        ⟨.DeserializationError, dest, ⟨c.ptr + size_field_width cfg, 0⟩⟩ := by
    intro rz ins u by_ref by_val
    unfold take_iterable
    simp only [e1, hst, hsz, hcur, hce, ↓reduceIte]
  rcases hT with rfl | rfl | rfl | rfl
  · rcases vector_cases cfg e false with ⟨hp, _, hb, _⟩ | hp
    · have hbs := (bulk_size cfg e hb).2
      rw [hbs] at hpos hbig
      have hcs : check_size 0 (n * sizeof e) = none := by
        unfold check_size
        rw [if_pos hpos]
      simp only [take, hp]
      unfold take_contiguous
      simp only [e1, hst, hsz, Nat.mod_eq_of_lt hbig, hcur, hcs]
    · simp only [take, hp]
      exact hit _ _ _ _ _
  · simp only [take]
    exact hit _ _ _ _ _
  · simp only [take]
    exact hit _ _ _ _ _
  · simp only [take, priority_forward_list, ↓reduceIte]
    unfold take_forward_list
    simp only [e1, hst, hsz, hcur, hce, ↓reduceIte]

/-- Claim C26. For every variable-length container or forward list whose elements occupy at
least one byte (and whose minimal size times `10^9` fits `size_t`), with an 8-byte size field:
decoding it by reference from the 8-byte buffer that holds just the count `10^9` throws
`DeserializationError` at the count check, with the destination exactly as it was before the
call (not resized, nothing inserted) and the 8 bytes of the size field consumed. -/
theorem C26_huge_count_rejected (cfg : Config) (T e : Ty) (dest : Val)
    (hT : is_variable_length T e) (hw : size_field_width cfg = 8)
    (hmin : 0 < byte_minsize cfg e) (hbig : 10 ^ 9 * byte_minsize cfg e < SIZE_MOD) :
    (count_bytes cfg (10 ^ 9)).length = 8 ∧
    deserialize cfg [T] (count_bytes cfg (10 ^ 9)) [dest] =
      ⟨.DeserializationError, [dest], ⟨8, 0⟩⟩ ∧
    take cfg (count_bytes cfg (10 ^ 9)) T false dest ⟨0, 8⟩ =
      ⟨.DeserializationError, dest, ⟨8, 0⟩⟩ := by
  have hl : (count_bytes cfg (10 ^ 9)).length = 8 := by
    simp [count_bytes, length_object_bytes, hw]
  have hok : size_type_ok cfg = true := by
    unfold size_field_width size_type_t at hw
    unfold size_type_ok
    cases hs : cfg.sizeT with
    | none => rfl
    | some t =>
        rw [hs] at hw
        simp only at hw
        simp [hw, size_t_bytes]
  have hAt : At (count_bytes cfg (10 ^ 9)) ⟨0, 8⟩ (count_bytes cfg (10 ^ 9)) := by
    have := At.start (count_bytes cfg (10 ^ 9))
    rwa [hl] at this
  have ht := take_count_only cfg (count_bytes cfg (10 ^ 9)) T e dest (10 ^ 9) ⟨0, 8⟩ hT hok
    (by unfold PTRDIFF_MAX; norm_num) (by positivity) hbig hAt
  simp only [hw, Nat.zero_add] at ht
  have hu : useReference cfg T false = true := by
    rcases hT with rfl | rfl | rfl | rfl <;> simp [useReference, tuple_has_const]
  refine ⟨hl, ?_, ht⟩
  unfold deserialize
  rw [hl]
  simp only [readData, List.headD_cons, List.tail_cons, take_into, hu, ↓reduceIte, ht]

theorem C26_huge_count_rejected_witness :
    is_variable_length (.vector ty_int) ty_int ∧ size_field_width cfg_host = 8 ∧
    0 < byte_minsize cfg_host ty_int ∧ 10 ^ 9 * byte_minsize cfg_host ty_int < SIZE_MOD ∧
    ((count_bytes cfg_host (10 ^ 9)).length = 8 ∧
    deserialize cfg_host [.vector ty_int] (count_bytes cfg_host (10 ^ 9)) [.seq [.int 7]] =
      ⟨.DeserializationError, [.seq [.int 7]], ⟨8, 0⟩⟩ ∧
    take cfg_host (count_bytes cfg_host (10 ^ 9)) (.vector ty_int) false (.seq [.int 7])
        ⟨0, 8⟩ =
      ⟨.DeserializationError, .seq [.int 7], ⟨8, 0⟩⟩) :=
  ⟨Or.inl rfl, by rfl, by decide, by decide,
    C26_huge_count_rejected cfg_host (.vector ty_int) ty_int (.seq [.int 7]) (Or.inl rfl)
      (by rfl) (by decide) (by decide)⟩

theorem readData_cons_ok (cfg : Config) (buf : List Byte) (t : Ty) (ts : List Ty)
    (ds : List Val) (c : Cursor)
    (h : (take_into (useReference cfg t false) (take cfg buf t false) (take_val cfg buf t)
      (ds.headD (default_val t)) c).status = .ok) :
    readData cfg buf (t :: ts) ds c =
      ⟨(readData cfg buf ts ds.tail (take_into (useReference cfg t false) (take cfg buf t false)
          (take_val cfg buf t) (ds.headD (default_val t)) c).cur).status,
        (take_into (useReference cfg t false) (take cfg buf t false) (take_val cfg buf t)
          (ds.headD (default_val t)) c).val ::
        (readData cfg buf ts ds.tail (take_into (useReference cfg t false) (take cfg buf t false)
          (take_val cfg buf t) (ds.headD (default_val t)) c).cur).vals,
        (readData cfg buf ts ds.tail (take_into (useReference cfg t false) (take cfg buf t false)
          (take_val cfg buf t) (ds.headD (default_val t)) c).cur).cur⟩ := by
  simp only [readData, h]

theorem readData_cons_err (cfg : Config) (buf : List Byte) (t : Ty) (ts : List Ty)
    (ds : List Val) (c : Cursor)
    (h : (take_into (useReference cfg t false) (take cfg buf t false) (take_val cfg buf t)
      (ds.headD (default_val t)) c).status ≠ .ok) :
    readData cfg buf (t :: ts) ds c =
      ⟨(take_into (useReference cfg t false) (take cfg buf t false) (take_val cfg buf t)
          (ds.headD (default_val t)) c).status,
        (take_into (useReference cfg t false) (take cfg buf t false) (take_val cfg buf t)
          (ds.headD (default_val t)) c).val :: ds.tail,
        (take_into (useReference cfg t false) (take cfg buf t false) (take_val cfg buf t)
          (ds.headD (default_val t)) c).cur⟩ := by
  simp only [readData]

/-- When the variadic `readData` throws, it throws in some destination `i`: the destinations
before it were decoded completely, those after it are untouched. -/
theorem readData_error (cfg : Config) (buf : List Byte) :
    ∀ (Ts : List Ty) (ds : List Val) (c : Cursor), ds.length = Ts.length →
      (readData cfg buf Ts ds c).status ≠ .ok →
      ∃ i, i < Ts.length ∧
        (readData cfg buf Ts ds c).vals.drop (i + 1) = ds.drop (i + 1) ∧
        (readData cfg buf (Ts.take i) (ds.take i) c).status = .ok ∧
        (readData cfg buf Ts ds c).vals.take i =
          (readData cfg buf (Ts.take i) (ds.take i) c).vals ∧
        (readData cfg buf Ts ds c).vals.length = ds.length
  | [], ds, c, _, herr => by simp [readData] at herr
  | t :: ts, [], c, hlen, _ => by simp at hlen
  | t :: ts, d :: ds, c, hlen, herr => by
      simp only [List.length_cons, add_left_inj] at hlen
      have hd : (d :: ds).headD (default_val t) = d := rfl
      by_cases hst : (take_into (useReference cfg t false) (take cfg buf t false)
          (take_val cfg buf t) d c).status = .ok
      · have e1 := readData_cons_ok cfg buf t ts (d :: ds) c (by rw [hd]; exact hst)
        rw [hd, List.tail_cons] at e1
        rw [e1] at herr ⊢
        simp only at herr ⊢
        obtain ⟨i, hi, h1, h2, h3, h4⟩ := readData_error cfg buf ts ds _ hlen herr
        have e2 := readData_cons_ok cfg buf t (ts.take i) (d :: ds.take i) c
          (by rw [List.headD_cons]; exact hst)
        rw [List.headD_cons, List.tail_cons] at e2
        refine ⟨i + 1, by simpa using hi, by simpa using h1, ?_, ?_, by simp [h4]⟩
        · simp only [List.take_succ_cons, e2]
          exact h2
        · simp only [List.take_succ_cons, e2, h3]
      · have e1 := readData_cons_err cfg buf t ts (d :: ds) c (by rw [hd]; exact hst)
        rw [hd, List.tail_cons] at e1
        rw [e1]
        exact ⟨0, by simp, by simp, by simp [readData], by simp [readData], by simp⟩

/-- Claim C25, the part that fails: decoding a `std::vector<std::vector<int32_t>>` by reference
into an empty vector, from a buffer holding the count 1 and then an inner count 2 with no
element bytes, throws `DeserializationError` after the destination was resized: it is left with
one (empty) element although no element was decoded completely; its length changed from 0 to
1. -/
theorem C25_resized_before_error :
    deserialize cfg_host [ty_vec_vec] (le_bytes 8 1 ++ le_bytes 8 2) [.seq []] =
      ⟨.DeserializationError, [.seq [.seq []]], ⟨16, 0⟩⟩ ∧
    (Val.seq []).elems.length = 0 ∧
    ((deserialize cfg_host [ty_vec_vec] (le_bytes 8 1 ++ le_bytes 8 2) [.seq []]).vals.headD
      (.seq [])).elems.length = 1 :=
  ⟨by rfl, by rfl, by rfl⟩

/-- Claim C25, as amended. When a variadic decode ends with an error, it ended while decoding
some destination `i`: every destination after it is left as it was before the call, every
destination before it holds its completely decoded value (what decoding just those
destinations yields, ending normally), and the number of destinations is unchanged; a scalar
destination whose read fails is left as it was, with the cursor where it was.  (The container
being decoded may already have been resized or have received elements.) -/
theorem C25_error_leaves_later_destinations (cfg : Config) (data : List Byte) (Ts : List Ty)
    (dests : List Val) (hlen : dests.length = Ts.length)
    (herr : (deserialize cfg Ts data dests).status ≠ .ok) :
    (∃ i, i < Ts.length ∧
      (deserialize cfg Ts data dests).vals.drop (i + 1) = dests.drop (i + 1) ∧
      (deserialize cfg (Ts.take i) data (dests.take i)).status = .ok ∧
      (deserialize cfg Ts data dests).vals.take i =
        (deserialize cfg (Ts.take i) data (dests.take i)).vals ∧
      (deserialize cfg Ts data dests).vals.length = dests.length) ∧
    (∀ s w val c, (take_arith cfg data s w val c).status ≠ .ok →
      (take_arith cfg data s w val c).val = val ∧
      ((take_arith cfg data s w val c).status = .DeserializationError →
        (take_arith cfg data s w val c).cur = c)) := by
  refine ⟨readData_error cfg data Ts dests _ hlen herr, ?_⟩
  intro s w val c h
  unfold take_arith at h ⊢
  cases h1 : check_size c.restSize w with
  | none => simp
  | some rest =>
      simp only [h1] at h ⊢
      cases h2 : read_bytes data c.ptr w with
      | none => simp
      | some bs =>
          simp only [h2] at h
          exact absurd rfl h

theorem C25_error_leaves_later_destinations_witness :
    [Val.int 5, Val.seq [.int 9], Val.int 6].length = [ty_int, .vector ty_int, ty_int].length ∧
    (deserialize cfg_host [ty_int, .vector ty_int, ty_int] [1, 0, 0, 0, 2, 0, 0]
      [.int 5, .seq [.int 9], .int 6]).status ≠ .ok ∧
    ((∃ i, i < [ty_int, Ty.vector ty_int, ty_int].length ∧
      (deserialize cfg_host [ty_int, .vector ty_int, ty_int] [1, 0, 0, 0, 2, 0, 0]
        [.int 5, .seq [.int 9], .int 6]).vals.drop (i + 1) =
          [Val.int 5, Val.seq [.int 9], Val.int 6].drop (i + 1) ∧
      (deserialize cfg_host ([ty_int, Ty.vector ty_int, ty_int].take i) [1, 0, 0, 0, 2, 0, 0]
        ([Val.int 5, Val.seq [.int 9], Val.int 6].take i)).status = .ok ∧
      (deserialize cfg_host [ty_int, .vector ty_int, ty_int] [1, 0, 0, 0, 2, 0, 0]
        [.int 5, .seq [.int 9], .int 6]).vals.take i =
        (deserialize cfg_host ([ty_int, Ty.vector ty_int, ty_int].take i) [1, 0, 0, 0, 2, 0, 0]
          ([Val.int 5, Val.seq [.int 9], Val.int 6].take i)).vals ∧
      (deserialize cfg_host [ty_int, .vector ty_int, ty_int] [1, 0, 0, 0, 2, 0, 0]
        [.int 5, .seq [.int 9], .int 6]).vals.length =
          [Val.int 5, Val.seq [.int 9], Val.int 6].length) ∧
    (∀ s w val c, (take_arith cfg_host [1, 0, 0, 0, 2, 0, 0] s w val c).status ≠ .ok →
      (take_arith cfg_host [1, 0, 0, 0, 2, 0, 0] s w val c).val = val ∧
      ((take_arith cfg_host [1, 0, 0, 0, 2, 0, 0] s w val c).status = .DeserializationError →
        (take_arith cfg_host [1, 0, 0, 0, 2, 0, 0] s w val c).cur = c))) :=
  ⟨by rfl, by decide,
    C25_error_leaves_later_destinations cfg_host [1, 0, 0, 0, 2, 0, 0]
      [ty_int, .vector ty_int, ty_int] [.int 5, .seq [.int 9], .int 6] (by rfl) (by decide)⟩

/-- Claim C31. For every enumeration with underlying integral type `(s, w)` and every value:
its size, its `append` (what is written and where), its `serialize` output and its `take` and
`deserialize` results are those of the underlying integral type on the underlying value, under
every configuration: same width, same byte-order conversion. -/
theorem C31_enum_as_underlying (cfg : Config) (s : Bool) (w : Nat) :
    (∀ v, byte_size cfg (.enum s w) v = byte_size cfg (.arith s w) v) ∧
    (∀ v wr, append cfg (.enum s w) v wr = append cfg (.arith s w) v wr) ∧
    (∀ v, serialize cfg [(.enum s w, v)] = serialize cfg [(.arith s w, v)]) ∧
    (∀ buf ref val c, take cfg buf (.enum s w) ref val c = take cfg buf (.arith s w) ref val c) ∧
    (∀ data, deserialize_value cfg (.enum s w) data = deserialize_value cfg (.arith s w) data) ∧
    (∀ data d, deserialize cfg [.enum s w] data [d] = deserialize cfg [.arith s w] data [d]) ∧
    priorityType cfg (.enum s w) = .Enum ∧ priorityType cfg (.arith s w) = .Arithmetic := by
  refine ⟨fun v => by simp [byte_size], fun v wr => by simp [append], fun v => ?_,
    fun buf ref val c => by simp [take], fun data => ?_, fun data d => ?_,
    priority_enum cfg s w false, priority_arith cfg s w false⟩
  · simp [serialize, serializable, byte_size_ok, append_ok, byteSize, byte_size, writeData,
      append]
  · simp [deserialize_value, readData_value, useReference, tuple_has_const, take, take_val,
      default_val, priority_enum, priority_arith]
  · simp [deserialize, readData, useReference, tuple_has_const, take, take_val, default_val,
      priority_enum, priority_arith]

theorem reorder_ne (s : Bool) (w : Nat) (a b : ByteOrder) (x : Int) (hab : a ≠ b)
    (hw : 1 < w) : reorder s w a b x = wrap s w (rev_pattern w (bit_pattern w x) : Nat) := by
  unfold reorder
  rw [if_pos ⟨hab, hw⟩, reorder_loop_eq]

/-- Claim C33. For every width `w` of 2, 4 or 8 bytes, signed or unsigned, and every value `x`
of the type: `reorder` between two different byte orders returns the value of the type whose
`w`-byte pattern is the byte-reversal of the pattern of `x`, applying it twice returns `x`, and
the result is again a value of the type; when the two orders are equal, or the width is 1, it
returns its input unchanged. -/
theorem C33_reorder_reverses_bytes (s : Bool) (w : Nat) (a b : ByteOrder) (x : Int)
    (hw : w = 2 ∨ w = 4 ∨ w = 8) (hx : int_in_range s w x = true) :
    (a ≠ b →
      reorder s w a b x = wrap s w (rev_pattern w (bit_pattern w x) : Nat) ∧
      le_bytes w (bit_pattern w (reorder s w a b x)) = (le_bytes w (bit_pattern w x)).reverse ∧
      int_in_range s w (reorder s w a b x) = true ∧
      reorder s w a b (reorder s w a b x) = x ∧ reorder s w b a (reorder s w a b x) = x) ∧
    reorder s w a a x = x ∧
    (∀ y, reorder s 1 a b y = y) := by
  have hw1 : 1 < w := by omega
  have hw0 : 1 ≤ w := by omega
  refine ⟨fun hab => ?_, by simp [reorder], fun y => by simp [reorder]⟩
  have e1 := reorder_ne s w a b x hab hw1
  have hbp : bit_pattern w (reorder s w a b x) = rev_pattern w (bit_pattern w x) := by
    rw [e1, bit_pattern_wrap_nat _ _ _ (rev_pattern_lt _ _)]
  have htwice : ∀ c d : ByteOrder, c ≠ d → reorder s w c d (reorder s w a b x) = x := by
    intro c d hcd
    rw [reorder_ne s w c d _ hcd hw1, hbp, rev_pattern_rev_pattern _ _ (bit_pattern_lt _ _),
      wrap_bit_pattern, wrap_of_in_range s w x hw0 hx]
  refine ⟨e1, ?_, ?_, htwice a b hab, htwice b a (Ne.symm hab)⟩
  · rw [hbp, le_bytes_rev_pattern]
  · rw [e1]
    exact wrap_in_range s w _ hw0

theorem C33_reorder_reverses_bytes_witness :
    ((4 : Nat) = 2 ∨ (4 : Nat) = 4 ∨ (4 : Nat) = 8) ∧ int_in_range true 4 (-2) = true ∧
    ((ByteOrder.LittleEndian ≠ ByteOrder.BigEndian →
      reorder true 4 .LittleEndian .BigEndian (-2) =
        wrap true 4 (rev_pattern 4 (bit_pattern 4 (-2)) : Nat) ∧
      le_bytes 4 (bit_pattern 4 (reorder true 4 .LittleEndian .BigEndian (-2))) =
        (le_bytes 4 (bit_pattern 4 (-2))).reverse ∧
      int_in_range true 4 (reorder true 4 .LittleEndian .BigEndian (-2)) = true ∧
      reorder true 4 .LittleEndian .BigEndian (reorder true 4 .LittleEndian .BigEndian (-2)) =
        -2 ∧
      reorder true 4 .BigEndian .LittleEndian (reorder true 4 .LittleEndian .BigEndian (-2)) =
        -2) ∧
    reorder true 4 .LittleEndian .LittleEndian (-2) = -2 ∧
    (∀ y, reorder true 1 .LittleEndian .BigEndian y = y)) :=
  ⟨by decide, by decide,
    C33_reorder_reverses_bytes true 4 .LittleEndian .BigEndian (-2) (by decide) (by decide)⟩

mutual
theorem byte_minsize_eq_minSize (cfg : Config) (T : Ty) (h : byte_minsize_ok cfg T = true) :
    byte_minsize cfg T = minSize cfg T := by
  cases T with
  | arith s w => simp [byte_minsize, minSize]
  | enum s w => simp [byte_minsize, minSize]
  | carray e n =>
      rcases carray_cases cfg e n false with ⟨hp, _⟩ | ⟨hp, _⟩ | ⟨hp, _⟩ <;>
        simp only [byte_minsize_ok, hp] at h
      · simp [byte_minsize, minSize, hp, byte_minsize_eq_minSize cfg e h]
      · simp [byte_minsize, minSize, hp, byte_minsize_eq_minSize cfg e h]
      · simp at h
  | stdarray e n =>
      rcases stdarray_cases cfg e n false with ⟨hp, _⟩ | ⟨hp, _⟩ | ⟨hp, _⟩ <;>
        simp only [byte_minsize_ok, hp] at h
      · simp at h
      · simp [byte_minsize, minSize, hp, byte_minsize_eq_minSize cfg e h]
      · simp at h
  | forward_list e => simp [byte_minsize, minSize]
  | vector e => simp [byte_minsize, minSize]
  | list e => simp [byte_minsize, minSize]
  | set e => simp [byte_minsize, minSize]
  | tuple hc fs =>
      simp only [byte_minsize_ok, Bool.and_eq_true] at h
      simp [byte_minsize, minSize, tuple_byte_minsize_eq cfg fs h.2]
  | aggregate fs =>
      simp only [byte_minsize_ok, Bool.and_eq_true] at h
      simp [byte_minsize, minSize, tuple_byte_minsize_eq cfg fs h.2]
  | vector_bool => simp [byte_minsize_ok] at h
  | pointer => simp [byte_minsize_ok] at h
  | bitset => simp [byte_minsize_ok] at h
  | initializer_list => simp [byte_minsize_ok] at h
theorem tuple_byte_minsize_eq (cfg : Config) (Ts : List Ty)
    (h : tuple_byte_minsize_ok cfg Ts = true) :
    tuple_byte_minsize cfg Ts = minSize_fields cfg Ts := by
  cases Ts with
  | nil => simp [tuple_byte_minsize, minSize_fields]
  | cons t ts =>
      simp only [tuple_byte_minsize_ok, Bool.and_eq_true] at h
      simp [tuple_byte_minsize, minSize_fields, byte_minsize_eq_minSize cfg t h.1,
        tuple_byte_minsize_eq cfg ts h.2]
end

/-- Claim C32. Wherever `byte_minsize<T>` compiles it equals the reference definition over the
type alone (scalar or enumeration: its width; fixed-length array: `N` times the element's; tuple:
the sum over its fields; container or forward list: the size-field width).  For `std::array` in
the `Optimized` category (`std::array<int32_t, 3>` under Host order) it does not compile: the
type is serializable, but a container of it cannot be deserialized under Host order, while it
can under the other order, where the array is a `Tuple` of minimal size `3 * 4`. -/
theorem C32_minsize_reference :
    (∀ cfg T, byte_minsize_ok cfg T = true → byte_minsize cfg T = minSize cfg T) ∧
    priorityType cfg_host ty_array3 = .Optimized ∧
    serializable cfg_host ty_array3 = true ∧ deserializable cfg_host ty_array3 = true ∧
    byte_minsize_ok cfg_host ty_array3 = false ∧
    serializable cfg_host (.vector ty_array3) = true ∧
    deserializable cfg_host (.vector ty_array3) = false ∧
    deserializable cfg_host (.forward_list ty_array3) = false ∧
    byte_minsize_ok cfg_be ty_array3 = true ∧ byte_minsize cfg_be ty_array3 = 3 * 4 ∧
    deserializable cfg_be (.vector ty_array3) = true :=
  ⟨byte_minsize_eq_minSize, by rfl, by rfl, by rfl, by rfl, by rfl, by rfl, by rfl, by rfl,
    by rfl, by rfl⟩

/-- Claim C35 evaluated: decoding the bytes of `{1, 2}` by reference into an empty `std::set`
or `std::forward_list` leaves `{1, 2}`, but into one that holds `9` it leaves `{1, 2, 9}`: the
insertion paths keep the prior contents.  The resizing path of `std::list` and `std::vector`
does not: a destination holding `9, 9, 9` is left as `{1, 2}`. -/
theorem C35_insert_paths_keep_prior_contents :
    serialize cfg_host [(ty_set_int, .seq [.int 1, .int 2])] = some bytes_1_2 ∧
    deserialize cfg_host [ty_set_int] bytes_1_2 [.seq []] =
      ⟨.ok, [.seq [.int 1, .int 2]], ⟨16, 0⟩⟩ ∧
    deserialize cfg_host [ty_set_int] bytes_1_2 [.seq [.int 9]] =
      ⟨.ok, [.seq [.int 1, .int 2, .int 9]], ⟨16, 0⟩⟩ ∧
    serialize cfg_host [(ty_flist_int, .seq [.int 1, .int 2])] = some bytes_1_2 ∧
    deserialize cfg_host [ty_flist_int] bytes_1_2 [.seq []] =
      ⟨.ok, [.seq [.int 1, .int 2]], ⟨16, 0⟩⟩ ∧
    deserialize cfg_host [ty_flist_int] bytes_1_2 [.seq [.int 9]] =
      ⟨.ok, [.seq [.int 1, .int 2, .int 9]], ⟨16, 0⟩⟩ ∧
    deserialize cfg_host [ty_list_int] bytes_1_2 [.seq [.int 9, .int 9, .int 9]] =
      ⟨.ok, [.seq [.int 1, .int 2]], ⟨16, 0⟩⟩ ∧
    deserialize cfg_host [.vector ty_int] bytes_1_2 [.seq [.int 9, .int 9, .int 9]] =
      ⟨.ok, [.seq [.int 1, .int 2]], ⟨16, 0⟩⟩ :=
  ⟨by rfl, by rfl, by rfl, by rfl, by rfl, by rfl, by rfl, by rfl⟩

/-- Filling a default-constructed destination and obtaining a new element end the same way, at
the same cursor, and on success with the same value. -/
theorem into_vs_new (u : Bool) (by_ref : Val → Cursor → Taken) (by_val : Cursor → Taken)
    (d : Val) (c : Cursor) :
    (take_into u by_ref by_val d c).status = (take_new u by_ref by_val d c).status ∧
    (take_into u by_ref by_val d c).cur = (take_new u by_ref by_val d c).cur ∧
    ((take_new u by_ref by_val d c).status = .ok →
      (take_into u by_ref by_val d c).val = (take_new u by_ref by_val d c).val) := by
  cases u
  · simp only [take_into, take_new, Bool.false_eq_true, ↓reduceIte]
    cases h : (by_val c).status <;> simp [h]
  · simp [take_into, take_new]

theorem construct_vs_set (cfg : Config) (buf : List Byte) :
    ∀ (fs : List Ty) (args : List Val) (c : Cursor),
      (take_tuple_construct cfg buf fs args c).status =
        (take_tuple_set cfg buf fs (default_vals fs) c).status ∧
      (take_tuple_construct cfg buf fs args c).cur =
        (take_tuple_set cfg buf fs (default_vals fs) c).cur ∧
      ((take_tuple_construct cfg buf fs args c).status = .ok →
        (take_tuple_construct cfg buf fs args c).vals =
          args ++ (take_tuple_set cfg buf fs (default_vals fs) c).vals)
  | [], args, c => by simp [take_tuple_construct, take_tuple_set, default_vals]
  | t :: ts, args, c => by
      obtain ⟨h1, h2, h3⟩ := into_vs_new (useReference cfg t false) (take cfg buf t false)
        (take_val cfg buf t) (default_val t) c
      simp only [take_tuple_construct, take_tuple_set, default_vals, List.headD_cons,
        List.tail_cons]
      cases hst : (take_new (useReference cfg t false) (take cfg buf t false)
          (take_val cfg buf t) (default_val t) c).status
      · rw [hst] at h1
        have h3' := h3 hst
        obtain ⟨i1, i2, i3⟩ := construct_vs_set cfg buf ts
          (args ++ [(take_new (useReference cfg t false) (take cfg buf t false)
            (take_val cfg buf t) (default_val t) c).val])
          (take_new (useReference cfg t false) (take cfg buf t false)
            (take_val cfg buf t) (default_val t) c).cur
        simp only [h1, h2, h3']
        refine ⟨i1, i2, fun hok => ?_⟩
        rw [i3 hok]
        simp
      · rw [hst] at h1
        simp [h1, h2]
      · rw [hst] at h1
        simp [h1, h2]
      · rw [hst] at h1
        simp [h1, h2]

/-- Claim C38. For every list of field types and every buffer and cursor, the by-value
construction `take_tuple_construct` and the by-reference `take_tuple_set` on
default-constructed fields end in the same status, so they succeed on exactly the same buffers,
at the same read pointer and remaining count, and on success they yield the same fields; hence
for a tuple without `const` fields (and for a registered class) the by-value and the
by-reference `take` agree.  A tuple with a `const` field has `useReference = false`: elements
and destinations of that type are obtained through the by-value `take` only. -/
theorem C38_tuple_construct_equals_set (cfg : Config) (buf : List Byte) (fs : List Ty)
    (c : Cursor) (hne : fs ≠ []) :
    ((take_tuple_construct cfg buf fs [] c).status =
        (take_tuple_set cfg buf fs (default_vals fs) c).status ∧
      (take_tuple_construct cfg buf fs [] c).cur =
        (take_tuple_set cfg buf fs (default_vals fs) c).cur ∧
      ((take_tuple_construct cfg buf fs [] c).status = .ok →
        (take_tuple_construct cfg buf fs [] c).vals =
          (take_tuple_set cfg buf fs (default_vals fs) c).vals)) ∧
    ((take_val cfg buf (.tuple false fs) c).status =
        (take cfg buf (.tuple false fs) false (default_val (.tuple false fs)) c).status ∧
      (take_val cfg buf (.tuple false fs) c).cur =
        (take cfg buf (.tuple false fs) false (default_val (.tuple false fs)) c).cur ∧
      ((take_val cfg buf (.tuple false fs) c).status = .ok →
        (take_val cfg buf (.tuple false fs) c).val =
          (take cfg buf (.tuple false fs) false (default_val (.tuple false fs)) c).val)) ∧
    (useReference cfg (.tuple false fs) false = true ∧
      useReference cfg (.tuple true fs) false = false ∧
      (∀ dflt, take_new (useReference cfg (.tuple true fs) false)
          (take cfg buf (.tuple true fs) false) (take_val cfg buf (.tuple true fs)) dflt c =
        (take_tuple_construct cfg buf fs [] c).toTaken)) := by
  have hp : ∀ hc, priority_type cfg (.tuple hc fs) false = .Tuple := by
    intro hc
    rw [priority_tuple, if_pos ⟨rfl, by cases fs <;> simp_all⟩]
  obtain ⟨h1, h2, h3⟩ := construct_vs_set cfg buf fs [] c
  have h3' : (take_tuple_construct cfg buf fs [] c).status = .ok →
      (take_tuple_construct cfg buf fs [] c).vals =
        (take_tuple_set cfg buf fs (default_vals fs) c).vals := by
    intro hok
    simpa using h3 hok
  refine ⟨⟨h1, h2, h3'⟩, ?_, ?_⟩
  · simp only [take_val, take, hp, default_val, Val.elems, TakenList.toTaken]
    exact ⟨h1, h2, fun hok => by rw [h3' hok]⟩
  · refine ⟨by simp [useReference, tuple_has_const], by simp [useReference, tuple_has_const, hp],
      fun dflt => ?_⟩
    simp [take_new, useReference, tuple_has_const, hp, take_val]

theorem C38_tuple_construct_equals_set_witness :
    args_custom ≠ [] ∧
    (((take_tuple_construct cfg_net [1, 0, 1, 0, 0] args_custom [] ⟨0, 5⟩).status =
        (take_tuple_set cfg_net [1, 0, 1, 0, 0] args_custom (default_vals args_custom)
          ⟨0, 5⟩).status ∧
      (take_tuple_construct cfg_net [1, 0, 1, 0, 0] args_custom [] ⟨0, 5⟩).cur =
        (take_tuple_set cfg_net [1, 0, 1, 0, 0] args_custom (default_vals args_custom)
          ⟨0, 5⟩).cur ∧
      ((take_tuple_construct cfg_net [1, 0, 1, 0, 0] args_custom [] ⟨0, 5⟩).status = .ok →
        (take_tuple_construct cfg_net [1, 0, 1, 0, 0] args_custom [] ⟨0, 5⟩).vals =
          (take_tuple_set cfg_net [1, 0, 1, 0, 0] args_custom (default_vals args_custom)
            ⟨0, 5⟩).vals)) ∧
    ((take_val cfg_net [1, 0, 1, 0, 0] (.tuple false args_custom) ⟨0, 5⟩).status =
        (take cfg_net [1, 0, 1, 0, 0] (.tuple false args_custom) false
          (default_val (.tuple false args_custom)) ⟨0, 5⟩).status ∧
      (take_val cfg_net [1, 0, 1, 0, 0] (.tuple false args_custom) ⟨0, 5⟩).cur =
        (take cfg_net [1, 0, 1, 0, 0] (.tuple false args_custom) false
          (default_val (.tuple false args_custom)) ⟨0, 5⟩).cur ∧
      ((take_val cfg_net [1, 0, 1, 0, 0] (.tuple false args_custom) ⟨0, 5⟩).status = .ok →
        (take_val cfg_net [1, 0, 1, 0, 0] (.tuple false args_custom) ⟨0, 5⟩).val =
          (take cfg_net [1, 0, 1, 0, 0] (.tuple false args_custom) false
            (default_val (.tuple false args_custom)) ⟨0, 5⟩).val)) ∧
    (useReference cfg_net (.tuple false args_custom) false = true ∧
      useReference cfg_net (.tuple true args_custom) false = false ∧
      (∀ dflt, take_new (useReference cfg_net (.tuple true args_custom) false)
          (take cfg_net [1, 0, 1, 0, 0] (.tuple true args_custom) false)
          (take_val cfg_net [1, 0, 1, 0, 0] (.tuple true args_custom)) dflt ⟨0, 5⟩ =
        (take_tuple_construct cfg_net [1, 0, 1, 0, 0] args_custom [] ⟨0, 5⟩).toTaken))) :=
  ⟨by simp [args_custom],
    C38_tuple_construct_equals_set cfg_net [1, 0, 1, 0, 0] args_custom ⟨0, 5⟩
      (by simp [args_custom])⟩

theorem length_resize (e : Ty) (n : Nat) (xs : List Val) : (resize e n xs).length = n := by
  simp only [resize, List.length_append, List.length_take, List.length_replicate]
  omega

/-- The element-wise loop over `ds.length` integers, when that many integers remain: it ends
normally with the integers stored in the next `ds.length * w` bytes. -/
theorem each_arith (cfg : Config) (buf : List Byte) (s : Bool) (w : Nat) :
    ∀ (ds : List Val) (c : Cursor), c.ptr + c.restSize ≤ buf.length →
      ds.length * w ≤ c.restSize →
      take_each (take_arith cfg buf s w) ds c =
        ⟨.ok, (chunks w ds.length ((buf.drop c.ptr).take (ds.length * w))).map
            (fun bs => .int (reorder s w cfg.order cfg.Host (object_value cfg.Host s bs))),
          ⟨c.ptr + ds.length * w, c.restSize - ds.length * w⟩⟩
  | [], c, _, _ => by simp [take_each, chunks]
  | d :: ds, c, hc, hr => by
      simp only [List.length_cons, Nat.add_mul, Nat.one_mul] at hr
      have h1 : check_size c.restSize w = some (c.restSize - w) := by
        unfold check_size
        rw [if_neg (by omega)]
      have h2 : read_bytes buf c.ptr w = some ((buf.drop c.ptr).take w) := by
        unfold read_bytes
        rw [if_pos (by omega)]
      have ih := each_arith cfg buf s w ds ⟨c.ptr + w, c.restSize - w⟩
        (by simp only; omega) (by simp only; omega)
      have e1 : take_arith cfg buf s w d c =
          ⟨.ok, .int (reorder s w cfg.order cfg.Host
            (object_value cfg.Host s ((buf.drop c.ptr).take w))), ⟨c.ptr + w, c.restSize - w⟩⟩ := by
        unfold take_arith
        simp only [h1, h2]
      simp only [take_each, e1, ih, List.length_cons, chunks, List.map_cons]
      have t1 : (List.take ((ds.length + 1) * w) (List.drop c.ptr buf)).take w =
          (List.drop c.ptr buf).take w := by
        rw [List.take_take, Nat.min_eq_left (by rw [Nat.add_mul]; omega)]
      have t2 : (List.take ((ds.length + 1) * w) (List.drop c.ptr buf)).drop w =
          List.take (ds.length * w) (List.drop (c.ptr + w) buf) := by
        rw [List.drop_take, List.drop_drop]
        congr 1
        rw [Nat.add_mul]; omega
      rw [t1, t2]
      congr 2
      · rw [Nat.add_mul]; omega
      · rw [Nat.add_mul]; omega

/-- Claim C34. Under Host byte order, for every `std::vector` of an integral type or an
enumeration: it classifies as `ArithmeticContiguous`; wherever the bytes fit the chunk, its bulk
encoder (length prefix, then one block copy) leaves exactly the chunk and write pointer that the
element-wise `Iterable` encoder leaves for the same elements; and on every buffer, destination
and cursor inside the buffer the bulk decoder and the element-wise `Iterable` decoder end in the
same status and leave the same destination, at the same cursor when they end normally. -/
theorem C34_contiguous_equals_iterable (cfg : Config) (e : Ty) (s : Bool) (w : Nat)
    (he : is_scalar e s w) (hH : cfg.order = cfg.Host) (hok : size_type_ok cfg = true) :
    priorityType cfg (.vector e) = .ArithmeticContiguous ∧
    (∀ v wr, wr.ptr + (size_field_width cfg + v.elems.length * w) ≤ wr.buf.length →
      append cfg (.vector e) v wr = append_Iterable cfg e v wr ∧
      ∃ wr1, append cfg (.vector e) v wr = some wr1 ∧
        wr1.ptr = wr.ptr + (size_field_width cfg + v.elems.length * w)) ∧
    (∀ buf dest c, c.ptr + c.restSize ≤ buf.length →
      (take cfg buf (.vector e) false dest c).status = (take_Iterable cfg buf e dest c).status ∧
      (take cfg buf (.vector e) false dest c).val = (take_Iterable cfg buf e dest c).val ∧
      ((take cfg buf (.vector e) false dest c).status = .ok →
        (take cfg buf (.vector e) false dest c).cur = (take_Iterable cfg buf e dest c).cur)) := by
  have hq : qualifies cfg e false .Arithmetic = true ∨ qualifies cfg e false .Enum = true := by
    rcases he with rfl | rfl <;> simp [qualifies]
  have hp : priority_type cfg (.vector e) false = .ArithmeticContiguous := by
    rw [priority_vector, if_pos ⟨hq, hH⟩]
  have hsz : sizeof e = w := by rcases he with rfl | rfl <;> rfl
  have hms : byte_minsize cfg e = w := by rcases he with rfl | rfl <;> simp [byte_minsize]
  have hlen : ∀ x, (encode cfg e x).length = w := by
    intro x
    rcases he with rfl | rfl <;> simp [encode, length_object_bytes]
  have happ : append_ok cfg e = true := by rcases he with rfl | rfl <;> simp [append_ok]
  have htk : ∀ buf d c, take cfg buf e false d c = take_arith cfg buf s w d c := by
    intro buf d c
    rcases he with rfl | rfl <;> simp [take]
  have hur : useReference cfg e false = true := by
    rcases he with rfl | rfl <;> simp [useReference, tuple_has_const]
  have hfr : ∀ bs, from_raw cfg.Host e bs =
      .int (reorder s w cfg.order cfg.Host (object_value cfg.Host s bs)) := by
    intro bs
    rcases he with rfl | rfl <;> simp [from_raw, reorder, hH]
  refine ⟨hp, ?_, ?_⟩
  · intro v wr hroom
    have hfl : ((v.elems.map (encode cfg e)).flatten).length = v.elems.length * w := by
      rw [length_flatten_map]
      exact sum_map_const _ _ w (fun x _ => hlen x)
    have hcl : (count_bytes cfg v.elems.length).length = size_field_width cfg := by
      simp [count_bytes, length_object_bytes]
    have henc : encode cfg (.vector e) v =
        count_bytes cfg v.elems.length ++ (v.elems.map (encode cfg e)).flatten := by
      simp only [encode]
    have hroom1 : wr.ptr + (encode cfg (.vector e) v).length ≤ wr.buf.length := by
      rw [henc, List.length_append, hcl, hfl]
      exact hroom
    have h1 := append_writes cfg (.vector e) v (by simp [append_ok, hp, hok]) wr hroom1
    have h2 : append_Iterable cfg e v wr = write_bytes wr (encode cfg (.vector e) v) := by
      rw [henc]
      exact writes_bind (writes_size cfg v.elems.length)
        (writes_each (append cfg e) (encode cfg e) v.elems
          (fun x _ => append_writes cfg e x happ)) wr (by rw [← henc]; exact hroom1)
    refine ⟨h1.trans h2.symm, ?_⟩
    rw [h1]
    unfold write_bytes
    rw [if_pos hroom1]
    refine ⟨_, rfl, ?_⟩
    simp only
    rw [henc, List.length_append, hcl, hfl]
  · intro buf dest c hc
    have hs1 := safe_size cfg buf c hc
    simp only [take, hp]
    unfold take_contiguous take_Iterable take_iterable
    simp only [hur, is_resizable, ↓reduceIte, hsz, hms, Bool.not_false]
    cases hst : (take_size cfg buf c).status
    · rw [hst] at hs1
      have hi := safe_inv hs1 hc
      simp only
      unfold check_size count_exceeds
      by_cases hlt : (take_size cfg buf c).cur.restSize <
          to_size_t (take_size cfg buf c).val.toInt * w % SIZE_MOD
      · simp [hlt, hms]
      · simp only [if_neg hlt, hms, decide_eq_true_eq, if_neg hlt]
        by_cases hmax : max_size cfg e < to_size_t (take_size cfg buf c).val.toInt
        · simp [hmax]
        · simp only [if_neg hmax]
          have hmul := (mul_le_of_le_max_size cfg e _ (not_lt.1 hmax)).1
          rw [hms] at hmul
          have hmod : to_size_t (take_size cfg buf c).val.toInt * w % SIZE_MOD =
              to_size_t (take_size cfg buf c).val.toInt * w :=
            Nat.mod_eq_of_lt (lt_of_le_of_lt hmul PTRDIFF_MAX_lt)
          rw [hmod] at hlt ⊢
          have hrd : read_bytes buf (take_size cfg buf c).cur.ptr
              (to_size_t (take_size cfg buf c).val.toInt * w) =
              some ((buf.drop (take_size cfg buf c).cur.ptr).take
                (to_size_t (take_size cfg buf c).val.toInt * w)) := by
            unfold read_bytes
            rw [if_pos (by omega)]
          have hea := each_arith cfg buf s w
            (resize e (to_size_t (take_size cfg buf c).val.toInt) dest.elems)
            (take_size cfg buf c).cur hi (by rw [length_resize]; omega)
          rw [length_resize] at hea
          have hfun : take cfg buf e false = take_arith cfg buf s w := by
            funext d c1
            exact htk buf d c1
          have hfr1 : from_raw cfg.Host e =
              fun bs => Val.int (reorder s w cfg.order cfg.Host (object_value cfg.Host s bs)) :=
            funext hfr
          simp [hrd, hfun, hea, hfr1]
    · simp
    · simp
    · simp

theorem C34_contiguous_equals_iterable_witness :
    is_scalar ty_int true 4 ∧ cfg_host.order = cfg_host.Host ∧ size_type_ok cfg_host = true ∧
    (priorityType cfg_host (.vector ty_int) = .ArithmeticContiguous ∧
    (∀ v wr, wr.ptr + (size_field_width cfg_host + v.elems.length * 4) ≤ wr.buf.length →
      append cfg_host (.vector ty_int) v wr = append_Iterable cfg_host ty_int v wr ∧
      ∃ wr1, append cfg_host (.vector ty_int) v wr = some wr1 ∧
        wr1.ptr = wr.ptr + (size_field_width cfg_host + v.elems.length * 4)) ∧
    (∀ buf dest c, c.ptr + c.restSize ≤ buf.length →
      (take cfg_host buf (.vector ty_int) false dest c).status =
        (take_Iterable cfg_host buf ty_int dest c).status ∧
      (take cfg_host buf (.vector ty_int) false dest c).val =
        (take_Iterable cfg_host buf ty_int dest c).val ∧
      ((take cfg_host buf (.vector ty_int) false dest c).status = .ok →
        (take cfg_host buf (.vector ty_int) false dest c).cur =
          (take_Iterable cfg_host buf ty_int dest c).cur))) :=
  ⟨Or.inl rfl, by decide, by rfl,
    C34_contiguous_equals_iterable cfg_host ty_int true 4 (Or.inl rfl) (by decide) (by rfl)⟩

theorem read_bytes_append (buf s : List Byte) (p n : Nat) (h : p + n ≤ buf.length) :
    read_bytes (buf ++ s) p n = read_bytes buf p n := by
  unfold read_bytes
  rw [if_pos h, if_pos (by rw [List.length_append]; omega)]
  congr 1
  rw [List.drop_append_of_le_length (by omega), List.take_append_of_le_length]
  rw [List.length_drop]
  omega

theorem mono_bulk (buf s : List Byte) (size : Nat) (decode : List Byte → Val) (val : Val) :
    Mono buf s (take_bulk buf size decode val) (take_bulk (buf ++ s) size decode val) := by
  intro c hc hok
  unfold take_bulk check_size at hok ⊢
  by_cases h1 : c.restSize < size
  · simp [h1] at hok
  · have h2 : ¬ c.restSize + s.length < size := by omega
    have h3 : c.ptr + size ≤ buf.length := by omega
    have h4 : read_bytes buf c.ptr size = some ((buf.drop c.ptr).take size) := by
      unfold read_bytes
      rw [if_pos h3]
    simp only [if_neg h1, if_neg h2, read_bytes_append buf s _ _ h3, h4]
    congr 2
    omega

theorem mono_arith (cfg : Config) (buf s : List Byte) (sg : Bool) (w : Nat) (val : Val) :
    Mono buf s (take_arith cfg buf sg w val) (take_arith cfg (buf ++ s) sg w val) := by
  intro c hc hok
  unfold take_arith check_size at hok ⊢
  by_cases h1 : c.restSize < w
  · simp [h1] at hok
  · have h2 : ¬ c.restSize + s.length < w := by omega
    have h3 : c.ptr + w ≤ buf.length := by omega
    have h4 : read_bytes buf c.ptr w = some ((buf.drop c.ptr).take w) := by
      unfold read_bytes
      rw [if_pos h3]
    simp only [if_neg h1, if_neg h2, read_bytes_append buf s _ _ h3, h4]
    congr 2
    omega

theorem mono_into {buf s : List Byte} (u : Bool) {f g : Val → Cursor → Taken}
    {fv gv : Cursor → Taken} (h1 : ∀ d, Mono buf s (f d) (g d)) (h2 : Mono buf s fv gv)
    (dest : Val) : Mono buf s (take_into u f fv dest) (take_into u g gv dest) := by
  intro c hc hok
  cases u
  · simp only [take_into, Bool.false_eq_true, ↓reduceIte] at hok ⊢
    have hv : (fv c).status = .ok := by
      cases hst : (fv c).status <;> simp [hst] at hok ⊢
    have := h2 c hc hv
    simp [this, hv]
  · simp only [take_into, ↓reduceIte] at hok ⊢
    exact h1 dest c hc hok

theorem mono_new {buf s : List Byte} (u : Bool) {f g : Val → Cursor → Taken}
    {fv gv : Cursor → Taken} (h1 : ∀ d, Mono buf s (f d) (g d)) (h2 : Mono buf s fv gv)
    (dflt : Val) : Mono buf s (take_new u f fv dflt) (take_new u g gv dflt) := by
  intro c hc hok
  cases u
  · simp only [take_new, Bool.false_eq_true, ↓reduceIte] at hok ⊢
    exact h2 c hc hok
  · simp only [take_new, ↓reduceIte] at hok ⊢
    exact h1 dflt c hc hok

theorem mono_each {buf s : List Byte} {f g : Val → Cursor → Taken}
    (hs : ∀ d, SafeStep buf (f d)) (h : ∀ d, Mono buf s (f d) (g d)) (ds : List Val) :
    MonoList buf s (take_each f ds) (take_each g ds) := by
  induction ds with
  | nil =>
      intro c _ _
      simp [take_each]
  | cons d ds ih =>
      intro c hc hok
      simp only [take_each] at hok ⊢
      cases hst : (f d c).status
      · have h1 := h d c hc hst
        have hsafe := hs d c hc
        rw [hst] at hsafe
        simp only [hst] at hok
        have h2 := ih _ (safe_inv hsafe hc) hok
        simp only [h1, h2, hst]
      · simp only [hst, reduceCtorEq] at hok
      · simp only [hst, reduceCtorEq] at hok
      · simp only [hst, reduceCtorEq] at hok

theorem mono_insert {buf s : List Byte} {f g : Cursor → Taken} (hs : SafeStep buf f)
    (h : Mono buf s f g) (ins : List Val → Val → List Val) (k : Nat) :
    ∀ acc, MonoList buf s (take_insert f ins k acc) (take_insert g ins k acc) := by
  induction k with
  | zero =>
      intro acc c _ _
      simp [take_insert]
  | succ k ih =>
      intro acc c hc hok
      simp only [take_insert] at hok ⊢
      cases hst : (f c).status
      · have h1 := h c hc hst
        have hsafe := hs c hc
        rw [hst] at hsafe
        simp only [hst] at hok
        have h2 := ih _ _ (safe_inv hsafe hc) hok
        simp only [h1, h2]
      · simp only [hst, reduceCtorEq] at hok
      · simp only [hst, reduceCtorEq] at hok
      · simp only [hst, reduceCtorEq] at hok

theorem mono_toTaken {buf s : List Byte} {f g : Cursor → TakenList}
    (h : MonoList buf s f g) :
    Mono buf s (fun c => (f c).toTaken) (fun c => (g c).toTaken) := by
  intro c hc hok
  have := h c hc hok
  simp [TakenList.toTaken, this]

theorem mono_size (cfg : Config) (buf s : List Byte) :
    Mono buf s (take_size cfg buf) (take_size cfg (buf ++ s)) :=
  mono_arith cfg buf s _ _ _

theorem count_exceeds_mono (cfg : Config) (e : Ty) (n r k : Nat)
    (h : count_exceeds cfg e n r = false) : count_exceeds cfg e n (r + k) = false := by
  unfold count_exceeds at h ⊢
  simp only [decide_eq_false_iff_not, not_lt] at h ⊢
  omega

theorem mono_iterable (cfg : Config) (buf s : List Byte) (e : Ty) (resizable : Bool)
    (ins : List Val → Val → List Val) (u : Bool) {f g : Val → Cursor → Taken}
    {fv gv : Cursor → Taken} (hs1 : ∀ d, SafeStep buf (f d)) (hs2 : SafeStep buf fv)
    (h1 : ∀ d, Mono buf s (f d) (g d)) (h2 : Mono buf s fv gv) (val : Val) :
    Mono buf s (take_iterable cfg buf e resizable ins u f fv val)
      (take_iterable cfg (buf ++ s) e resizable ins u g gv val) := by
  intro c hc hok
  have hsz := safe_size cfg buf c hc
  unfold take_iterable at hok ⊢
  simp only at hok ⊢
  cases hst : (take_size cfg buf c).status
  · have hm := mono_size cfg buf s c hc hst
    rw [hst] at hsz
    have hi := safe_inv hsz hc
    simp only [hst] at hok
    simp only [hm]
    cases hce : count_exceeds cfg e (to_size_t (take_size cfg buf c).val.toInt)
        (take_size cfg buf c).cur.restSize
    · have hce1 := count_exceeds_mono cfg e _ _ s.length hce
      simp only [hce, Bool.false_eq_true, ↓reduceIte] at hok
      simp only [hce1, Bool.false_eq_true, ↓reduceIte]
      cases u
      · simp only [Bool.false_eq_true, ↓reduceIte] at hok ⊢
        have := mono_insert hs2 h2 ins _ _ _ hi hok
        simp only [this]
      · cases resizable
        · simp only [Bool.false_eq_true, ↓reduceIte] at hok ⊢
          have := mono_insert (hs1 _) (h1 _) ins _ _ _ hi hok
          simp only [this]
        · simp only [↓reduceIte] at hok ⊢
          by_cases hmax : max_size cfg e < to_size_t (take_size cfg buf c).val.toInt
          · simp [hmax] at hok
          · simp only [if_neg hmax] at hok ⊢
            have := mono_each hs1 h1 _ _ hi hok
            simp only [this]
    · simp [hce] at hok
  · simp [hst] at hok
  · simp [hst] at hok
  · simp [hst] at hok

theorem mono_forward_list (cfg : Config) (buf s : List Byte) (e : Ty) (u : Bool)
    {f g : Val → Cursor → Taken} {fv gv : Cursor → Taken} (hs1 : ∀ d, SafeStep buf (f d))
    (hs2 : SafeStep buf fv) (h1 : ∀ d, Mono buf s (f d) (g d)) (h2 : Mono buf s fv gv)
    (val : Val) :
    Mono buf s (take_forward_list cfg buf e u f fv val)
      (take_forward_list cfg (buf ++ s) e u g gv val) := by
  intro c hc hok
  have hsz := safe_size cfg buf c hc
  unfold take_forward_list at hok ⊢
  simp only at hok ⊢
  cases hst : (take_size cfg buf c).status
  · have hm := mono_size cfg buf s c hc hst
    rw [hst] at hsz
    have hi := safe_inv hsz hc
    simp only [hst] at hok
    simp only [hm]
    cases hce : count_exceeds cfg e (to_size_t (take_size cfg buf c).val.toInt)
        (take_size cfg buf c).cur.restSize
    · have hce1 := count_exceeds_mono cfg e _ _ s.length hce
      simp only [hce, Bool.false_eq_true, ↓reduceIte] at hok
      simp only [hce1, Bool.false_eq_true, ↓reduceIte]
      have := mono_insert (safe_new u hs1 hs2 (default_val e)) (mono_new u h1 h2 (default_val e))
        seq_insert _ _ _ hi hok
      simp only [this]
    · simp [hce] at hok
  · simp [hst] at hok
  · simp [hst] at hok
  · simp [hst] at hok

theorem mono_contiguous (cfg : Config) (buf s : List Byte) (e : Ty) (val : Val) :
    Mono buf s (take_contiguous cfg buf e val) (take_contiguous cfg (buf ++ s) e val) := by
  intro c hc hok
  have hsz := safe_size cfg buf c hc
  cases hst : (take_size cfg buf c).status
  · have hm := mono_size cfg buf s c hc hst
    rw [hst] at hsz
    have hi := safe_inv hsz hc
    by_cases hlt : (take_size cfg buf c).cur.restSize <
        to_size_t (take_size cfg buf c).val.toInt * sizeof e % SIZE_MOD
    · unfold take_contiguous check_size at hok
      simp [hst, hlt] at hok
    · have hlt1 : ¬ (take_size cfg buf c).cur.restSize + s.length <
          to_size_t (take_size cfg buf c).val.toInt * sizeof e % SIZE_MOD := by omega
      by_cases hmax : max_size cfg e < to_size_t (take_size cfg buf c).val.toInt
      · unfold take_contiguous check_size at hok
        simp [hst, hlt, hmax] at hok
      · have h3 : (take_size cfg buf c).cur.ptr +
            to_size_t (take_size cfg buf c).val.toInt * sizeof e % SIZE_MOD ≤ buf.length := by
          omega
        have h4 : read_bytes buf (take_size cfg buf c).cur.ptr
            (to_size_t (take_size cfg buf c).val.toInt * sizeof e % SIZE_MOD) =
            some ((buf.drop (take_size cfg buf c).cur.ptr).take
              (to_size_t (take_size cfg buf c).val.toInt * sizeof e % SIZE_MOD)) := by
          unfold read_bytes
          rw [if_pos h3]
        have hf : take_contiguous cfg buf e val c =
            ⟨.ok, .seq ((chunks (sizeof e) (to_size_t (take_size cfg buf c).val.toInt)
                ((buf.drop (take_size cfg buf c).cur.ptr).take
                  (to_size_t (take_size cfg buf c).val.toInt * sizeof e % SIZE_MOD))).map
                (from_raw cfg.Host e)),
              ⟨(take_size cfg buf c).cur.ptr +
                  to_size_t (take_size cfg buf c).val.toInt * sizeof e % SIZE_MOD,
                (take_size cfg buf c).cur.restSize -
                  to_size_t (take_size cfg buf c).val.toInt * sizeof e % SIZE_MOD⟩⟩ := by
          unfold take_contiguous check_size
          simp only [hst, if_neg hlt, if_neg hmax, h4]
        rw [hf]
        unfold take_contiguous check_size
        simp only [hm, if_neg hlt1, if_neg hmax, read_bytes_append buf s _ _ h3, h4,
          Taken.mk.injEq, Cursor.mk.injEq, true_and]
        omega
  · unfold take_contiguous at hok
    simp [hst] at hok
  · unfold take_contiguous at hok
    simp [hst] at hok
  · unfold take_contiguous at hok
    simp [hst] at hok

theorem mono_stay (buf s : List Byte) (val : Val) :
    Mono buf s (fun c => ⟨.ok, val, c⟩) (fun c => ⟨.ok, val, c⟩) :=
  fun _ _ _ => rfl

mutual
theorem take_mono (cfg : Config) (buf s : List Byte) (T : Ty) (ref : Bool) (val : Val) :
    Mono buf s (take cfg buf T ref val) (take cfg (buf ++ s) T ref val) := by
  cases T with
  | arith sg w => simpa only [take] using mono_arith cfg buf s sg w val
  | enum sg w => simpa only [take] using mono_arith cfg buf s sg w val
  | carray e n =>
      intro c hc hok
      simp only [take] at hok ⊢
      split at hok
      · exact mono_bulk buf s _ _ val c hc hok
      · exact mono_toTaken (mono_each
          (fun d => safe_into _ (fun d1 => take_safe cfg buf e true d1)
            (take_val_safe cfg buf e) d)
          (fun d => mono_into _ (fun d1 => take_mono cfg buf s e true d1)
            (take_val_mono cfg buf s e) d) _) c hc hok
      · rfl
  | stdarray e n =>
      intro c hc hok
      simp only [take] at hok ⊢
      cases hp : priority_type cfg (.stdarray e n) ref <;> simp only [hp] at hok ⊢
      · exact mono_bulk buf s _ _ val c hc hok
      · exact mono_toTaken (mono_each
          (fun d => safe_into _ (fun d1 => take_safe cfg buf e false d1)
            (take_val_safe cfg buf e) d)
          (fun d => mono_into _ (fun d1 => take_mono cfg buf s e false d1)
            (take_val_mono cfg buf s e) d) _) c hc hok
  | forward_list e =>
      intro c hc hok
      simp only [take] at hok ⊢
      cases hp : priority_type cfg (.forward_list e) ref <;> simp only [hp] at hok ⊢
      exact mono_forward_list cfg buf s e _ (fun d1 => take_safe cfg buf e false d1)
        (take_val_safe cfg buf e) (fun d1 => take_mono cfg buf s e false d1)
        (take_val_mono cfg buf s e) val c hc hok
  | vector e =>
      intro c hc hok
      simp only [take] at hok ⊢
      cases hp : priority_type cfg (.vector e) ref <;> simp only [hp] at hok ⊢
      · exact mono_contiguous cfg buf s e val c hc hok
      · exact mono_iterable cfg buf s e _ _ _ (fun d1 => take_safe cfg buf e false d1)
          (take_val_safe cfg buf e) (fun d1 => take_mono cfg buf s e false d1)
          (take_val_mono cfg buf s e) val c hc hok
  | list e =>
      intro c hc hok
      simp only [take] at hok ⊢
      exact mono_iterable cfg buf s e _ _ _ (fun d1 => take_safe cfg buf e false d1)
        (take_val_safe cfg buf e) (fun d1 => take_mono cfg buf s e false d1)
        (take_val_mono cfg buf s e) val c hc hok
  | set e =>
      intro c hc hok
      simp only [take] at hok ⊢
      exact mono_iterable cfg buf s e _ _ _ (fun d1 => take_safe cfg buf e false d1)
        (take_val_safe cfg buf e) (fun d1 => take_mono cfg buf s e false d1)
        (take_val_mono cfg buf s e) val c hc hok
  | tuple hc fs =>
      intro c hc1 hok
      simp only [take] at hok ⊢
      cases hp : priority_type cfg (.tuple hc fs) ref <;> simp only [hp] at hok ⊢
      exact mono_toTaken (take_tuple_set_mono cfg buf s fs val.elems) c hc1 hok
  | aggregate fs =>
      intro c hc1 hok
      simp only [take] at hok ⊢
      cases hp : priority_type cfg (.aggregate fs) ref <;> simp only [hp] at hok ⊢
      exact mono_toTaken (take_tuple_set_mono cfg buf s fs val.elems) c hc1 hok
  | vector_bool =>
      intro c hc hok
      simp only [take] at hok ⊢
      cases hp : priority_type cfg .vector_bool ref <;> simp only [hp] at hok ⊢
      exact mono_iterable cfg buf s _ _ _ _ (fun d1 => safe_arith cfg buf false 1 d1)
        (fun c1 _ => safe_stay c1 _ (by simp)) (fun d1 => mono_arith cfg buf s false 1 d1)
        (mono_stay buf s _) val c hc hok
  | pointer => exact fun c _ _ => by simp [take]
  | bitset => exact fun c _ _ => by simp [take]
  | initializer_list => exact fun c _ _ => by simp [take]
theorem take_val_mono (cfg : Config) (buf s : List Byte) (T : Ty) :
    Mono buf s (take_val cfg buf T) (take_val cfg (buf ++ s) T) := by
  cases T with
  | tuple hc fs =>
      simpa only [take_val] using mono_toTaken (take_tuple_construct_mono cfg buf s fs [])
  | aggregate fs =>
      simpa only [take_val] using mono_toTaken (take_tuple_construct_mono cfg buf s fs [])
  | stdarray e n =>
      simpa only [take_val] using mono_toTaken (mono_insert
        (safe_new _ (fun d1 => take_safe cfg buf e false d1) (take_val_safe cfg buf e) _)
        (mono_new _ (fun d1 => take_mono cfg buf s e false d1) (take_val_mono cfg buf s e) _)
        seq_insert n [])
  | arith sg w => exact fun c _ _ => by simp [take_val]
  | enum sg w => exact fun c _ _ => by simp [take_val]
  | carray e n => exact fun c _ _ => by simp [take_val]
  | forward_list e => exact fun c _ _ => by simp [take_val]
  | vector e => exact fun c _ _ => by simp [take_val]
  | list e => exact fun c _ _ => by simp [take_val]
  | set e => exact fun c _ _ => by simp [take_val]
  | vector_bool => exact fun c _ _ => by simp [take_val]
  | pointer => exact fun c _ _ => by simp [take_val]
  | bitset => exact fun c _ _ => by simp [take_val]
  | initializer_list => exact fun c _ _ => by simp [take_val]
theorem take_tuple_set_mono (cfg : Config) (buf s : List Byte) (Ts : List Ty)
    (ds : List Val) :
    MonoList buf s (take_tuple_set cfg buf Ts ds) (take_tuple_set cfg (buf ++ s) Ts ds) := by
  cases Ts with
  | nil => exact fun c _ _ => by simp [take_tuple_set]
  | cons t ts =>
      intro c hc hok
      simp only [take_tuple_set] at hok ⊢
      have hsafe := safe_into (useReference cfg t false) (fun d1 => take_safe cfg buf t false d1)
        (take_val_safe cfg buf t) (ds.headD (default_val t)) c hc
      have hm := mono_into (useReference cfg t false)
        (fun d1 => take_mono cfg buf s t false d1) (take_val_mono cfg buf s t)
        (ds.headD (default_val t)) c hc
      cases hst : (take_into (useReference cfg t false) (take cfg buf t false)
          (take_val cfg buf t) (ds.headD (default_val t)) c).status
      · rw [hst] at hsafe
        simp only [hst] at hok
        have h2 := take_tuple_set_mono cfg buf s ts ds.tail _ (safe_inv hsafe hc) hok
        simp only [hm hst, h2, hst]
      · simp only [hst, reduceCtorEq] at hok
      · simp only [hst, reduceCtorEq] at hok
      · simp only [hst, reduceCtorEq] at hok
theorem take_tuple_construct_mono (cfg : Config) (buf s : List Byte) (Ts : List Ty)
    (args : List Val) :
    MonoList buf s (take_tuple_construct cfg buf Ts args)
      (take_tuple_construct cfg (buf ++ s) Ts args) := by
  cases Ts with
  | nil => exact fun c _ _ => by simp [take_tuple_construct]
  | cons t ts =>
      intro c hc hok
      simp only [take_tuple_construct] at hok ⊢
      have hsafe := safe_new (useReference cfg t false) (fun d1 => take_safe cfg buf t false d1)
        (take_val_safe cfg buf t) (default_val t) c hc
      have hm := mono_new (useReference cfg t false)
        (fun d1 => take_mono cfg buf s t false d1) (take_val_mono cfg buf s t)
        (default_val t) c hc
      cases hst : (take_new (useReference cfg t false) (take cfg buf t false)
          (take_val cfg buf t) (default_val t) c).status
      · rw [hst] at hsafe
        simp only [hst] at hok
        have h2 := take_tuple_construct_mono cfg buf s ts _ _ (safe_inv hsafe hc) hok
        simp only [hm hst, h2]
      · simp only [hst, reduceCtorEq] at hok
      · simp only [hst, reduceCtorEq] at hok
      · simp only [hst, reduceCtorEq] at hok
end

theorem readData_mono (cfg : Config) (buf s : List Byte) (Ts : List Ty) :
    ∀ ds, MonoList buf s (readData cfg buf Ts ds) (readData cfg (buf ++ s) Ts ds) := by
  induction Ts with
  | nil => exact fun ds c _ _ => by simp [readData]
  | cons t ts ih =>
      intro ds c hc hok
      simp only [readData] at hok ⊢
      have hsafe := safe_into (useReference cfg t false) (fun d1 => take_safe cfg buf t false d1)
        (take_val_safe cfg buf t) (ds.headD (default_val t)) c hc
      have hm := mono_into (useReference cfg t false)
        (fun d1 => take_mono cfg buf s t false d1) (take_val_mono cfg buf s t)
        (ds.headD (default_val t)) c hc
      cases hst : (take_into (useReference cfg t false) (take cfg buf t false)
          (take_val cfg buf t) (ds.headD (default_val t)) c).status
      · rw [hst] at hsafe
        simp only [hst] at hok
        have h2 := ih ds.tail _ (safe_inv hsafe hc) hok
        simp only [hm hst, h2, hst]
      · simp only [hst, reduceCtorEq] at hok
      · simp only [hst, reduceCtorEq] at hok
      · simp only [hst, reduceCtorEq] at hok

/-- Claim C37: decoding is monotone in the buffer.  For every list of types `Ts`, buffer `b`,
byte string `s` and destinations, if `deserialize(b, dests...)` succeeds then
`deserialize(b ++ s, dests...)` succeeds with the same values and the same number of consumed
bytes, the remaining count being larger by the length of `s`; the same holds for the
value-returning `deserialize<T>(b)`; and, equivalently, a failure on `b ++ s` is a failure
on `b`. -/
theorem C37_decoding_monotone (cfg : Config) (b s : List Byte) :
    (∀ Ts dests, (deserialize cfg Ts b dests).status = .ok →
      deserialize cfg Ts (b ++ s) dests =
        ⟨.ok, (deserialize cfg Ts b dests).vals,
          ⟨(deserialize cfg Ts b dests).cur.ptr,
            (deserialize cfg Ts b dests).cur.restSize + s.length⟩⟩) ∧
    (∀ T, (deserialize_value cfg T b).status = .ok →
      deserialize_value cfg T (b ++ s) =
        ⟨.ok, (deserialize_value cfg T b).val,
          ⟨(deserialize_value cfg T b).cur.ptr,
            (deserialize_value cfg T b).cur.restSize + s.length⟩⟩) ∧
    (∀ Ts dests, (deserialize cfg Ts (b ++ s) dests).status ≠ .ok →
      (deserialize cfg Ts b dests).status ≠ .ok) ∧
    (∀ T, (deserialize_value cfg T (b ++ s)).status ≠ .ok →
      (deserialize_value cfg T b).status ≠ .ok) := by
  have h1 : ∀ Ts dests, (deserialize cfg Ts b dests).status = .ok →
      deserialize cfg Ts (b ++ s) dests =
        ⟨.ok, (deserialize cfg Ts b dests).vals,
          ⟨(deserialize cfg Ts b dests).cur.ptr,
            (deserialize cfg Ts b dests).cur.restSize + s.length⟩⟩ := by
    intro Ts dests hok
    have h := readData_mono cfg b s Ts dests ⟨0, b.length⟩ (by simp) hok
    simpa only [deserialize, List.length_append] using h
  have h2 : ∀ T, (deserialize_value cfg T b).status = .ok →
      deserialize_value cfg T (b ++ s) =
        ⟨.ok, (deserialize_value cfg T b).val,
          ⟨(deserialize_value cfg T b).cur.ptr,
            (deserialize_value cfg T b).cur.restSize + s.length⟩⟩ := by
    intro T hok
    have h := mono_new (useReference cfg T false) (fun d1 => take_mono cfg b s T false d1)
      (take_val_mono cfg b s T) (default_val T) ⟨0, b.length⟩ (by simp) hok
    simpa only [deserialize_value, readData_value, List.length_append] using h
  refine ⟨h1, h2, ?_, ?_⟩
  · intro Ts dests hf hok
    exact hf (by rw [h1 Ts dests hok])
  · intro T hf hok
    exact hf (by rw [h2 T hok])

theorem C37_decoding_monotone_witness :
    (deserialize cfg_host [ty_list_int] bytes_1_2 [default_val ty_list_int]).status = .ok ∧
    deserialize cfg_host [ty_list_int] (bytes_1_2 ++ [7, 7]) [default_val ty_list_int] =
      ⟨.ok, [.seq [.int 1, .int 2]], ⟨16, 2⟩⟩ ∧
    (deserialize_value cfg_host ty_list_int [2, 0, 0, 0, 0, 0, 0, 0, 1, 0, 0, 0]).status ≠ .ok :=
  ⟨by rfl,
    ((C37_decoding_monotone cfg_host bytes_1_2 [7, 7]).1 [ty_list_int]
      [default_val ty_list_int] (by rfl)).trans (by rfl),
    (C37_decoding_monotone cfg_host [2, 0, 0, 0, 0, 0, 0, 0, 1, 0, 0, 0] [2, 0]).2.2.2
      ty_list_int (by decide)⟩

theorem consumed_nil (buf : List Byte) (c : Cursor) : Consumed buf c c [] := by
  simp [Consumed]

theorem consumed_valid {buf : List Byte} {c c1 : Cursor} {bs : List Byte}
    (h : Consumed buf c c1 bs) : c1.ptr + c1.restSize = c.ptr + c.restSize := by
  obtain ⟨h1, h2, _⟩ := h
  omega

theorem consumed_append {buf : List Byte} {c c1 c2 : Cursor} {bs1 bs2 : List Byte}
    (h1 : Consumed buf c c1 bs1) (h2 : Consumed buf c1 c2 bs2) :
    Consumed buf c c2 (bs1 ++ bs2) := by
  obtain ⟨a1, a2, a3⟩ := h1
  obtain ⟨b1, b2, b3⟩ := h2
  refine ⟨by rw [List.length_append]; omega, by rw [List.length_append]; omega, ?_⟩
  rw [List.length_append, List.take_add, a3, List.drop_drop, ← a1, b3]

theorem consumed_length {buf : List Byte} {c c1 : Cursor} {bs : List Byte}
    (h : Consumed buf c c1 bs) : bs.length ≤ c.restSize := by
  obtain ⟨_, h2, _⟩ := h
  omega

/-- A scalar read that ends normally has stored the integer whose object representation in the
configured order the next `w` bytes are. -/
theorem take_arith_ok (cfg : Config) (buf : List Byte) (s : Bool) (w : Nat) (d : Val)
    (c : Cursor) (hc : c.ptr + c.restSize ≤ buf.length)
    (hok : (take_arith cfg buf s w d c).status = .ok) :
    ((buf.drop c.ptr).take w).length = w ∧
    take_arith cfg buf s w d c =
      ⟨.ok, .int (object_value cfg.order s ((buf.drop c.ptr).take w)),
        ⟨c.ptr + w, c.restSize - w⟩⟩ ∧
    Consumed buf c ⟨c.ptr + w, c.restSize - w⟩ ((buf.drop c.ptr).take w) := by
  by_cases h : c.restSize < w
  · simp [take_arith, check_size, h] at hok
  · have hl : ((buf.drop c.ptr).take w).length = w := by
      rw [List.length_take, List.length_drop]
      omega
    have hr := reorder_object_value s cfg.Host cfg.order ((buf.drop c.ptr).take w)
    rw [hl] at hr
    refine ⟨hl, ?_, ?_⟩
    · unfold take_arith check_size read_bytes
      rw [if_neg h]
      simp only
      rw [if_pos (by omega)]
      simp only [hr]
    · refine ⟨by simp only [hl], by simp only [hl]; omega, by rw [hl]⟩

theorem take_bulk_ok (buf : List Byte) (size : Nat) (decode : List Byte → Val) (d : Val)
    (c : Cursor) (hc : c.ptr + c.restSize ≤ buf.length)
    (hok : (take_bulk buf size decode d c).status = .ok) :
    ((buf.drop c.ptr).take size).length = size ∧
    take_bulk buf size decode d c =
      ⟨.ok, decode ((buf.drop c.ptr).take size), ⟨c.ptr + size, c.restSize - size⟩⟩ ∧
    Consumed buf c ⟨c.ptr + size, c.restSize - size⟩ ((buf.drop c.ptr).take size) := by
  by_cases h : c.restSize < size
  · simp [take_bulk, check_size, h] at hok
  · have hl : ((buf.drop c.ptr).take size).length = size := by
      rw [List.length_take, List.length_drop]
      omega
    refine ⟨hl, ?_, ?_⟩
    · unfold take_bulk check_size read_bytes
      rw [if_neg h]
      simp only
      rw [if_pos (by omega)]
    · refine ⟨by simp only [hl], by simp only [hl]; omega, by rw [hl]⟩

theorem valid_width_pos (w : Nat) (h : valid_width w = true) : 1 ≤ w := by
  simp [valid_width] at h
  omega

theorem has_type_object_value (cfg : Config) (o : ByteOrder) (s : Bool) (bs : List Byte)
    (hw : valid_width bs.length = true) :
    has_type cfg (.arith s bs.length) (.int (object_value o s bs)) = true ∧
    has_type cfg (.enum s bs.length) (.int (object_value o s bs)) = true := by
  have h1 := valid_width_pos _ hw
  have h2 : int_in_range s bs.length (object_value o s bs) = true := by
    cases o <;> simp only [object_value]
    · exact wrap_in_range s _ _ h1
    · have := wrap_in_range s bs.reverse.length (of_le_bytes bs.reverse)
        (by rw [List.length_reverse]; exact h1)
      rwa [List.length_reverse] at this
  simp [has_type, hw, h2]

theorem canon_arith (cfg : Config) (buf : List Byte) (s : Bool) (w : Nat) (d : Val)
    (hw : valid_width w = true) :
    Canon cfg buf (.arith s w) (take_arith cfg buf s w d) ∧
    Canon cfg buf (.enum s w) (take_arith cfg buf s w d) := by
  have key : ∀ c : Cursor, c.ptr + c.restSize ≤ buf.length →
      (take_arith cfg buf s w d c).status = .ok →
      (has_type cfg (.arith s w) (take_arith cfg buf s w d c).val = true ∧
        has_type cfg (.enum s w) (take_arith cfg buf s w d c).val = true) ∧
      Consumed buf c (take_arith cfg buf s w d c).cur
        (object_bytes cfg.order w (take_arith cfg buf s w d c).val.toInt) := by
    intro c hc hok
    obtain ⟨hl, he, hcons⟩ := take_arith_ok cfg buf s w d c hc hok
    have ht := has_type_object_value cfg cfg.order s ((buf.drop c.ptr).take w) (by rw [hl]; exact hw)
    have hb := object_bytes_object_value cfg.order s ((buf.drop c.ptr).take w)
    rw [hl] at ht hb
    rw [he]
    simp only [Val.toInt, hb]
    exact ⟨ht, hcons⟩
  constructor
  · intro c hc hok
    have := key c hc hok
    simp only [encode]
    exact ⟨this.1.1, this.2⟩
  · intro c hc hok
    have := key c hc hok
    simp only [encode]
    exact ⟨this.1.2, this.2⟩

theorem length_chunks (k n : Nat) : ∀ bs : List Byte, (chunks k n bs).length = n := by
  induction n with
  | zero => intro bs; rfl
  | succ n ih => intro bs; simp [chunks, ih]

theorem chunks_mem_length (k n : Nat) : ∀ bs : List Byte, bs.length = n * k →
    ∀ y ∈ chunks k n bs, y.length = k := by
  induction n with
  | zero => intro bs _ y hy; simp [chunks] at hy
  | succ n ih =>
      intro bs hl y hy
      simp only [chunks, List.mem_cons] at hy
      rcases hy with rfl | hy
      · rw [List.length_take, hl, Nat.succ_mul]
        omega
      · exact ih (bs.drop k) (by rw [List.length_drop, hl, Nat.succ_mul]; omega) y hy

theorem flatten_chunks (k n : Nat) : ∀ bs : List Byte, bs.length = n * k →
    (chunks k n bs).flatten = bs := by
  induction n with
  | zero =>
      intro bs hl
      simp only [Nat.zero_mul, List.length_eq_zero] at hl
      simp [chunks, hl]
  | succ n ih =>
      intro bs hl
      simp only [chunks, List.flatten_cons]
      rw [ih (bs.drop k) (by rw [List.length_drop, hl, Nat.succ_mul]; omega), List.take_append_drop]

/-- Under `order = Host`, the bytes copied into an object of a bulk-copied type are the wire
format of the value they leave there. -/
theorem encode_from_raw (cfg : Config) (hH : cfg.order = cfg.Host) (e : Ty)
    (hb : bulk_copyable cfg e = true) (hw : widths_ok e = true) (bs : List Byte)
    (hl : bs.length = sizeof e) :
    has_type cfg e (from_raw cfg.Host e bs) = true ∧ encode cfg e (from_raw cfg.Host e bs) = bs := by
  cases e with
  | arith s w =>
      simp only [sizeof] at hl
      simp only [widths_ok] at hw
      subst hl
      have := has_type_object_value cfg cfg.Host s bs hw
      simp only [from_raw, encode, Val.toInt, hH, object_bytes_object_value]
      exact ⟨this.1, trivial⟩
  | enum s w =>
      simp only [sizeof] at hl
      simp only [widths_ok] at hw
      subst hl
      have := has_type_object_value cfg cfg.Host s bs hw
      simp only [from_raw, encode, Val.toInt, hH, object_bytes_object_value]
      exact ⟨this.2, trivial⟩
  | carray e1 n =>
      have h' : 0 < n ∧ bulk_copyable cfg e1 = true ∧ cfg.order = cfg.Host := by
        simpa [bulk_copyable, qualifies, and_assoc] using hb
      simp only [sizeof] at hl
      simp only [widths_ok] at hw
      have hrec : ∀ y ∈ chunks (sizeof e1) n bs,
          has_type cfg e1 (from_raw cfg.Host e1 y) = true ∧
            encode cfg e1 (from_raw cfg.Host e1 y) = y :=
        fun y hy => encode_from_raw cfg hH e1 h'.2.1 hw y (chunks_mem_length _ _ bs hl y hy)
      constructor
      · simp only [from_raw, has_type, List.length_map, length_chunks, decide_True, Bool.true_and,
          List.all_eq_true, List.mem_map]
        rintro x ⟨y, hy, rfl⟩
        exact (hrec y hy).1
      · simp only [from_raw, encode, Val.elems, List.map_map]
        rw [map_congr_mem _ (encode cfg e1 ∘ from_raw cfg.Host e1) id
          (fun y hy => (hrec y hy).2), List.map_id, flatten_chunks _ _ bs hl]
  | _ => simp [bulk_copyable, qualifies, is_tuple_serializable] at hb

theorem canon_each (cfg : Config) (buf : List Byte) (e : Ty) (f : Val → Cursor → Taken) :
    ∀ ds : List Val, (∀ d ∈ ds, Canon cfg buf e (f d)) →
      ∀ c : Cursor, c.ptr + c.restSize ≤ buf.length → (take_each f ds c).status = .ok →
        (take_each f ds c).vals.length = ds.length ∧
        (∀ v ∈ (take_each f ds c).vals, has_type cfg e v = true) ∧
        Consumed buf c (take_each f ds c).cur
          (((take_each f ds c).vals.map (encode cfg e)).flatten) := by
  intro ds
  induction ds with
  | nil =>
      intro _ c _ _
      simp [take_each, consumed_nil]
  | cons d ds ih =>
      intro h c hc hok
      simp only [take_each] at hok ⊢
      cases hst : (f d c).status
      · simp only [hst] at hok ⊢
        obtain ⟨ht, hco⟩ := h d (by simp) c hc hst
        have hv := consumed_valid hco
        obtain ⟨i1, i2, i3⟩ := ih (fun d1 hd1 => h d1 (by simp [hd1])) (f d c).cur (by omega) hok
        refine ⟨by simp [i1], ?_, ?_⟩
        · intro v hv1
          simp only [List.mem_cons] at hv1
          rcases hv1 with rfl | hv1
          · exact ht
          · exact i2 v hv1
        · simp only [List.map_cons, List.flatten_cons]
          exact consumed_append hco i3
      · simp only [hst, reduceCtorEq] at hok
      · simp only [hst, reduceCtorEq] at hok
      · simp only [hst, reduceCtorEq] at hok

theorem canon_insert (cfg : Config) (buf : List Byte) (e : Ty) (g : Cursor → Taken)
    (hg : Canon cfg buf e g) :
    ∀ (k : Nat) (acc : List Val) (c : Cursor), c.ptr + c.restSize ≤ buf.length →
      (take_insert g seq_insert k acc c).status = .ok →
      ∃ news : List Val, (take_insert g seq_insert k acc c).vals = acc ++ news ∧
        news.length = k ∧ (∀ v ∈ news, has_type cfg e v = true) ∧
        Consumed buf c (take_insert g seq_insert k acc c).cur
          ((news.map (encode cfg e)).flatten) := by
  intro k
  induction k with
  | zero =>
      intro acc c _ _
      exact ⟨[], by simp [take_insert, consumed_nil]⟩
  | succ k ih =>
      intro acc c hc hok
      simp only [take_insert] at hok ⊢
      cases hst : (g c).status
      · simp only [hst] at hok ⊢
        obtain ⟨ht, hco⟩ := hg c hc hst
        have hv := consumed_valid hco
        obtain ⟨news, i1, i2, i3, i4⟩ := ih (seq_insert acc (g c).val) (g c).cur (by omega) hok
        refine ⟨(g c).val :: news, ?_, by simp [i2], ?_, ?_⟩
        · rw [i1]
          simp [seq_insert]
        · intro v hv1
          simp only [List.mem_cons] at hv1
          rcases hv1 with rfl | hv1
          · exact ht
          · exact i3 v hv1
        · simp only [List.map_cons, List.flatten_cons]
          exact consumed_append hco i4
      · simp only [hst, reduceCtorEq] at hok
      · simp only [hst, reduceCtorEq] at hok
      · simp only [hst, reduceCtorEq] at hok

theorem object_bytes_bit_pattern (o : ByteOrder) (w : Nat) (x : Int) :
    object_bytes o w ((bit_pattern w x : Nat) : Int) = object_bytes o w x := by
  have h : bit_pattern w ((bit_pattern w x : Nat) : Int) = bit_pattern w x := by
    rw [bit_pattern_cast]
    unfold bit_pattern
    rw [Int.emod_emod_of_dvd _ (dvd_refl _)]
  cases o <;> simp only [object_bytes, h]

/-- A length prefix read normally is the wire format of the count it is converted to, for a
size type of the width of `size_t`. -/
theorem take_size_ok (cfg : Config) (buf : List Byte) (c : Cursor)
    (hsz : size_field_width cfg = size_t_bytes) (hc : c.ptr + c.restSize ≤ buf.length)
    (hok : (take_size cfg buf c).status = .ok) :
    Consumed buf c (take_size cfg buf c).cur
      (count_bytes cfg (to_size_t (take_size cfg buf c).val.toInt)) := by
  unfold take_size at hok ⊢
  obtain ⟨hl, he, hcons⟩ := take_arith_ok cfg buf _ _ _ c hc hok
  have hb := object_bytes_object_value cfg.order (size_type_t cfg).signed
    ((buf.drop c.ptr).take (size_field_width cfg))
  rw [hl] at hb
  rw [he]
  simp only [Val.toInt, count_bytes, to_size_t]
  rw [← hsz, object_bytes_bit_pattern, hb]
  exact hcons

theorem le_max_size_of_mul_le (cfg : Config) (e : Ty) (n : Nat)
    (hm : 1 ≤ byte_minsize cfg e) (h : n * byte_minsize cfg e ≤ PTRDIFF_MAX) :
    n ≤ max_size cfg e := by
  unfold max_size
  rw [max_eq_right hm]
  exact (Nat.le_div_iff_mul_le (by omega)).2 h

theorem count_le_max_size (cfg : Config) (buf : List Byte) (e : Ty) (c c1 : Cursor)
    (xs : List Val) (hbuf : buf.length ≤ PTRDIFF_MAX) (hc : c.ptr + c.restSize ≤ buf.length)
    (hm : 1 ≤ byte_minsize cfg e)
    (hle : ∀ v ∈ xs, byte_minsize cfg e ≤ (encode cfg e v).length)
    (hco : Consumed buf c c1 ((xs.map (encode cfg e)).flatten)) :
    xs.length ≤ max_size cfg e := by
  have h1 := flatten_length_ge cfg e (encode cfg e) xs hle
  have h2 := consumed_length hco
  exact le_max_size_of_mul_le cfg e _ hm (by omega)

theorem canon_iterable (cfg : Config) (buf : List Byte) (e : Ty) (resizable : Bool)
    (useRef : Bool) (by_ref : Val → Cursor → Taken) (by_val : Cursor → Taken)
    (hsz : size_field_width cfg = size_t_bytes) (hbuf : buf.length ≤ PTRDIFF_MAX)
    (hm : 1 ≤ byte_minsize cfg e)
    (hle : ∀ v, has_type cfg e v = true → byte_minsize cfg e ≤ (encode cfg e v).length)
    (href : useRef = true → Canon cfg buf e (by_ref (default_val e)))
    (hval : useRef = false → Canon cfg buf e by_val)
    (c : Cursor) (hc : c.ptr + c.restSize ≤ buf.length)
    (hok : (take_iterable cfg buf e resizable seq_insert useRef by_ref by_val (.seq []) c).status
      = .ok) :
    ∃ xs : List Val,
      (take_iterable cfg buf e resizable seq_insert useRef by_ref by_val (.seq []) c).val =
        .seq xs ∧
      xs.length ≤ max_size cfg e ∧ (∀ v ∈ xs, has_type cfg e v = true) ∧
      Consumed buf c
        (take_iterable cfg buf e resizable seq_insert useRef by_ref by_val (.seq []) c).cur
        (count_bytes cfg xs.length ++ (xs.map (encode cfg e)).flatten) := by
  cases hst : (take_size cfg buf c).status
  case ok =>
    have hs := take_size_ok cfg buf c hsz hc hst
    have hv := consumed_valid hs
    have hc1 : (take_size cfg buf c).cur.ptr + (take_size cfg buf c).cur.restSize ≤ buf.length := by
      omega
    generalize hn : to_size_t (take_size cfg buf c).val.toInt = n at hs
    unfold take_iterable at hok ⊢
    simp only [hst, hn, Val.elems] at hok ⊢
    by_cases hce : count_exceeds cfg e n (take_size cfg buf c).cur.restSize = true
    · simp only [hce, ↓reduceIte, reduceCtorEq] at hok
    · simp only [hce, Bool.false_eq_true, ↓reduceIte] at hok ⊢
      cases useRef with
      | true =>
          cases resizable with
          | true =>
              simp only [↓reduceIte] at hok ⊢
              by_cases hmax : max_size cfg e < n
              · simp only [hmax, ↓reduceIte, reduceCtorEq] at hok
              · simp only [hmax, ↓reduceIte, resize_nil] at hok ⊢
                obtain ⟨i1, i2, i3⟩ := canon_each cfg buf e by_ref _
                  (fun d hd => by rw [List.eq_of_mem_replicate hd]; exact href rfl) _ hc1 hok
                rw [List.length_replicate] at i1
                refine ⟨_, rfl, by omega, i2, ?_⟩
                rw [i1]
                exact consumed_append hs i3
          | false =>
              simp only [↓reduceIte, Bool.false_eq_true] at hok ⊢
              obtain ⟨news, i1, i2, i3, i4⟩ :=
                canon_insert cfg buf e _ (href rfl) n [] _ hc1 hok
              rw [List.nil_append] at i1
              refine ⟨news, by rw [i1], ?_, i3, ?_⟩
              · exact count_le_max_size cfg buf e _ _ news hbuf hc1 hm
                  (fun v hv1 => hle v (i3 v hv1)) i4
              · rw [i2]
                exact consumed_append hs i4
      | false =>
          simp only [Bool.false_eq_true, ↓reduceIte] at hok ⊢
          obtain ⟨news, i1, i2, i3, i4⟩ := canon_insert cfg buf e _ (hval rfl) n [] _ hc1 hok
          rw [List.nil_append] at i1
          refine ⟨news, by rw [i1], ?_, i3, ?_⟩
          · exact count_le_max_size cfg buf e _ _ news hbuf hc1 hm
              (fun v hv1 => hle v (i3 v hv1)) i4
          · rw [i2]
            exact consumed_append hs i4
  all_goals simp [take_iterable, hst] at hok

theorem canon_forward_list (cfg : Config) (buf : List Byte) (e : Ty)
    (useRef : Bool) (by_ref : Val → Cursor → Taken) (by_val : Cursor → Taken)
    (hsz : size_field_width cfg = size_t_bytes) (hbuf : buf.length ≤ PTRDIFF_MAX)
    (hm : 1 ≤ byte_minsize cfg e)
    (hle : ∀ v, has_type cfg e v = true → byte_minsize cfg e ≤ (encode cfg e v).length)
    (hg : Canon cfg buf e (take_new useRef by_ref by_val (default_val e)))
    (c : Cursor) (hc : c.ptr + c.restSize ≤ buf.length)
    (hok : (take_forward_list cfg buf e useRef by_ref by_val (.seq []) c).status = .ok) :
    ∃ xs : List Val,
      (take_forward_list cfg buf e useRef by_ref by_val (.seq []) c).val = .seq xs ∧
      xs.length ≤ max_size cfg e ∧ (∀ v ∈ xs, has_type cfg e v = true) ∧
      Consumed buf c (take_forward_list cfg buf e useRef by_ref by_val (.seq []) c).cur
        (count_bytes cfg xs.length ++ (xs.map (encode cfg e)).flatten) := by
  cases hst : (take_size cfg buf c).status
  case ok =>
    have hs := take_size_ok cfg buf c hsz hc hst
    have hv := consumed_valid hs
    have hc1 : (take_size cfg buf c).cur.ptr + (take_size cfg buf c).cur.restSize ≤ buf.length := by
      omega
    generalize hn : to_size_t (take_size cfg buf c).val.toInt = n at hs
    unfold take_forward_list at hok ⊢
    simp only [hst, hn, Val.elems] at hok ⊢
    by_cases hce : count_exceeds cfg e n (take_size cfg buf c).cur.restSize = true
    · simp only [hce, ↓reduceIte, reduceCtorEq] at hok
    · simp only [hce, Bool.false_eq_true, ↓reduceIte, List.append_nil] at hok ⊢
      obtain ⟨news, i1, i2, i3, i4⟩ := canon_insert cfg buf e _ hg n [] _ hc1 hok
      rw [List.nil_append] at i1
      refine ⟨news, by rw [i1], ?_, i3, ?_⟩
      · exact count_le_max_size cfg buf e _ _ news hbuf hc1 hm
          (fun v hv1 => hle v (i3 v hv1)) i4
      · rw [i2]
        exact consumed_append hs i4
  all_goals simp [take_forward_list, hst] at hok

theorem canon_contiguous (cfg : Config) (buf : List Byte) (e : Ty)
    (hsz : size_field_width cfg = size_t_bytes) (hH : cfg.order = cfg.Host)
    (hb : bulk_copyable cfg e = true) (hw : widths_ok e = true) (d : Val)
    (c : Cursor) (hc : c.ptr + c.restSize ≤ buf.length)
    (hok : (take_contiguous cfg buf e d c).status = .ok) :
    ∃ xs : List Val, (take_contiguous cfg buf e d c).val = .seq xs ∧
      xs.length ≤ max_size cfg e ∧ (∀ v ∈ xs, has_type cfg e v = true) ∧
      Consumed buf c (take_contiguous cfg buf e d c).cur
        (count_bytes cfg xs.length ++ (xs.map (encode cfg e)).flatten) := by
  cases hst : (take_size cfg buf c).status
  case ok =>
    have hs := take_size_ok cfg buf c hsz hc hst
    have hv := consumed_valid hs
    generalize hn : to_size_t (take_size cfg buf c).val.toInt = n at hs
    generalize hc1 : (take_size cfg buf c).cur = c1 at hs hv
    unfold take_contiguous at hok ⊢
    simp only [hst, hn, hc1] at hok ⊢
    by_cases hlt : c1.restSize < (n * sizeof e) % SIZE_MOD
    · simp [check_size, hlt] at hok
    · simp only [check_size, if_neg hlt] at hok ⊢
      by_cases hmax : max_size cfg e < n
      · simp only [hmax, ↓reduceIte, reduceCtorEq] at hok
      · have hbs := bulk_size cfg e hb
        have hmul := (mul_le_of_le_max_size cfg e n (not_lt.1 hmax)).1
        rw [hbs.2] at hmul
        have hmod : (n * sizeof e) % SIZE_MOD = n * sizeof e :=
          Nat.mod_eq_of_lt (lt_of_le_of_lt hmul PTRDIFF_MAX_lt)
        rw [hmod] at hlt hok ⊢
        have hl : ((buf.drop c1.ptr).take (n * sizeof e)).length = n * sizeof e := by
          rw [List.length_take, List.length_drop]
          omega
        have hrd : read_bytes buf c1.ptr (n * sizeof e) =
            some ((buf.drop c1.ptr).take (n * sizeof e)) := by
          unfold read_bytes
          rw [if_pos (by omega)]
        simp only [hmax, ↓reduceIte, hrd] at hok ⊢
        have hrec : ∀ y ∈ chunks (sizeof e) n ((buf.drop c1.ptr).take (n * sizeof e)),
            has_type cfg e (from_raw cfg.Host e y) = true ∧
              encode cfg e (from_raw cfg.Host e y) = y :=
          fun y hy => encode_from_raw cfg hH e hb hw y (chunks_mem_length _ _ _ hl y hy)
        refine ⟨_, rfl, by simp only [List.length_map, length_chunks]; omega, ?_, ?_⟩
        · intro v hv1
          obtain ⟨y, hy, rfl⟩ := List.mem_map.1 hv1
          exact (hrec y hy).1
        · simp only [List.length_map, length_chunks, List.map_map]
          rw [map_congr_mem _ (encode cfg e ∘ from_raw cfg.Host e) id
            (fun y hy => (hrec y hy).2), List.map_id, flatten_chunks _ _ _ hl]
          refine consumed_append hs ⟨by simp only [hl], by simp only [hl]; omega, by rw [hl]⟩
  all_goals simp [take_contiguous, hst] at hok

theorem canon_new {cfg : Config} {buf : List Byte} {T : Ty} {useRef : Bool}
    {by_ref : Val → Cursor → Taken} {by_val : Cursor → Taken} {dflt : Val}
    (href : useRef = true → Canon cfg buf T (by_ref dflt))
    (hval : useRef = false → Canon cfg buf T by_val) :
    Canon cfg buf T (take_new useRef by_ref by_val dflt) := by
  cases useRef with
  | true => simpa [take_new] using href rfl
  | false => simpa [take_new] using hval rfl

theorem canon_into {cfg : Config} {buf : List Byte} {T : Ty} {useRef : Bool}
    {by_ref : Val → Cursor → Taken} {by_val : Cursor → Taken} {dflt : Val}
    (href : useRef = true → Canon cfg buf T (by_ref dflt))
    (hval : useRef = false → Canon cfg buf T by_val) :
    Canon cfg buf T (take_into useRef by_ref by_val dflt) := by
  cases useRef with
  | true => simpa [take_into] using href rfl
  | false =>
      intro c hc hok
      cases hst : (by_val c).status
      · have := hval rfl c hc hst
        simpa [take_into, hst] using this
      · simp [take_into, hst] at hok
      · simp [take_into, hst] at hok
      · simp [take_into, hst] at hok

theorem has_type_array (cfg : Config) (e : Ty) (n : Nat) (xs : List Val) (h1 : xs.length = n)
    (h2 : ∀ v ∈ xs, has_type cfg e v = true) :
    has_type cfg (.carray e n) (.seq xs) = true ∧ has_type cfg (.stdarray e n) (.seq xs) = true := by
  simp only [has_type, h1, decide_True, Bool.true_and, List.all_eq_true]
  exact ⟨h2, h2⟩

theorem has_type_container (cfg : Config) (e : Ty) (xs : List Val)
    (h1 : xs.length ≤ max_size cfg e) (h2 : ∀ v ∈ xs, has_type cfg e v = true) :
    has_type cfg (.forward_list e) (.seq xs) = true ∧ has_type cfg (.vector e) (.seq xs) = true ∧
      has_type cfg (.list e) (.seq xs) = true := by
  simp only [has_type, h1, decide_True, Bool.true_and, List.all_eq_true]
  exact ⟨h2, h2, h2⟩

theorem minsize_le_encode (cfg : Config) (e : Ty) (v : Val) (h : has_type cfg e v = true) :
    byte_minsize cfg e ≤ (encode cfg e v).length := by
  rw [length_encode cfg e v h]
  exact byte_minsize_le cfg e v h

mutual
/-- The minimal size of a type built from integral scalars is at least one byte. -/
theorem minsize_pos (cfg : Config) (T : Ty) (hw : widths_ok T = true)
    (hok : byte_minsize_ok cfg T = true) : 1 ≤ byte_minsize cfg T := by
  cases T with
  | arith s w => exact valid_width_pos w (by simpa [widths_ok] using hw)
  | enum s w => exact valid_width_pos w (by simpa [widths_ok] using hw)
  | carray e n =>
      simp only [widths_ok] at hw
      rcases carray_cases cfg e n false with ⟨hp, hn, _, _⟩ | ⟨hp, hn⟩ | ⟨hp, hn⟩ <;>
        simp only [byte_minsize_ok, hp] at hok
      · have := minsize_pos cfg e hw hok
        simp only [byte_minsize, hp]
        exact Nat.mul_pos hn this
      · have := minsize_pos cfg e hw hok
        simp only [byte_minsize, hp]
        exact Nat.mul_pos hn this
      · simp at hok
  | stdarray e n =>
      simp only [widths_ok] at hw
      rcases stdarray_cases cfg e n false with ⟨hp, _⟩ | ⟨hp, _, hn⟩ | ⟨hp, hn⟩ <;>
        simp only [byte_minsize_ok, hp] at hok
      · simp at hok
      · have := minsize_pos cfg e hw hok
        simp only [byte_minsize, hp, List.sum_replicate, smul_eq_mul]
        exact Nat.mul_pos hn this
      · simp at hok
  | forward_list e =>
      simp only [byte_minsize_ok] at hok
      have := size_field_width_ge cfg hok
      simp only [byte_minsize]
      unfold size_t_bytes at this
      omega
  | vector e =>
      simp only [byte_minsize_ok] at hok
      have := size_field_width_ge cfg hok
      simp only [byte_minsize]
      unfold size_t_bytes at this
      omega
  | list e =>
      simp only [byte_minsize_ok] at hok
      have := size_field_width_ge cfg hok
      simp only [byte_minsize]
      unfold size_t_bytes at this
      omega
  | set e =>
      simp only [byte_minsize_ok] at hok
      have := size_field_width_ge cfg hok
      simp only [byte_minsize]
      unfold size_t_bytes at this
      omega
  | tuple hc fs =>
      simp only [byte_minsize_ok, Bool.and_eq_true] at hok
      simp only [widths_ok] at hw
      simp only [byte_minsize]
      exact tuple_minsize_pos cfg fs (by simpa using hok.1) hw hok.2
  | aggregate fs =>
      simp only [byte_minsize_ok, Bool.and_eq_true, is_tuple_serializable] at hok
      simp only [widths_ok] at hw
      simp only [byte_minsize]
      exact tuple_minsize_pos cfg fs (by simpa using hok.1.1.2) hw hok.2
  | vector_bool => simp [byte_minsize_ok] at hok
  | pointer => simp [byte_minsize_ok] at hok
  | bitset => simp [byte_minsize_ok] at hok
  | initializer_list => simp [byte_minsize_ok] at hok
/-- The same for a non-empty list of field types. -/
theorem tuple_minsize_pos (cfg : Config) (Ts : List Ty) (hne : Ts.isEmpty = false)
    (hw : widths_ok_fields Ts = true) (hok : tuple_byte_minsize_ok cfg Ts = true) :
    1 ≤ tuple_byte_minsize cfg Ts := by
  cases Ts with
  | nil => simp at hne
  | cons t ts =>
      simp only [widths_ok_fields, Bool.and_eq_true] at hw
      simp only [tuple_byte_minsize_ok, Bool.and_eq_true] at hok
      have := minsize_pos cfg t hw.1 hok.1
      simp only [tuple_byte_minsize]
      omega
end

mutual
/-- Taking into a default-constructed destination of a type without `std::set` is canonical. -/
theorem take_canon (cfg : Config) (buf : List Byte)
    (hsz : size_field_width cfg = size_t_bytes) (hbuf : buf.length ≤ PTRDIFF_MAX)
    (T : Ty) (ref : Bool) (hset : set_free T = true) (hw : widths_ok T = true)
    (hap : append_ok cfg T = true) (hok : take_ok cfg T ref = true) :
    Canon cfg buf T (take cfg buf T ref (default_val T)) := by
  cases T with
  | arith s w =>
      simpa only [take] using (canon_arith cfg buf s w _ (by simpa [widths_ok] using hw)).1
  | enum s w =>
      simpa only [take] using (canon_arith cfg buf s w _ (by simpa [widths_ok] using hw)).2
  | carray e n =>
      simp only [widths_ok] at hw
      simp only [set_free] at hset
      have hpf : priority_type cfg (.carray e n) false = priority_type cfg (.carray e n) ref := by
        rw [priority_carray, priority_carray]
      rcases carray_cases cfg e n ref with ⟨hp, hn, hc, hH⟩ | ⟨hp, _⟩ | ⟨hp, hn⟩ <;>
        simp only [take_ok, hp] at hok <;> simp only [append_ok, hpf, hp] at hap
      · have hbc := bulk_copyable_carray cfg e n hn hc hH
        have hsize := (bulk_size cfg _ hbc).1 (default_val (.carray e n))
        intro c hc1 hok1
        simp only [take, hp, hsize] at hok1 ⊢
        obtain ⟨hl, he, hco⟩ := take_bulk_ok buf _ _ _ c hc1 hok1
        have := encode_from_raw cfg hH (.carray e n) hbc (by simpa [widths_ok] using hw) _ hl
        rw [he]
        simp only
        rw [this.2]
        exact ⟨this.1, hco⟩
      · have helem : Canon cfg buf e
            (take_into (useReference cfg e true) (take cfg buf e true) (take_val cfg buf e)
              (default_val e)) :=
          canon_into (fun _ => take_canon cfg buf hsz hbuf e true hset hw hap hok)
            (fun hu => by rw [useReference_ref] at hu; cases hu)
        intro c hc1 hok1
        simp only [take, hp, default_val, Val.elems, resize_replicate, TakenList.toTaken]
          at hok1 ⊢
        obtain ⟨i1, i2, i3⟩ := canon_each cfg buf e _ _
          (fun d hd => by rw [List.eq_of_mem_replicate hd]; exact helem) c hc1 hok1
        rw [List.length_replicate] at i1
        refine ⟨(has_type_array cfg e n _ i1 i2).1, ?_⟩
        simpa only [encode, Val.elems] using i3
      · simp at hok
  | stdarray e n =>
      simp only [widths_ok] at hw
      simp only [set_free] at hset
      rcases stdarray_cases cfg e n ref with ⟨hp, hr, _, hc, hH⟩ | ⟨hp, hr, _⟩ | ⟨hp, hn⟩ <;>
        simp only [take_ok, hp] at hok
      · intro c hc1 hok1
        simp only [take, hp, byte_size] at hok1 ⊢
        subst hr
        simp only [hp] at hok1 ⊢
        obtain ⟨hl, he, hco⟩ := take_bulk_ok buf _ _ _ c hc1 hok1
        have hrec : ∀ y ∈ chunks (sizeof e) n ((buf.drop c.ptr).take (n * sizeof e)),
            has_type cfg e (from_raw cfg.Host e y) = true ∧
              encode cfg e (from_raw cfg.Host e y) = y :=
          fun y hy => encode_from_raw cfg hH e hc hw y (chunks_mem_length _ _ _ hl y hy)
        rw [he]
        simp only
        refine ⟨(has_type_array cfg e n _ (by simp only [List.length_map, length_chunks]) ?_).2, ?_⟩
        · intro v hv1
          obtain ⟨y, hy, rfl⟩ := List.mem_map.1 hv1
          exact (hrec y hy).1
        · simp only [encode, Val.elems, List.map_map]
          rw [map_congr_mem _ (encode cfg e ∘ from_raw cfg.Host e) id
            (fun y hy => (hrec y hy).2), List.map_id, flatten_chunks _ _ _ hl]
          exact hco
      · subst hr
        simp only [append_ok, hp] at hap
        have helem : Canon cfg buf e
            (take_into (useReference cfg e false) (take cfg buf e false) (take_val cfg buf e)
              (default_val e)) :=
          canon_into (fun _ => take_canon cfg buf hsz hbuf e false hset hw hap hok)
            (fun hu => take_val_canon cfg buf hsz hbuf e hset hw hap hok hu)
        intro c hc1 hok1
        simp only [take, hp, default_val, Val.elems, resize_replicate, TakenList.toTaken]
          at hok1 ⊢
        obtain ⟨i1, i2, i3⟩ := canon_each cfg buf e _ _
          (fun d hd => by rw [List.eq_of_mem_replicate hd]; exact helem) c hc1 hok1
        rw [List.length_replicate] at i1
        refine ⟨(has_type_array cfg e n _ i1 i2).2, ?_⟩
        simpa only [encode, Val.elems] using i3
      · simp at hok
  | forward_list e =>
      simp only [widths_ok] at hw
      simp only [set_free] at hset
      simp only [take_ok, Bool.and_eq_true, Bool.not_eq_true'] at hok
      simp only [append_ok, Bool.and_eq_true] at hap
      obtain ⟨⟨⟨hr, hst⟩, hms⟩, hte⟩ := hok
      subst hr
      have hp : priority_type cfg (.forward_list e) false = .Optimized := by
        simp [priority_forward_list]
      intro c hc1 hok1
      simp only [take, hp, default_val] at hok1 ⊢
      obtain ⟨xs, j1, j2, j3, j4⟩ := canon_forward_list cfg buf e _ _ _ hsz hbuf
        (minsize_pos cfg e hw hms) (minsize_le_encode cfg e)
        (canon_new (fun _ => take_canon cfg buf hsz hbuf e false hset hw hap.2 hte)
          (fun hu => take_val_canon cfg buf hsz hbuf e hset hw hap.2 hte hu)) c hc1 hok1
      rw [j1]
      refine ⟨(has_type_container cfg e xs j2 j3).1, ?_⟩
      simpa only [encode, Val.elems] using j4
  | vector e =>
      simp only [widths_ok] at hw
      simp only [set_free] at hset
      have hpf : priority_type cfg (.vector e) false = priority_type cfg (.vector e) ref := by
        rw [priority_vector, priority_vector]
      rcases vector_cases cfg e ref with ⟨hp, _, hc, hH⟩ | hp <;>
        simp only [take_ok, hp, Bool.and_eq_true] at hok <;>
        simp only [append_ok, hpf, hp, Bool.and_eq_true] at hap
      · intro c hc1 hok1
        simp only [take, hp] at hok1 ⊢
        obtain ⟨xs, j1, j2, j3, j4⟩ := canon_contiguous cfg buf e hsz hH hc hw _ c hc1 hok1
        rw [j1]
        refine ⟨(has_type_container cfg e xs j2 j3).2.1, ?_⟩
        simpa only [encode, Val.elems] using j4
      · obtain ⟨⟨hst, hms⟩, hte⟩ := hok
        intro c hc1 hok1
        simp only [take, hp, default_val] at hok1 ⊢
        obtain ⟨xs, j1, j2, j3, j4⟩ := canon_iterable cfg buf e _ _ _ _ hsz hbuf
          (minsize_pos cfg e hw hms) (minsize_le_encode cfg e)
          (fun _ => take_canon cfg buf hsz hbuf e false hset hw hap.2 hte)
          (fun hu => take_val_canon cfg buf hsz hbuf e hset hw hap.2 hte hu) c hc1 hok1
        rw [j1]
        refine ⟨(has_type_container cfg e xs j2 j3).2.1, ?_⟩
        simpa only [encode, Val.elems] using j4
  | list e =>
      simp only [widths_ok] at hw
      simp only [set_free] at hset
      simp only [take_ok, Bool.and_eq_true] at hok
      simp only [append_ok, Bool.and_eq_true] at hap
      obtain ⟨⟨hst, hms⟩, hte⟩ := hok
      intro c hc1 hok1
      simp only [take, default_val] at hok1 ⊢
      obtain ⟨xs, j1, j2, j3, j4⟩ := canon_iterable cfg buf e _ _ _ _ hsz hbuf
        (minsize_pos cfg e hw hms) (minsize_le_encode cfg e)
        (fun _ => take_canon cfg buf hsz hbuf e false hset hw hap.2 hte)
        (fun hu => take_val_canon cfg buf hsz hbuf e hset hw hap.2 hte hu) c hc1 hok1
      rw [j1]
      refine ⟨(has_type_container cfg e xs j2 j3).2.2, ?_⟩
      simpa only [encode, Val.elems] using j4
  | set e => simp [set_free] at hset
  | tuple hc fs =>
      simp only [widths_ok] at hw
      simp only [set_free] at hset
      simp only [take_ok, Bool.and_eq_true, Bool.not_eq_true'] at hok
      simp only [append_ok, Bool.and_eq_true] at hap
      obtain ⟨⟨hr, hne⟩, hte⟩ := hok
      subst hr
      have hp : priority_type cfg (.tuple hc fs) false = .Tuple := by
        rw [priority_tuple, if_pos ⟨rfl, by simpa using hne⟩]
      intro c hc1 hok1
      simp only [take, hp, default_val, Val.elems, TakenList.toTaken] at hok1 ⊢
      have := take_tuple_set_canon cfg buf hsz hbuf fs hset hw hap.2 hte c hc1 hok1
      simpa only [has_type, encode, Val.elems] using this
  | aggregate fs =>
      simp only [widths_ok] at hw
      simp only [set_free] at hset
      simp only [take_ok, Bool.and_eq_true] at hok
      simp only [append_ok, Bool.and_eq_true] at hap
      obtain ⟨hts, hte⟩ := hok
      have hp : priority_type cfg (.aggregate fs) ref = .Tuple := by
        rw [priority_aggregate, if_pos hts]
      intro c hc1 hok1
      simp only [take, hp, default_val, Val.elems, TakenList.toTaken] at hok1 ⊢
      have := take_tuple_set_canon cfg buf hsz hbuf fs hset hw hap.2 hte c hc1 hok1
      simpa only [has_type, encode, Val.elems] using this
  | vector_bool => simp [append_ok] at hap
  | pointer => simp [take_ok] at hok
  | bitset => simp [take_ok] at hok
  | initializer_list => simp [take_ok] at hok
/-- The by-value `take` of a tuple with a `const` element is canonical. -/
theorem take_val_canon (cfg : Config) (buf : List Byte)
    (hsz : size_field_width cfg = size_t_bytes) (hbuf : buf.length ≤ PTRDIFF_MAX)
    (T : Ty) (hset : set_free T = true) (hw : widths_ok T = true)
    (hap : append_ok cfg T = true) (hok : take_ok cfg T false = true)
    (hu : useReference cfg T false = false) :
    Canon cfg buf T (take_val cfg buf T) := by
  cases T with
  | tuple hc fs =>
      simp only [widths_ok] at hw
      simp only [set_free] at hset
      simp only [take_ok, Bool.and_eq_true, Bool.not_eq_true'] at hok
      simp only [append_ok, Bool.and_eq_true] at hap
      intro c hc1 hok1
      simp only [take_val, TakenList.toTaken] at hok1 ⊢
      obtain ⟨news, k1, k2, k3⟩ :=
        take_tuple_construct_canon cfg buf hsz hbuf fs hset hw hap.2 hok.2 [] c hc1 hok1
      rw [List.nil_append] at k1
      rw [k1]
      simpa only [has_type, encode, Val.elems] using And.intro k2 k3
  | _ => simp [useReference, tuple_has_const] at hu
/-- Function `take_tuple_set` on default-constructed fields is canonical. -/
theorem take_tuple_set_canon (cfg : Config) (buf : List Byte)
    (hsz : size_field_width cfg = size_t_bytes) (hbuf : buf.length ≤ PTRDIFF_MAX)
    (Ts : List Ty) (hset : set_free_fields Ts = true) (hw : widths_ok_fields Ts = true)
    (hap : append_tuple_ok cfg Ts = true) (hok : take_tuple_ok cfg Ts = true) :
    ∀ c : Cursor, c.ptr + c.restSize ≤ buf.length →
      (take_tuple_set cfg buf Ts (default_vals Ts) c).status = .ok →
      has_types cfg Ts (take_tuple_set cfg buf Ts (default_vals Ts) c).vals = true ∧
      Consumed buf c (take_tuple_set cfg buf Ts (default_vals Ts) c).cur
        (encode_fields cfg Ts (take_tuple_set cfg buf Ts (default_vals Ts) c).vals) := by
  cases Ts with
  | nil =>
      intro c _ _
      simp [take_tuple_set, default_vals, has_types, encode_fields, consumed_nil]
  | cons t ts =>
      simp only [widths_ok_fields, Bool.and_eq_true] at hw
      simp only [set_free_fields, Bool.and_eq_true] at hset
      simp only [take_tuple_ok, Bool.and_eq_true] at hok
      simp only [append_tuple_ok, Bool.and_eq_true] at hap
      have h1 : Canon cfg buf t
          (take_into (useReference cfg t false) (take cfg buf t false) (take_val cfg buf t)
            (default_val t)) :=
        canon_into (fun _ => take_canon cfg buf hsz hbuf t false hset.1 hw.1 hap.1 hok.1)
          (fun hu => take_val_canon cfg buf hsz hbuf t hset.1 hw.1 hap.1 hok.1 hu)
      intro c hc hok1
      simp only [take_tuple_set, default_vals, List.headD_cons, List.tail_cons] at hok1 ⊢
      cases hst : (take_into (useReference cfg t false) (take cfg buf t false)
          (take_val cfg buf t) (default_val t) c).status
      · simp only [hst] at hok1 ⊢
        obtain ⟨ht, hco⟩ := h1 c hc hst
        have hv := consumed_valid hco
        obtain ⟨i1, i2⟩ :=
          take_tuple_set_canon cfg buf hsz hbuf ts hset.2 hw.2 hap.2 hok.2 _ (by omega) hok1
        refine ⟨by simp only [has_types, ht, i1, Bool.and_self], ?_⟩
        simp only [encode_fields, List.headD_cons, List.tail_cons]
        exact consumed_append hco i2
      · simp only [hst, reduceCtorEq] at hok1
      · simp only [hst, reduceCtorEq] at hok1
      · simp only [hst, reduceCtorEq] at hok1
/-- Function `take_tuple_construct` is canonical. -/
theorem take_tuple_construct_canon (cfg : Config) (buf : List Byte)
    (hsz : size_field_width cfg = size_t_bytes) (hbuf : buf.length ≤ PTRDIFF_MAX)
    (Ts : List Ty) (hset : set_free_fields Ts = true) (hw : widths_ok_fields Ts = true)
    (hap : append_tuple_ok cfg Ts = true) (hok : take_tuple_ok cfg Ts = true)
    (args : List Val) :
    ∀ c : Cursor, c.ptr + c.restSize ≤ buf.length →
      (take_tuple_construct cfg buf Ts args c).status = .ok →
      ∃ news : List Val, (take_tuple_construct cfg buf Ts args c).vals = args ++ news ∧
        has_types cfg Ts news = true ∧
        Consumed buf c (take_tuple_construct cfg buf Ts args c).cur
          (encode_fields cfg Ts news) := by
  cases Ts with
  | nil =>
      intro c _ _
      exact ⟨[], by simp [take_tuple_construct, has_types, encode_fields, consumed_nil]⟩
  | cons t ts =>
      simp only [widths_ok_fields, Bool.and_eq_true] at hw
      simp only [set_free_fields, Bool.and_eq_true] at hset
      simp only [take_tuple_ok, Bool.and_eq_true] at hok
      simp only [append_tuple_ok, Bool.and_eq_true] at hap
      have h1 : Canon cfg buf t
          (take_new (useReference cfg t false) (take cfg buf t false) (take_val cfg buf t)
            (default_val t)) :=
        canon_new (fun _ => take_canon cfg buf hsz hbuf t false hset.1 hw.1 hap.1 hok.1)
          (fun hu => take_val_canon cfg buf hsz hbuf t hset.1 hw.1 hap.1 hok.1 hu)
      intro c hc hok1
      simp only [take_tuple_construct] at hok1 ⊢
      cases hst : (take_new (useReference cfg t false) (take cfg buf t false)
          (take_val cfg buf t) (default_val t) c).status
      · simp only [hst] at hok1 ⊢
        obtain ⟨ht, hco⟩ := h1 c hc hst
        have hv := consumed_valid hco
        obtain ⟨news, i1, i2, i3⟩ :=
          take_tuple_construct_canon cfg buf hsz hbuf ts hset.2 hw.2 hap.2 hok.2 _ _ (by omega) hok1
        refine ⟨(take_new (useReference cfg t false) (take cfg buf t false)
          (take_val cfg buf t) (default_val t) c).val :: news, by rw [i1]; simp,
          by simp only [has_types, ht, i2, Bool.and_self], ?_⟩
        simp only [encode_fields, List.headD_cons, List.tail_cons]
        exact consumed_append hco i3
      · simp only [hst, reduceCtorEq] at hok1
      · simp only [hst, reduceCtorEq] at hok1
      · simp only [hst, reduceCtorEq] at hok1
end

/-- Claim C36, counterexample: decoding an associative container is not canonical.  From the
buffer holding the count 2 and the element 5 twice, decoding a `std::set<int32_t>` succeeds with
the set `{5}` after consuming all 16 bytes, while `byteSize` of `{5}` is 12 and `serialize` of it
is a 12-byte buffer with the count 1; from the buffer holding the count 2 and the elements 2, 1,
decoding succeeds with `{1, 2}` after consuming 16 bytes, and `serialize` of `{1, 2}` holds the
elements in the order 1, 2, so it differs from the 16 bytes consumed.  The same `Iterable`
decoder run with the `insert` of `std::multiset<int32_t>` turns the elements 2, 1 into `{1, 2}`,
which the `Iterable` encoder writes in the order 1, 2; run with the `insert` of
`std::map<int8_t, int8_t>` on the count 2 and the pairs (1, 5), (1, 6) it consumes 12 bytes and
leaves the one entry (1, 5), which the encoder writes in 10 bytes with the count 1. -/
theorem C36_associative_decoding_not_canonical :
    serializable cfg_host ty_set_int = true ∧ deserializable cfg_host ty_set_int = true ∧
    deserialize_value cfg_host ty_set_int bytes_5_5 = ⟨.ok, .seq [.int 5], ⟨16, 0⟩⟩ ∧
    byteSize cfg_host [(ty_set_int, .seq [.int 5])] = 12 ∧
    serialize cfg_host [(ty_set_int, .seq [.int 5])] =
      some [1, 0, 0, 0, 0, 0, 0, 0, 5, 0, 0, 0] ∧
    deserialize_value cfg_host ty_set_int bytes_2_1 =
      ⟨.ok, .seq [.int 1, .int 2], ⟨16, 0⟩⟩ ∧
    serialize cfg_host [(ty_set_int, .seq [.int 1, .int 2])] = some bytes_1_2 ∧
    bytes_1_2 ≠ bytes_2_1.take 16 ∧
    take_multiset cfg_host bytes_2_1 ty_int (.seq []) ⟨0, 16⟩ =
      ⟨.ok, .seq [.int 1, .int 2], ⟨16, 0⟩⟩ ∧
    append_Iterable cfg_host ty_int (.seq [.int 1, .int 2]) ⟨List.replicate 16 0, 0⟩ =
      some ⟨bytes_1_2, 16⟩ ∧
    take_map cfg_host bytes_map_dup (.arith true 1) (.arith true 1) (.seq []) ⟨0, 12⟩ =
      ⟨.ok, .seq [.seq [.int 1, .int 5]], ⟨12, 0⟩⟩ ∧
    append_Iterable cfg_host (.tuple true [.arith true 1, .arith true 1])
      (.seq [.seq [.int 1, .int 5]]) ⟨List.replicate 10 0, 0⟩ =
      some ⟨[1, 0, 0, 0, 0, 0, 0, 0, 1, 5], 10⟩ :=
  ⟨by rfl, by rfl, by rfl, by rfl, by rfl, by rfl, by rfl, by decide, by rfl, by rfl, by rfl,
    by rfl⟩

/-- Claim C36, amended: decoding is canonical for every serializable type in which no
associative or unordered container occurs (among the type codes: no `std::set`).  For a size
type of the width of `size_t`, a type built from integral scalars of the widths 1, 2, 4, 8 that
passes the static checks of `serialize` and `deserialize`, and every buffer `b` of at most
`PTRDIFF_MAX` bytes: if `deserialize<T>(b)` ends normally with
the value `v` after consuming `n` bytes, then `v` is an object of `T`, `n = byteSize(v)` and
`serialize(v)` is the first `n` bytes of `b`; the same holds for `deserialize(b, d)` into a
default-constructed destination `d`. -/
theorem C36_canonical_without_set (cfg : Config) (T : Ty) (b : List Byte)
    (hsz : size_field_width cfg = size_t_bytes) (hw : widths_ok T = true)
    (hb : b.length ≤ PTRDIFF_MAX) (hs : serializable cfg T = true)
    (hd : deserializable cfg T = true) (hset : set_free T = true) :
    ((deserialize_value cfg T b).status = .ok →
      has_type cfg T (deserialize_value cfg T b).val = true ∧
      (deserialize_value cfg T b).cur.ptr =
        byteSize cfg [(T, (deserialize_value cfg T b).val)] ∧
      serialize cfg [(T, (deserialize_value cfg T b).val)] =
        some (b.take (deserialize_value cfg T b).cur.ptr)) ∧
    ((deserialize cfg [T] b [default_val T]).status = .ok →
      ∃ v, (deserialize cfg [T] b [default_val T]).vals = [v] ∧ has_type cfg T v = true ∧
        (deserialize cfg [T] b [default_val T]).cur.ptr = byteSize cfg [(T, v)] ∧
        serialize cfg [(T, v)] = some (b.take (deserialize cfg [T] b [default_val T]).cur.ptr)) := by
  have hap : append_ok cfg T = true := by
    unfold serializable at hs
    simp only [Bool.and_eq_true] at hs
    exact hs.2
  unfold deserializable at hd
  have key : ∀ r : Taken, has_type cfg T r.val = true →
      Consumed b ⟨0, b.length⟩ r.cur (encode cfg T r.val) →
      r.cur.ptr = byteSize cfg [(T, r.val)] ∧
        serialize cfg [(T, r.val)] = some (b.take r.cur.ptr) := by
    intro r ht hco
    obtain ⟨h1, _, h3⟩ := hco
    simp only [Nat.zero_add, List.drop_zero] at h1 h3
    rw [h1, h3]
    exact ⟨by simp [byteSize, length_encode cfg T r.val ht], serialize_single cfg T r.val hs ht⟩
  constructor
  · intro hok
    have hcan : Canon cfg b T (take_new (useReference cfg T false) (take cfg b T false)
        (take_val cfg b T) (default_val T)) :=
      canon_new (fun _ => take_canon cfg b hsz hb T false hset hw hap hd)
        (fun hu => take_val_canon cfg b hsz hb T hset hw hap hd hu)
    obtain ⟨ht, hco⟩ := hcan ⟨0, b.length⟩ (by simp) hok
    exact ⟨ht, key _ ht hco⟩
  · intro hok
    have hcan : Canon cfg b T (take_into (useReference cfg T false) (take cfg b T false)
        (take_val cfg b T) (default_val T)) :=
      canon_into (fun _ => take_canon cfg b hsz hb T false hset hw hap hd)
        (fun hu => take_val_canon cfg b hsz hb T hset hw hap hd hu)
    simp only [deserialize, readData, List.headD_cons, List.tail_cons] at hok ⊢
    cases hst : (take_into (useReference cfg T false) (take cfg b T false)
        (take_val cfg b T) (default_val T) ⟨0, b.length⟩).status
    · simp only [hst] at hok ⊢
      obtain ⟨ht, hco⟩ := hcan ⟨0, b.length⟩ (by simp) hst
      exact ⟨_, rfl, ht, key _ ht hco⟩
    · simp only [hst, reduceCtorEq] at hok
    · simp only [hst, reduceCtorEq] at hok
    · simp only [hst, reduceCtorEq] at hok

theorem C36_canonical_without_set_witness :
    (deserialize_value cfg_host ty_list_int bytes_1_2).status = .ok ∧
    has_type cfg_host ty_list_int (deserialize_value cfg_host ty_list_int bytes_1_2).val = true ∧
    (deserialize_value cfg_host ty_list_int bytes_1_2).cur.ptr =
      byteSize cfg_host [(ty_list_int, (deserialize_value cfg_host ty_list_int bytes_1_2).val)] ∧
    serialize cfg_host [(ty_list_int, (deserialize_value cfg_host ty_list_int bytes_1_2).val)] =
      some (bytes_1_2.take (deserialize_value cfg_host ty_list_int bytes_1_2).cur.ptr) :=
  ⟨by rfl,
    (C36_canonical_without_set cfg_host ty_list_int bytes_1_2 (by rfl) (by rfl) (by decide)
      (by rfl) (by rfl) (by rfl)).1 (by rfl)⟩

end Serializer
